import Mathlib

/-!
# Verification development for the `Library` concurrency toolkit

Shallow embedding of the lock algorithms of `Ticket_Lock.h`,
`TWA_Ticket_Lock.h` and `Spin_Lock.h`.

Concurrency is modelled by interleaving: every access to shared memory
(an atomic load, store, exchange or fetch-add, and every plain access to a
shared variable) is one atomic step of one thread, and a schedule is the
list of threads (and environment actions) that take the successive steps.
This is the sequentially consistent reading of the sources, which use
`std::memory_order_seq_cst` throughout.  Thread-local computation is folded
into the shared access that follows or precedes it.

Machine integers are natural numbers or integers with explicit wrap-around:
`u64` values are naturals reduced modulo `2^64`, the `std::atomic<int>` ticket
of `Ticket_Lock.h` is an integer wrapped to 32-bit two's complement, and the
overflow of the plain `int grant` in `++L->grant`, which is undefined, stops
the run.  Every state carries the history of the events of the run, which is
what the statements about order refer to.
-/


/-! ## Counting threads -/

/-- Number of threads `i < N` whose local state satisfies `p`. -/
def countThr {α : Type} (p : α → Bool) (thr : Nat → α) : Nat → Nat
  | 0 => 0
  | n + 1 => countThr p thr n + (if p (thr n) then 1 else 0)


/-- Sum of `f` over the local states of the threads `i < N`. -/
def sumThr {α : Type} (f : α → Nat) (thr : Nat → α) : Nat → Nat
  | 0 => 0
  | n + 1 => sumThr f thr n + f (thr n)

/-! ## Scalable ticket lock (`TWA_Ticket_Lock.h`) -/

namespace TWA

/-- `const u64 long_term_threshold = 1;` -/
def long_term_threshold : Nat := 1

/-- `const u64 array_size = 2 << 11;` -/
def array_size : Nat := 2 <<< 11

/-- Wrap-around of `u64` arithmetic. -/
def wrap64 (x : Nat) : Nat := x % 2 ^ 64

/-- Subtraction of two `u64` values, as in `tx - L->grant.load()`. -/
def sub64 (a b : Nat) : Nat := (a + 2 ^ 64 - b) % 2 ^ 64

/-- `u64 Hash(Ticket_Lock *L, u64 tx)`; `L` is the address of the lock. -/
def Hash (L tx : Nat) : Nat :=
  let mask := array_size - 1
  let step1 := wrap64 (tx * 127)
  let step2 := step1 ^^^ L
  let step3 := step2 &&& mask
  step3

/-- Program points of a thread that uses one lock: each constructor names the
shared access the thread performs next. -/
inductive PC
  /-- outside the lock; the next step is `ticket.fetch_add` (line 41) -/
  | idle
  /-- line 42: first load of `grant` -/
  | firstLoad
  /-- line 53: `u = wait_array[at]` -/
  | ltSnapshot
  /-- line 54: re-check of `grant` inside the long-term loop -/
  | ltRecheck
  /-- line 57: `while (wait_array[at] == u)` -/
  | ltSpin
  /-- line 66: `while (tx != grant.load())` -/
  | shortTerm
  /-- `TWA_ticket_acquire` has returned; the next step is the load of
  `grant` in line 77 -/
  | cs
  /-- line 77: `grant.store(loaded + 1)` -/
  | relStore
  /-- line 78: `k = grant.load()` -/
  | relLoad
  /-- line 81: fetch-add on `wait_array[Hash(L, k + long_term_threshold)]` -/
  | relNotify
  deriving DecidableEq, Repr

/-- Local variables of a thread: `tx`, `at` (here `slot`) and `u` of
`TWA_ticket_acquire`, the value loaded in line 77 (`g`) and `k` of
`TWA_ticket_release`. -/
structure Thread where
  pc : PC
  tx : Nat
  slot : Nat
  u : Nat
  g : Nat
  k : Nat
  deriving DecidableEq, Repr

/-- Observable events, recorded in the history of a run (newest first). -/
inductive Event
  /-- thread `i` drew ticket `tx` from `ticket.fetch_add` -/
  | fetchTicket (i tx : Nat)
  /-- thread `i` loaded the value `g` from `grant` inside acquire -/
  | loadGrant (i g : Nat)
  /-- thread `i` read `v` from `wait_array[a]` -/
  | readSlot (i a v : Nat)
  /-- `TWA_ticket_acquire` returned in thread `i`, which holds ticket `tx` -/
  | ret (i tx : Nat)
  /-- thread `i` stored `g` into `grant` (line 77) -/
  | storeGrant (i g : Nat)
  /-- thread `i` incremented `wait_array[a]` (line 81) -/
  | addSlot (i a : Nat)
  /-- another lock of the process wrote `v` into `wait_array[a]` -/
  | envWrite (a v : Nat)
  deriving DecidableEq, Repr

/-- Shared memory (`ticket`, `grant` of one lock and the process-wide
`wait_array`), the threads, and the history of events (newest first). -/
structure State where
  ticket : Nat
  grant : Nat
  wait_array : Nat → Nat
  thr : Nat → Thread
  trace : List Event

/-- One atomic step of thread `i` on the lock at address `L`. -/
def threadStep (L : Nat) (s : State) (i : Nat) : State :=
  let t := s.thr i
  match t.pc with
  | .idle =>
    -- auto tx = L->ticket.fetch_add(1)
    { s with
      ticket := wrap64 (s.ticket + 1)
      thr := Function.update s.thr i { t with pc := .firstLoad, tx := s.ticket }
      trace := .fetchTicket i s.ticket :: s.trace }
  | .firstLoad =>
    -- auto dx = tx - L->grant.load()
    let dx := sub64 t.tx s.grant
    if dx = 0 then
      { s with
        thr := Function.update s.thr i { t with pc := .cs }
        trace := .ret i t.tx :: .loadGrant i s.grant :: s.trace }
    else if dx > long_term_threshold then
      -- auto at = Hash(L, tx); assert(at < array_size)
      { s with
        thr := Function.update s.thr i { t with pc := .ltSnapshot, slot := Hash L t.tx }
        trace := .loadGrant i s.grant :: s.trace }
    else
      { s with
        thr := Function.update s.thr i { t with pc := .shortTerm }
        trace := .loadGrant i s.grant :: s.trace }
  | .ltSnapshot =>
    -- auto u = wait_array[at]
    { s with
      thr := Function.update s.thr i { t with pc := .ltRecheck, u := s.wait_array t.slot }
      trace := .readSlot i t.slot (s.wait_array t.slot) :: s.trace }
  | .ltRecheck =>
    -- dx = tx - L->grant.load(); assert(dx >= 0), which holds for every u64;
    -- if (dx <= long_term_threshold) break
    let dx := sub64 t.tx s.grant
    if dx ≤ long_term_threshold then
      { s with
        thr := Function.update s.thr i { t with pc := .shortTerm }
        trace := .loadGrant i s.grant :: s.trace }
    else
      { s with
        thr := Function.update s.thr i { t with pc := .ltSpin }
        trace := .loadGrant i s.grant :: s.trace }
  | .ltSpin =>
    -- while (wait_array[at] == u) pause, yield
    if s.wait_array t.slot = t.u then
      { s with trace := .readSlot i t.slot (s.wait_array t.slot) :: s.trace }
    else
      { s with
        thr := Function.update s.thr i { t with pc := .ltSnapshot }
        trace := .readSlot i t.slot (s.wait_array t.slot) :: s.trace }
  | .shortTerm =>
    -- while (tx != L->grant.load()) pause, yield
    if t.tx ≠ s.grant then
      { s with trace := .loadGrant i s.grant :: s.trace }
    else
      { s with
        thr := Function.update s.thr i { t with pc := .cs }
        trace := .ret i t.tx :: .loadGrant i s.grant :: s.trace }
  | .cs =>
    -- L->grant.load() + 1, the argument of the store in line 77
    { s with thr := Function.update s.thr i { t with pc := .relStore, g := s.grant } }
  | .relStore =>
    -- L->grant.store(loaded + 1)
    { s with
      grant := wrap64 (t.g + 1)
      thr := Function.update s.thr i { t with pc := .relLoad }
      trace := .storeGrant i (wrap64 (t.g + 1)) :: s.trace }
  | .relLoad =>
    -- auto k = L->grant.load()
    { s with thr := Function.update s.thr i { t with pc := .relNotify, k := s.grant } }
  | .relNotify =>
    -- __atomic_fetch_add(&wait_array[Hash(L, k + long_term_threshold)], 1)
    let a := Hash L (wrap64 (t.k + long_term_threshold))
    { s with
      wait_array := Function.update s.wait_array a (wrap64 (s.wait_array a + 1))
      thr := Function.update s.thr i { t with pc := .idle }
      trace := .addSlot i a :: s.trace }

/-- What the scheduler picks next: a step of thread `i`, or a write by
another lock of the process to the shared wait array. -/
inductive Action
  | run (i : Nat)
  | env (a v : Nat)
  deriving DecidableEq, Repr

/-- One step of a system of `N` threads sharing the lock at address `L`. -/
def step (N L : Nat) (s : State) : Action → State
  | .run i => if i < N then threadStep L s i else s
  | .env a v =>
    if a < array_size then
      { s with
        wait_array := Function.update s.wait_array a (wrap64 v)
        trace := .envWrite a (wrap64 v) :: s.trace }
    else s

/-- A freshly initialised lock (`ticket {0}`, `grant {0}`), wait array `w`,
all threads outside the lock. -/
def init (w : Nat → Nat) : State where
  ticket := 0
  grant := 0
  wait_array := w
  thr := fun _ => ⟨.idle, 0, 0, 0, 0, 0⟩
  trace := []

/-- Run a schedule. -/
def run (N L : Nat) (s : State) (sched : List Action) : State :=
  sched.foldl (step N L) s

end TWA

namespace TWA

/-- A thread holds a ticket from the fetch-add in acquire until its store to
`grant` in release. -/
def holder (t : Thread) : Bool :=
  match t.pc with
  | .idle | .relLoad | .relNotify => false
  | _ => true

/-- A thread owns the lock from the return of acquire until its store to
`grant`. -/
def owner (t : Thread) : Bool :=
  match t.pc with
  | .cs | .relStore => true
  | _ => false

/-- Invariant of the two counters, with wrap-around: the tickets held are
the `ticket - grant` consecutive values starting at `grant`, each held by
one thread. -/
structure Inv (N : Nat) (s : State) : Prop where
  tk_lt : s.ticket < 2 ^ 64
  gr_lt : s.grant < 2 ^ 64
  tx_lt : ∀ i, (s.thr i).tx < 2 ^ 64
  tk_eq : s.ticket = (s.grant + countThr holder s.thr N) % 2 ^ 64
  off_lt : ∀ i, i < N → holder (s.thr i) = true →
    sub64 (s.thr i).tx s.grant < countThr holder s.thr N
  tx_inj : ∀ i j, i < N → j < N → holder (s.thr i) = true → holder (s.thr j) = true →
    (s.thr i).tx = (s.thr j).tx → i = j
  off_surj : ∀ d, d < countThr holder s.thr N →
    ∃ i, i < N ∧ holder (s.thr i) = true ∧ sub64 (s.thr i).tx s.grant = d
  own : ∀ i, i < N → owner (s.thr i) = true → (s.thr i).tx = s.grant
  relg : ∀ i, i < N → (s.thr i).pc = .relStore → (s.thr i).g = s.grant

end TWA

namespace TWA

/-- Tickets drawn by `ticket.fetch_add`, newest first. -/
def fetched : List Event → List Nat
  | [] => []
  | .fetchTicket _ tx :: tr => tx :: fetched tr
  | _ :: tr => fetched tr

/-- Returns of `TWA_ticket_acquire` as pairs (thread, ticket), newest first. -/
def entered : List Event → List (Nat × Nat)
  | [] => []
  | .ret i tx :: tr => (i, tx) :: entered tr
  | _ :: tr => entered tr

/-- Threads that stored to `grant` in `TWA_ticket_release`, newest first. -/
def released : List Event → List Nat
  | [] => []
  | .storeGrant i _ :: tr => i :: released tr
  | _ :: tr => released tr

/-- The list `n-1, ..., 1, 0` of `u64` values. -/
def seqDown : Nat → List Nat
  | 0 => []
  | n + 1 => wrap64 n :: seqDown n

/-- Relation between the history and the state. -/
structure Hist (N : Nat) (s : State) : Prop where
  gr_eq : s.grant = wrap64 (released s.trace).length
  fetch_len : (fetched s.trace).length = (released s.trace).length + countThr holder s.thr N
  fetch_seq : fetched s.trace = seqDown (fetched s.trace).length
  ent_seq : (entered s.trace).map Prod.snd = seqDown (entered s.trace).length
  ent_rel : ((∀ j, j < N → owner (s.thr j) = false) ∧
      (entered s.trace).map Prod.fst = released s.trace) ∨
    (∃ j, j < N ∧ owner (s.thr j) = true ∧
      (entered s.trace).map Prod.fst = j :: released s.trace)
  held : ∀ i, i < N → holder (s.thr i) = true →
    Event.fetchTicket i (s.thr i).tx ∈ s.trace

/-- First-in first-out admission, read off a history: at every return of
acquire, the returning thread was assigned its ticket by an earlier
fetch-add, the ticket is the count of earlier returns, and every earlier
return has been followed by the store to `grant` of the same thread, in the
same order. -/
def Fifo (tr : List Event) : Prop :=
  ∀ post pre i t, tr = post ++ Event.ret i t :: pre →
    Event.fetchTicket i t ∈ pre ∧ t = wrap64 (entered pre).length ∧
      (entered pre).map Prod.fst = released pre

/-- Everything that is proved by induction along a run. -/
structure Good (N : Nat) (s : State) : Prop where
  inv : Inv N s
  hist : Hist N s
  fifo : Fifo s.trace

end TWA

namespace TWA

/-- The values of `grant` that thread `i` has loaded in its current call of
`TWA_ticket_acquire` (since its last fetch-add), newest first. -/
def loads (i : Nat) : List Event → List Nat
  | [] => []
  | .fetchTicket j _ :: tr => if j = i then [] else loads i tr
  | .loadGrant j g :: tr => if j = i then g :: loads i tr else loads i tr
  | _ :: tr => loads i tr

/-- The number of reads of the wait array by thread `i` in its current call
of `TWA_ticket_acquire`. -/
def slotReads (i : Nat) : List Event → Nat
  | [] => 0
  | .fetchTicket j _ :: tr => if j = i then 0 else slotReads i tr
  | .readSlot j _ _ :: tr => if j = i then slotReads i tr + 1 else slotReads i tr
  | _ :: tr => slotReads i tr

/-- The thread is inside the long-term waiting loop (lines 52-62). -/
def inLongTerm (t : Thread) : Bool :=
  match t.pc with
  | .ltSnapshot | .ltRecheck | .ltSpin => true
  | _ => false

/-- The thread has reached the short-term loop (line 66) or has returned. -/
def pastLongTerm (t : Thread) : Bool :=
  match t.pc with
  | .shortTerm | .cs => true
  | _ => false

/-- What the history of the current call says at each program point of
thread `i`. -/
def PathOK (s : State) (i : Nat) : Prop :=
  match (s.thr i).pc with
  | .firstLoad => loads i s.trace = [] ∧ slotReads i s.trace = 0
  | .ltSnapshot | .ltRecheck | .ltSpin =>
    loads i s.trace ≠ [] ∧ ∀ g, g ∈ loads i s.trace → sub64 (s.thr i).tx g > long_term_threshold
  | .shortTerm | .cs =>
    (∃ g, g ∈ loads i s.trace ∧ sub64 (s.thr i).tx g ≤ long_term_threshold) ∧
    (∀ g0, (loads i s.trace).getLast? = some g0 →
      sub64 (s.thr i).tx g0 ≤ long_term_threshold → slotReads i s.trace = 0)
  | _ => True

end TWA

namespace TWA

/-- Thread `k` is stranded: it spins in the long-term loop on a slot that
still holds its snapshot, although `grant` has reached its ticket, and no
thread is in the critical section or inside `TWA_ticket_release`. -/
structure Stranded (N : Nat) (s : State) (k : Nat) : Prop where
  spin : (s.thr k).pc = .ltSpin
  near : (s.thr k).tx = s.grant
  same : s.wait_array (s.thr k).slot = (s.thr k).u
  quiet : ∀ i, i < N → (s.thr i).pc ≠ .cs ∧ (s.thr i).pc ≠ .relStore ∧
    (s.thr i).pc ≠ .relLoad ∧ (s.thr i).pc ≠ .relNotify

/-- The schedule that strands thread 2: thread 0 takes the lock, thread 1
waits in the short-term loop and thread 2 in the long-term loop; thread 0
stores `grant = 1` and is preempted before line 78; thread 1 enters and runs
its whole release; thread 0 then loads `k = 2` and notifies the slot of
ticket 3. -/
def strandingSchedule : List Action :=
  [.run 0, .run 0, .run 1, .run 1, .run 2, .run 2, .run 2, .run 2, .run 2,
   .run 0, .run 0, .run 1, .run 1, .run 1, .run 1, .run 1, .run 0, .run 0]

end TWA

namespace TWA

/-- Every access to the wait array recorded in a history is inside the
array. -/
def SlotsInRange (tr : List Event) : Prop :=
  ∀ e, e ∈ tr →
    match e with
    | .readSlot _ a _ => a < array_size
    | .addSlot _ a => a < array_size
    | .envWrite a _ => a < array_size
    | _ => True

/-- A thread inside the long-term loop holds in `at` the hash of its
ticket. -/
def SlotIsHash (L : Nat) (s : State) : Prop :=
  ∀ i, inLongTerm (s.thr i) = true → (s.thr i).slot = Hash L (s.thr i).tx

end TWA

/-! ## Ticket lock (`Ticket_Lock.h`) -/

namespace TL

/-- Two's-complement wrap-around of a 32-bit `int`. -/
def wrapS32 (x : Int) : Int := (x + 2 ^ 31) % 2 ^ 32 - 2 ^ 31

/-- Largest value of a 32-bit `int`. -/
def INT_MAX : Int := 2 ^ 31 - 1

/-- Program points of a thread that runs, `left` more times, the sequence
`Ticket_Acquire; read the shared counter; write counter + 1; Ticket_Release`.
Each constructor names the shared access the thread performs next. -/
inductive PC
  /-- outside the lock; the next step is `ticket.fetch_add` (line 22) -/
  | idle
  /-- line 25: `while (tx != L->grant)` -/
  | spin
  /-- `Ticket_Acquire` has returned; next: read of the shared counter -/
  | csRead
  /-- next: write of the shared counter -/
  | csWrite
  /-- line 31: the read of `grant` in `++L->grant` -/
  | relLoad
  /-- line 31: the write of `grant` in `++L->grant` -/
  | relStore
  deriving DecidableEq, Repr

/-- Local variables of a thread: `tx` of `Ticket_Acquire`, the value read
from the counter (`tmp`), the value read from `grant` in `++L->grant` (`g`)
and the number of iterations still to run. -/
structure Thread where
  pc : PC
  tx : Int
  tmp : Nat
  g : Int
  left : Nat
  deriving DecidableEq, Repr

/-- Observable events, recorded in the history of a run (newest first). -/
inductive Event
  /-- thread `i` drew ticket `tx` from `ticket.fetch_add` -/
  | fetchTicket (i : Nat) (tx : Int)
  /-- `Ticket_Acquire` returned in thread `i`, which holds ticket `tx` -/
  | ret (i : Nat) (tx : Int)
  /-- thread `i` wrote `c` to the shared counter -/
  | writeCounter (i : Nat) (c : Nat)
  /-- thread `i` wrote `g` to `grant` -/
  | storeGrant (i : Nat) (g : Int)
  deriving DecidableEq, Repr

/-- The lock (`ticket`, `grant`), the shared counter it guards, the threads
and the history of events (newest first).  `ub` is set when `++L->grant`
overflows the `int`, which is undefined behaviour: the run stops there. -/
structure State where
  ticket : Int
  grant : Int
  counter : Nat
  ub : Bool
  thr : Nat → Thread
  trace : List Event

/-- One atomic step of thread `i`. -/
def threadStep (s : State) (i : Nat) : State :=
  let t := s.thr i
  match t.pc with
  | .idle =>
    if t.left = 0 then s
    else
      -- auto tx = L->ticket.fetch_add(1)
      { s with
        ticket := wrapS32 (s.ticket + 1)
        thr := Function.update s.thr i { t with pc := .spin, tx := s.ticket }
        trace := .fetchTicket i s.ticket :: s.trace }
  | .spin =>
    -- while (tx != L->grant) {}
    if t.tx ≠ s.grant then s
    else
      { s with
        thr := Function.update s.thr i { t with pc := .csRead }
        trace := .ret i t.tx :: s.trace }
  | .csRead =>
    { s with thr := Function.update s.thr i { t with pc := .csWrite, tmp := s.counter } }
  | .csWrite =>
    { s with
      counter := t.tmp + 1
      thr := Function.update s.thr i { t with pc := .relLoad }
      trace := .writeCounter i (t.tmp + 1) :: s.trace }
  | .relLoad =>
    -- ++L->grant, the read
    { s with thr := Function.update s.thr i { t with pc := .relStore, g := s.grant } }
  | .relStore =>
    -- ++L->grant, the write
    if t.g + 1 > INT_MAX then { s with ub := true }
    else
      { s with
        grant := t.g + 1
        thr := Function.update s.thr i { t with pc := .idle, left := t.left - 1 }
        trace := .storeGrant i (t.g + 1) :: s.trace }

/-- One step of a system of `N` threads: the scheduler picks thread `i`. -/
def step (N : Nat) (s : State) (i : Nat) : State :=
  if s.ub then s else if i < N then threadStep s i else s

/-- A lock as initialised by `Ticket_Lock` (`ticket {0}`, `grant = 0`), the
counter at 0, every thread about to run `K` iterations. -/
def init (K : Nat) : State where
  ticket := 0
  grant := 0
  counter := 0
  ub := false
  thr := fun _ => ⟨.idle, 0, 0, 0, K⟩
  trace := []

/-- Run a schedule. -/
def run (N : Nat) (s : State) (sched : List Nat) : State :=
  sched.foldl (step N) s

/-- A thread holds a ticket from the fetch-add until its write of `grant`. -/
def holder (t : Thread) : Bool :=
  match t.pc with
  | .idle => false
  | _ => true

/-- A thread owns the lock from the return of `Ticket_Acquire` until its
write of `grant`. -/
def owner (t : Thread) : Bool :=
  match t.pc with
  | .idle | .spin => false
  | _ => true

/-- The thread has written the counter and not yet written `grant`. -/
def wrote (t : Thread) : Bool :=
  match t.pc with
  | .relLoad | .relStore => true
  | _ => false

/-- Tickets drawn by `ticket.fetch_add`, newest first. -/
def fetched : List Event → List Int
  | [] => []
  | .fetchTicket _ tx :: tr => tx :: fetched tr
  | _ :: tr => fetched tr

/-- Threads that wrote `grant` in `Ticket_Release`, newest first. -/
def released : List Event → List Nat
  | [] => []
  | .storeGrant i _ :: tr => i :: released tr
  | _ :: tr => released tr

/-- The list `n-1, ..., 1, 0` as 32-bit `int` values. -/
def seqDown : Nat → List Int
  | 0 => []
  | n + 1 => wrapS32 n :: seqDown n

/-- Invariant of the two counters: the tickets held are the consecutive
values from `grant` up to (not including) `ticket`, modulo `2^32`, each held
by one thread. -/
structure Inv (N : Nat) (s : State) : Prop where
  gr_lo : 0 ≤ s.grant
  gr_hi : s.grant ≤ INT_MAX
  tx_lo : ∀ i, -2 ^ 31 ≤ (s.thr i).tx
  tx_hi : ∀ i, (s.thr i).tx < 2 ^ 31
  tk_eq : s.ticket = wrapS32 (s.grant + countThr holder s.thr N)
  off_lt : ∀ i, i < N → holder (s.thr i) = true →
    ((s.thr i).tx - s.grant) % 2 ^ 32 < countThr holder s.thr N
  tx_inj : ∀ i j, i < N → j < N → holder (s.thr i) = true → holder (s.thr j) = true →
    (s.thr i).tx = (s.thr j).tx → i = j
  off_surj : ∀ d : Nat, d < countThr holder s.thr N →
    ∃ i, i < N ∧ holder (s.thr i) = true ∧ ((s.thr i).tx - s.grant) % 2 ^ 32 = d
  own : ∀ i, i < N → owner (s.thr i) = true → (s.thr i).tx = s.grant
  relg : ∀ i, i < N → (s.thr i).pc = .relStore → (s.thr i).g = s.grant

/-- Relation between the history, the shared counter and the iteration
counts of the threads, for threads that start with `K` iterations. -/
structure Hist (N K : Nat) (s : State) : Prop where
  gr_eq : s.grant = (released s.trace).length
  cnt : s.counter = (released s.trace).length + countThr wrote s.thr N
  tmp_eq : ∀ i, i < N → (s.thr i).pc = .csWrite → (s.thr i).tmp = s.counter
  left_sum : sumThr Thread.left s.thr N + (released s.trace).length = N * K
  left_pos : ∀ i, i < N → holder (s.thr i) = true → 1 ≤ (s.thr i).left
  fetch_len : (fetched s.trace).length = (released s.trace).length + countThr holder s.thr N
  fetch_seq : fetched s.trace = seqDown (fetched s.trace).length

/-- Everything that is proved by induction along a run. -/
structure Good (N K : Nat) (s : State) : Prop where
  inv : Inv N s
  hist : Hist N K s

end TL

namespace TL

/-- The state after `m` uncontended rounds (acquire, increment the counter,
release) of thread 0, while thread 1 has not started. -/
structure Rounds (K m : Nat) (s : State) : Prop where
  tk : s.ticket = m
  gr : s.grant = m
  ub : s.ub = false
  pc0 : (s.thr 0).pc = .idle
  left0 : (s.thr 0).left = K - m
  thr1 : s.thr 1 = ⟨.idle, 0, 0, 0, K⟩
  nf : (fetched s.trace).length = m

/-- Thread 0 runs `m` complete rounds on its own (six steps each). -/
def roundsSchedule (m : Nat) : List Nat := List.replicate (6 * m) 0

/-- The ticket counter and the list of tickets drawn so far. -/
structure TicketSeq (s : State) : Prop where
  tk : s.ticket = wrapS32 (fetched s.trace).length
  seq : fetched s.trace = seqDown (fetched s.trace).length

end TL

namespace TWA

/-- The ticket counter and the list of tickets drawn so far. -/
structure TicketSeq (s : State) : Prop where
  tk : s.ticket = wrap64 (fetched s.trace).length
  seq : fetched s.trace = seqDown (fetched s.trace).length

end TWA

/-! ## Exclusive spin lock (`Spin_Lock.h`) -/

namespace Spin

/-- Wrap-around of `u64` arithmetic. -/
def wrap64 (x : Nat) : Nat := x % 2 ^ 64

/-- Program points of a thread that uses one `Spin_Lock`. -/
inductive PC
  /-- outside the lock; the next step enters `lock()` and performs the
  first `locked.exchange(true)` (line 88) -/
  | idle
  /-- line 88, on a later pass of the outer `while (1)` -/
  | exchange
  /-- line 90: `while (spin_lock->locked.load())` -/
  | poll
  /-- lines 94-106: the `for` loop of relax hints -/
  | spinLoop
  /-- lines 109-116: the cycle-counter branch -/
  | tsc
  /-- line 127: `core_id.store(get_core_id())` -/
  | recordCore
  /-- `lock()` has returned; the next step is `unlock()` (line 131) -/
  | held
  deriving DecidableEq, Repr

/-- Local variables of `lock()`: `timeout`, `threshold` and the loop
variable `i`. -/
structure Thread where
  pc : PC
  timeout : Nat
  threshold : Nat
  i : Nat
  deriving DecidableEq, Repr

/-- Observable events of a run (newest first). -/
inductive Event
  /-- `locked.exchange(true)` in thread `i` returned `old` -/
  | xchg (i : Nat) (old : Bool)
  /-- `locked.load()` in thread `i` returned `v` -/
  | load (i : Nat) (v : Bool)
  /-- relax hint (`__builtin_ia32_pause` / `_mm_pause`) in thread `i` -/
  | pause (i : Nat)
  /-- `std::this_thread::yield()` in thread `i` -/
  | yield (i : Nat)
  /-- `rdtsc()` in thread `i` returned `r` -/
  | rdtsc (i : Nat) (r : Nat)
  /-- `assert(false && "Lock timeout error")` in thread `i` -/
  | timeoutError (i : Nat)
  /-- thread `i` stored `c` into `core_id`; `lock()` returns -/
  | storeCore (i : Nat) (c : Int)
  /-- `unlock()` in thread `i` stored `false` into `locked` -/
  | unlock (i : Nat)
  deriving DecidableEq, Repr

/-- The `Spin_Lock` (`locked`, `lock_name`, `core_id`), the threads and the
history of events (newest first).  `fault` is set when the timeout assertion
fails, which terminates the process. -/
structure State where
  locked : Bool
  lock_name : Option String
  core_id : Int
  fault : Bool
  thr : Nat → Thread
  trace : List Event

/-- What the scheduler picks next: the thread that takes a step, together
with what `rdtsc()` and `get_core_id()` would return to it at that moment. -/
structure Action where
  tid : Nat
  tsc : Nat
  core : Int
  deriving DecidableEq, Repr

/-- `locked.exchange(true)` of line 88 in thread `i`, whose locals are `t`. -/
def doExchange (s : State) (i : Nat) (t : Thread) : State :=
  if s.locked then
    { s with
      locked := true
      thr := Function.update s.thr i { t with pc := .poll }
      trace := .xchg i true :: s.trace }
  else
    { s with
      locked := true
      thr := Function.update s.thr i { t with pc := .recordCore }
      trace := .xchg i false :: s.trace }

/-- One atomic step of the thread `a.tid`. -/
def threadStep (s : State) (a : Action) : State :=
  let i := a.tid
  let t := s.thr i
  match t.pc with
  | .idle =>
    -- u64 timeout = 0; u64 threshold = 2 << 10; then line 88
    doExchange s i { t with timeout := 0, threshold := 2 <<< 10 }
  | .exchange => doExchange s i t
  | .poll =>
    if s.locked then
      if t.threshold > 0 then
        { s with
          thr := Function.update s.thr i { t with pc := .spinLoop, i := 0 }
          trace := .load i true :: s.trace }
      else
        { s with
          thr := Function.update s.thr i { t with pc := .tsc }
          trace := .load i true :: s.trace }
    else
      { s with
        thr := Function.update s.thr i { t with pc := .exchange }
        trace := .load i false :: s.trace }
  | .spinLoop =>
    -- for (int i = 0; i < threshold; ++i) { pause; threshold--; }
    if t.i < t.threshold then
      { s with
        thr := Function.update s.thr i { t with i := t.i + 1, threshold := t.threshold - 1 }
        trace := .pause i :: s.trace }
    else
      { s with
        thr := Function.update s.thr i { t with pc := .poll }
        trace := .yield i :: s.trace }
  | .tsc =>
    if t.timeout = 0 then
      -- timeout = rdtsc() + 2600000000
      { s with
        thr := Function.update s.thr i
          { t with pc := .poll, timeout := wrap64 (a.tsc + 2600000000) }
        trace := .yield i :: .rdtsc i a.tsc :: s.trace }
    else if a.tsc ≥ t.timeout then
      -- assert(false && "Lock timeout error")
      { s with fault := true, trace := .timeoutError i :: .rdtsc i a.tsc :: s.trace }
    else
      { s with
        thr := Function.update s.thr i { t with pc := .poll }
        trace := .yield i :: .rdtsc i a.tsc :: s.trace }
  | .recordCore =>
    { s with
      core_id := a.core
      thr := Function.update s.thr i { t with pc := .held }
      trace := .storeCore i a.core :: s.trace }
  | .held =>
    -- spin_lock->locked.store(false)
    { s with
      locked := false
      thr := Function.update s.thr i { t with pc := .idle }
      trace := .unlock i :: s.trace }

/-- One step of a system of `N` threads sharing one `Spin_Lock`. -/
def step (N : Nat) (s : State) (a : Action) : State :=
  if s.fault then s else if a.tid < N then threadStep s a else s

/-- A `Spin_Lock` as declared (`locked = {false}`, `lock_name = nullptr`,
`core_id = {-1}`), every thread outside the lock. -/
def init : State where
  locked := false
  lock_name := none
  core_id := -1
  fault := false
  thr := fun _ => ⟨.idle, 0, 0, 0⟩
  trace := []

/-- Run a schedule. -/
def run (N : Nat) (s : State) (sched : List Action) : State :=
  sched.foldl (step N) s

/-- A thread owns the lock from the exchange that returned `false` until its
`unlock()`. -/
def owner (t : Thread) : Bool :=
  match t.pc with
  | .recordCore | .held => true
  | _ => false

/-- The events of thread `i` in a history, newest first. -/
def eventsOf (i : Nat) : List Event → List Event
  | [] => []
  | e :: tr =>
    let mine : Bool :=
      match e with
      | .xchg j _ | .load j _ | .pause j | .yield j | .rdtsc j _ | .timeoutError j
      | .storeCore j _ | .unlock j => decide (j = i)
    if mine then e :: eventsOf i tr else eventsOf i tr

/-- Invariant of the spin lock: a free lock has no owner, there is at most
one owner, and an owner got there through an exchange that returned `false`. -/
structure Inv (N : Nat) (s : State) : Prop where
  free : s.locked = false → ∀ i, i < N → owner (s.thr i) = false
  uniq : ∀ i j, i < N → j < N → owner (s.thr i) = true → owner (s.thr j) = true → i = j
  won : ∀ i, i < N → (s.thr i).pc = .recordCore →
    ∃ rest, eventsOf i s.trace = Event.xchg i false :: rest
  back : ∀ i, i < N → (s.thr i).pc = .held →
    ∃ c rest, eventsOf i s.trace = Event.storeCore i c :: Event.xchg i false :: rest

end Spin

namespace Spin

/-- `void unlock(Spin_Lock *spin_lock)` called by thread `i`: one store of
`false` to `locked`, whatever the state of the lock and of the caller. -/
def unlock (s : State) (i : Nat) : State :=
  { s with
    locked := false
    thr := Function.update s.thr i { s.thr i with pc := .idle }
    trace := .unlock i :: s.trace }

/-- `bool holding(Spin_Lock *spin_lock)` evaluated in state `s` by a caller
for which `get_core_id()` returns `core`. -/
def holding (s : State) (core : Int) : Bool :=
  if s.locked && s.core_id == core then true else false

/-- Number of relax hints of thread `i` in its current call of `lock()`,
that is, since its last `unlock()`. -/
def pausesSince (i : Nat) : List Event → Nat
  | [] => 0
  | .unlock j :: tr => if j = i then 0 else pausesSince i tr
  | .pause j :: tr => if j = i then pausesSince i tr + 1 else pausesSince i tr
  | _ :: tr => pausesSince i tr

/-- The first cycle-counter reading of thread `i` in its current call of
`lock()`, if it has read the counter. -/
def firstTsc (i : Nat) : List Event → Option Nat
  | [] => none
  | .unlock j :: tr => if j = i then none else firstTsc i tr
  | .rdtsc j r :: tr =>
    if j = i then
      match firstTsc i tr with
      | some r0 => some r0
      | none => some r
    else firstTsc i tr
  | _ :: tr => firstTsc i tr

/-- The thread is inside the waiting part of `lock()`. -/
def waiting (t : Thread) : Bool :=
  match t.pc with
  | .exchange | .poll | .spinLoop | .tsc => true
  | _ => false

/-- The deadline added to the cycle-counter reading in line 111. -/
def deadlineCycles : Nat := 2600000000

/-- What the history of the current call of `lock()` says about the spin
budget of thread `i`: the budget is 2048 minus the relax hints issued, and
the cycle-counter branch is entered only with an exhausted budget. -/
structure Budget (s : State) (i : Nat) : Prop where
  fresh : (s.thr i).pc = .idle → pausesSince i s.trace = 0
  sum : waiting (s.thr i) = true → pausesSince i s.trace + (s.thr i).threshold = 2048
  intsc : (s.thr i).pc = .tsc → (s.thr i).threshold = 0

/-- What the history of the current call of `lock()` says about `timeout`
of thread `i`: it is 0 until the first cycle-counter reading and that
reading plus the deadline afterwards; and the cycle-counter branch is entered
right after a load that found the flag set. -/
structure Deadline (s : State) (i : Nat) : Prop where
  fresh : (s.thr i).pc = .idle → firstTsc i s.trace = none
  read : waiting (s.thr i) = true → ∀ r0, firstTsc i s.trace = some r0 →
    (s.thr i).timeout = r0 + deadlineCycles
  unread : waiting (s.thr i) = true → firstTsc i s.trace = none → (s.thr i).timeout = 0
  intsc : (s.thr i).pc = .tsc → s.fault = false →
    ∃ rest, eventsOf i s.trace = Event.load i true :: rest

/-- In a history, every cycle-counter reading and every timeout error of a
thread comes after exactly 2048 relax hints of its current call. -/
def TscAfterBudget (tr : List Event) : Prop :=
  ∀ post pre i, (∃ r, tr = post ++ Event.rdtsc i r :: pre) ∨
      tr = post ++ Event.timeoutError i :: pre →
    pausesSince i pre = 2048

/-- All cycle-counter readings offered by a schedule are below
`2^64 - 2,600,000,000`. -/
def ReadingsBounded (sched : List Action) : Prop :=
  ∀ a, a ∈ sched → a.tsc + deadlineCycles < 2 ^ 64

/-- In a history, a thread never issues two relax hints in a row: between
two of its hints it does something else (a load of the flag). -/
def HintsSeparated (tr : List Event) : Prop :=
  ∀ i post pre, eventsOf i tr ≠ post ++ Event.pause i :: Event.pause i :: pre

/-- Thread 0 takes the lock on core 3, thread 1 starts waiting and issues one
relax hint, thread 0 unlocks, thread 1 takes two more steps. -/
def lateSchedule : List Action :=
  [⟨0, 0, 3⟩, ⟨0, 0, 3⟩, ⟨1, 0, 5⟩, ⟨1, 0, 5⟩, ⟨1, 0, 5⟩, ⟨0, 0, 3⟩, ⟨1, 0, 5⟩, ⟨1, 0, 5⟩]

/-- Thread 0 takes the lock on core 3 and keeps it; thread 1 calls `lock()`
and takes `n` steps, reading the cycle counter as 0 if it comes to that. -/
def waitSchedule (n : Nat) : List Action :=
  [⟨0, 0, 3⟩, ⟨0, 0, 3⟩] ++ List.replicate n ⟨1, 0, 5⟩

/-- Thread 1 uses up its spin budget behind thread 0 (the exchange, twelve
passes of the wait loop with 2048 relax hints, 2074 steps), reads the cycle
counter as 0, which fixes its deadline, and comes back to the cycle-counter
branch. -/
def timeoutSchedule : List Action := waitSchedule 2076

/-- The number of steps that a thread with spin budget `b` takes, on its own
and while the flag stays set, from the load of the flag in line 90 to the
cycle-counter branch: a pass with budget `b > 0` is the load, `(b + 1) / 2`
relax hints and the yield, and leaves the budget `b - (b + 1) / 2`. -/
def budgetSteps : Nat → Nat → Nat
  | 0, _ => 0
  | fuel + 1, b =>
    if b = 0 then 1 else 1 + (b + 1) / 2 + 1 + budgetSteps fuel (b - (b + 1) / 2)

end Spin

/-! ## Worker pool (`Thread_Pool.h`) -/

namespace Pool

/-- Conversion of a non-negative value to `s64` (two's complement). -/
def toS64 (x : Nat) : Int := ((x : Int) + 2 ^ 63) % 2 ^ 64 - 2 ^ 63

/-- Conversion of an `s64` value to `u64`. -/
def toU64 (x : Int) : Nat := (x % 2 ^ 64).toNat

/-- Lines 43-50 of `init`: the value stored in `number_of_threads` when
`init` is called with the `u64` argument `r` and
`std::thread::hardware_concurrency()` returns the `unsigned int` `h`. -/
def init_number_of_threads (r h : Nat) : Int :=
  -- const s64 max_threads = std::thread::hardware_concurrency();
  let max_threads : Int := toS64 h
  -- if (number_of_threads > max_threads) { number_of_threads = max_threads; }
  let n1 : Nat := if r > toU64 max_threads then toU64 max_threads else r
  -- number_of_threads = (!number_of_threads) ? 1 : number_of_threads;
  let n2 : Nat := if n1 = 0 then 1 else n1
  -- thread_pool->number_of_threads = number_of_threads;
  toS64 n2

/-- A task (`std::function<void()>`) is identified by a number; its body is
opaque and does not touch the pool. -/
abbrev Task := Nat

/-- Who can hold the mutex. -/
inductive Agent
  /-- the thread that calls `init`, `process` and `deinit` -/
  | main
  /-- another thread that calls `process` -/
  | producer (p : Nat)
  /-- the worker thread `threads[w]` -/
  | worker (w : Nat)
  deriving DecidableEq, Repr

/-- Program points of `thread_function`. -/
inductive WorkerPC
  /-- line 27: construct the `unique_lock` (acquire the mutex) -/
  | lock
  /-- lines 28-30: evaluate the predicate of `condition.wait`, mutex held -/
  | pred
  /-- the predicate was false: `wait` is about to release the mutex and block -/
  | wait
  /-- inside `condition.wait`, mutex released, waiting for a notification -/
  | blocked
  /-- notified (or woken spuriously): re-acquire the mutex -/
  | woken
  /-- line 33: the exit test -/
  | check
  /-- lines 36-37: `front()` and `pop()` -/
  | take
  /-- line 38: `function()` for the task taken -/
  | call (t : Task)
  /-- line 39: end of the loop body, the `unique_lock` is destroyed -/
  | unlock
  /-- line 33, `return`: the `unique_lock` is destroyed -/
  | exitUnlock
  /-- `thread_function` has returned -/
  | exited
  deriving DecidableEq, Repr

/-- Program points of a call of `process` after the mutex is acquired. -/
inductive ProcPC
  /-- line 62: construct the `unique_lock` (acquire the mutex) -/
  | acquire
  /-- line 63: `function_queue.push(function)` -/
  | push
  /-- line 64: `condition.notify_one()` -/
  | notify
  /-- line 65: the `unique_lock` is destroyed -/
  | release
  deriving DecidableEq, Repr

/-- Program points of the main thread, which runs `init(r)`, then
`process(t)` for each task of its list, then `deinit()`. -/
inductive MainPC
  /-- lines 43-51 of `init` -/
  | initStart
  /-- lines 53-55: the loop that creates the threads, at index `i` -/
  | spawn (i : Nat)
  /-- line 57: `thread_pool_active.store(true)` -/
  | storeActive
  /-- the `k`-th call of `process` -/
  | proc (k : Nat) (st : ProcPC)
  /-- line 68: `thread_pool_active.store(false)` -/
  | dStore
  /-- line 69: `condition.notify_all()` -/
  | dNotify
  /-- lines 70-74: the loop that joins the threads, at index `i` -/
  | join (i : Nat)
  /-- `deinit` has returned -/
  | done
  deriving DecidableEq, Repr

/-- Program points of a producer thread: outside `process`, or inside a call
of `process(t)` with the mutex held. -/
inductive ProdPC
  | idle
  | push (t : Task)
  | notify (t : Task)
  | release (t : Task)
  deriving DecidableEq, Repr

/-- The `Thread_Pool`, the threads that use it, and the logs of what has
happened: the tasks in the order in which their `process` call acquired the
mutex, in the order in which they were pushed, in the order in which they
were popped, and in the order in which their body ran.  `ub` is set when
`front()` is called on an empty queue. -/
structure State where
  thread_pool_active : Bool
  function_queue : List Task
  mutex : Option Agent
  threads : List WorkerPC
  number_of_threads : Int
  mainPc : MainPC
  prod : Nat → ProdPC
  ub : Bool
  acquired : List Task
  pushed : List Task
  dequeued : List Task
  executed : List Task

/-- What the main thread does: the argument of `init`, the value returned to
it by `hardware_concurrency()`, and the tasks it passes to `process`; and the
number of producer threads. -/
structure Config where
  r : Nat
  h : Nat
  tasks : List Task
  producers : Nat

/-- What the scheduler picks next.  `pick` is the waiting thread that a
`notify_one` of this step wakes, if that thread is waiting. -/
inductive Action
  /-- a step of the main thread -/
  | main (pick : Nat)
  /-- a step of producer `p`, which calls `process(t)` if it is idle -/
  | producer (p : Nat) (t : Task) (pick : Nat)
  /-- a step of worker `w` -/
  | worker (w : Nat)
  /-- a spurious wake-up of worker `w` from `condition.wait` -/
  | spurious (w : Nat)
  deriving DecidableEq, Repr

/-- Wake the first waiting thread. -/
def wakeFirst : List WorkerPC → List WorkerPC
  | [] => []
  | .blocked :: ws => .woken :: ws
  | w :: ws => w :: wakeFirst ws

/-- `condition.notify_one()`: one waiting thread is woken if there is one. -/
def notifyOne (ws : List WorkerPC) (pick : Nat) : List WorkerPC :=
  if ws[pick]? = some .blocked then ws.set pick .woken else wakeFirst ws

/-- `condition.notify_all()`: every waiting thread is woken. -/
def notifyAll (ws : List WorkerPC) : List WorkerPC :=
  ws.map fun w => if w = .blocked then .woken else w

/-- One atomic step of worker `w`, which is at `pc`. -/
def workerStep (s : State) (w : Nat) (pc : WorkerPC) : State :=
  match pc with
  | .lock =>
    if s.mutex = none then
      { s with mutex := some (.worker w), threads := s.threads.set w .pred }
    else s
  | .pred =>
    -- !function_queue.empty() || !thread_pool_active.load()
    if !s.function_queue.isEmpty || !s.thread_pool_active then
      { s with threads := s.threads.set w .check }
    else
      { s with threads := s.threads.set w .wait }
  | .wait => { s with mutex := none, threads := s.threads.set w .blocked }
  | .blocked => s
  | .woken =>
    if s.mutex = none then
      { s with mutex := some (.worker w), threads := s.threads.set w .pred }
    else s
  | .check =>
    -- if (!thread_pool_active.load() && function_queue.empty()) { return; }
    if !s.thread_pool_active && s.function_queue.isEmpty then
      { s with threads := s.threads.set w .exitUnlock }
    else
      { s with threads := s.threads.set w .take }
  | .take =>
    match s.function_queue with
    | [] => { s with ub := true }
    | t :: q =>
      { s with
        function_queue := q
        dequeued := s.dequeued ++ [t]
        threads := s.threads.set w (.call t) }
  | .call t =>
    { s with executed := s.executed ++ [t], threads := s.threads.set w .unlock }
  | .unlock => { s with mutex := none, threads := s.threads.set w .lock }
  | .exitUnlock => { s with mutex := none, threads := s.threads.set w .exited }
  | .exited => s

/-- Where the main thread goes before its `k`-th call of `process`. -/
def nextCall (c : Config) (k : Nat) : MainPC :=
  if k < c.tasks.length then .proc k .acquire else .dStore

/-- One atomic step of the main thread. -/
def mainStep (c : Config) (s : State) (pick : Nat) : State :=
  match s.mainPc with
  | .initStart =>
    { s with number_of_threads := init_number_of_threads c.r c.h, mainPc := .spawn 0 }
  | .spawn i =>
    -- for (s64 i = 0; i < thread_pool->number_of_threads; ++i)
    if (i : Int) < s.number_of_threads then
      { s with threads := s.threads ++ [.lock], mainPc := .spawn (i + 1) }
    else
      { s with mainPc := .storeActive }
  | .storeActive => { s with thread_pool_active := true, mainPc := nextCall c 0 }
  | .proc k .acquire =>
    if s.mutex = none then
      { s with
        mutex := some .main
        acquired := s.acquired ++ [c.tasks.getD k 0]
        mainPc := .proc k .push }
    else s
  | .proc k .push =>
    { s with
      function_queue := s.function_queue ++ [c.tasks.getD k 0]
      pushed := s.pushed ++ [c.tasks.getD k 0]
      mainPc := .proc k .notify }
  | .proc k .notify =>
    { s with threads := notifyOne s.threads pick, mainPc := .proc k .release }
  | .proc k .release => { s with mutex := none, mainPc := nextCall c (k + 1) }
  | .dStore => { s with thread_pool_active := false, mainPc := .dNotify }
  | .dNotify => { s with threads := notifyAll s.threads, mainPc := .join 0 }
  | .join i =>
    if (i : Int) < s.number_of_threads then
      -- threads[i].join() returns when the thread has finished
      if s.threads[i]? = some .exited then { s with mainPc := .join (i + 1) } else s
    else
      { s with mainPc := .done }
  | .done => s

/-- One atomic step of producer `p`, which calls `process(t)` if it is idle. -/
def prodStep (s : State) (p : Nat) (t : Task) (pick : Nat) : State :=
  match s.prod p with
  | .idle =>
    if s.mutex = none then
      { s with
        mutex := some (.producer p)
        acquired := s.acquired ++ [t]
        prod := Function.update s.prod p (.push t) }
    else s
  | .push u =>
    { s with
      function_queue := s.function_queue ++ [u]
      pushed := s.pushed ++ [u]
      prod := Function.update s.prod p (.notify u) }
  | .notify u =>
    { s with threads := notifyOne s.threads pick, prod := Function.update s.prod p (.release u) }
  | .release _ => { s with mutex := none, prod := Function.update s.prod p .idle }

/-- One step of the system; nothing is defined after `ub`. -/
def step (c : Config) (s : State) (a : Action) : State :=
  if s.ub then s
  else
    match a with
    | .main pick => mainStep c s pick
    | .producer p t pick => if p < c.producers then prodStep s p t pick else s
    | .worker w =>
      match s.threads[w]? with
      | some pc => workerStep s w pc
      | none => s
    | .spurious w =>
      if s.threads[w]? = some .blocked then { s with threads := s.threads.set w .woken } else s

/-- A `Thread_Pool` before `init`; `a0` is the value that the flag
`thread_pool_active`, which has no initializer, happens to have. -/
def init (a0 : Bool) : State where
  thread_pool_active := a0
  function_queue := []
  mutex := none
  threads := []
  number_of_threads := 0
  mainPc := .initStart
  prod := fun _ => .idle
  ub := false
  acquired := []
  pushed := []
  dequeued := []
  executed := []

/-- Run a schedule. -/
def run (c : Config) (s : State) (sched : List Action) : State :=
  sched.foldl (step c) s

/-- The worker holds the mutex at this program point. -/
def workerHolds : WorkerPC → Bool
  | .pred | .wait | .check | .take | .call _ | .unlock | .exitUnlock => true
  | _ => false

/-- The producer holds the mutex at this program point. -/
def prodHolds : ProdPC → Bool
  | .idle => false
  | _ => true

/-- The main thread holds the mutex at this program point. -/
def mainHolds : MainPC → Bool
  | .proc _ .push | .proc _ .notify | .proc _ .release => true
  | _ => false

/-- The task whose body the worker is about to run, or is running. -/
def callOf : WorkerPC → List Task
  | .call t => [t]
  | _ => []

/-- The task that the producer has announced by taking the mutex and has not
pushed yet. -/
def pendOf : ProdPC → List Task
  | .push t => [t]
  | _ => []

/-- The same for the main thread. -/
def pendMain (c : Config) : MainPC → List Task
  | .proc k .push => [c.tasks.getD k 0]
  | _ => []

/-- Worker `v` of the list holds the mutex. -/
def whold (ws : List WorkerPC) (v : Nat) : Bool :=
  match ws[v]? with
  | some pc => workerHolds pc
  | none => false

/-- The task being run by worker `v` of the list. -/
def wcall (ws : List WorkerPC) (v : Nat) : List Task :=
  match ws[v]? with
  | some pc => callOf pc
  | none => []

/-- The program point of the agent is one at which it holds the mutex. -/
def holds (s : State) : Agent → Bool
  | .main => mainHolds s.mainPc
  | .producer p => prodHolds (s.prod p)
  | .worker w => whold s.threads w

/-- The task that the agent has announced and not pushed yet. -/
def pendA (c : Config) (s : State) : Agent → List Task
  | .main => pendMain c s.mainPc
  | .producer p => pendOf (s.prod p)
  | .worker _ => []

/-- The task that the agent is running. -/
def callA (s : State) : Agent → List Task
  | .worker w => wcall s.threads w
  | _ => []

/-- The task that the call of `process` holding the mutex has not pushed
yet. -/
def pending (c : Config) (s : State) : List Task :=
  match s.mutex with
  | some a => pendA c s a
  | none => []

/-- The task whose body is being run by the worker holding the mutex. -/
def calling (s : State) : List Task :=
  match s.mutex with
  | some a => callA s a
  | none => []

/-- The mutex is held by the agent that is at a program point inside a locked
region, and by nobody else. -/
def MutexInv (s : State) : Prop :=
  ∀ a, holds s a = true ↔ s.mutex = some a

/-- Queue discipline: what was popped followed by what is queued is what was
pushed, the pushes happened in the order of the mutex acquisitions, and the
bodies ran in the order of the pops. -/
structure QueueInv (c : Config) (s : State) : Prop where
  mutex : MutexInv s
  fifo : s.dequeued ++ s.function_queue = s.pushed
  order : s.pushed ++ pending c s = s.acquired
  ran : s.executed ++ calling s = s.dequeued

/-- Some waiting threads of `ws` are woken in `ws2`, nothing else differs. -/
def Wakes (ws ws2 : List WorkerPC) : Prop :=
  ∀ w : Nat, ws2[w]? = ws[w]? ∨ (ws[w]? = some .blocked ∧ ws2[w]? = some .woken)

/-- The two lists of workers agree on who holds the mutex and who runs
what. -/
def SameHeld (ws ws2 : List WorkerPC) : Prop :=
  ∀ v : Nat, whold ws2 v = whold ws v ∧ wcall ws2 v = wcall ws v

/-- The number of threads created by `init`, as a function of its progress. -/
def SpawnInv (c : Config) (s : State) : Prop :=
  match s.mainPc with
  | .initStart => s.threads.length = 0
  | .spawn i =>
    s.number_of_threads = init_number_of_threads c.r c.h ∧ s.threads.length = i ∧
      (i : Int) ≤ s.number_of_threads
  | _ =>
    s.number_of_threads = init_number_of_threads c.r c.h ∧
      (s.threads.length : Int) = s.number_of_threads

/-- Past the loop of `init`. -/
def pastInit : MainPC → Bool
  | .initStart | .spawn _ => false
  | _ => true

/-- One worker, one task: the worker runs as soon as it is created, before
`init` stores the flag; then the main thread finishes `init`, calls
`process(10)` and `deinit()`. -/
def earlyExitSchedule : List Action :=
  [.main 0, .main 0, .worker 0, .worker 0, .worker 0, .worker 0,
    .main 0, .main 0, .main 0, .main 0, .main 0, .main 0,
    .main 0, .main 0, .main 0, .main 0]

/-- One worker, two tasks: `init`, `process(10)`, then the worker takes task
10 and is about to run it. -/
def busySchedule : List Action :=
  [.main 0, .main 0, .main 0, .main 0, .main 0, .main 0, .main 0, .main 0,
    .worker 0, .worker 0, .worker 0, .worker 0]

/-- One worker: it runs as soon as it is created and evaluates the predicate
of `condition.wait` before `init` stores the flag; then `init` stores the
flag; then the worker goes on to the exit test and to `front()`. -/
def emptyFrontSchedule : List Action :=
  [.main 0, .main 0, .worker 0, .worker 0, .main 0, .main 0, .worker 0, .worker 0]

end Pool

/-! ## Growable array (`Array.h`) -/

/-- Why a call does not return normally: undefined behaviour (signed
overflow, access outside an allocation), a failed `assert`, or a loop that is
still running when the fuel of the model is used up. -/
inductive Fault
  | ub
  | assertion
  | fuel
  deriving DecidableEq, Repr

namespace Arr

/-- Largest `s32`. -/
def INT_MAX : Int := 2147483647

/-- Smallest `s32`. -/
def INT_MIN : Int := -2147483648

/-- Conversion of an `int` to `size_t` (64 bits). -/
def toSizeT (x : Int) : Nat := (x % 18446744073709551616).toNat

/-- `Array<T>` for an integer type `T`: `data` is the allocation that the
pointer `data` points to (`[]` for `NULL`), element by element. -/
structure Array where
  data : List Int
  size : Int
  capacity : Int
  front : Int
  deriving DecidableEq, Repr

/-- `ARRAY_GROWTH_FORMULA(x)`, `2*(x) + 8` in `int` arithmetic. -/
def ARRAY_GROWTH_FORMULA (x : Int) : Except Fault Int :=
  if 2 * x < INT_MIN ∨ INT_MAX < 2 * x + 8 then .error .ub else .ok (2 * x + 8)

/-- `memset(array->data + start, 0x00, bytes)` for elements of `sz` bytes:
the elements covered completely become 0; an element covered in part gets
an unspecified value `junk i`. -/
def memset (sz : Nat) (junk : Nat → Int) (a : Array) (start : Int) (bytes : Nat) :
    Except Fault Array :=
  if start < 0 then .error .ub
  else if a.data.length * sz < start.toNat * sz + bytes then .error .ub
  else
    .ok { a with
      data := (List.range a.data.length).map fun i =>
        if i < start.toNat then a.data.getD i 0
        else if (i - start.toNat + 1) * sz ≤ bytes then 0
        else if (i - start.toNat) * sz < bytes then junk i
        else a.data.getD i 0 }

/-- `array_allocate_and_copy(array, new_capacity)` for elements of `sz` bytes;
`junk i` is the unspecified content of element `i` of a new allocation. -/
def array_allocate_and_copy (sz : Nat) (junk : Nat → Int) (a : Array) (new_capacity : Int) :
    Except Fault Array :=
  -- If the capacities are the same then don't do anything.
  if new_capacity = a.capacity then .ok a
  else if new_capacity < a.capacity then
    let old_size := a.size
    let new_size := new_capacity
    if old_size - new_size < INT_MIN ∨ INT_MAX < old_size - new_size then .error .ub
    else
      -- auto bytes_to_clear = (old_size - new_size)*sizeof(T);
      let bytes_to_clear := (toSizeT (old_size - new_size) * sz) % 18446744073709551616
      -- memset(array->data+new_size, 0x00, bytes_to_clear);
      memset sz junk a new_size bytes_to_clear
  else
    -- memcpy(new_data, array->data, array->size*sizeof(T));
    if a.size < 0 ∨ (a.data.length : Int) < a.size ∨ new_capacity < a.size then .error .ub
    else
      .ok { a with
        data := (List.range new_capacity.toNat).map fun i =>
          if i < a.size.toNat then a.data.getD i 0 else junk i
        capacity := new_capacity }

/-- `array_mutate(array, want_capacity)`. -/
def array_mutate (sz : Nat) (junk : Nat → Int) (a : Array) (want_capacity : Int) :
    Except Fault Array :=
  match ARRAY_GROWTH_FORMULA a.capacity with
  | .error e => .error e
  | .ok new_capacity =>
    if new_capacity < want_capacity then array_allocate_and_copy sz junk a want_capacity
    else array_allocate_and_copy sz junk a new_capacity

/-- `array_add(array, value)`. -/
def array_add (sz : Nat) (junk : Nat → Int) (a : Array) (value : Int) : Except Fault Array :=
  match (if a.capacity = a.size then array_mutate sz junk a 0 else .ok a) with
  | .error e => .error e
  | .ok a1 =>
    -- array->data[array->size] = value;
    if a1.size < 0 ∨ (a1.data.length : Int) ≤ a1.size then .error .ub
    -- array->size++;
    else if INT_MAX < a1.size + 1 then .error .ub
    else .ok { a1 with data := a1.data.set a1.size.toNat value, size := a1.size + 1 }

/-- `array_resize(array, size)`. -/
def array_resize (sz : Nat) (junk : Nat → Int) (a : Array) (size : Int) : Except Fault Array :=
  match array_allocate_and_copy sz junk a size with
  | .error e => .error e
  | .ok a1 => .ok { a1 with size := size }

end Arr

/-! ## Queue on top of the array (`Queue.h`, and the queue part of `Array.h`) -/

namespace Arr

/-- An `Array<T>` with all members at their default initialisers. -/
def emptyArray : Array := ⟨[], 0, 0, 0⟩

/-- `array_init(array)`: `new T[default_capacity]{}` is an allocation of
zeroes; `size` is not assigned. -/
def array_init (a : Array) : Except Fault Array :=
  match ARRAY_GROWTH_FORMULA 0 with
  | .error e => .error e
  | .ok default_capacity =>
    .ok { a with
      data := List.replicate default_capacity.toNat 0
      capacity := default_capacity
      front := 0 }

/-- `array_push(array, value)`. -/
def array_push (sz : Nat) (junk : Nat → Int) (a : Array) (value : Int) : Except Fault Array :=
  array_add sz junk a value

/-- `array_peek_front(array)`: the value of the element referred to. -/
def array_peek_front (a : Array) : Except Fault Int :=
  -- assert(array->size > 0);
  if ¬ (0 < a.size) then .error .assertion
  else if a.front < 0 then .error .ub
  else
    -- T &result = array->data[array->front];
    match a.data[a.front.toNat]? with
    | none => .error .ub
    | some result => .ok result

/-- `array_pop_front(array)`: the value of the element referred to by the
result, and the array afterwards.  The statement `~array->data[0];` computes
a value that is discarded. -/
def array_pop_front (a : Array) : Except Fault (Int × Array) :=
  -- assert(array->size > 0);
  if ¬ (0 < a.size) then .error .assertion
  else
    -- T &result = array->data[0];
    match a.data[0]? with
    | none => .error .ub
    | some result =>
      -- array->front++;
      if INT_MAX < a.front + 1 then .error .ub
      else .ok (result, { a with front := a.front + 1 })

/-- `Queue<T>`: the container and the `u64` count. -/
structure Queue where
  data : Array
  size : Nat
  deriving DecidableEq, Repr

/-- `queue_init(queue)`. -/
def queue_init (q : Queue) : Except Fault Queue :=
  match array_init q.data with
  | .error e => .error e
  | .ok a => .ok { data := a, size := 0 }

/-- `queue_push(queue, value)`. -/
def queue_push (sz : Nat) (junk : Nat → Int) (q : Queue) (value : Int) : Except Fault Queue :=
  match array_push sz junk q.data value with
  | .error e => .error e
  | .ok a => .ok { data := a, size := (q.size + 1) % 18446744073709551616 }

/-- `queue_peek_front(queue)`. -/
def queue_peek_front (q : Queue) : Except Fault Int := array_peek_front q.data

/-- `queue_size(queue)`. -/
def queue_size (q : Queue) : Nat := q.size

/-- `queue_pop(queue)`: the value of the element referred to by the result,
and the queue afterwards; with `size == 0` control reaches the end of the
function without a `return`. -/
def queue_pop (q : Queue) : Except Fault (Int × Queue) :=
  if q.size ≠ 0 then
    match array_pop_front q.data with
    | .error e => .error e
    | .ok (ret, a) =>
      .ok (ret, { data := a, size := (q.size + 18446744073709551616 - 1) % 18446744073709551616 })
  else .error .ub

/-- `queue_push` of each value of the list, in order. -/
def pushAll (sz : Nat) (junk : Nat → Int) (q : Queue) : List Int → Except Fault Queue
  | [] => .ok q
  | v :: vs =>
    match queue_push sz junk q v with
    | .error e => .error e
    | .ok q1 => pushAll sz junk q1 vs

/-- `m` times `queue_peek_front` followed by `queue_pop`: the pairs of what
the two calls reported, in order, and the queue afterwards. -/
def popPeekN : Nat → Queue → Except Fault (List (Int × Int) × Queue)
  | 0, q => .ok ([], q)
  | m + 1, q =>
    match queue_peek_front q with
    | .error e => .error e
    | .ok p =>
      match queue_pop q with
      | .error e => .error e
      | .ok (r, q1) =>
        match popPeekN m q1 with
        | .error e => .error e
        | .ok (rs, q2) => .ok ((p, r) :: rs, q2)

/-- What the queue looks like after the values `pre` have been pushed and
`k` values have been popped. -/
structure QueueState (q : Queue) (pre : List Int) (k : Nat) : Prop where
  size : q.data.size = (pre.length : Int)
  count : q.size + k = pre.length
  front : q.data.front = (k : Int)
  cap : q.data.size ≤ q.data.capacity
  len : (q.data.data.length : Int) = q.data.capacity
  grow : q.data.capacity ≤ 2 * q.data.size + 8
  elems : ∀ i : Nat, i < pre.length → q.data.data[i]? = pre[i]?

end Arr

/-! ## Hash table with linear probing (`Hash_Table.h`, `Hash.h`) -/

namespace HT

/-- Wrap-around of `u32` arithmetic. -/
def wrap32 (x : Nat) : Nat := x % 4294967296

/-- Conversion of a signed value to `u32`. -/
def toU32 (x : Int) : Nat := (x % 4294967296).toNat

/-- Largest `s32`. -/
def INT_MAX : Int := 2147483647

/-- Smallest `s32`. -/
def INT_MIN : Int := -2147483648

/-- `HASH_STATE::VACANT`. -/
def VACANT : Nat := 0

/-- `HASH_STATE::DELETED`. -/
def DELETED : Nat := 1

/-- `HASH_STATE::VALID`. -/
def VALID : Nat := 2

/-- `Hash_Table::MIN_SIZE`. -/
def MIN_SIZE : Int := 32

/-- `Hash_Table::LOAD_FACTOR_PERCENT`. -/
def LOAD_FACTOR_PERCENT : Int := 70

/-- `SEED` of `Hash.h`. -/
def SEED : Nat := 0x58bc4716

/-- `(x << r) | (x >> (32 - r))` on `u32`. -/
def rotl32 (x r : Nat) : Nat := wrap32 (x <<< r) ||| (x >>> (32 - r))

/-- Lines 29-35 of `murmur_32`: one group of 4 bytes, read as the `u32` `k`. -/
def murmur_block (hash k : Nat) : Nat :=
  let k := wrap32 (k * 0xcc9e2d51)
  let k := rotl32 k 15
  let k := wrap32 (k * 0x1b873593)
  let hash := hash ^^^ k
  wrap32 (rotl32 hash 13 * 5 + 0xe6546b64)

/-- `u32 murmur_32(void *data, s32 len)` on the bytes `data` (a `u32` is read
from memory with the least significant byte first). -/
def murmur_32 (data : List Nat) (len : Nat) : Nat :=
  let nblocks := len / 4
  let byte := fun i => data.getD i 0
  let word := fun i =>
    byte (4 * i) + 256 * byte (4 * i + 1) + 65536 * byte (4 * i + 2) + 16777216 * byte (4 * i + 3)
  let hash := (List.range nblocks).foldl (fun h i => murmur_block h (word i)) SEED
  let tail := fun j => byte (nblocks * 4 + j)
  -- switch (len & 3), the cases fall through
  let k := 0
  let k := if len &&& 3 = 3 then k ^^^ (tail 2 <<< 16) else k
  let k := if 2 ≤ len &&& 3 then k ^^^ (tail 1 <<< 8) else k
  let hash :=
    if 1 ≤ len &&& 3 then
      let k := k ^^^ tail 0
      let k := wrap32 (k * 0xcc9e2d51)
      let k := rotl32 k 15
      let k := wrap32 (k * 0x1b873593)
      hash ^^^ k
    else hash
  -- finalize
  let hash := hash ^^^ len
  let hash := hash ^^^ (hash >>> 16)
  let hash := wrap32 (hash * 0x85ebca6b)
  let hash := hash ^^^ (hash >>> 13)
  let hash := wrap32 (hash * 0xc2b2ae35)
  hash ^^^ (hash >>> 16)

/-- The bytes of a key of type `u32`. -/
def keyBytes (key : Nat) : List Nat :=
  [key % 256, key / 256 % 256, key / 65536 % 256, key / 16777216 % 256]

/-- The default hash function applied by the table to a `u32` key:
`murmur_32((void *)&key, sizeof(key))`. -/
def default_hash_function (key : Nat) : Nat := murmur_32 (keyBytes key) 4

/-- `default_comparator_function`. -/
def default_comparator_function (a b : Nat) : Bool := a == b

/-- `Hash_Table::Entry` for `u32` keys and integer values. -/
structure Entry where
  hash : Nat
  key : Nat
  value : Int
  deriving DecidableEq, Repr

/-- `Hash_Table<Key_Type, Value_Type>`; `hash_function` is given as a function
of the key (the table only ever calls it as
`hash_function((void *)&key, sizeof(key))`). -/
structure Hash_Table where
  table_size : Int
  items : Int
  resize_threshold : Int
  entries : List Entry
  hash_function : Nat → Nat
  comparator_function : Nat → Nat → Bool

/-- The loop of `next_power_of_two`: `while (x > p) { p += p; }` with
`int p`. -/
def npot_loop (x : Nat) : Nat → Nat → Except Fault Nat
  | 0, _ => .error .fuel
  | fuel + 1, p =>
    if x > p then
      if INT_MAX < ((p + p : Nat) : Int) then .error .ub else npot_loop x fuel (p + p)
    else .ok p

/-- `u32 next_power_of_two(u32 x)`; 32 rounds of the loop are more than `int p`
can take. -/
def next_power_of_two (x : Nat) : Except Fault Nat :=
  -- assert(x != 0);
  if x = 0 then .error .assertion else npot_loop x 32 1

/-- `table_init(table, _table_size, given_comparator, given_hash_function)`;
every field of the table is overwritten. -/
def table_init (_table_size : Int) (given_comparator : Option (Nat → Nat → Bool))
    (given_hash_function : Option (Nat → Nat)) : Except Fault Hash_Table :=
  let hash_function :=
    match given_hash_function with
    | none => default_hash_function
    | some f => f
  let comparator_function :=
    match given_comparator with
    | none => default_comparator_function
    | some f => f
  -- if (_table_size == 0) { _table_size = table->MIN_SIZE; }
  let size := if _table_size = 0 then MIN_SIZE else _table_size
  -- u32 aligned_table_size = next_power_of_two(_table_size);
  match next_power_of_two (toU32 size) with
  | .error e => .error e
  | .ok aligned_table_size =>
    -- table->resize_threshold = (table->table_size * table->LOAD_FACTOR_PERCENT) / 100;
    if INT_MAX < (aligned_table_size : Int) * LOAD_FACTOR_PERCENT then .error .ub
    else
      .ok {
        table_size := aligned_table_size
        items := 0
        resize_threshold := (aligned_table_size : Int) * LOAD_FACTOR_PERCENT / 100
        entries := List.replicate aligned_table_size ⟨0, 0, 0⟩
        hash_function := hash_function
        comparator_function := comparator_function }

/-- `index += 1; if (index >= table->table_size) { index = 0; }` -/
def next_index (t : Hash_Table) (index : Nat) : Nat :=
  if toU32 t.table_size ≤ wrap32 (index + 1) then 0 else wrap32 (index + 1)

/-- The probe loop of `table_find_pointer` and `table_remove` (lines 185-193
and 133-143): the index of the first entry with this hash and a matching key,
or nothing when a vacant entry is reached first. -/
def probe (t : Hash_Table) (hash key : Nat) : Nat → Nat → Except Fault (Option Nat)
  | 0, _ => .error .fuel
  | fuel + 1, index =>
    match t.entries[index]? with
    | none => .error .ub
    | some entry =>
      if entry.hash = 0 then .ok none
      else if entry.hash = hash ∧ t.comparator_function entry.key key = true then
        .ok (some index)
      else probe t hash key fuel (next_index t index)

/-- The loop of `table_add` (lines 160-172): the index of the first vacant
entry. -/
def add_probe (t : Hash_Table) : Nat → Nat → Except Fault Nat
  | 0, _ => .error .fuel
  | fuel + 1, index =>
    match t.entries[index]? with
    | none => .error .ub
    | some entry =>
      if entry.hash = VACANT then .ok index else add_probe t fuel (next_index t index)

/-- The hash that `table_add` and `table_remove` store and look for. -/
def add_hash (t : Hash_Table) (key : Nat) : Nat :=
  -- if (hash < HASH_STATE::VALID) { hash += HASH_STATE::VALID; }
  if t.hash_function key < VALID then wrap32 (t.hash_function key + VALID)
  else t.hash_function key

/-- The hash that `table_find_pointer` looks for. -/
def find_hash (t : Hash_Table) (key : Nat) : Nat :=
  -- if (hash <= HASH_STATE::VALID) { hash += HASH_STATE::VALID; }
  if t.hash_function key ≤ VALID then wrap32 (t.hash_function key + VALID)
  else t.hash_function key

/-- `hash & (table->table_size - 1)`. -/
def slot (t : Hash_Table) (hash : Nat) : Nat := hash &&& toU32 (t.table_size - 1)

mutual

/-- `table_add(table, key, value)`. -/
def table_add : Nat → Hash_Table → Nat → Int → Except Fault Hash_Table
  | 0, _, _, _ => .error .fuel
  | fuel + 1, t, key, value =>
    -- if (table->items >= table->resize_threshold) { table_expand(table); }
    match (if t.resize_threshold ≤ t.items then table_expand fuel t else .ok t) with
    | .error e => .error e
    | .ok t1 =>
      -- assert(table->items <= table->table_size);
      if t1.table_size < t1.items then .error .assertion
      else
        match add_probe t1 fuel (slot t1 (add_hash t1 key)) with
        | .error e => .error e
        | .ok index =>
          if INT_MAX < t1.items + 1 then .error .ub
          else
            .ok { t1 with
              entries := t1.entries.set index ⟨add_hash t1 key, key, value⟩
              items := t1.items + 1 }

/-- `table_expand(table)`. -/
def table_expand : Nat → Hash_Table → Except Fault Hash_Table
  | 0, _ => .error .fuel
  | fuel + 1, t =>
    -- s32 new_table_size = table->table_size * 2;
    if t.table_size * 2 < INT_MIN ∨ INT_MAX < t.table_size * 2 then .error .ub
    else
      -- table_init(table, new_table_size);
      match table_init (if t.table_size * 2 < MIN_SIZE then MIN_SIZE else t.table_size * 2)
          none none with
      | .error e => .error e
      | .ok t0 =>
        -- for (s32 i = 0; i < old_size; ++i)
        (List.range t.table_size.toNat).foldl
          (fun acc i =>
            match acc with
            | .error e => .error e
            | .ok t1 =>
              match t.entries[i]? with
              | none => .error .ub
              | some entry =>
                if VALID ≤ entry.hash then table_add fuel t1 entry.key entry.value
                else .ok t1)
          (.ok t0)

end

/-- `table_find_pointer(table, key)`: the index of the entry whose `value` the
returned pointer points to, or nothing for `NULL`. -/
def table_find_pointer (fuel : Nat) (t : Hash_Table) (key : Nat) : Except Fault (Option Nat) :=
  -- if (!table->table_size) { return NULL; }
  if t.table_size = 0 then .ok none
  else probe t (find_hash t key) key fuel (slot t (find_hash t key))

/-- What the pointer returned by `table_find_pointer` points to. -/
def table_find_value (fuel : Nat) (t : Hash_Table) (key : Nat) : Except Fault (Option Int) :=
  match table_find_pointer fuel t key with
  | .error e => .error e
  | .ok none => .ok none
  | .ok (some index) => .ok (some (t.entries.getD index ⟨0, 0, 0⟩).value)

/-- `table_find(table, key)`. -/
def table_find (fuel : Nat) (t : Hash_Table) (key : Nat) : Except Fault Bool :=
  match table_find_pointer fuel t key with
  | .error e => .error e
  | .ok none => .ok false
  | .ok (some _) => .ok true

/-- `table_remove(table, key)`: the result and the table afterwards. -/
def table_remove (fuel : Nat) (t : Hash_Table) (key : Nat) :
    Except Fault (Bool × Hash_Table) :=
  match probe t (add_hash t key) key fuel (slot t (add_hash t key)) with
  | .error e => .error e
  | .ok none => .ok (false, t)
  | .ok (some index) =>
    -- entry->hash = HASH_STATE::DELETED; --table->items;
    if t.items - 1 < INT_MIN then .error .ub
    else
      .ok (true, { t with
        entries := t.entries.modify (fun entry => { entry with hash := DELETED }) index
        items := t.items - 1 })

/-- `table_set(table, key, new_value)`. -/
def table_set (fuel : Nat) (t : Hash_Table) (key : Nat) (new_value : Int) :
    Except Fault Hash_Table :=
  match table_find_pointer fuel t key with
  | .error e => .error e
  | .ok (some index) =>
    .ok { t with
      entries := t.entries.modify (fun entry => { entry with value := new_value }) index }
  | .ok none => table_add fuel t key new_value

/-- A call on the table. -/
inductive Op
  | add (key : Nat) (value : Int)
  | remove (key : Nat)
  | set (key : Nat) (value : Int)
  deriving DecidableEq, Repr

/-- The table after one call. -/
def applyOp (fuel : Nat) (t : Hash_Table) : Op → Except Fault Hash_Table
  | .add key value => table_add fuel t key value
  | .remove key =>
    match table_remove fuel t key with
    | .error e => .error e
    | .ok (_, t1) => .ok t1
  | .set key value => table_set fuel t key value

/-- The table after a sequence of calls. -/
def runOps (fuel : Nat) (t : Hash_Table) : List Op → Except Fault Hash_Table
  | [] => .ok t
  | op :: ops =>
    match applyOp fuel t op with
    | .error e => .error e
    | .ok t1 => runOps fuel t1 ops

/-- A comparator supplied by the caller: two keys are the same when they
have the same parity. -/
def sameParity (a b : Nat) : Bool := a % 2 == b % 2

/-- A hash function supplied by the caller that is compatible with
`sameParity`: every key hashes to 5. -/
def constFive (_ : Nat) : Nat := 5

/-- A hash function supplied by the caller: the key itself. -/
def keyItself (key : Nat) : Nat := key

/-- Add key 5 and remove it again, 32 times. -/
def churn : List Op := (List.range 32).flatMap fun _ => [Op.add 5 0, Op.remove 5]

/-- Add key 5 and remove it again, 31 times, then add key 5 with value 50. -/
def churnThenAdd : List Op :=
  ((List.range 31).flatMap fun _ => [Op.add 5 0, Op.remove 5]) ++ [Op.add 5 50]

/-- The entry in slot `i`. -/
def entryAt (t : Hash_Table) (i : Nat) : Entry := t.entries.getD i ⟨0, 0, 0⟩

/-- The slots visited by a probe that starts at `start`. -/
def probeSeq (t : Hash_Table) (start : Nat) : Nat → Nat
  | 0 => start
  | i + 1 => next_index t (probeSeq t start i)

/-- The fields of the table fit together: `n` slots, `table_size = n`, at least
one slot is vacant, and `items` can be decremented. -/
structure WellFormed (t : Hash_Table) (n : Nat) : Prop where
  length : t.entries.length = n
  size : t.table_size = (n : Int)
  pos : 0 < n
  bound : n < 2147483648
  vacant : ∃ v, v < n ∧ (entryAt t v).hash = VACANT
  items : INT_MIN < t.items

/-- The key is stored in slot `j`: the entry there has the hash that
`table_add` gives the key and a key that the comparator accepts, and no slot
is vacant on the probe path from the home slot of the key to `j`. -/
def StoredAt (t : Hash_Table) (key j : Nat) : Prop :=
  j < t.entries.length ∧ (entryAt t j).hash = add_hash t key ∧
  t.comparator_function (entryAt t j).key key = true ∧
  ∃ d, probeSeq t (slot t (add_hash t key)) d = j ∧
    ∀ i, i ≤ d → (entryAt t (probeSeq t (slot t (add_hash t key)) i)).hash ≠ VACANT

/-- The key is stored in slot `j` and no other valid entry has a key that the
comparator accepts. -/
def StoredOnce (t : Hash_Table) (key j : Nat) : Prop :=
  StoredAt t key j ∧
  ∀ i, i < t.entries.length → VALID ≤ (entryAt t i).hash →
    t.comparator_function (entryAt t i).key key = true → i = j

/-- No entry has the hash that `table_add` gives the key and a key that the
comparator accepts. -/
def NotStored (t : Hash_Table) (key : Nat) : Prop :=
  ∀ i, i < t.entries.length →
    ¬ ((entryAt t i).hash = add_hash t key ∧
      t.comparator_function (entryAt t i).key key = true)

/-- The table after the entry in slot `j` has been removed. -/
def removed (t : Hash_Table) (j : Nat) : Hash_Table :=
  { t with
    entries := t.entries.modify (fun entry => { entry with hash := DELETED }) j
    items := t.items - 1 }

/-- Distance from `start` to `v` along the probe path of a table of `n`
slots. -/
def dist (n v start : Nat) : Nat := if start ≤ v then v - start else v + n - start

/-- Four slots, keys 5 and 9 added in this order with the hash function
`keyItself`: both have home slot 1. -/
def smallTable : Hash_Table where
  table_size := 4
  items := 2
  resize_threshold := 2
  entries := [⟨0, 0, 0⟩, ⟨5, 5, 50⟩, ⟨9, 9, 90⟩, ⟨0, 0, 0⟩]
  hash_function := keyItself
  comparator_function := default_comparator_function

end HT

/-! ## Lemmas on counting -/

theorem countThr_le {α : Type} (p : α → Bool) (thr : Nat → α) (N : Nat) :
    countThr p thr N ≤ N := by
  induction N with
  | zero => simp [countThr]
  | succ n ih => simp only [countThr]; split <;> omega

theorem countThr_update_ge {α : Type} (p : α → Bool) (thr : Nat → α) (N i : Nat) (t : α)
    (hi : N ≤ i) : countThr p (Function.update thr i t) N = countThr p thr N := by
  induction N with
  | zero => simp [countThr]
  | succ n ih =>
    have hne : n ≠ i := by omega
    simp only [countThr, Function.update_noteq hne]
    rw [ih (by omega)]

theorem countThr_update {α : Type} (p : α → Bool) (thr : Nat → α) (N i : Nat) (t : α)
    (hi : i < N) :
    countThr p (Function.update thr i t) N + (if p (thr i) then 1 else 0)
      = countThr p thr N + (if p t then 1 else 0) := by
  induction N with
  | zero => omega
  | succ n ih =>
    by_cases h : i = n
    · subst h
      simp only [countThr, Function.update_same]
      rw [countThr_update_ge p thr i i t (Nat.le_refl _)]
      omega
    · have hne : n ≠ i := fun e => h e.symm
      simp only [countThr, Function.update_noteq hne]
      have := ih (by omega)
      omega

theorem countThr_lt {α : Type} (p : α → Bool) (thr : Nat → α) (N i : Nat)
    (hi : i < N) (h : p (thr i) = false) : countThr p thr N < N := by
  induction N with
  | zero => omega
  | succ n ih =>
    by_cases e : i = n
    · subst e
      have := countThr_le p thr i
      simp only [countThr, h]; simp; omega
    · have := ih (by omega)
      simp only [countThr]; split <;> omega

theorem countThr_pos {α : Type} (p : α → Bool) (thr : Nat → α) (N i : Nat)
    (hi : i < N) (h : p (thr i) = true) : 0 < countThr p thr N := by
  induction N with
  | zero => omega
  | succ n ih =>
    by_cases e : i = n
    · subst e
      simp only [countThr, h]; simp
    · have := ih (by omega)
      simp only [countThr]; omega

theorem countThr_eq_zero {α : Type} (p : α → Bool) (thr : Nat → α) (N : Nat)
    (h : ∀ i < N, p (thr i) = false) : countThr p thr N = 0 := by
  induction N with
  | zero => rfl
  | succ n ih =>
    simp only [countThr, h n (by omega)]
    simp
    exact ih (fun i hi => h i (by omega))


theorem sumThr_update_ge {α : Type} (f : α → Nat) (thr : Nat → α) (N i : Nat) (t : α)
    (hi : N ≤ i) : sumThr f (Function.update thr i t) N = sumThr f thr N := by
  induction N with
  | zero => simp [sumThr]
  | succ n ih =>
    have hne : n ≠ i := by omega
    simp only [sumThr, Function.update_noteq hne]
    rw [ih (by omega)]

theorem sumThr_update {α : Type} (f : α → Nat) (thr : Nat → α) (N i : Nat) (t : α)
    (hi : i < N) :
    sumThr f (Function.update thr i t) N + f (thr i) = sumThr f thr N + f t := by
  induction N with
  | zero => omega
  | succ n ih =>
    by_cases h : i = n
    · subst h
      simp only [sumThr, Function.update_same]
      rw [sumThr_update_ge f thr i i t (Nat.le_refl _)]
      omega
    · have hne : n ≠ i := fun e => h e.symm
      simp only [sumThr, Function.update_noteq hne]
      have := ih (by omega)
      omega

theorem sumThr_const {α : Type} (f : α → Nat) (thr : Nat → α) (N c : Nat)
    (h : ∀ i, i < N → f (thr i) = c) : sumThr f thr N = N * c := by
  induction N with
  | zero => simp [sumThr]
  | succ n ih =>
    simp only [sumThr]
    rw [ih (fun i hi => h i (by omega)), h n (by omega)]
    ring

namespace TWA

theorem Inv.twa_inv_frame {N : Nat} {s s2 : State} (h : Inv N s) (i : Nat) (hi : i < N) (t2 : Thread)
    (hthr : s2.thr = Function.update s.thr i t2)
    (htk : s2.ticket = s.ticket) (hgr : s2.grant = s.grant)
    (htx : t2.tx = (s.thr i).tx) (hh : holder t2 = holder (s.thr i))
    (hown : owner t2 = true → t2.tx = s.grant)
    (hrel : t2.pc = .relStore → t2.g = s.grant) : Inv N s2 := by
  have hc : countThr holder s2.thr N = countThr holder s.thr N := by
    have := countThr_update holder s.thr N i t2 hi
    rw [hthr, hh] at *
    omega
  have hhold : ∀ j, holder (s2.thr j) = holder (s.thr j) := by
    intro j
    by_cases e : j = i
    · subst e; rw [hthr]; simp [hh]
    · rw [hthr]; simp [e]
  have htxs : ∀ j, (s2.thr j).tx = (s.thr j).tx := by
    intro j
    by_cases e : j = i
    · subst e; rw [hthr]; simp [htx]
    · rw [hthr]; simp [e]
  refine ⟨by rw [htk]; exact h.tk_lt, by rw [hgr]; exact h.gr_lt, ?_, ?_, ?_, ?_, ?_, ?_, ?_⟩
  · intro j; rw [htxs]; exact h.tx_lt j
  · rw [htk, hgr, hc]; exact h.tk_eq
  · intro j hj hj2
    rw [htxs, hgr, hc]; rw [hhold] at hj2; exact h.off_lt j hj hj2
  · intro j k hj hk hj2 hk2 e
    rw [hhold] at hj2 hk2; rw [htxs, htxs] at e
    exact h.tx_inj j k hj hk hj2 hk2 e
  · intro d hd
    rw [hc] at hd
    obtain ⟨j, hj, hj2, hj3⟩ := h.off_surj d hd
    exact ⟨j, hj, by rw [hhold]; exact hj2, by rw [htxs, hgr]; exact hj3⟩
  · intro j hj hj2
    by_cases e : j = i
    · subst e
      rw [hthr] at hj2 ⊢; simp at hj2 ⊢; rw [hgr]; exact hown hj2
    · rw [hthr] at hj2 ⊢; simp [e] at hj2 ⊢; rw [hgr]; exact h.own j hj hj2
  · intro j hj hj2
    by_cases e : j = i
    · subst e
      rw [hthr] at hj2 ⊢; simp at hj2 ⊢; rw [hgr]; exact hrel hj2
    · rw [hthr] at hj2 ⊢; simp [e] at hj2 ⊢; rw [hgr]; exact h.relg j hj hj2

theorem Inv.twa_inv_store_gen {N : Nat} {s s2 : State} (h : Inv N s) (i : Nat) (hi : i < N)
    (hpc : (s.thr i).pc = .relStore) (t2 : Thread)
    (hthr : s2.thr = Function.update s.thr i t2)
    (htk : s2.ticket = s.ticket) (hgr : s2.grant = wrap64 (s.grant + 1))
    (ht2 : holder t2 = false) (htx2 : t2.tx < 2 ^ 64) : Inv N s2 := by
  have hh : holder (s.thr i) = true := by simp [holder, hpc]
  have ho : owner (s.thr i) = true := by simp [owner, hpc]
  have ho2 : owner t2 = false := by
    revert ht2; simp only [owner, holder]; cases t2.pc <;> simp
  have hp2 : t2.pc ≠ .relStore := by
    intro e; simp [holder, e] at ht2
  have hpos := countThr_pos holder s.thr N i hi hh
  have hc : countThr holder s2.thr N + 1 = countThr holder s.thr N := by
    have := countThr_update holder s.thr N i t2 hi
    rw [hh, ht2] at this
    rw [hthr]
    simpa using this
  have h1 := h.tk_lt
  have h2 := h.gr_lt
  have h3 := h.tk_eq
  have htx := h.own i hi ho
  have hcN := countThr_le holder s.thr N
  have hne : ∀ j, j < N → j ≠ i → holder (s.thr j) = true → (s.thr j).tx ≠ s.grant := by
    intro j hj hji hj2 e
    exact hji (h.tx_inj j i hj hi hj2 hh (by rw [e, htx]))
  have hother : ∀ j, j ≠ i → s2.thr j = s.thr j := by
    intro j e; rw [hthr]; simp [e]
  have hself : s2.thr i = t2 := by rw [hthr]; simp
  refine ⟨by rw [htk]; exact h1, ?_, ?_, ?_, ?_, ?_, ?_, ?_, ?_⟩
  · rw [hgr]; simp only [wrap64]; omega
  · intro j
    by_cases e : j = i
    · subst e; rw [hself]; exact htx2
    · rw [hother j e]; exact h.tx_lt j
  · rw [htk, hgr]; simp only [wrap64]; omega
  · intro j hj hj2
    by_cases e : j = i
    · subst e; rw [hself, ht2] at hj2; simp at hj2
    · rw [hother j e] at hj2 ⊢
      have a1 := h.off_lt j hj hj2
      have a2 := hne j hj e hj2
      have a3 := h.tx_lt j
      rw [hgr]
      simp only [sub64, wrap64] at a1 ⊢
      omega
  · intro j k hj hk hj2 hk2 e
    by_cases ej : j = i
    · subst ej; rw [hself, ht2] at hj2; simp at hj2
    · by_cases ek : k = i
      · subst ek; rw [hself, ht2] at hk2; simp at hk2
      · rw [hother j ej] at hj2 e
        rw [hother k ek] at hk2 e
        exact h.tx_inj j k hj hk hj2 hk2 e
  · intro d hd
    obtain ⟨j, hj, hj2, hj3⟩ := h.off_surj (d + 1) (by omega)
    have hji : j ≠ i := by
      intro e2; rw [e2, htx] at hj3; simp only [sub64] at hj3; omega
    refine ⟨j, hj, by rw [hother j hji]; exact hj2, ?_⟩
    have a3 := h.tx_lt j
    rw [hother j hji, hgr]
    simp only [sub64, wrap64] at hj3 ⊢
    omega
  · intro j hj hj2
    by_cases e : j = i
    · subst e; rw [hself, ho2] at hj2; simp at hj2
    · exfalso
      rw [hother j e] at hj2
      have hj3 : holder (s.thr j) = true := by
        revert hj2; simp only [owner, holder]; cases (s.thr j).pc <;> simp
      exact hne j hj e hj3 (h.own j hj hj2)
  · intro j hj hj2
    by_cases e : j = i
    · subst e; rw [hself] at hj2; exact absurd hj2 hp2
    · exfalso
      rw [hother j e] at hj2
      have hj3 : holder (s.thr j) = true := by simp [holder, hj2]
      have hj4 : owner (s.thr j) = true := by simp [owner, hj2]
      exact hne j hj e hj3 (h.own j hj hj4)

theorem Inv.twa_inv_fetch_gen {N : Nat} {s s2 : State} (h : Inv N s) (hN : N < 2 ^ 64)
    (i : Nat) (hi : i < N) (hpc : (s.thr i).pc = .idle) (t2 : Thread)
    (hthr : s2.thr = Function.update s.thr i t2)
    (htk : s2.ticket = wrap64 (s.ticket + 1)) (hgr : s2.grant = s.grant)
    (ht2 : t2.pc = .firstLoad) (htx2 : t2.tx = s.ticket) : Inv N s2 := by
  have hnh : holder (s.thr i) = false := by simp [holder, hpc]
  have hh2 : holder t2 = true := by simp [holder, ht2]
  have ho2 : owner t2 = false := by simp [owner, ht2]
  have hlt := countThr_lt holder s.thr N i hi hnh
  have hc : countThr holder s2.thr N = countThr holder s.thr N + 1 := by
    have := countThr_update holder s.thr N i t2 hi
    rw [hnh, hh2] at this
    rw [hthr]
    simpa using this
  have h1 := h.tk_lt
  have h2 := h.gr_lt
  have h3 := h.tk_eq
  have hoff : sub64 s.ticket s.grant = countThr holder s.thr N := by
    unfold sub64; omega
  have hother : ∀ j, j ≠ i → s2.thr j = s.thr j := by
    intro j e; rw [hthr]; simp [e]
  have hself : s2.thr i = t2 := by rw [hthr]; simp
  refine ⟨?_, by rw [hgr]; exact h2, ?_, ?_, ?_, ?_, ?_, ?_, ?_⟩
  · rw [htk]; simp only [wrap64]; omega
  · intro j
    by_cases e : j = i
    · subst e; rw [hself, htx2]; exact h1
    · rw [hother j e]; exact h.tx_lt j
  · rw [htk, hgr, hc]; simp only [wrap64]; omega
  · intro j hj hj2
    rw [hc, hgr]
    by_cases e : j = i
    · subst e; rw [hself, htx2, hoff]; omega
    · rw [hother j e] at hj2 ⊢
      have := h.off_lt j hj hj2
      omega
  · intro j k hj hk hj2 hk2 e
    by_cases ej : j = i <;> by_cases ek : k = i
    · rw [ej, ek]
    · exfalso
      subst ej
      rw [hself, hother k ek, htx2] at e
      rw [hother k ek] at hk2
      have := h.off_lt k hk hk2
      rw [← e, hoff] at this; omega
    · exfalso
      subst ek
      rw [hself, hother j ej, htx2] at e
      rw [hother j ej] at hj2
      have := h.off_lt j hj hj2
      rw [e, hoff] at this; omega
    · rw [hother j ej] at hj2 e
      rw [hother k ek] at hk2 e
      exact h.tx_inj j k hj hk hj2 hk2 e
  · intro d hd
    rw [hc] at hd
    by_cases e : d = countThr holder s.thr N
    · exact ⟨i, hi, by rw [hself]; exact hh2, by rw [hself, htx2, hgr, hoff, e]⟩
    · obtain ⟨j, hj, hj2, hj3⟩ := h.off_surj d (by omega)
      have hji : j ≠ i := by
        intro e2; rw [e2, hnh] at hj2; simp at hj2
      exact ⟨j, hj, by rw [hother j hji]; exact hj2, by rw [hother j hji, hgr]; exact hj3⟩
  · intro j hj hj2
    by_cases e : j = i
    · subst e; rw [hself, ho2] at hj2; simp at hj2
    · rw [hother j e] at hj2 ⊢; rw [hgr]; exact h.own j hj hj2
  · intro j hj hj2
    by_cases e : j = i
    · subst e; rw [hself, ht2] at hj2; simp at hj2
    · rw [hother j e] at hj2 ⊢; rw [hgr]; exact h.relg j hj hj2

theorem twa_sub64_eq_zero {a b : Nat} (ha : a < 2 ^ 64) (hb : b < 2 ^ 64) :
    sub64 a b = 0 ↔ a = b := by
  unfold sub64; omega

theorem Inv.twa_inv_init (N : Nat) (w : Nat → Nat) : Inv N (init w) := by
  have hc : countThr holder (TWA.init w).thr N = 0 :=
    countThr_eq_zero _ _ _ (fun _ _ => rfl)
  refine ⟨by simp [TWA.init], by simp [TWA.init], ?_, ?_, ?_, ?_, ?_, ?_, ?_⟩
  · intro i; simp [TWA.init]
  · rw [hc]; simp [TWA.init]
  · intro i _ h; simp [TWA.init, holder] at h
  · intro i j _ _ h; simp [TWA.init, holder] at h
  · intro d hd; rw [hc] at hd; omega
  · intro i _ h; simp [TWA.init, owner] at h
  · intro i _ h; simp [TWA.init] at h

theorem Inv.twa_inv_threadStep {N L : Nat} {s : State} (h : Inv N s) (hN : N < 2 ^ 64)
    (i : Nat) (hi : i < N) : Inv N (threadStep L s i) := by
  have htxi := h.tx_lt i
  have hgl := h.gr_lt
  cases hpc : (s.thr i).pc
  · exact h.twa_inv_fetch_gen hN i hi hpc _ (by simp [TWA.threadStep, hpc]; rfl)
      (by simp [TWA.threadStep, hpc]) (by simp [TWA.threadStep, hpc]) rfl rfl
  · simp only [TWA.threadStep, hpc]
    split
    · rename_i h0
      rw [twa_sub64_eq_zero htxi hgl] at h0
      exact h.twa_inv_frame i hi _ rfl rfl rfl rfl (by simp [holder, hpc]) (fun _ => h0) (by simp)
    · split
      · exact h.twa_inv_frame i hi _ rfl rfl rfl rfl (by simp [holder, hpc]) (by simp [owner]) (by simp)
      · exact h.twa_inv_frame i hi _ rfl rfl rfl rfl (by simp [holder, hpc]) (by simp [owner]) (by simp)
  · simp only [TWA.threadStep, hpc]
    exact h.twa_inv_frame i hi _ rfl rfl rfl rfl (by simp [holder, hpc]) (by simp [owner]) (by simp)
  · simp only [TWA.threadStep, hpc]
    split
    · exact h.twa_inv_frame i hi _ rfl rfl rfl rfl (by simp [holder, hpc]) (by simp [owner]) (by simp)
    · exact h.twa_inv_frame i hi _ rfl rfl rfl rfl (by simp [holder, hpc]) (by simp [owner]) (by simp)
  · simp only [TWA.threadStep, hpc]
    split
    · exact h.twa_inv_frame i hi (s.thr i) (by simp) rfl rfl rfl rfl
        (fun ho => by simp [owner, hpc] at ho) (fun hp => by simp [hpc] at hp)
    · exact h.twa_inv_frame i hi _ rfl rfl rfl rfl (by simp [holder, hpc]) (by simp [owner]) (by simp)
  · simp only [TWA.threadStep, hpc]
    split
    · exact h.twa_inv_frame i hi (s.thr i) (by simp) rfl rfl rfl rfl
        (fun ho => by simp [owner, hpc] at ho) (fun hp => by simp [hpc] at hp)
    · rename_i h0
      exact h.twa_inv_frame i hi _ rfl rfl rfl rfl (by simp [holder, hpc])
        (fun _ => by simpa using h0) (by simp)
  · simp only [TWA.threadStep, hpc]
    exact h.twa_inv_frame i hi _ rfl rfl rfl rfl (by simp [holder, hpc])
      (fun _ => h.own i hi (by simp [owner, hpc])) (by simp)
  · have hg := h.relg i hi hpc
    exact h.twa_inv_store_gen i hi hpc _ (by simp [TWA.threadStep, hpc]; rfl)
      (by simp [TWA.threadStep, hpc]) (by simp [TWA.threadStep, hpc, hg]) (by simp [holder])
      (by simpa using htxi)
  · simp only [TWA.threadStep, hpc]
    exact h.twa_inv_frame i hi _ rfl rfl rfl rfl (by simp [holder, hpc]) (by simp [owner]) (by simp)
  · simp only [TWA.threadStep, hpc]
    exact h.twa_inv_frame i hi _ rfl rfl rfl rfl (by simp [holder, hpc]) (by simp [owner]) (by simp)

theorem Inv.twa_inv_step {N L : Nat} {s : State} (h : Inv N s) (hN : N < 2 ^ 64)
    (a : Action) : Inv N (step N L s a) := by
  cases a with
  | run i =>
    simp only [TWA.step]
    split
    · rename_i hi; exact h.twa_inv_threadStep hN i hi
    · exact h
  | env a v =>
    simp only [TWA.step]
    split
    · exact ⟨h.tk_lt, h.gr_lt, h.tx_lt, h.tk_eq, h.off_lt, h.tx_inj, h.off_surj, h.own, h.relg⟩
    · exact h

theorem Inv.twa_inv_run {N L : Nat} (hN : N < 2 ^ 64) (sched : List Action) {s : State} (h : Inv N s) :
    Inv N (run N L s sched) := by
  induction sched generalizing s with
  | nil => exact h
  | cons a rest ih => exact ih (h.twa_inv_step hN a)

end TWA

namespace TWA

theorem twa_owner_holder {t : Thread} (h : owner t = true) : holder t = true := by
  revert h; simp only [owner, holder]; cases t.pc <;> simp

theorem Inv.twa_inv_owner_unique {N : Nat} {s : State} (h : Inv N s) {i j : Nat} (hi : i < N)
    (hj : j < N) (hoi : owner (s.thr i) = true) (hoj : owner (s.thr j) = true) : i = j :=
  h.tx_inj i j hi hj (twa_owner_holder hoi) (twa_owner_holder hoj)
    (by rw [h.own i hi hoi, h.own j hj hoj])

theorem Hist.twa_hist_init (N : Nat) (w : Nat → Nat) : Hist N (init w) := by
  have hc : countThr holder (TWA.init w).thr N = 0 :=
    countThr_eq_zero _ _ _ (fun _ _ => rfl)
  refine ⟨by simp [TWA.init, released, wrap64], ?_, by simp [TWA.init, fetched, seqDown],
    by simp [TWA.init, entered, seqDown], ?_, ?_⟩
  · rw [hc]; simp [TWA.init, released, fetched]
  · left; exact ⟨fun j _ => rfl, by simp [TWA.init, released, entered]⟩
  · intro i _ h; simp [TWA.init, holder] at h

/-- Steps that neither draw a ticket, return from acquire nor store to
`grant` keep the relation between history and state. -/
theorem Hist.twa_hist_frame {N : Nat} {s s2 : State} (h : Hist N s) (i : Nat) (hi : i < N) (t2 : Thread)
    (hthr : s2.thr = Function.update s.thr i t2) (hgr : s2.grant = s.grant)
    (hh : holder t2 = holder (s.thr i)) (ho : owner t2 = owner (s.thr i))
    (htx : t2.tx = (s.thr i).tx)
    (hf : fetched s2.trace = fetched s.trace) (he : entered s2.trace = entered s.trace)
    (hr : released s2.trace = released s.trace)
    (hsub : ∀ e, e ∈ s.trace → e ∈ s2.trace) : Hist N s2 := by
  have hc : countThr holder s2.thr N = countThr holder s.thr N := by
    have := countThr_update holder s.thr N i t2 hi
    rw [hthr, hh] at *
    omega
  have hown : ∀ j, owner (s2.thr j) = owner (s.thr j) := by
    intro j
    by_cases e : j = i
    · subst e; rw [hthr]; simp [ho]
    · rw [hthr]; simp [e]
  refine ⟨by rw [hgr, hr]; exact h.gr_eq, by rw [hf, hr, hc]; exact h.fetch_len,
    by rw [hf]; exact h.fetch_seq, by rw [he]; exact h.ent_seq, ?_, ?_⟩
  · rw [he, hr]
    rcases h.ent_rel with ⟨h1, h2⟩ | ⟨j, hj, h1, h2⟩
    · left; exact ⟨fun j hj => by rw [hown]; exact h1 j hj, h2⟩
    · right; exact ⟨j, hj, by rw [hown]; exact h1, h2⟩
  · intro j hj hj2
    apply hsub
    by_cases e : j = i
    · subst e
      rw [hthr] at hj2 ⊢
      simp only [Function.update_same] at hj2 ⊢
      rw [htx]; rw [hh] at hj2; exact h.held j hj hj2
    · rw [hthr] at hj2 ⊢
      simp only [Function.update_noteq e] at hj2 ⊢
      exact h.held j hj hj2

theorem Hist.twa_hist_fetch_gen {N : Nat} {s s2 : State} (h : Hist N s) (hI : Inv N s)
    (i : Nat) (hi : i < N) (hpc : (s.thr i).pc = .idle) (t2 : Thread)
    (hthr : s2.thr = Function.update s.thr i t2) (hgr : s2.grant = s.grant)
    (ht2 : t2.pc = .firstLoad) (htx2 : t2.tx = s.ticket)
    (htr : s2.trace = Event.fetchTicket i s.ticket :: s.trace) : Hist N s2 := by
  have hnh : holder (s.thr i) = false := by simp [holder, hpc]
  have hh2 : holder t2 = true := by simp [holder, ht2]
  have hno : owner (s.thr i) = false := by simp [owner, hpc]
  have ho2 : owner t2 = false := by simp [owner, ht2]
  have hc : countThr holder s2.thr N = countThr holder s.thr N + 1 := by
    have := countThr_update holder s.thr N i t2 hi
    rw [hnh, hh2] at this
    rw [hthr]
    simpa using this
  have hown : ∀ j, owner (s2.thr j) = owner (s.thr j) := by
    intro j
    by_cases e : j = i
    · subst e; rw [hthr]; simp [ho2, hno]
    · rw [hthr]; simp [e]
  have hf : fetched s2.trace = s.ticket :: fetched s.trace := by rw [htr]; rfl
  have he : entered s2.trace = entered s.trace := by rw [htr]; rfl
  have hr : released s2.trace = released s.trace := by rw [htr]; rfl
  have htk : s.ticket = wrap64 (fetched s.trace).length := by
    have a1 := hI.tk_eq
    have a2 := h.gr_eq
    have a3 := h.fetch_len
    rw [a3]
    simp only [wrap64] at a2 ⊢
    omega
  refine ⟨by rw [hgr, hr]; exact h.gr_eq, ?_, ?_, by rw [he]; exact h.ent_seq, ?_, ?_⟩
  · rw [hf, hr, hc]; simp only [List.length_cons]; have := h.fetch_len; omega
  · rw [hf]; simp only [List.length_cons, seqDown]
    rw [← h.fetch_seq, ← htk]
  · rw [he, hr]
    rcases h.ent_rel with ⟨h1, h2⟩ | ⟨j, hj, h1, h2⟩
    · left; exact ⟨fun j hj => by rw [hown]; exact h1 j hj, h2⟩
    · right; exact ⟨j, hj, by rw [hown]; exact h1, h2⟩
  · intro j hj hj2
    rw [htr]
    by_cases e : j = i
    · subst e
      rw [hthr]; simp only [Function.update_same]
      rw [htx2]; exact List.mem_cons_self _ _
    · rw [hthr] at hj2 ⊢
      simp only [Function.update_noteq e] at hj2 ⊢
      exact List.mem_cons_of_mem _ (h.held j hj hj2)

/-- A thread that is not the owner and finds `grant` equal to its ticket
enters: nobody owns the lock at that moment. -/
theorem Inv.twa_inv_no_owner {N : Nat} {s : State} (hI : Inv N s) (i : Nat) (hi : i < N)
    (hh : holder (s.thr i) = true) (hno : owner (s.thr i) = false)
    (htx : (s.thr i).tx = s.grant) : ∀ j, j < N → owner (s.thr j) = false := by
  intro j hj
  by_contra hc
  have hoj : owner (s.thr j) = true := by simpa using hc
  have := hI.tx_inj i j hi hj hh (twa_owner_holder hoj) (by rw [htx, hI.own j hj hoj])
  subst this
  rw [hno] at hoj; simp at hoj

theorem Hist.twa_hist_enter_gen {N : Nat} {s s2 : State} (h : Hist N s) (hI : Inv N s)
    (i : Nat) (hi : i < N) (hh : holder (s.thr i) = true) (hno : owner (s.thr i) = false)
    (htx : (s.thr i).tx = s.grant) (t2 : Thread)
    (hthr : s2.thr = Function.update s.thr i t2) (hgr : s2.grant = s.grant)
    (ht2 : t2.pc = .cs) (htx2 : t2.tx = (s.thr i).tx)
    (htr : s2.trace = Event.ret i (s.thr i).tx :: Event.loadGrant i s.grant :: s.trace) :
    Hist N s2 := by
  have hh2 : holder t2 = true := by simp [holder, ht2]
  have ho2 : owner t2 = true := by simp [owner, ht2]
  have hc : countThr holder s2.thr N = countThr holder s.thr N := by
    have := countThr_update holder s.thr N i t2 hi
    rw [hthr, hh, hh2] at *
    omega
  have hf : fetched s2.trace = fetched s.trace := by rw [htr]; rfl
  have he : entered s2.trace = (i, (s.thr i).tx) :: entered s.trace := by rw [htr]; rfl
  have hr : released s2.trace = released s.trace := by rw [htr]; rfl
  have hnone := hI.twa_inv_no_owner i hi hh hno htx
  have hrel : (entered s.trace).map Prod.fst = released s.trace := by
    rcases h.ent_rel with ⟨_, h2⟩ | ⟨j, hj, h1, _⟩
    · exact h2
    · rw [hnone j hj] at h1; simp at h1
  have hlen : (entered s.trace).length = (released s.trace).length := by
    have := congrArg List.length hrel
    simpa using this
  refine ⟨by rw [hgr, hr]; exact h.gr_eq, by rw [hf, hr, hc]; exact h.fetch_len,
    by rw [hf]; exact h.fetch_seq, ?_, ?_, ?_⟩
  · rw [he]; simp only [List.map_cons, List.length_cons, seqDown]
    rw [← h.ent_seq, htx, h.gr_eq, hlen]
  · right
    refine ⟨i, hi, by rw [hthr]; simp [ho2], ?_⟩
    rw [he, hr]; simp [hrel]
  · intro j hj hj2
    rw [htr]
    apply List.mem_cons_of_mem; apply List.mem_cons_of_mem
    by_cases e : j = i
    · subst e
      rw [hthr]; simp only [Function.update_same]
      rw [htx2]; exact h.held j hj hh
    · rw [hthr] at hj2 ⊢
      simp only [Function.update_noteq e] at hj2 ⊢
      exact h.held j hj hj2

theorem Hist.twa_hist_store_gen {N : Nat} {s s2 : State} (h : Hist N s) (hI : Inv N s)
    (i : Nat) (hi : i < N) (hpc : (s.thr i).pc = .relStore) (t2 : Thread)
    (hthr : s2.thr = Function.update s.thr i t2) (hgr : s2.grant = wrap64 (s.grant + 1))
    (ht2 : holder t2 = false) (g : Nat)
    (htr : s2.trace = Event.storeGrant i g :: s.trace) : Hist N s2 := by
  have hh : holder (s.thr i) = true := by simp [holder, hpc]
  have ho : owner (s.thr i) = true := by simp [owner, hpc]
  have ho2 : owner t2 = false := by
    revert ht2; simp only [owner, holder]; cases t2.pc <;> simp
  have hc : countThr holder s2.thr N + 1 = countThr holder s.thr N := by
    have := countThr_update holder s.thr N i t2 hi
    rw [hh, ht2] at this
    rw [hthr]
    simpa using this
  have hf : fetched s2.trace = fetched s.trace := by rw [htr]; rfl
  have he : entered s2.trace = entered s.trace := by rw [htr]; rfl
  have hr : released s2.trace = i :: released s.trace := by rw [htr]; rfl
  refine ⟨?_, ?_, by rw [hf]; exact h.fetch_seq, by rw [he]; exact h.ent_seq, ?_, ?_⟩
  · rw [hgr, hr, h.gr_eq]; simp only [wrap64, List.length_cons]; omega
  · rw [hf, hr]; simp only [List.length_cons]; have := h.fetch_len; omega
  rotate_left
  · intro j hj hj2
    rw [htr]
    apply List.mem_cons_of_mem
    by_cases e : j = i
    · subst e
      rw [hthr] at hj2; simp only [Function.update_same] at hj2
      rw [ht2] at hj2; simp at hj2
    · rw [hthr] at hj2 ⊢
      simp only [Function.update_noteq e] at hj2 ⊢
      exact h.held j hj hj2
  · left
    constructor
    · intro j hj
      by_cases e : j = i
      · subst e; rw [hthr]; simp [ho2]
      · rw [hthr]; simp only [Function.update_noteq e]
        by_contra hc2
        have hoj : owner (s.thr j) = true := by simpa using hc2
        exact e (hI.twa_inv_owner_unique hj hi hoj ho)
    · rw [he, hr]
      rcases h.ent_rel with ⟨h1, _⟩ | ⟨j, hj, h1, h2⟩
      · rw [h1 i hi] at ho; simp at ho
      · have := hI.twa_inv_owner_unique hj hi h1 ho
        subst this; exact h2

end TWA

namespace TWA

theorem Fifo.twa_fifo_nil : Fifo [] := by
  intro post pre i t h
  cases post <;> simp at h

theorem Fifo.twa_fifo_cons_other {tr : List Event} (h : Fifo tr) (e : Event)
    (he : ∀ i t, e ≠ Event.ret i t) : Fifo (e :: tr) := by
  intro post pre i t hd
  cases post with
  | nil =>
    simp only [List.nil_append, List.cons.injEq] at hd
    exact absurd hd.1 (he i t)
  | cons a post2 =>
    simp only [List.cons_append, List.cons.injEq] at hd
    exact h post2 pre i t hd.2

theorem Fifo.twa_fifo_cons_ret {tr : List Event} (h : Fifo tr) (i t : Nat)
    (h0 : Event.fetchTicket i t ∈ tr) (h1 : t = wrap64 (entered tr).length)
    (h2 : (entered tr).map Prod.fst = released tr) : Fifo (Event.ret i t :: tr) := by
  intro post pre j u hd
  cases post with
  | nil =>
    simp only [List.nil_append, List.cons.injEq, Event.ret.injEq] at hd
    obtain ⟨⟨rfl, rfl⟩, rfl⟩ := hd
    exact ⟨h0, h1, h2⟩
  | cons a post2 =>
    simp only [List.cons_append, List.cons.injEq] at hd
    exact h post2 pre j u hd.2

theorem Good.twa_good_init (N : Nat) (w : Nat → Nat) : Good N (init w) :=
  ⟨Inv.twa_inv_init N w, Hist.twa_hist_init N w, Fifo.twa_fifo_nil⟩

theorem Good.twa_good_enter {N : Nat} {s : State} (h : Good N s) (i : Nat) (hi : i < N)
    (hh : holder (s.thr i) = true) (hno : owner (s.thr i) = false)
    (htx : (s.thr i).tx = s.grant) :
    Fifo (Event.ret i (s.thr i).tx :: Event.loadGrant i s.grant :: s.trace) := by
  have hnone := h.inv.twa_inv_no_owner i hi hh hno htx
  have hrel : (entered s.trace).map Prod.fst = released s.trace := by
    rcases h.hist.ent_rel with ⟨_, h2⟩ | ⟨j, hj, h1, _⟩
    · exact h2
    · rw [hnone j hj] at h1; simp at h1
  have hlen : (entered s.trace).length = (released s.trace).length := by
    have := congrArg List.length hrel
    simpa using this
  apply Fifo.twa_fifo_cons_ret (Fifo.twa_fifo_cons_other h.fifo _ (by intro _ _ e; cases e))
  · exact List.mem_cons_of_mem _ (h.hist.held i hi hh)
  · show _ = wrap64 (entered s.trace).length
    rw [htx, h.hist.gr_eq, hlen]
  · exact hrel

theorem Good.twa_good_threadStep {N L : Nat} {s : State} (h : Good N s) (hN : N < 2 ^ 64)
    (i : Nat) (hi : i < N) : Good N (threadStep L s i) := by
  refine ⟨h.inv.twa_inv_threadStep hN i hi, ?_, ?_⟩
  · have hH := h.hist
    have hI := h.inv
    have htxi := hI.tx_lt i
    have hgl := hI.gr_lt
    cases hpc : (s.thr i).pc
    · exact hH.twa_hist_fetch_gen hI i hi hpc _ (by simp [TWA.threadStep, hpc]; rfl)
        (by simp [TWA.threadStep, hpc]) rfl rfl (by simp [TWA.threadStep, hpc])
    · simp only [TWA.threadStep, hpc]
      split
      · rename_i h0
        rw [twa_sub64_eq_zero htxi hgl] at h0
        exact hH.twa_hist_enter_gen hI i hi (by simp [holder, hpc]) (by simp [owner, hpc]) h0 _ rfl rfl
          rfl rfl rfl
      · split
        · exact hH.twa_hist_frame i hi _ rfl rfl (by simp [holder, hpc]) (by simp [owner, hpc])
            rfl rfl rfl rfl (by intro e he; simp [he])
        · exact hH.twa_hist_frame i hi _ rfl rfl (by simp [holder, hpc]) (by simp [owner, hpc])
            rfl rfl rfl rfl (by intro e he; simp [he])
    · simp only [TWA.threadStep, hpc]
      exact hH.twa_hist_frame i hi _ rfl rfl (by simp [holder, hpc]) (by simp [owner, hpc]) rfl rfl rfl rfl (by intro e he; simp [he])
    · simp only [TWA.threadStep, hpc]
      split
      · exact hH.twa_hist_frame i hi _ rfl rfl (by simp [holder, hpc]) (by simp [owner, hpc]) rfl rfl rfl rfl (by intro e he; simp [he])
      · exact hH.twa_hist_frame i hi _ rfl rfl (by simp [holder, hpc]) (by simp [owner, hpc]) rfl rfl rfl rfl (by intro e he; simp [he])
    · simp only [TWA.threadStep, hpc]
      split
      · exact hH.twa_hist_frame i hi (s.thr i) (by simp) rfl rfl rfl rfl rfl rfl rfl (by intro e he; simp [he])
      · exact hH.twa_hist_frame i hi _ rfl rfl (by simp [holder, hpc]) (by simp [owner, hpc]) rfl rfl rfl rfl (by intro e he; simp [he])
    · simp only [TWA.threadStep, hpc]
      split
      · exact hH.twa_hist_frame i hi (s.thr i) (by simp) rfl rfl rfl rfl rfl rfl rfl (by intro e he; simp [he])
      · rename_i h0
        exact hH.twa_hist_enter_gen hI i hi (by simp [holder, hpc]) (by simp [owner, hpc])
          (by simpa using h0) _ rfl rfl rfl rfl rfl
    · simp only [TWA.threadStep, hpc]
      exact hH.twa_hist_frame i hi _ rfl rfl (by simp [holder, hpc]) (by simp [owner, hpc]) rfl rfl rfl rfl (by intro e he; simp [he])
    · have hg := hI.relg i hi hpc
      exact hH.twa_hist_store_gen hI i hi hpc _ (by simp [TWA.threadStep, hpc]; rfl)
        (by simp [TWA.threadStep, hpc, hg]) (by simp [holder]) _
        (by simp [TWA.threadStep, hpc]; rfl)
    · simp only [TWA.threadStep, hpc]
      exact hH.twa_hist_frame i hi _ rfl rfl (by simp [holder, hpc]) (by simp [owner, hpc]) rfl rfl rfl rfl (by intro e he; simp [he])
    · simp only [TWA.threadStep, hpc]
      exact hH.twa_hist_frame i hi _ rfl rfl (by simp [holder, hpc]) (by simp [owner, hpc]) rfl rfl rfl rfl (by intro e he; simp [he])
  · have hF := h.fifo
    have hI := h.inv
    have htxi := hI.tx_lt i
    have hgl := hI.gr_lt
    cases hpc : (s.thr i).pc
    · simp only [TWA.threadStep, hpc]
      exact hF.twa_fifo_cons_other _ (by intro _ _ e; cases e)
    · simp only [TWA.threadStep, hpc]
      split
      · rename_i h0
        rw [twa_sub64_eq_zero htxi hgl] at h0
        exact h.twa_good_enter i hi (by simp [holder, hpc]) (by simp [owner, hpc]) h0
      · split
        · exact hF.twa_fifo_cons_other _ (by intro _ _ e; cases e)
        · exact hF.twa_fifo_cons_other _ (by intro _ _ e; cases e)
    · simp only [TWA.threadStep, hpc]
      exact hF.twa_fifo_cons_other _ (by intro _ _ e; cases e)
    · simp only [TWA.threadStep, hpc]
      split
      · exact hF.twa_fifo_cons_other _ (by intro _ _ e; cases e)
      · exact hF.twa_fifo_cons_other _ (by intro _ _ e; cases e)
    · simp only [TWA.threadStep, hpc]
      split
      · exact hF.twa_fifo_cons_other _ (by intro _ _ e; cases e)
      · exact hF.twa_fifo_cons_other _ (by intro _ _ e; cases e)
    · simp only [TWA.threadStep, hpc]
      split
      · exact hF.twa_fifo_cons_other _ (by intro _ _ e; cases e)
      · rename_i h0
        exact h.twa_good_enter i hi (by simp [holder, hpc]) (by simp [owner, hpc]) (by simpa using h0)
    · simp only [TWA.threadStep, hpc]
      exact hF
    · simp only [TWA.threadStep, hpc]
      exact hF.twa_fifo_cons_other _ (by intro _ _ e; cases e)
    · simp only [TWA.threadStep, hpc]
      exact hF
    · simp only [TWA.threadStep, hpc]
      exact hF.twa_fifo_cons_other _ (by intro _ _ e; cases e)

theorem Good.twa_good_step {N L : Nat} {s : State} (h : Good N s) (hN : N < 2 ^ 64)
    (a : Action) : Good N (step N L s a) := by
  cases a with
  | run i =>
    simp only [TWA.step]
    split
    · rename_i hi; exact h.twa_good_threadStep hN i hi
    · exact h
  | env a v =>
    simp only [TWA.step]
    split
    · have hI := h.inv
      have hH := h.hist
      exact ⟨⟨hI.tk_lt, hI.gr_lt, hI.tx_lt, hI.tk_eq, hI.off_lt, hI.tx_inj, hI.off_surj,
          hI.own, hI.relg⟩,
        ⟨hH.gr_eq, hH.fetch_len, hH.fetch_seq, hH.ent_seq, hH.ent_rel,
          fun i hi hh => List.mem_cons_of_mem _ (hH.held i hi hh)⟩,
        h.fifo.twa_fifo_cons_other _ (by intro _ _ e; cases e)⟩
    · exact h

theorem Good.twa_good_run {N L : Nat} (hN : N < 2 ^ 64) (sched : List Action) {s : State}
    (h : Good N s) : Good N (run N L s sched) := by
  induction sched generalizing s with
  | nil => exact h
  | cons a rest ih => exact ih (h.twa_good_step hN a)

theorem twa_good_reach {N L : Nat} (hN : N < 2 ^ 64) (w : Nat → Nat) (sched : List Action) :
    Good N (run N L (init w) sched) :=
  Good.twa_good_run hN sched (Good.twa_good_init N w)

end TWA

namespace TWA

theorem twa_getLast?_cons_of_mem {α : Type} (a : α) (l : List α) {x : α} (hx : x ∈ l) :
    (a :: l).getLast? = l.getLast? := by
  cases l with
  | nil => simp at hx
  | cons b l2 => exact List.getLast?_cons_cons

theorem twa_mem_of_getLast? {α : Type} {l : List α} {x : α} (h : l.getLast? = some x) : x ∈ l :=
  List.mem_of_getLast?_eq_some h

theorem PathOK.twa_pathOK_other {L : Nat} {s : State} {i : Nat} (h : PathOK s i) (j : Nat) (hji : j ≠ i) :
    PathOK (threadStep L s j) i := by
  have hne : i ≠ j := fun e => hji e.symm
  have key : ∀ (s2 : State), s2.thr i = s.thr i → loads i s2.trace = loads i s.trace →
      slotReads i s2.trace = slotReads i s.trace → PathOK s2 i := by
    intro s2 e1 e2 e3
    unfold PathOK at h ⊢
    rw [e1, e2, e3]; exact h
  cases hpc : (s.thr j).pc <;> simp only [TWA.threadStep, hpc]
  · exact key _ (by simp [hne]) (by simp [loads, hji]) (by simp [slotReads, hji])
  · split
    · exact key _ (by simp [hne]) (by simp [loads, hji]) (by simp [slotReads, hji])
    · split
      · exact key _ (by simp [hne]) (by simp [loads, hji]) (by simp [slotReads, hji])
      · exact key _ (by simp [hne]) (by simp [loads, hji]) (by simp [slotReads, hji])
  · exact key _ (by simp [hne]) (by simp [loads, hji]) (by simp [slotReads, hji])
  · split
    · exact key _ (by simp [hne]) (by simp [loads, hji]) (by simp [slotReads, hji])
    · exact key _ (by simp [hne]) (by simp [loads, hji]) (by simp [slotReads, hji])
  · split
    · exact key _ (by simp [hne]) (by simp [loads, hji]) (by simp [slotReads, hji])
    · exact key _ (by simp [hne]) (by simp [loads, hji]) (by simp [slotReads, hji])
  · split
    · exact key _ (by simp [hne]) (by simp [loads, hji]) (by simp [slotReads, hji])
    · exact key _ (by simp [hne]) (by simp [loads, hji]) (by simp [slotReads, hji])
  · exact key _ (by simp [hne]) (by simp [loads, hji]) (by simp [slotReads, hji])
  · exact key _ (by simp [hne]) (by simp [loads, hji]) (by simp [slotReads, hji])
  · exact key _ (by simp [hne]) (by simp [loads, hji]) (by simp [slotReads, hji])
  · exact key _ (by simp [hne]) (by simp [loads, hji]) (by simp [slotReads, hji])

theorem PathOK.twa_pathOK_self {L : Nat} {s : State} {i : Nat} (h : PathOK s i) :
    PathOK (threadStep L s i) i := by
  unfold PathOK at h
  cases hpc : (s.thr i).pc <;> simp only [hpc] at h <;> simp only [TWA.threadStep, hpc]
  · simp [PathOK, loads, slotReads]
  · obtain ⟨h1, h2⟩ := h
    split
    · rename_i h0
      simp only [PathOK, Function.update_same, loads, slotReads, if_true, h1, h2]
      exact ⟨⟨s.grant, by simp, by rw [h0]; simp⟩, fun _ _ _ => trivial⟩
    · split
      · rename_i h0 h3
        simp only [PathOK, Function.update_same, loads, slotReads, if_true, h1]
        exact ⟨by simp, fun g hg => by simp at hg; rw [hg]; exact h3⟩
      · rename_i h0 h3
        simp only [PathOK, Function.update_same, loads, slotReads, if_true, h1, h2]
        exact ⟨⟨s.grant, by simp, by omega⟩, fun _ _ _ => trivial⟩
  · simpa [PathOK, loads] using h
  · obtain ⟨h1, h2⟩ := h
    split
    · rename_i h3
      simp only [PathOK, Function.update_same, loads, slotReads, if_true]
      refine ⟨⟨s.grant, by simp, h3⟩, ?_⟩
      intro g0 hg0 hle
      exfalso
      obtain ⟨x, hx⟩ := List.exists_mem_of_ne_nil _ h1
      rw [twa_getLast?_cons_of_mem _ _ hx] at hg0
      have := h2 g0 (twa_mem_of_getLast? hg0)
      omega
    · rename_i h3
      simp only [PathOK, Function.update_same, loads, if_true]
      exact ⟨by simp, fun g hg => by
        simp at hg
        rcases hg with hg | hg
        · rw [hg]; omega
        · exact h2 g hg⟩
  · split
    · simpa [PathOK, hpc, loads] using h
    · simpa [PathOK, loads] using h
  · obtain ⟨⟨g, hg1, hg2⟩, h2⟩ := h
    split
    · simp only [PathOK, hpc, loads, slotReads, if_true]
      refine ⟨⟨g, by simp [hg1], hg2⟩, ?_⟩
      intro g0 hg0 hle
      rw [twa_getLast?_cons_of_mem _ _ hg1] at hg0
      exact h2 g0 hg0 hle
    · simp only [PathOK, Function.update_same, loads, slotReads, if_true]
      refine ⟨⟨g, by simp [hg1], hg2⟩, ?_⟩
      intro g0 hg0 hle
      rw [twa_getLast?_cons_of_mem _ _ hg1] at hg0
      exact h2 g0 hg0 hle
  · simp [PathOK]
  · simp [PathOK]
  · simp [PathOK]
  · simp [PathOK]

theorem PathOK.twa_pathOK_step {N L : Nat} {s : State} {i : Nat} (h : PathOK s i) (a : Action) :
    PathOK (step N L s a) i := by
  cases a with
  | run j =>
    simp only [TWA.step]
    split
    · by_cases e : j = i
      · subst e; exact h.twa_pathOK_self
      · exact h.twa_pathOK_other j e
    · exact h
  | env a v =>
    simp only [TWA.step]
    split
    · unfold PathOK at h ⊢
      simpa [loads, slotReads] using h
    · exact h

theorem twa_pathOK_run {N L : Nat} (sched : List Action) {s : State} {i : Nat} (h : PathOK s i) :
    PathOK (run N L s sched) i := by
  induction sched generalizing s with
  | nil => exact h
  | cons a rest ih => exact ih (h.twa_pathOK_step a)

theorem twa_pathOK_reach (N L : Nat) (w : Nat → Nat) (sched : List Action) (i : Nat) :
    PathOK (run N L (init w) sched) i :=
  twa_pathOK_run sched (by simp [PathOK, TWA.init])

end TWA

namespace TWA

theorem Stranded.twa_stranded_threadStep {N L : Nat} {s : State} {k : Nat} (h : Stranded N s k)
    (hg : Inv N s) (hk : k < N) (i : Nat) (hi : i < N) :
    Stranded N (threadStep L s i) k := by
  have hq := h.quiet i hi
  have hkh : holder (s.thr k) = true := by simp [holder, h.spin]
  have htxi := hg.tx_lt i
  have hgl := hg.gr_lt
  by_cases e : i = k
  · subst e
    simp only [TWA.threadStep, h.spin, h.same, if_true]
    exact ⟨h.spin, h.near, h.same, h.quiet⟩
  · have hne : k ≠ i := fun x => e x.symm
    have hdiff : holder (s.thr i) = true → (s.thr i).tx ≠ s.grant := by
      intro hh hx
      exact e (hg.tx_inj i k hi hk hh hkh (by rw [hx, h.near]))
    have key : ∀ (s2 : State) (t2 : Thread), s2.thr = Function.update s.thr i t2 →
        s2.grant = s.grant → s2.wait_array = s.wait_array →
        (t2.pc ≠ .cs ∧ t2.pc ≠ .relStore ∧ t2.pc ≠ .relLoad ∧ t2.pc ≠ .relNotify) →
        Stranded N s2 k := by
      intro s2 t2 e1 e2 e3 e4
      have hk2 : s2.thr k = s.thr k := by rw [e1]; simp [hne]
      refine ⟨by rw [hk2]; exact h.spin, by rw [hk2, e2]; exact h.near,
        by rw [hk2, e3]; exact h.same, ?_⟩
      intro j hj
      by_cases ej : j = i
      · subst ej; rw [e1]; simpa using e4
      · rw [e1]; simpa [ej] using h.quiet j hj
    cases hpc : (s.thr i).pc <;> simp only [TWA.threadStep, hpc]
    · exact key _ _ rfl rfl rfl (by simp)
    · have h0 : sub64 (s.thr i).tx s.grant ≠ 0 := fun x =>
        hdiff (by simp [holder, hpc]) ((twa_sub64_eq_zero htxi hgl).mp x)
      simp only [h0, if_false]
      split
      · exact key _ _ rfl rfl rfl (by simp)
      · exact key _ _ rfl rfl rfl (by simp)
    · exact key _ _ rfl rfl rfl (by simp)
    · split
      · exact key _ _ rfl rfl rfl (by simp)
      · exact key _ _ rfl rfl rfl (by simp)
    · split
      · exact key _ (s.thr i) (by simp) rfl rfl (by simp [hpc])
      · exact key _ _ rfl rfl rfl (by simp)
    · have := hdiff (by simp [holder, hpc])
      simp only [ne_eq, this, not_false_eq_true, if_true]
      exact key _ (s.thr i) (by simp) rfl rfl (by simp [hpc])
    · exact absurd hpc hq.1
    · exact absurd hpc hq.2.1
    · exact absurd hpc hq.2.2.1
    · exact absurd hpc hq.2.2.2

theorem Stranded.twa_stranded_run {N L : Nat} (hN : N < 2 ^ 64) {k : Nat} (hk : k < N) (ids : List Nat)
    {s : State} (h : Stranded N s k) (hg : Inv N s) :
    Stranded N (run N L s (ids.map Action.run)) k := by
  induction ids generalizing s with
  | nil => exact h
  | cons i rest ih =>
    simp only [List.map_cons, TWA.run, List.foldl_cons]
    have hs : Stranded N (step N L s (.run i)) k ∧ Inv N (step N L s (.run i)) := by
      refine ⟨?_, hg.twa_inv_step hN _⟩
      simp only [TWA.step]
      split
      · rename_i hi; exact h.twa_stranded_threadStep hg hk i hi
      · exact h
    exact ih hs.1 hs.2

theorem twa_run_append (N L : Nat) (s : State) (a b : List Action) :
    run N L s (a ++ b) = run N L (run N L s a) b := by
  simp [TWA.run, List.foldl_append]

end TWA

namespace TWA

theorem TicketSeq.twa_ticketSeq_init (w : Nat → Nat) : TicketSeq (init w) := ⟨rfl, rfl⟩

theorem TicketSeq.twa_ticketSeq_threadStep {L : Nat} {s : State} (h : TicketSeq s) (i : Nat) :
    TicketSeq (threadStep L s i) := by
  obtain ⟨h1, h2⟩ := h
  cases hpc : (s.thr i).pc <;> simp only [TWA.threadStep, hpc]
  · refine ⟨?_, ?_⟩
    · simp only [fetched, List.length_cons]
      rw [h1]; simp only [wrap64]; omega
    · simp only [fetched, List.length_cons, seqDown]
      rw [← h2, ← h1]
  · split
    · exact ⟨h1, h2⟩
    · split
      · exact ⟨h1, h2⟩
      · exact ⟨h1, h2⟩
  · exact ⟨h1, h2⟩
  · split
    · exact ⟨h1, h2⟩
    · exact ⟨h1, h2⟩
  · split
    · exact ⟨h1, h2⟩
    · exact ⟨h1, h2⟩
  · split
    · exact ⟨h1, h2⟩
    · exact ⟨h1, h2⟩
  · exact ⟨h1, h2⟩
  · exact ⟨h1, h2⟩
  · exact ⟨h1, h2⟩
  · exact ⟨h1, h2⟩

theorem twa_ticketSeq_run (N L : Nat) (sched : List Action) {s : State} (h : TicketSeq s) :
    TicketSeq (run N L s sched) := by
  induction sched generalizing s with
  | nil => exact h
  | cons a rest ih =>
    apply ih
    cases a with
    | run i =>
      simp only [TWA.step]
      split
      · exact h.twa_ticketSeq_threadStep i
      · exact h
    | env a v =>
      simp only [TWA.step]
      split
      · exact ⟨h.tk, h.seq⟩
      · exact h

theorem twa_seqDown_reverse (n : Nat) :
    (seqDown n).reverse = (List.range n).map wrap64 := by
  induction n with
  | zero => rfl
  | succ m ih => simp [seqDown, List.range_succ, ih]

/-- The tickets drawn in a run, oldest first, are `0, 1, 2, ...` as `u64`
values. -/
theorem twa_fetched_nth (N L : Nat) (w : Nat → Nat) (sched : List Action) (n : Nat)
    (hn : n < (fetched (run N L (init w) sched).trace).length) :
    (fetched (run N L (init w) sched).trace).reverse[n]? = some (wrap64 n) := by
  have h := (twa_ticketSeq_run N L sched (TicketSeq.twa_ticketSeq_init w)).seq
  generalize fetched (run N L (init w) sched).trace = l at h hn
  rw [h, twa_seqDown_reverse, List.getElem?_map, List.getElem?_range hn]
  rfl

end TWA

namespace TWA

/-- While the ticket counter has not wrapped, the tickets held are the
values from `grant` up to `ticket`. -/
theorem Good.twa_good_nowrap {N : Nat} {s : State} (h : Good N s)
    (hT : (fetched s.trace).length < 2 ^ 64) :
    s.ticket = s.grant + countThr holder s.thr N ∧
    (∀ i, i < N → holder (s.thr i) = true →
      s.grant ≤ (s.thr i).tx ∧ (s.thr i).tx < s.ticket) := by
  have h1 := h.hist.fetch_len
  have h2 := h.hist.gr_eq
  have h3 := h.inv.tk_eq
  simp only [wrap64] at h2
  have h4 : s.ticket = s.grant + countThr holder s.thr N := by omega
  refine ⟨h4, ?_⟩
  intro i hi hh
  have h5 := h.inv.off_lt i hi hh
  have h6 := h.inv.tx_lt i
  simp only [sub64] at h5
  omega

theorem Good.twa_good_counters {N : Nat} {s : State} (h : Good N s)
    (hT : (fetched s.trace).length < 2 ^ 64) :
    s.grant ≤ s.ticket ∧
    (∀ t, (s.grant < t ∧ t < s.ticket) ↔
      ∃ i, i < N ∧ holder (s.thr i) = true ∧ (s.thr i).tx = t ∧ t ≠ s.grant) ∧
    (s.grant < s.ticket →
      ∃ i, i < N ∧ holder (s.thr i) = true ∧ (s.thr i).tx = s.grant ∧
        ∀ j, j < N → holder (s.thr j) = true → (s.thr j).tx = s.grant → j = i) := by
  obtain ⟨h1, h2⟩ := h.twa_good_nowrap hT
  have hg := h.inv.gr_lt
  refine ⟨by omega, ?_, ?_⟩
  · intro t
    constructor
    · rintro ⟨ht1, ht2⟩
      obtain ⟨i, hi, hh, ho⟩ := h.inv.off_surj (t - s.grant) (by omega)
      have h3 := h2 i hi hh
      have h4 := h.inv.tx_lt i
      simp only [sub64] at ho
      exact ⟨i, hi, hh, by omega, by omega⟩
    · rintro ⟨i, hi, hh, rfl, hne⟩
      have h3 := h2 i hi hh
      omega
  · intro hlt
    obtain ⟨i, hi, hh, ho⟩ := h.inv.off_surj 0 (by omega)
    have h3 := h2 i hi hh
    have h4 := h.inv.tx_lt i
    simp only [sub64] at ho
    have h5 : (s.thr i).tx = s.grant := by omega
    exact ⟨i, hi, hh, h5, fun j hj hhj hj2 => h.inv.tx_inj j i hj hi hhj hh (by rw [hj2, h5])⟩

end TWA

namespace TWA

theorem twa_array_size_eq : array_size = 4096 := by decide

theorem twa_hash_lt (L tx : Nat) : Hash L tx < array_size := by
  have h : Hash L tx ≤ array_size - 1 := by
    unfold Hash
    exact Nat.and_le_right
  rw [twa_array_size_eq] at h ⊢
  omega

theorem twa_slots_cons {tr : List Event} (h : SlotsInRange tr) (e : Event)
    (he : match e with
      | .readSlot _ a _ => a < array_size
      | .addSlot _ a => a < array_size
      | .envWrite a _ => a < array_size
      | _ => True) : SlotsInRange (e :: tr) := by
  intro x hx
  rcases List.mem_cons.mp hx with rfl | hx
  · exact he
  · exact h x hx

theorem twa_slots_threadStep {L : Nat} {s : State} (hs : SlotIsHash L s)
    (h : SlotsInRange s.trace) (i : Nat) :
    SlotIsHash L (threadStep L s i) ∧ SlotsInRange (threadStep L s i).trace := by
  have key : ∀ (t2 : Thread), (inLongTerm t2 = true → t2.slot = Hash L t2.tx) →
      SlotIsHash L { s with thr := Function.update s.thr i t2 } := by
    intro t2 ht2 j hj
    by_cases e : j = i
    · subst e; simp only [Function.update_same] at hj ⊢; exact ht2 hj
    · simp only [Function.update_noteq e] at hj ⊢; exact hs j hj
  have hsl : inLongTerm (s.thr i) = true → (s.thr i).slot < array_size := by
    intro hl; rw [hs i hl]; exact twa_hash_lt _ _
  cases hpc : (s.thr i).pc <;> simp only [TWA.threadStep, hpc]
  · exact ⟨key _ (by simp [inLongTerm]), twa_slots_cons h _ trivial⟩
  · split
    · exact ⟨key _ (by simp [inLongTerm]),
        twa_slots_cons (twa_slots_cons h _ trivial) _ trivial⟩
    · split
      · exact ⟨key _ (by simp [inLongTerm]), twa_slots_cons h _ trivial⟩
      · exact ⟨key _ (by simp [inLongTerm]), twa_slots_cons h _ trivial⟩
  · have := hs i (by simp [inLongTerm, hpc])
    exact ⟨key _ (fun _ => this), twa_slots_cons h _ (hsl (by simp [inLongTerm, hpc]))⟩
  · have := hs i (by simp [inLongTerm, hpc])
    split
    · exact ⟨key _ (by simp [inLongTerm]), twa_slots_cons h _ trivial⟩
    · exact ⟨key _ (fun _ => this), twa_slots_cons h _ trivial⟩
  · have := hs i (by simp [inLongTerm, hpc])
    split
    · exact ⟨hs, twa_slots_cons h _ (hsl (by simp [inLongTerm, hpc]))⟩
    · exact ⟨key _ (fun _ => this), twa_slots_cons h _ (hsl (by simp [inLongTerm, hpc]))⟩
  · split
    · exact ⟨hs, twa_slots_cons h _ trivial⟩
    · exact ⟨key _ (by simp [inLongTerm]),
        twa_slots_cons (twa_slots_cons h _ trivial) _ trivial⟩
  · exact ⟨key _ (by simp [inLongTerm]), h⟩
  · exact ⟨key _ (by simp [inLongTerm]), twa_slots_cons h _ trivial⟩
  · exact ⟨key _ (by simp [inLongTerm]), h⟩
  · exact ⟨key _ (by simp [inLongTerm]), twa_slots_cons h _ (twa_hash_lt _ _)⟩

theorem twa_slots_run {N L : Nat} (sched : List Action) {s : State} (hs : SlotIsHash L s)
    (h : SlotsInRange s.trace) :
    SlotIsHash L (run N L s sched) ∧ SlotsInRange (run N L s sched).trace := by
  induction sched generalizing s with
  | nil => exact ⟨hs, h⟩
  | cons a rest ih =>
    have hstep : SlotIsHash L (step N L s a) ∧ SlotsInRange (step N L s a).trace := by
      cases a with
      | run i =>
        simp only [TWA.step]
        split
        · exact twa_slots_threadStep hs h i
        · exact ⟨hs, h⟩
      | env a v =>
        simp only [TWA.step]
        split
        · rename_i ha
          exact ⟨hs, twa_slots_cons h _ ha⟩
        · exact ⟨hs, h⟩
    exact ih hstep.1 hstep.2

/-- The hash is the ticket times 127, modulo 4096, XOR the low 12 bits of the
lock address. -/
theorem twa_hash_mod (L tx : Nat) : Hash L tx = (tx * 127 % 4096) ^^^ (L % 4096) := by
  have e : array_size - 1 = 2 ^ 12 - 1 := by decide
  unfold Hash
  simp only [e, wrap64]
  rw [Nat.and_xor_distrib_right, Nat.and_pow_two_sub_one_eq_mod, Nat.and_pow_two_sub_one_eq_mod]
  have : tx * 127 % 2 ^ 64 % 2 ^ 12 = tx * 127 % 4096 := by omega
  rw [this]

theorem twa_hash_eq_iff (L t1 t2 : Nat) : Hash L t1 = Hash L t2 ↔ t1 % 4096 = t2 % 4096 := by
  rw [twa_hash_mod, twa_hash_mod, Nat.xor_left_inj]
  omega

end TWA

namespace TL

theorem tl_owner_holder {t : Thread} (h : owner t = true) : holder t = true := by
  revert h; simp only [owner, holder]; cases t.pc <;> simp

theorem tl_wrote_owner {t : Thread} (h : wrote t = true) : owner t = true := by
  revert h; simp only [owner, wrote]; cases t.pc <;> simp

theorem Inv.tl_inv_owner_unique {N : Nat} {s : State} (h : Inv N s) {i j : Nat} (hi : i < N)
    (hj : j < N) (hoi : owner (s.thr i) = true) (hoj : owner (s.thr j) = true) : i = j :=
  h.tx_inj i j hi hj (tl_owner_holder hoi) (tl_owner_holder hoj)
    (by rw [h.own i hi hoi, h.own j hj hoj])

theorem Inv.tl_inv_init (N K : Nat) : Inv N (init K) := by
  have hc : countThr holder (TL.init K).thr N = 0 :=
    countThr_eq_zero _ _ _ (fun _ _ => rfl)
  refine ⟨by simp [TL.init], by simp [TL.init, INT_MAX], ?_, ?_, ?_, ?_, ?_, ?_, ?_, ?_⟩
  · intro i; simp [TL.init]
  · intro i; simp [TL.init]
  · rw [hc]; simp [TL.init, wrapS32]
  · intro i _ h; simp [TL.init, holder] at h
  · intro i j _ _ h; simp [TL.init, holder] at h
  · intro d hd; rw [hc] at hd; omega
  · intro i _ h; simp [TL.init, owner] at h
  · intro i _ h; simp [TL.init] at h

theorem Inv.tl_inv_frame {N : Nat} {s s2 : State} (h : Inv N s) (i : Nat) (hi : i < N) (t2 : Thread)
    (hthr : s2.thr = Function.update s.thr i t2)
    (htk : s2.ticket = s.ticket) (hgr : s2.grant = s.grant)
    (htx : t2.tx = (s.thr i).tx) (hh : holder t2 = holder (s.thr i))
    (hown : owner t2 = true → t2.tx = s.grant)
    (hrel : t2.pc = .relStore → t2.g = s.grant) : Inv N s2 := by
  have hc : countThr holder s2.thr N = countThr holder s.thr N := by
    have := countThr_update holder s.thr N i t2 hi
    rw [hthr, hh] at *
    omega
  have hhold : ∀ j, holder (s2.thr j) = holder (s.thr j) := by
    intro j
    by_cases e : j = i
    · subst e; rw [hthr]; simp [hh]
    · rw [hthr]; simp [e]
  have htxs : ∀ j, (s2.thr j).tx = (s.thr j).tx := by
    intro j
    by_cases e : j = i
    · subst e; rw [hthr]; simp [htx]
    · rw [hthr]; simp [e]
  refine ⟨by rw [hgr]; exact h.gr_lo, by rw [hgr]; exact h.gr_hi, ?_, ?_, ?_, ?_, ?_, ?_, ?_, ?_⟩
  · intro j; rw [htxs]; exact h.tx_lo j
  · intro j; rw [htxs]; exact h.tx_hi j
  · rw [htk, hgr, hc]; exact h.tk_eq
  · intro j hj hj2
    rw [htxs, hgr, hc]; rw [hhold] at hj2; exact h.off_lt j hj hj2
  · intro j k hj hk hj2 hk2 e
    rw [hhold] at hj2 hk2; rw [htxs, htxs] at e
    exact h.tx_inj j k hj hk hj2 hk2 e
  · intro d hd
    rw [hc] at hd
    obtain ⟨j, hj, hj2, hj3⟩ := h.off_surj d hd
    exact ⟨j, hj, by rw [hhold]; exact hj2, by rw [htxs, hgr]; exact hj3⟩
  · intro j hj hj2
    by_cases e : j = i
    · subst e
      rw [hthr] at hj2 ⊢; simp at hj2 ⊢; rw [hgr]; exact hown hj2
    · rw [hthr] at hj2 ⊢; simp [e] at hj2 ⊢; rw [hgr]; exact h.own j hj hj2
  · intro j hj hj2
    by_cases e : j = i
    · subst e
      rw [hthr] at hj2 ⊢; simp at hj2 ⊢; rw [hgr]; exact hrel hj2
    · rw [hthr] at hj2 ⊢; simp [e] at hj2 ⊢; rw [hgr]; exact h.relg j hj hj2

theorem Inv.tl_inv_store_gen {N : Nat} {s s2 : State} (h : Inv N s) (i : Nat) (hi : i < N)
    (hpc : (s.thr i).pc = .relStore) (hno : s.grant + 1 ≤ INT_MAX) (t2 : Thread)
    (hthr : s2.thr = Function.update s.thr i t2)
    (htk : s2.ticket = s.ticket) (hgr : s2.grant = s.grant + 1)
    (ht2 : holder t2 = false) (htx2 : t2.tx = (s.thr i).tx) : Inv N s2 := by
  have hh : holder (s.thr i) = true := by simp [holder, hpc]
  have ho : owner (s.thr i) = true := by simp [owner, hpc]
  have ho2 : owner t2 = false := by
    revert ht2; simp only [owner, holder]; cases t2.pc <;> simp
  have hp2 : t2.pc ≠ .relStore := by
    intro e; simp [holder, e] at ht2
  have hpos := countThr_pos holder s.thr N i hi hh
  have hc : countThr holder s2.thr N + 1 = countThr holder s.thr N := by
    have := countThr_update holder s.thr N i t2 hi
    rw [hh, ht2] at this
    rw [hthr]
    simpa using this
  have h1 := h.gr_lo
  have h2 := h.gr_hi
  have h3 := h.tk_eq
  have htx := h.own i hi ho
  have hcN := countThr_le holder s.thr N
  have hne : ∀ j, j < N → j ≠ i → holder (s.thr j) = true → (s.thr j).tx ≠ s.grant := by
    intro j hj hji hj2 e
    exact hji (h.tx_inj j i hj hi hj2 hh (by rw [e, htx]))
  have hother : ∀ j, j ≠ i → s2.thr j = s.thr j := by
    intro j e; rw [hthr]; simp [e]
  have hself : s2.thr i = t2 := by rw [hthr]; simp
  simp only [INT_MAX] at h2 hno
  refine ⟨by rw [hgr]; omega, by rw [hgr]; simp only [INT_MAX]; omega, ?_, ?_, ?_, ?_, ?_, ?_,
    ?_, ?_⟩
  · intro j
    by_cases e : j = i
    · subst e; rw [hself, htx2]; exact h.tx_lo j
    · rw [hother j e]; exact h.tx_lo j
  · intro j
    by_cases e : j = i
    · subst e; rw [hself, htx2]; exact h.tx_hi j
    · rw [hother j e]; exact h.tx_hi j
  · rw [htk, hgr, h3]; simp only [wrapS32]; omega
  · intro j hj hj2
    by_cases e : j = i
    · subst e; rw [hself, ht2] at hj2; simp at hj2
    · rw [hother j e] at hj2 ⊢
      have a1 := h.off_lt j hj hj2
      have a2 := hne j hj e hj2
      have a3 := h.tx_lo j
      have a4 := h.tx_hi j
      rw [hgr]
      omega
  · intro j k hj hk hj2 hk2 e
    by_cases ej : j = i
    · subst ej; rw [hself, ht2] at hj2; simp at hj2
    · by_cases ek : k = i
      · subst ek; rw [hself, ht2] at hk2; simp at hk2
      · rw [hother j ej] at hj2 e
        rw [hother k ek] at hk2 e
        exact h.tx_inj j k hj hk hj2 hk2 e
  · intro d hd
    obtain ⟨j, hj, hj2, hj3⟩ := h.off_surj (d + 1) (by omega)
    have hji : j ≠ i := by
      intro e2; rw [e2, htx] at hj3; omega
    refine ⟨j, hj, by rw [hother j hji]; exact hj2, ?_⟩
    have a3 := h.tx_lo j
    have a4 := h.tx_hi j
    rw [hother j hji, hgr]
    omega
  · intro j hj hj2
    by_cases e : j = i
    · subst e; rw [hself, ho2] at hj2; simp at hj2
    · exfalso
      rw [hother j e] at hj2
      exact hne j hj e (tl_owner_holder hj2) (h.own j hj hj2)
  · intro j hj hj2
    by_cases e : j = i
    · subst e; rw [hself] at hj2; exact absurd hj2 hp2
    · exfalso
      rw [hother j e] at hj2
      have hj3 : holder (s.thr j) = true := by simp [holder, hj2]
      have hj4 : owner (s.thr j) = true := by simp [owner, hj2]
      exact hne j hj e hj3 (h.own j hj hj4)

theorem Inv.tl_inv_fetch_gen {N : Nat} {s s2 : State} (h : Inv N s) (hN : N < 2 ^ 31)
    (i : Nat) (hi : i < N) (hpc : (s.thr i).pc = .idle) (t2 : Thread)
    (hthr : s2.thr = Function.update s.thr i t2)
    (htk : s2.ticket = wrapS32 (s.ticket + 1)) (hgr : s2.grant = s.grant)
    (ht2 : t2.pc = .spin) (htx2 : t2.tx = s.ticket) : Inv N s2 := by
  have hnh : holder (s.thr i) = false := by simp [holder, hpc]
  have hh2 : holder t2 = true := by simp [holder, ht2]
  have ho2 : owner t2 = false := by simp [owner, ht2]
  have hlt := countThr_lt holder s.thr N i hi hnh
  have hc : countThr holder s2.thr N = countThr holder s.thr N + 1 := by
    have := countThr_update holder s.thr N i t2 hi
    rw [hnh, hh2] at this
    rw [hthr]
    simpa using this
  have h1 := h.gr_lo
  have h2 := h.gr_hi
  have h3 := h.tk_eq
  simp only [INT_MAX] at h2
  simp only [wrapS32] at h3
  have hoff : (s.ticket - s.grant) % 2 ^ 32 = countThr holder s.thr N := by
    omega
  have hother : ∀ j, j ≠ i → s2.thr j = s.thr j := by
    intro j e; rw [hthr]; simp [e]
  have hself : s2.thr i = t2 := by rw [hthr]; simp
  refine ⟨by rw [hgr]; exact h1, by rw [hgr]; exact h.gr_hi, ?_, ?_, ?_, ?_, ?_, ?_, ?_, ?_⟩
  · intro j
    by_cases e : j = i
    · subst e; rw [hself, htx2]; omega
    · rw [hother j e]; exact h.tx_lo j
  · intro j
    by_cases e : j = i
    · subst e; rw [hself, htx2]; omega
    · rw [hother j e]; exact h.tx_hi j
  · rw [htk, hgr, hc]; simp only [wrapS32]; push_cast; omega
  · intro j hj hj2
    rw [hc, hgr]
    by_cases e : j = i
    · subst e; rw [hself, htx2, hoff]; push_cast; omega
    · rw [hother j e] at hj2 ⊢
      have := h.off_lt j hj hj2
      push_cast; omega
  · intro j k hj hk hj2 hk2 e
    by_cases ej : j = i <;> by_cases ek : k = i
    · rw [ej, ek]
    · exfalso
      subst ej
      rw [hself, hother k ek, htx2] at e
      rw [hother k ek] at hk2
      have := h.off_lt k hk hk2
      rw [← e, hoff] at this; omega
    · exfalso
      subst ek
      rw [hself, hother j ej, htx2] at e
      rw [hother j ej] at hj2
      have := h.off_lt j hj hj2
      rw [e, hoff] at this; omega
    · rw [hother j ej] at hj2 e
      rw [hother k ek] at hk2 e
      exact h.tx_inj j k hj hk hj2 hk2 e
  · intro d hd
    rw [hc] at hd
    by_cases e : d = countThr holder s.thr N
    · exact ⟨i, hi, by rw [hself]; exact hh2, by rw [hself, htx2, hgr, hoff, e]⟩
    · obtain ⟨j, hj, hj2, hj3⟩ := h.off_surj d (by omega)
      have hji : j ≠ i := by
        intro e2; rw [e2, hnh] at hj2; simp at hj2
      exact ⟨j, hj, by rw [hother j hji]; exact hj2, by rw [hother j hji, hgr]; exact hj3⟩
  · intro j hj hj2
    by_cases e : j = i
    · subst e; rw [hself, ho2] at hj2; simp at hj2
    · rw [hother j e] at hj2 ⊢; rw [hgr]; exact h.own j hj hj2
  · intro j hj hj2
    by_cases e : j = i
    · subst e; rw [hself, ht2] at hj2; simp at hj2
    · rw [hother j e] at hj2 ⊢; rw [hgr]; exact h.relg j hj hj2

end TL

namespace TL

theorem Hist.tl_hist_init (N K : Nat) : Hist N K (init K) := by
  have hc : countThr holder (TL.init K).thr N = 0 :=
    countThr_eq_zero _ _ _ (fun _ _ => rfl)
  have hw : countThr wrote (TL.init K).thr N = 0 :=
    countThr_eq_zero _ _ _ (fun _ _ => rfl)
  refine ⟨by simp [TL.init, released], ?_, ?_, ?_, ?_, ?_, by simp [TL.init, fetched, seqDown]⟩
  · rw [hw]; simp [TL.init, released]
  · intro i _ h; simp [TL.init] at h
  · rw [sumThr_const Thread.left _ N K (fun _ _ => rfl)]; simp [TL.init, released]
  · intro i _ h; simp [TL.init, holder] at h
  · rw [hc]; simp [TL.init, released, fetched]

/-- Steps that neither draw a ticket, write the counter nor write `grant`. -/
theorem Hist.tl_hist_frame {N K : Nat} {s s2 : State} (h : Hist N K s) (i : Nat) (hi : i < N)
    (t2 : Thread)
    (hthr : s2.thr = Function.update s.thr i t2) (hgr : s2.grant = s.grant)
    (hcn : s2.counter = s.counter)
    (hh : holder t2 = holder (s.thr i)) (hw : wrote t2 = wrote (s.thr i))
    (hl : t2.left = (s.thr i).left)
    (htmp : t2.pc = .csWrite → t2.tmp = s.counter)
    (hf : fetched s2.trace = fetched s.trace)
    (hr : released s2.trace = released s.trace) : Hist N K s2 := by
  have hc : countThr holder s2.thr N = countThr holder s.thr N := by
    have := countThr_update holder s.thr N i t2 hi
    rw [hthr, hh] at *
    omega
  have hcw : countThr wrote s2.thr N = countThr wrote s.thr N := by
    have := countThr_update wrote s.thr N i t2 hi
    rw [hthr, hw] at *
    omega
  have hsl : sumThr Thread.left s2.thr N = sumThr Thread.left s.thr N := by
    have := sumThr_update Thread.left s.thr N i t2 hi
    rw [hthr, hl] at *
    omega
  have hother : ∀ j, j ≠ i → s2.thr j = s.thr j := by
    intro j e; rw [hthr]; simp [e]
  have hself : s2.thr i = t2 := by rw [hthr]; simp
  refine ⟨by rw [hgr, hr]; exact h.gr_eq, by rw [hcn, hr, hcw]; exact h.cnt, ?_,
    by rw [hsl, hr]; exact h.left_sum, ?_, by rw [hf, hr, hc]; exact h.fetch_len,
    by rw [hf]; exact h.fetch_seq⟩
  · intro j hj hj2
    rw [hcn]
    by_cases e : j = i
    · subst e; rw [hself] at hj2 ⊢; exact htmp hj2
    · rw [hother j e] at hj2 ⊢; exact h.tmp_eq j hj hj2
  · intro j hj hj2
    by_cases e : j = i
    · subst e; rw [hself] at hj2 ⊢; rw [hh] at hj2; rw [hl]; exact h.left_pos j hj hj2
    · rw [hother j e] at hj2 ⊢; exact h.left_pos j hj hj2

theorem Hist.tl_hist_fetch_gen {N K : Nat} {s s2 : State} (h : Hist N K s) (hI : Inv N s)
    (i : Nat) (hi : i < N) (hpc : (s.thr i).pc = .idle) (hleft : (s.thr i).left ≠ 0)
    (t2 : Thread)
    (hthr : s2.thr = Function.update s.thr i t2) (hgr : s2.grant = s.grant)
    (hcn : s2.counter = s.counter)
    (ht2 : t2.pc = .spin) (hl : t2.left = (s.thr i).left)
    (htr : s2.trace = Event.fetchTicket i s.ticket :: s.trace) : Hist N K s2 := by
  have hnh : holder (s.thr i) = false := by simp [holder, hpc]
  have hh2 : holder t2 = true := by simp [holder, ht2]
  have hnw : wrote (s.thr i) = false := by simp [wrote, hpc]
  have hw2 : wrote t2 = false := by simp [wrote, ht2]
  have hc : countThr holder s2.thr N = countThr holder s.thr N + 1 := by
    have := countThr_update holder s.thr N i t2 hi
    rw [hnh, hh2] at this
    rw [hthr]
    simpa using this
  have hcw : countThr wrote s2.thr N = countThr wrote s.thr N := by
    have := countThr_update wrote s.thr N i t2 hi
    rw [hthr, hnw, hw2] at *
    omega
  have hsl : sumThr Thread.left s2.thr N = sumThr Thread.left s.thr N := by
    have := sumThr_update Thread.left s.thr N i t2 hi
    rw [hthr, hl] at *
    omega
  have hother : ∀ j, j ≠ i → s2.thr j = s.thr j := by
    intro j e; rw [hthr]; simp [e]
  have hself : s2.thr i = t2 := by rw [hthr]; simp
  have hf : fetched s2.trace = s.ticket :: fetched s.trace := by rw [htr]; rfl
  have hr : released s2.trace = released s.trace := by rw [htr]; rfl
  have htk : s.ticket = wrapS32 (fetched s.trace).length := by
    have a1 := hI.tk_eq
    have a2 := h.gr_eq
    have a3 := h.fetch_len
    rw [a3, a1, a2]
    push_cast; rfl
  refine ⟨by rw [hgr, hr]; exact h.gr_eq, by rw [hcn, hr, hcw]; exact h.cnt, ?_,
    by rw [hsl, hr]; exact h.left_sum, ?_, ?_, ?_⟩
  · intro j hj hj2
    rw [hcn]
    by_cases e : j = i
    · subst e; rw [hself, ht2] at hj2; simp at hj2
    · rw [hother j e] at hj2 ⊢; exact h.tmp_eq j hj hj2
  · intro j hj hj2
    by_cases e : j = i
    · subst e; rw [hself, hl]; omega
    · rw [hother j e] at hj2 ⊢; exact h.left_pos j hj hj2
  · rw [hf, hr, hc]; simp only [List.length_cons]; have := h.fetch_len; omega
  · rw [hf]; simp only [List.length_cons, seqDown]
    rw [← h.fetch_seq, ← htk]

theorem Hist.tl_hist_write_gen {N K : Nat} {s s2 : State} (h : Hist N K s) (hI : Inv N s)
    (i : Nat) (hi : i < N) (hpc : (s.thr i).pc = .csWrite) (t2 : Thread)
    (hthr : s2.thr = Function.update s.thr i t2) (hgr : s2.grant = s.grant)
    (hcn : s2.counter = (s.thr i).tmp + 1)
    (ht2 : t2.pc = .relLoad) (hl : t2.left = (s.thr i).left) (c : Nat)
    (htr : s2.trace = Event.writeCounter i c :: s.trace) : Hist N K s2 := by
  have hh : holder (s.thr i) = true := by simp [holder, hpc]
  have ho : owner (s.thr i) = true := by simp [owner, hpc]
  have hh2 : holder t2 = true := by simp [holder, ht2]
  have hnw : wrote (s.thr i) = false := by simp [wrote, hpc]
  have hw2 : wrote t2 = true := by simp [wrote, ht2]
  have hc : countThr holder s2.thr N = countThr holder s.thr N := by
    have := countThr_update holder s.thr N i t2 hi
    rw [hthr, hh, hh2] at *
    omega
  have hcw : countThr wrote s2.thr N = countThr wrote s.thr N + 1 := by
    have := countThr_update wrote s.thr N i t2 hi
    rw [hnw, hw2] at this
    rw [hthr]
    simpa using this
  have hsl : sumThr Thread.left s2.thr N = sumThr Thread.left s.thr N := by
    have := sumThr_update Thread.left s.thr N i t2 hi
    rw [hthr, hl] at *
    omega
  have hother : ∀ j, j ≠ i → s2.thr j = s.thr j := by
    intro j e; rw [hthr]; simp [e]
  have hself : s2.thr i = t2 := by rw [hthr]; simp
  have hf : fetched s2.trace = fetched s.trace := by rw [htr]; rfl
  have hr : released s2.trace = released s.trace := by rw [htr]; rfl
  have htmp := h.tmp_eq i hi hpc
  refine ⟨by rw [hgr, hr]; exact h.gr_eq, ?_, ?_,
    by rw [hsl, hr]; exact h.left_sum, ?_, by rw [hf, hr, hc]; exact h.fetch_len,
    by rw [hf]; exact h.fetch_seq⟩
  · rw [hcn, hr, hcw, htmp]; have := h.cnt; omega
  · intro j hj hj2
    by_cases e : j = i
    · subst e; rw [hself, ht2] at hj2; simp at hj2
    · exfalso
      rw [hother j e] at hj2
      exact e (hI.tl_inv_owner_unique hj hi (by simp [owner, hj2]) ho)
  · intro j hj hj2
    by_cases e : j = i
    · subst e; rw [hself, hl]; exact h.left_pos j hj hh
    · rw [hother j e] at hj2 ⊢; exact h.left_pos j hj hj2

theorem Hist.tl_hist_store_gen {N K : Nat} {s s2 : State} (h : Hist N K s)
    (i : Nat) (hi : i < N) (hpc : (s.thr i).pc = .relStore) (t2 : Thread)
    (hthr : s2.thr = Function.update s.thr i t2) (hgr : s2.grant = s.grant + 1)
    (hcn : s2.counter = s.counter)
    (ht2 : t2.pc = .idle) (hl : t2.left = (s.thr i).left - 1) (g : Int)
    (htr : s2.trace = Event.storeGrant i g :: s.trace) : Hist N K s2 := by
  have hh : holder (s.thr i) = true := by simp [holder, hpc]
  have hh2 : holder t2 = false := by simp [holder, ht2]
  have hw : wrote (s.thr i) = true := by simp [wrote, hpc]
  have hw2 : wrote t2 = false := by simp [wrote, ht2]
  have hlp := h.left_pos i hi hh
  have hc : countThr holder s2.thr N + 1 = countThr holder s.thr N := by
    have := countThr_update holder s.thr N i t2 hi
    rw [hh, hh2] at this
    rw [hthr]
    simpa using this
  have hcw : countThr wrote s2.thr N + 1 = countThr wrote s.thr N := by
    have := countThr_update wrote s.thr N i t2 hi
    rw [hw, hw2] at this
    rw [hthr]
    simpa using this
  have hsl : sumThr Thread.left s2.thr N + 1 = sumThr Thread.left s.thr N := by
    have := sumThr_update Thread.left s.thr N i t2 hi
    rw [hthr, hl] at *
    omega
  have hother : ∀ j, j ≠ i → s2.thr j = s.thr j := by
    intro j e; rw [hthr]; simp [e]
  have hself : s2.thr i = t2 := by rw [hthr]; simp
  have hf : fetched s2.trace = fetched s.trace := by rw [htr]; rfl
  have hr : released s2.trace = i :: released s.trace := by rw [htr]; rfl
  refine ⟨?_, ?_, ?_, ?_, ?_, ?_, by rw [hf]; exact h.fetch_seq⟩
  · rw [hgr, hr, h.gr_eq]; simp
  · rw [hcn, hr]; simp only [List.length_cons]; have := h.cnt; omega
  · intro j hj hj2
    rw [hcn]
    by_cases e : j = i
    · subst e; rw [hself, ht2] at hj2; simp at hj2
    · rw [hother j e] at hj2 ⊢; exact h.tmp_eq j hj hj2
  · rw [hr]; simp only [List.length_cons]; have := h.left_sum; omega
  · intro j hj hj2
    by_cases e : j = i
    · subst e; rw [hself, hh2] at hj2; simp at hj2
    · rw [hother j e] at hj2 ⊢; exact h.left_pos j hj hj2
  · rw [hf, hr]; simp only [List.length_cons]; have := h.fetch_len; omega

theorem Good.tl_good_init (N K : Nat) : Good N K (init K) := ⟨Inv.tl_inv_init N K, Hist.tl_hist_init N K⟩

theorem Good.tl_good_threadStep {N K : Nat} {s : State} (h : Good N K s) (hN : N < 2 ^ 31)
    (i : Nat) (hi : i < N) : Good N K (threadStep s i) := by
  have hI := h.inv
  have hH := h.hist
  cases hpc : (s.thr i).pc
  · simp only [TL.threadStep, hpc]
    split
    · exact h
    · rename_i hl
      exact ⟨hI.tl_inv_fetch_gen hN i hi hpc _ rfl rfl rfl rfl rfl,
        hH.tl_hist_fetch_gen hI i hi hpc hl _ rfl rfl rfl rfl rfl rfl⟩
  · simp only [TL.threadStep, hpc]
    split
    · exact h
    · rename_i h0
      have h0 : (s.thr i).tx = s.grant := by simpa using h0
      exact ⟨hI.tl_inv_frame i hi _ rfl rfl rfl rfl (by simp [holder, hpc]) (fun _ => h0) (by simp),
        hH.tl_hist_frame i hi _ rfl rfl rfl (by simp [holder, hpc]) (by simp [wrote, hpc]) rfl
          (by simp) rfl rfl⟩
  · simp only [TL.threadStep, hpc]
    have ho := hI.own i hi (by simp [owner, hpc])
    exact ⟨hI.tl_inv_frame i hi _ rfl rfl rfl rfl (by simp [holder, hpc]) (fun _ => ho) (by simp),
      hH.tl_hist_frame i hi _ rfl rfl rfl (by simp [holder, hpc]) (by simp [wrote, hpc]) rfl
        (by simp) rfl rfl⟩
  · simp only [TL.threadStep, hpc]
    have ho := hI.own i hi (by simp [owner, hpc])
    exact ⟨hI.tl_inv_frame i hi _ rfl rfl rfl rfl (by simp [holder, hpc]) (fun _ => ho) (by simp),
      hH.tl_hist_write_gen hI i hi hpc _ rfl rfl rfl rfl rfl _ rfl⟩
  · simp only [TL.threadStep, hpc]
    have ho := hI.own i hi (by simp [owner, hpc])
    exact ⟨hI.tl_inv_frame i hi _ rfl rfl rfl rfl (by simp [holder, hpc]) (fun _ => ho) (by simp),
      hH.tl_hist_frame i hi _ rfl rfl rfl (by simp [holder, hpc]) (by simp [wrote, hpc]) rfl
        (by simp) rfl rfl⟩
  · simp only [TL.threadStep, hpc]
    have hg := hI.relg i hi hpc
    split
    · exact ⟨⟨hI.gr_lo, hI.gr_hi, hI.tx_lo, hI.tx_hi, hI.tk_eq, hI.off_lt, hI.tx_inj,
        hI.off_surj, hI.own, hI.relg⟩,
        ⟨hH.gr_eq, hH.cnt, hH.tmp_eq, hH.left_sum, hH.left_pos, hH.fetch_len, hH.fetch_seq⟩⟩
    · rename_i hno
      rw [hg] at hno
      exact ⟨hI.tl_inv_store_gen i hi hpc (by omega) _ rfl rfl (by simp [hg]) (by simp [holder]) rfl,
        hH.tl_hist_store_gen i hi hpc _ rfl (by simp [hg]) rfl rfl rfl _ rfl⟩

theorem Good.tl_good_step {N K : Nat} {s : State} (h : Good N K s) (hN : N < 2 ^ 31)
    (i : Nat) : Good N K (step N s i) := by
  simp only [TL.step]
  split
  · exact h
  · split
    · rename_i hi; exact h.tl_good_threadStep hN i hi
    · exact h

theorem Good.tl_good_run {N K : Nat} (hN : N < 2 ^ 31) (sched : List Nat) {s : State}
    (h : Good N K s) : Good N K (run N s sched) := by
  induction sched generalizing s with
  | nil => exact h
  | cons a rest ih => exact ih (h.tl_good_step hN a)

theorem tl_good_reach {N : Nat} (hN : N < 2 ^ 31) (K : Nat) (sched : List Nat) :
    Good N K (run N (init K) sched) :=
  Good.tl_good_run hN sched (Good.tl_good_init N K)

end TL

namespace TL

theorem tl_no_ub_step {N K : Nat} {s : State} (h : Good N K s) (hNK : N * K < 2 ^ 31)
    (hu : s.ub = false) (i : Nat) : (step N s i).ub = false := by
  simp only [TL.step, hu]
  simp only [Bool.false_eq_true, if_false]
  split
  · rename_i hi
    cases hpc : (s.thr i).pc
    · simp only [TL.threadStep, hpc]; split <;> simp [hu]
    · simp only [TL.threadStep, hpc]; split <;> simp [hu]
    · simp [TL.threadStep, hpc, hu]
    · simp [TL.threadStep, hpc, hu]
    · simp [TL.threadStep, hpc, hu]
    · simp only [TL.threadStep, hpc]
      split
      · exfalso
        rename_i hov
        rw [h.inv.relg i hi hpc, h.hist.gr_eq] at hov
        have h1 := h.hist.left_sum
        have h2 := h.hist.left_pos i hi (by simp [holder, hpc])
        have h3 : (s.thr i).left ≤ sumThr Thread.left s.thr N := by
          have := sumThr_update Thread.left s.thr N i { s.thr i with left := 0 } hi
          simp only at this
          omega
        simp only [INT_MAX] at hov
        omega
      · simp [hu]
  · exact hu

theorem tl_no_ub_run {N K : Nat} (hN : N < 2 ^ 31) (hNK : N * K < 2 ^ 31) (sched : List Nat)
    {s : State} (h : Good N K s) (hu : s.ub = false) : (run N s sched).ub = false := by
  induction sched generalizing s with
  | nil => exact hu
  | cons a rest ih => exact ih (h.tl_good_step hN a) (tl_no_ub_step h hNK hu a)

end TL

namespace TL

theorem Rounds.tl_rounds_round {N K m : Nat} {s : State} (h : Rounds K m s) (hN : 0 < N) (hm : m < K)
    (hb : m < 2 ^ 31 - 1) : Rounds K (m + 1) (run N s [0, 0, 0, 0, 0, 0]) := by
  obtain ⟨h1, h2, h3, h4, h5, h6, h7⟩ := h
  have hl : (s.thr 0).left ≠ 0 := by omega
  have hw : wrapS32 ((m : Int) + 1) = (m : Int) + 1 := by simp only [wrapS32]; omega
  have hov : ¬ ((m : Int) + 1 > INT_MAX) := by simp only [INT_MAX]; omega
  simp only [TL.run, List.foldl_cons, List.foldl_nil]
  have e1 : step N s 0 = { s with
      ticket := (m : Int) + 1
      thr := Function.update s.thr 0 { s.thr 0 with pc := .spin, tx := m }
      trace := .fetchTicket 0 m :: s.trace } := by
    simp [TL.step, h3, hN, TL.threadStep, h4, hl, h1, hw]
  rw [e1]
  simp only [TL.step, h3, hN, TL.threadStep, Function.update_same, h2, if_true, if_false,
    Bool.false_eq_true, ne_eq, not_true_eq_false, Function.update_idem, hov]
  refine ⟨by simp, by simp, rfl, by simp, by simp [h5]; omega, by simp [h6], by simp [fetched, h7]⟩

theorem tl_run_append (N : Nat) (s : State) (a b : List Nat) :
    run N s (a ++ b) = run N (run N s a) b := by
  simp [TL.run, List.foldl_append]

theorem Rounds.tl_rounds_init (K : Nat) : Rounds K 0 (init K) :=
  ⟨rfl, rfl, rfl, rfl, rfl, rfl, rfl⟩

theorem tl_rounds_reach {N K : Nat} (hN : 0 < N) (m : Nat) (hm : m ≤ K) (hb : m ≤ 2 ^ 31 - 1) :
    Rounds K m (run N (init K) (roundsSchedule m)) := by
  induction m with
  | zero => exact Rounds.tl_rounds_init K
  | succ n ih =>
    have e : roundsSchedule (n + 1) = roundsSchedule n ++ [0, 0, 0, 0, 0, 0] := by
      simp only [roundsSchedule]
      rw [show 6 * (n + 1) = 6 * n + 6 by ring, List.replicate_add]
      rfl
    rw [e, tl_run_append]
    exact (ih (by omega) (by omega)).tl_rounds_round hN (by omega) (by omega)

theorem TicketSeq.tl_ticketSeq_init (K : Nat) : TicketSeq (init K) :=
  ⟨by simp [TL.init, fetched, wrapS32], rfl⟩

theorem TicketSeq.tl_ticketSeq_threadStep {s : State} (h : TicketSeq s) (i : Nat) :
    TicketSeq (threadStep s i) := by
  obtain ⟨h1, h2⟩ := h
  cases hpc : (s.thr i).pc <;> simp only [TL.threadStep, hpc]
  · split
    · exact ⟨h1, h2⟩
    · refine ⟨?_, ?_⟩
      · simp only [fetched, List.length_cons]
        rw [h1]; simp only [wrapS32]; push_cast; omega
      · simp only [fetched, List.length_cons, seqDown]
        rw [← h2, ← h1]
  · split
    · exact ⟨h1, h2⟩
    · exact ⟨h1, h2⟩
  · exact ⟨h1, h2⟩
  · exact ⟨h1, h2⟩
  · exact ⟨h1, h2⟩
  · split
    · exact ⟨h1, h2⟩
    · exact ⟨h1, h2⟩

theorem tl_ticketSeq_run (N : Nat) (sched : List Nat) {s : State} (h : TicketSeq s) :
    TicketSeq (run N s sched) := by
  induction sched generalizing s with
  | nil => exact h
  | cons a rest ih =>
    apply ih
    simp only [TL.step]
    split
    · exact h
    · split
      · exact h.tl_ticketSeq_threadStep a
      · exact h

theorem tl_seqDown_reverse (n : Nat) :
    (seqDown n).reverse = (List.range n).map (fun k : Nat => wrapS32 (k : Int)) := by
  induction n with
  | zero => rfl
  | succ m ih => simp [seqDown, List.range_succ, ih]

theorem tl_seqDown_length (n : Nat) : (seqDown n).length = n := by
  induction n with
  | zero => rfl
  | succ m ih => simp [seqDown, ih]

/-- The tickets drawn in a run, oldest first, are `0, 1, 2, ...` as 32-bit
`int` values. -/
theorem tl_fetched_nth (N K : Nat) (sched : List Nat) (n : Nat)
    (hn : n < (fetched (run N (init K) sched).trace).length) :
    (fetched (run N (init K) sched).trace).reverse[n]? = some (wrapS32 n) := by
  have h := (tl_ticketSeq_run N sched (TicketSeq.tl_ticketSeq_init K)).seq
  generalize fetched (run N (init K) sched).trace = l at h hn
  rw [h, tl_seqDown_reverse, List.getElem?_map, List.getElem?_range hn]
  rfl

end TL

namespace TL

theorem Good.tl_good_nowrap {N K : Nat} {s : State} (h : Good N K s)
    (hT : (fetched s.trace).length < 2 ^ 31) :
    s.ticket = s.grant + countThr holder s.thr N ∧
    (∀ i, i < N → holder (s.thr i) = true →
      s.grant ≤ (s.thr i).tx ∧ (s.thr i).tx < s.ticket) := by
  have h1 := h.hist.fetch_len
  have h2 := h.hist.gr_eq
  have h3 := h.inv.tk_eq
  simp only [wrapS32] at h3
  have h4 : s.ticket = s.grant + countThr holder s.thr N := by omega
  refine ⟨h4, ?_⟩
  intro i hi hh
  have h5 := h.inv.off_lt i hi hh
  have h6 := h.inv.tx_lo i
  have h7 := h.inv.tx_hi i
  omega

theorem Good.tl_good_counters {N K : Nat} {s : State} (h : Good N K s)
    (hT : (fetched s.trace).length < 2 ^ 31) :
    s.grant ≤ s.ticket ∧
    (∀ t, (s.grant < t ∧ t < s.ticket) ↔
      ∃ i, i < N ∧ holder (s.thr i) = true ∧ (s.thr i).tx = t ∧ t ≠ s.grant) ∧
    (s.grant < s.ticket →
      ∃ i, i < N ∧ holder (s.thr i) = true ∧ (s.thr i).tx = s.grant ∧
        ∀ j, j < N → holder (s.thr j) = true → (s.thr j).tx = s.grant → j = i) := by
  obtain ⟨h1, h2⟩ := h.tl_good_nowrap hT
  have hg := h.inv.gr_lo
  have hg2 := h.inv.gr_hi
  simp only [INT_MAX] at hg2
  have hfl := h.hist.fetch_len
  have hge := h.hist.gr_eq
  refine ⟨by omega, ?_, ?_⟩
  · intro t
    constructor
    · rintro ⟨ht1, ht2⟩
      obtain ⟨i, hi, hh, ho⟩ := h.inv.off_surj (t - s.grant).toNat (by omega)
      have h3 := h2 i hi hh
      have h4 := h.inv.tx_lo i
      have h5 := h.inv.tx_hi i
      exact ⟨i, hi, hh, by omega, by omega⟩
    · rintro ⟨i, hi, hh, rfl, hne⟩
      have h3 := h2 i hi hh
      omega
  · intro hlt
    obtain ⟨i, hi, hh, ho⟩ := h.inv.off_surj 0 (by omega)
    have h3 := h2 i hi hh
    have h4 := h.inv.tx_lo i
    have h5 := h.inv.tx_hi i
    have h6 : (s.thr i).tx = s.grant := by omega
    exact ⟨i, hi, hh, h6, fun j hj hhj hj2 => h.inv.tx_inj j i hj hi hhj hh (by rw [hj2, h6])⟩

end TL

namespace Spin

theorem Inv.spin_inv_init (N : Nat) : Inv N init := by
  refine ⟨fun _ i _ => rfl, ?_, ?_, ?_⟩
  · intro i j _ _ h; simp [Spin.init, owner] at h
  · intro i _ h; simp [Spin.init] at h
  · intro i _ h; simp [Spin.init] at h

/-- The exchange of line 88. -/
theorem Inv.spin_inv_doExchange {N : Nat} {s : State} (h : Inv N s) (i : Nat) (hi : i < N) (t : Thread)
    (hno : owner (s.thr i) = false) : Inv N (doExchange s i t) := by
  have hpc1 : (s.thr i).pc ≠ .recordCore := by
    intro e; simp [owner, e] at hno
  have hpc2 : (s.thr i).pc ≠ .held := by
    intro e; simp [owner, e] at hno
  unfold Spin.doExchange
  split
  · rename_i hl
    refine ⟨by simp, ?_, ?_, ?_⟩
    · intro j k hj hk hoj hok
      by_cases ej : j = i
      · subst ej; simp [owner] at hoj
      · by_cases ek : k = i
        · subst ek; simp [owner] at hok
        · simp [ej, ek] at hoj hok
          exact h.uniq j k hj hk hoj hok
    · intro j hj hpc
      by_cases ej : j = i
      · subst ej; simp at hpc
      · simp [ej] at hpc
        have ⟨rest, hr⟩ := h.won j hj hpc
        exact ⟨rest, by simp [eventsOf, Ne.symm ej, hr]⟩
    · intro j hj hpc
      by_cases ej : j = i
      · subst ej; simp at hpc
      · simp [ej] at hpc
        have ⟨c, rest, hr⟩ := h.back j hj hpc
        exact ⟨c, rest, by simp [eventsOf, Ne.symm ej, hr]⟩
  · rename_i hl
    have hl : s.locked = false := by simpa using hl
    have hfree := h.free hl
    refine ⟨by simp, ?_, ?_, ?_⟩
    · intro j k hj hk hoj hok
      by_cases ej : j = i
      · by_cases ek : k = i
        · rw [ej, ek]
        · simp [ek] at hok; rw [hfree k hk] at hok; simp at hok
      · simp [ej] at hoj; rw [hfree j hj] at hoj; simp at hoj
    · intro j hj hpc
      by_cases ej : j = i
      · subst ej
        exact ⟨eventsOf j s.trace, by simp [eventsOf]⟩
      · simp [ej] at hpc
        have := hfree j hj
        simp [owner, hpc] at this
    · intro j hj hpc
      by_cases ej : j = i
      · subst ej; simp at hpc
      · simp [ej] at hpc
        have := hfree j hj
        simp [owner, hpc] at this

/-- Steps of the waiting loop: the flag and the owners are untouched. -/
theorem Inv.spin_inv_frame {N : Nat} {s s2 : State} (h : Inv N s) (i : Nat) (t2 : Thread)
    (hthr : s2.thr = Function.update s.thr i t2) (hl : s2.locked = s.locked)
    (hno : owner (s.thr i) = false) (hno2 : owner t2 = false)
    (htr : ∀ j, j ≠ i → eventsOf j s2.trace = eventsOf j s.trace) : Inv N s2 := by
  have hother : ∀ j, j ≠ i → s2.thr j = s.thr j := by
    intro j e; rw [hthr]; simp [e]
  have hself : s2.thr i = t2 := by rw [hthr]; simp
  have hown : ∀ j, owner (s2.thr j) = owner (s.thr j) := by
    intro j
    by_cases e : j = i
    · subst e; rw [hself, hno, hno2]
    · rw [hother j e]
  refine ⟨?_, ?_, ?_, ?_⟩
  · intro hf j hj; rw [hown]; rw [hl] at hf; exact h.free hf j hj
  · intro j k hj hk hoj hok
    rw [hown] at hoj hok; exact h.uniq j k hj hk hoj hok
  · intro j hj hpc
    by_cases e : j = i
    · subst e; rw [hself] at hpc; simp [owner, hpc] at hno2
    · rw [hother j e] at hpc; rw [htr j e]; exact h.won j hj hpc
  · intro j hj hpc
    by_cases e : j = i
    · subst e; rw [hself] at hpc; simp [owner, hpc] at hno2
    · rw [hother j e] at hpc; rw [htr j e]; exact h.back j hj hpc

theorem Inv.spin_inv_threadStep {N : Nat} {s : State} (h : Inv N s) (a : Action) (hi : a.tid < N) :
    Inv N (threadStep s a) := by
  cases hpc : (s.thr a.tid).pc
  · simp only [Spin.threadStep, hpc]
    exact h.spin_inv_doExchange a.tid hi _ (by simp [owner, hpc])
  · simp only [Spin.threadStep, hpc]
    exact h.spin_inv_doExchange a.tid hi _ (by simp [owner, hpc])
  · simp only [Spin.threadStep, hpc]
    split
    · split
      · exact h.spin_inv_frame a.tid _ rfl rfl (by simp [owner, hpc]) (by simp [owner])
          (fun j e => by simp [eventsOf, Ne.symm e])
      · exact h.spin_inv_frame a.tid _ rfl rfl (by simp [owner, hpc]) (by simp [owner])
          (fun j e => by simp [eventsOf, Ne.symm e])
    · exact h.spin_inv_frame a.tid _ rfl rfl (by simp [owner, hpc]) (by simp [owner])
        (fun j e => by simp [eventsOf, Ne.symm e])
  · simp only [Spin.threadStep, hpc]
    split
    · exact h.spin_inv_frame a.tid _ rfl rfl (by simp [owner, hpc]) (by simp [owner, hpc])
        (fun j e => by simp [eventsOf, Ne.symm e])
    · exact h.spin_inv_frame a.tid _ rfl rfl (by simp [owner, hpc]) (by simp [owner])
        (fun j e => by simp [eventsOf, Ne.symm e])
  · simp only [Spin.threadStep, hpc]
    split
    · exact h.spin_inv_frame a.tid _ rfl rfl (by simp [owner, hpc]) (by simp [owner])
        (fun j e => by simp [eventsOf, Ne.symm e])
    · split
      · exact h.spin_inv_frame a.tid (s.thr a.tid) (by simp) rfl (by simp [owner, hpc])
          (by simp [owner, hpc]) (fun j e => by simp [eventsOf, Ne.symm e])
      · exact h.spin_inv_frame a.tid _ rfl rfl (by simp [owner, hpc]) (by simp [owner])
          (fun j e => by simp [eventsOf, Ne.symm e])
  · -- recordCore: the owner stores its core and returns
    simp only [Spin.threadStep, hpc]
    have ho : owner (s.thr a.tid) = true := by simp [owner, hpc]
    refine ⟨?_, ?_, ?_, ?_⟩
    · intro hf j hj
      have := h.free hf a.tid hi
      rw [ho] at this; simp at this
    · intro j k hj hk hoj hok
      have e1 : owner (s.thr j) = true := by
        by_cases e : j = a.tid
        · rw [e]; exact ho
        · simpa [e] using hoj
      have e2 : owner (s.thr k) = true := by
        by_cases e : k = a.tid
        · rw [e]; exact ho
        · simpa [e] using hok
      exact h.uniq j k hj hk e1 e2
    · intro j hj hpcj
      by_cases e : j = a.tid
      · rw [e] at hpcj; simp at hpcj
      · exfalso
        simp [e] at hpcj
        exact e (h.uniq j a.tid hj hi (by simp [owner, hpcj]) ho)
    · intro j hj hpcj
      by_cases e : j = a.tid
      · have ⟨rest, hr⟩ := h.won a.tid hi hpc
        rw [e]
        exact ⟨a.core, rest, by simp [eventsOf, hr]⟩
      · exfalso
        simp [e] at hpcj
        exact e (h.uniq j a.tid hj hi (by simp [owner, hpcj]) ho)
  · -- held: unlock
    simp only [Spin.threadStep, hpc]
    have ho : owner (s.thr a.tid) = true := by simp [owner, hpc]
    have hnone : ∀ j, j < N → j ≠ a.tid → owner (s.thr j) = false := by
      intro j hj e
      by_contra hc
      exact e (h.uniq j a.tid hj hi (by simpa using hc) ho)
    refine ⟨?_, ?_, ?_, ?_⟩
    · intro _ j hj
      by_cases e : j = a.tid
      · rw [e]; simp [owner]
      · simp [e]; exact hnone j hj e
    · intro j k hj hk hoj hok
      by_cases e : j = a.tid
      · rw [e] at hoj; simp [owner] at hoj
      · simp [e] at hoj; rw [hnone j hj e] at hoj; simp at hoj
    · intro j hj hpcj
      by_cases e : j = a.tid
      · rw [e] at hpcj; simp at hpcj
      · simp [e] at hpcj
        have := hnone j hj e
        simp [owner, hpcj] at this
    · intro j hj hpcj
      by_cases e : j = a.tid
      · rw [e] at hpcj; simp at hpcj
      · simp [e] at hpcj
        have := hnone j hj e
        simp [owner, hpcj] at this

theorem Inv.spin_inv_step {N : Nat} {s : State} (h : Inv N s) (a : Action) : Inv N (step N s a) := by
  simp only [Spin.step]
  split
  · exact h
  · split
    · rename_i hi; exact h.spin_inv_threadStep a hi
    · exact h

theorem Inv.spin_inv_run {N : Nat} (sched : List Action) {s : State} (h : Inv N s) :
    Inv N (run N s sched) := by
  induction sched generalizing s with
  | nil => exact h
  | cons a rest ih => exact ih (h.spin_inv_step a)

end Spin

namespace TL

/-- The fetch-add of a thread that is outside the lock and has iterations
left. -/
theorem tl_step_fetch {N : Nat} {s : State} {i : Nat} (hu : s.ub = false) (hi : i < N)
    (hpc : (s.thr i).pc = .idle) (hl : (s.thr i).left ≠ 0) :
    (step N s i).ticket = wrapS32 (s.ticket + 1) ∧ (step N s i).grant = s.grant ∧
    (step N s i).ub = false ∧
    fetched (step N s i).trace = s.ticket :: fetched s.trace ∧
    (∀ j, j ≠ i → (step N s i).thr j = s.thr j) := by
  have e : step N s i = { s with
      ticket := wrapS32 (s.ticket + 1)
      thr := Function.update s.thr i { s.thr i with pc := .spin, tx := s.ticket }
      trace := .fetchTicket i s.ticket :: s.trace } := by
    simp [TL.step, hu, hi, TL.threadStep, hpc, hl]
  rw [e]
  refine ⟨rfl, rfl, hu, rfl, ?_⟩
  intro j hj
  simp [hj]

end TL

namespace TL

/-- After `m` rounds of thread 0, one more fetch-add by thread 0 and one by
thread 1. -/
theorem tl_rounds_then_fetch {N K m : Nat} {s : State} (h : Rounds K m s) (hN : 1 < N)
    (hm : m < K) :
    (run N s [0]).ticket = wrapS32 ((m : Int) + 1) ∧ (run N s [0]).grant = m ∧
    (run N s [0]).ub = false ∧
    (fetched (run N s [0, 1]).trace).length = m + 2 := by
  obtain ⟨h1, h2, h3, h4, h5, h6, h7⟩ := h
  have hl : (s.thr 0).left ≠ 0 := by omega
  obtain ⟨e1, e2, e3, e4, e5⟩ := tl_step_fetch (N := N) h3 (by omega) h4 hl
  have er : run N s [0] = step N s 0 := rfl
  have er2 : run N s [0, 1] = step N (step N s 0) 1 := rfl
  have h1b : (step N s 0).thr 1 = ⟨.idle, 0, 0, 0, K⟩ := by rw [e5 1 (by decide), h6]
  obtain ⟨_, _, _, f4, _⟩ := tl_step_fetch (N := N) (i := 1) e3 hN (by rw [h1b])
    (by rw [h1b]; exact fun e => by simp at e; omega)
  rw [er, er2]
  refine ⟨by rw [e1, h1], by rw [e2, h2], e3, ?_⟩
  rw [f4, List.length_cons, e4, List.length_cons, h7]

end TL

namespace TL

/-- The overflow of `++grant` happens only after `2^31` tickets have been
drawn. -/
theorem tl_ub_fetched_step {N K : Nat} {s : State} (h : Good N K s)
    (hp : s.ub = true → 2 ^ 31 ≤ (fetched s.trace).length) (i : Nat) :
    (step N s i).ub = true → 2 ^ 31 ≤ (fetched (step N s i).trace).length := by
  cases hu : s.ub with
  | true =>
    have e : step N s i = s := by simp [TL.step, hu]
    rw [e]; exact hp
  | false =>
    simp only [TL.step, hu, Bool.false_eq_true, if_false]
    split
    · rename_i hi
      cases hpc : (s.thr i).pc
      · simp only [TL.threadStep, hpc]; split <;> simp [hu]
      · simp only [TL.threadStep, hpc]; split <;> simp [hu]
      · simp [TL.threadStep, hpc, hu]
      · simp [TL.threadStep, hpc, hu]
      · simp [TL.threadStep, hpc, hu]
      · simp only [TL.threadStep, hpc]
        split
        · rename_i hov
          intro _
          show 2 ^ 31 ≤ (fetched s.trace).length
          rw [h.inv.relg i hi hpc, h.hist.gr_eq] at hov
          have h1 := h.hist.fetch_len
          have h2 := h.inv.off_lt i hi (by simp [holder, hpc])
          simp only [INT_MAX] at hov
          omega
        · simp [hu]
    · simp [hu]

theorem tl_ub_fetched_run {N K : Nat} (hN : N < 2 ^ 31) (sched : List Nat) {s : State}
    (h : Good N K s) (hp : s.ub = true → 2 ^ 31 ≤ (fetched s.trace).length) :
    (run N s sched).ub = true → 2 ^ 31 ≤ (fetched (run N s sched).trace).length := by
  induction sched generalizing s with
  | nil => exact hp
  | cons a rest ih => exact ih (h.tl_good_step hN a) (tl_ub_fetched_step h hp a)

/-- After `2^31 - 1` rounds of thread 0: one more fetch-add by thread 0, one by
thread 1, and thread 0 goes through the lock up to the write of `grant`. -/
theorem tl_rounds_then_overflow {N K m : Nat} {s : State} (h : Rounds K m s) (hN : 1 < N)
    (hm : m < K) (hmax : m = 2 ^ 31 - 1) :
    (run N s [0, 1, 0, 0, 0, 0]).ub = false ∧
    (run N s [0, 1, 0, 0, 0, 0]).grant = 2147483647 ∧
    ((run N s [0, 1, 0, 0, 0, 0]).thr 0).pc = .relStore ∧
    ((run N s [0, 1, 0, 0, 0, 0]).thr 1).pc = .spin ∧
    ((run N s [0, 1, 0, 0, 0, 0]).thr 1).tx = -2147483648 ∧
    (run N s [0, 1, 0, 0, 0, 0, 0]).ub = true := by
  obtain ⟨h1, h2, h3, h4, h5, h6, h7⟩ := h
  subst hmax
  have hl : (s.thr 0).left ≠ 0 := by omega
  have hK : K ≠ 0 := by omega
  have hN0 : 0 < N := by omega
  have hw : wrapS32 (((2 ^ 31 - 1 : Nat) : Int) + 1) = -2147483648 := by
    simp only [wrapS32]; norm_num
  have hg : s.grant = 2147483647 := by rw [h2]; norm_num
  have ht : s.ticket = 2147483647 := by rw [h1]; norm_num
  simp only [TL.run, List.foldl_cons, List.foldl_nil]
  have e1 : step N s 0 = { s with
      ticket := -2147483648
      thr := Function.update s.thr 0 { s.thr 0 with pc := .spin, tx := 2147483647 }
      trace := .fetchTicket 0 2147483647 :: s.trace } := by
    simp [TL.step, h3, hN0, TL.threadStep, h4, hl, ht, wrapS32]
  rw [e1]
  have e2 : step N { s with
      ticket := -2147483648
      thr := Function.update s.thr 0 { s.thr 0 with pc := .spin, tx := 2147483647 }
      trace := .fetchTicket 0 2147483647 :: s.trace } 1 = { s with
      ticket := -2147483647
      thr := Function.update
        (Function.update s.thr 0 { s.thr 0 with pc := .spin, tx := 2147483647 }) 1
        ⟨.spin, -2147483648, 0, 0, K⟩
      trace := .fetchTicket 1 (-2147483648) :: .fetchTicket 0 2147483647 :: s.trace } := by
    simp [TL.step, h3, hN, TL.threadStep, h6, hK, wrapS32]
  rw [e2]
  simp [TL.step, h3, hN0, TL.threadStep, hg, INT_MAX, Function.update_comm]

end TL

namespace Spin

/-- A step of another thread changes neither the locals nor the per-call
history of thread `i`. -/
theorem spin_other_step {s : State} (a : Action) (i : Nat) (hne : a.tid ≠ i) :
    (threadStep s a).thr i = s.thr i ∧
    pausesSince i (threadStep s a).trace = pausesSince i s.trace ∧
    firstTsc i (threadStep s a).trace = firstTsc i s.trace ∧
    eventsOf i (threadStep s a).trace = eventsOf i s.trace := by
  have hne2 : i ≠ a.tid := fun e => hne e.symm
  cases hpc : (s.thr a.tid).pc <;> simp only [Spin.threadStep, hpc]
  · unfold doExchange; split <;> simp [hne, hne2, pausesSince, firstTsc, eventsOf]
  · unfold doExchange; split <;> simp [hne, hne2, pausesSince, firstTsc, eventsOf]
  · split
    · split <;> simp [hne, hne2, pausesSince, firstTsc, eventsOf]
    · simp [hne, hne2, pausesSince, firstTsc, eventsOf]
  · split <;> simp [hne, hne2, pausesSince, firstTsc, eventsOf]
  · split
    · simp [hne, hne2, pausesSince, firstTsc, eventsOf]
    · split <;> simp [hne, hne2, pausesSince, firstTsc, eventsOf]
  · simp [hne, hne2, pausesSince, firstTsc, eventsOf]
  · simp [hne, hne2, pausesSince, firstTsc, eventsOf]

theorem spin_budget_init (i : Nat) : Budget init i :=
  ⟨fun _ => rfl, fun h => by simp [Spin.init, waiting] at h, fun h => by simp [Spin.init] at h⟩

theorem spin_deadline_init (i : Nat) : Deadline init i :=
  ⟨fun _ => rfl, fun h => by simp [Spin.init, waiting] at h,
    fun h => by simp [Spin.init, waiting] at h, fun h => by simp [Spin.init] at h⟩

theorem spin_budget_threadStep {s : State} {i : Nat} (h : Budget s i) (a : Action) :
    Budget (threadStep s a) i := by
  by_cases hne : a.tid = i
  · subst hne
    obtain ⟨h1, h2, h3⟩ := h
    cases hpc : (s.thr a.tid).pc <;> simp only [hpc] at h1 h3 <;>
      simp only [Spin.threadStep, hpc]
    · have := h1 trivial
      unfold doExchange
      split
      · exact ⟨by simp, by simp [waiting, pausesSince, this], by simp⟩
      · exact ⟨by simp, by simp [waiting], by simp⟩
    · have := h2 (by simp [waiting, hpc])
      unfold doExchange
      split
      · exact ⟨by simp, by simp [waiting, pausesSince, this], by simp⟩
      · exact ⟨by simp, by simp [waiting], by simp⟩
    · have := h2 (by simp [waiting, hpc])
      split
      · split
        · exact ⟨by simp, by simp [waiting, pausesSince, this], by simp⟩
        · rename_i ht
          exact ⟨by simp, by simp [waiting, pausesSince, this], by simp; omega⟩
      · exact ⟨by simp, by simp [waiting, pausesSince, this], by simp⟩
    · have := h2 (by simp [waiting, hpc])
      split
      · rename_i hlt
        refine ⟨by simp [hpc], ?_, by simp [hpc]⟩
        intro _
        simp [pausesSince]
        omega
      · exact ⟨by simp, by simp [waiting, pausesSince, this], by simp⟩
    · have := h2 (by simp [waiting, hpc])
      have h0 := h3 trivial
      split
      · exact ⟨by simp, by simp [waiting, pausesSince, this], by simp⟩
      · split
        · exact ⟨by simp [hpc], by simp [waiting, hpc, pausesSince, this], by simp [h0]⟩
        · exact ⟨by simp, by simp [waiting, pausesSince, this], by simp⟩
    · exact ⟨by simp, by simp [waiting], by simp⟩
    · exact ⟨by simp [pausesSince], by simp [waiting], by simp⟩
  · obtain ⟨e1, e2, _, _⟩ := spin_other_step (s := s) a i hne
    obtain ⟨h1, h2, h3⟩ := h
    exact ⟨by rw [e1, e2]; exact h1, by rw [e1, e2]; exact h2, by rw [e1]; exact h3⟩

end Spin

namespace Spin

theorem spin_deadline_threadStep {s : State} {i : Nat} (h : Deadline s i) (a : Action)
    (ha : a.tsc + deadlineCycles < 2 ^ 64) : Deadline (threadStep s a) i := by
  by_cases hne : a.tid = i
  · subst hne
    obtain ⟨h1, h2, h3, h4⟩ := h
    have hw : wrap64 (a.tsc + 2600000000) = a.tsc + deadlineCycles := by
      simp only [wrap64, deadlineCycles] at ha ⊢; omega
    cases hpc : (s.thr a.tid).pc <;> simp only [hpc] at h1 h4 <;>
      simp only [Spin.threadStep, hpc]
    · have := h1 trivial
      unfold doExchange
      split
      · exact ⟨by simp, by simp [waiting, firstTsc, this], by simp [waiting, firstTsc, this],
          by simp⟩
      · exact ⟨by simp, by simp [waiting], by simp [waiting], by simp⟩
    · have a1 := h2 (by simp [waiting, hpc])
      have a2 := h3 (by simp [waiting, hpc])
      unfold doExchange
      split
      · exact ⟨by simp, by simpa [waiting, firstTsc] using a1,
          by simpa [waiting, firstTsc] using a2, by simp⟩
      · exact ⟨by simp, by simp [waiting], by simp [waiting], by simp⟩
    · have a1 := h2 (by simp [waiting, hpc])
      have a2 := h3 (by simp [waiting, hpc])
      split
      · split
        · exact ⟨by simp, by simpa [waiting, firstTsc] using a1,
            by simpa [waiting, firstTsc] using a2, by simp⟩
        · exact ⟨by simp, by simpa [waiting, firstTsc] using a1,
            by simpa [waiting, firstTsc] using a2, by simp [eventsOf]⟩
      · exact ⟨by simp, by simpa [waiting, firstTsc] using a1,
          by simpa [waiting, firstTsc] using a2, by simp⟩
    · have a1 := h2 (by simp [waiting, hpc])
      have a2 := h3 (by simp [waiting, hpc])
      split
      · exact ⟨by simp [hpc], by simpa [waiting, hpc, firstTsc] using a1,
          by simpa [waiting, hpc, firstTsc] using a2, by simp [hpc]⟩
      · exact ⟨by simp, by simpa [waiting, firstTsc] using a1,
          by simpa [waiting, firstTsc] using a2, by simp⟩
    · have a1 := h2 (by simp [waiting, hpc])
      have a2 := h3 (by simp [waiting, hpc])
      split
      · rename_i h0
        have hn : firstTsc a.tid s.trace = none := by
          cases hf : firstTsc a.tid s.trace with
          | none => rfl
          | some r0 =>
            have := a1 r0 hf
            simp only [deadlineCycles] at this
            omega
        refine ⟨by simp, ?_, ?_, by simp⟩
        · intro _ r0 hr
          simp [firstTsc, hn] at hr
          simp only [Function.update_same]
          rw [← hr]; exact hw
        · intro _ hr
          simp [firstTsc, hn] at hr
      · rename_i h0
        have hs : ∃ r0, firstTsc a.tid s.trace = some r0 := by
          cases hf : firstTsc a.tid s.trace with
          | none => exact absurd (a2 hf) h0
          | some r0 => exact ⟨r0, rfl⟩
        obtain ⟨r0, hr0⟩ := hs
        split
        · refine ⟨by simp [hpc], ?_, ?_, by simp⟩
          · intro _ r1 hr
            simp [firstTsc, hr0] at hr
            rw [← hr]; exact a1 r0 hr0
          · intro _ hr
            simp [firstTsc, hr0] at hr
        · refine ⟨by simp, ?_, ?_, by simp⟩
          · intro _ r1 hr
            simp [firstTsc, hr0] at hr
            simp only [Function.update_same]
            rw [← hr]; exact a1 r0 hr0
          · intro _ hr
            simp [firstTsc, hr0] at hr
    · exact ⟨by simp, by simp [waiting], by simp [waiting], by simp⟩
    · exact ⟨by simp [firstTsc], by simp [waiting], by simp [waiting], by simp⟩
  · obtain ⟨e1, _, e3, e4⟩ := spin_other_step (s := s) a i hne
    obtain ⟨h1, h2, h3, h4⟩ := h
    have hf : (threadStep s a).fault = false → s.fault = false := by
      intro hf
      by_contra hc
      have hc : s.fault = true := by simpa using hc
      revert hf
      cases hpc : (s.thr a.tid).pc <;> simp only [Spin.threadStep, hpc]
      · unfold doExchange; split <;> simp [hc]
      · unfold doExchange; split <;> simp [hc]
      · split
        · split <;> simp [hc]
        · simp [hc]
      · split <;> simp [hc]
      · split
        · simp [hc]
        · split <;> simp [hc]
      · simp [hc]
      · simp [hc]
    exact ⟨by rw [e1, e3]; exact h1, by rw [e1, e3]; exact h2, by rw [e1, e3]; exact h3,
      by rw [e1, e4]; exact fun hp hfa => h4 hp (hf hfa)⟩

theorem spin_tsc_nil : TscAfterBudget [] := by
  intro post pre i h
  rcases h with ⟨r, h⟩ | h <;> cases post <;> simp at h

theorem spin_tsc_cons_other {tr : List Event} (h : TscAfterBudget tr) (e : Event)
    (h1 : ∀ i r, e ≠ Event.rdtsc i r) (h2 : ∀ i, e ≠ Event.timeoutError i) :
    TscAfterBudget (e :: tr) := by
  intro post pre i hd
  cases post with
  | nil =>
    rcases hd with ⟨r, hd⟩ | hd
    · simp only [List.nil_append, List.cons.injEq] at hd
      exact absurd hd.1 (h1 i r)
    · simp only [List.nil_append, List.cons.injEq] at hd
      exact absurd hd.1 (h2 i)
  | cons x post2 =>
    apply h post2 pre i
    rcases hd with ⟨r, hd⟩ | hd
    · simp only [List.cons_append, List.cons.injEq] at hd
      exact Or.inl ⟨r, hd.2⟩
    · simp only [List.cons_append, List.cons.injEq] at hd
      exact Or.inr hd.2

theorem spin_tsc_cons_rdtsc {tr : List Event} (h : TscAfterBudget tr) (i r : Nat)
    (hp : pausesSince i tr = 2048) : TscAfterBudget (Event.rdtsc i r :: tr) := by
  intro post pre j hd
  cases post with
  | nil =>
    rcases hd with ⟨r2, hd⟩ | hd
    · simp only [List.nil_append, List.cons.injEq, Event.rdtsc.injEq] at hd
      obtain ⟨⟨rfl, _⟩, rfl⟩ := hd
      exact hp
    · simp at hd
  | cons x post2 =>
    apply h post2 pre j
    rcases hd with ⟨r2, hd⟩ | hd
    · simp only [List.cons_append, List.cons.injEq] at hd
      exact Or.inl ⟨r2, hd.2⟩
    · simp only [List.cons_append, List.cons.injEq] at hd
      exact Or.inr hd.2

theorem spin_tsc_cons_error {tr : List Event} (h : TscAfterBudget tr) (i : Nat)
    (hp : pausesSince i tr = 2048) : TscAfterBudget (Event.timeoutError i :: tr) := by
  intro post pre j hd
  cases post with
  | nil =>
    rcases hd with ⟨r2, hd⟩ | hd
    · simp at hd
    · simp only [List.nil_append, List.cons.injEq, Event.timeoutError.injEq] at hd
      obtain ⟨rfl, rfl⟩ := hd
      exact hp
  | cons x post2 =>
    apply h post2 pre j
    rcases hd with ⟨r2, hd⟩ | hd
    · simp only [List.cons_append, List.cons.injEq] at hd
      exact Or.inl ⟨r2, hd.2⟩
    · simp only [List.cons_append, List.cons.injEq] at hd
      exact Or.inr hd.2

theorem spin_tsc_threadStep {s : State} (h : TscAfterBudget s.trace)
    (hb : Budget s a.tid) : TscAfterBudget (threadStep s a).trace := by
  have ho : ∀ e : Event, (∀ i r, e ≠ Event.rdtsc i r) → (∀ i, e ≠ Event.timeoutError i) →
      TscAfterBudget (e :: s.trace) := fun e h1 h2 => spin_tsc_cons_other h e h1 h2
  cases hpc : (s.thr a.tid).pc <;> simp only [Spin.threadStep, hpc]
  · unfold doExchange
    split <;> exact ho _ (by intro _ _ e; cases e) (by intro _ e; cases e)
  · unfold doExchange
    split <;> exact ho _ (by intro _ _ e; cases e) (by intro _ e; cases e)
  · split
    · split <;> exact ho _ (by intro _ _ e; cases e) (by intro _ e; cases e)
    · exact ho _ (by intro _ _ e; cases e) (by intro _ e; cases e)
  · split <;> exact ho _ (by intro _ _ e; cases e) (by intro _ e; cases e)
  · have h0 := hb.intsc hpc
    have hs := hb.sum (by simp [waiting, hpc])
    have hp : pausesSince a.tid s.trace = 2048 := by omega
    have hr := spin_tsc_cons_rdtsc h a.tid a.tsc hp
    split
    · exact spin_tsc_cons_other hr _ (by intro _ _ e; cases e) (by intro _ e; cases e)
    · split
      · exact spin_tsc_cons_error hr a.tid (by simpa [pausesSince] using hp)
      · exact spin_tsc_cons_other hr _ (by intro _ _ e; cases e) (by intro _ e; cases e)
  · exact ho _ (by intro _ _ e; cases e) (by intro _ e; cases e)
  · exact ho _ (by intro _ _ e; cases e) (by intro _ e; cases e)

end Spin

namespace Spin

theorem spin_budget_run {N : Nat} (sched : List Action) {s : State}
    (hb : ∀ i, Budget s i) (ht : TscAfterBudget s.trace) :
    (∀ i, Budget (run N s sched) i) ∧ TscAfterBudget (run N s sched).trace := by
  induction sched generalizing s with
  | nil => exact ⟨hb, ht⟩
  | cons a rest ih =>
    have hstep : (∀ i, Budget (step N s a) i) ∧ TscAfterBudget (step N s a).trace := by
      simp only [Spin.step]
      split
      · exact ⟨hb, ht⟩
      · split
        · exact ⟨fun i => spin_budget_threadStep (hb i) a, spin_tsc_threadStep ht (hb a.tid)⟩
        · exact ⟨hb, ht⟩
    exact ih hstep.1 hstep.2

theorem spin_deadline_run {N : Nat} (sched : List Action) (hr : ReadingsBounded sched)
    {s : State} (hd : ∀ i, Deadline s i) : ∀ i, Deadline (run N s sched) i := by
  induction sched generalizing s with
  | nil => exact hd
  | cons a rest ih =>
    have ha : a.tsc + deadlineCycles < 2 ^ 64 := hr a (List.mem_cons_self _ _)
    have hr2 : ReadingsBounded rest := fun b hb => hr b (List.mem_cons_of_mem _ hb)
    apply ih hr2
    simp only [Spin.step]
    split
    · exact hd
    · split
      · exact fun i => spin_deadline_threadStep (hd i) a ha
      · exact hd

theorem spin_run_append (N : Nat) (s : State) (a b : List Action) :
    run N s (a ++ b) = run N (run N s a) b := by
  simp [Spin.run, List.foldl_append]

/-- Once the timeout assertion has failed nothing moves any more. -/
theorem spin_fault_frozen (N : Nat) (sched : List Action) {s : State} (h : s.fault = true) :
    run N s sched = s := by
  induction sched with
  | nil => rfl
  | cons a rest ih =>
    simp only [Spin.run, List.foldl_cons]
    have : step N s a = s := by simp [Spin.step, h]
    rw [this]
    exact ih

/-- When a step raises the timeout assertion. -/
theorem spin_fault_step (N : Nat) (s : State) (a : Action) (h : s.fault = false) :
    (step N s a).fault = true ↔
      a.tid < N ∧ (s.thr a.tid).pc = .tsc ∧ (s.thr a.tid).timeout ≠ 0 ∧
        (s.thr a.tid).timeout ≤ a.tsc := by
  simp only [Spin.step, h, Bool.false_eq_true, if_false]
  by_cases hi : a.tid < N
  · simp only [hi, if_true, true_and]
    cases hpc : (s.thr a.tid).pc <;> simp only [Spin.threadStep, hpc]
    · unfold doExchange; split <;> simp [h]
    · unfold doExchange; split <;> simp [h]
    · split
      · split <;> simp [h]
      · simp [h]
    · split <;> simp [h]
    · split
      · rename_i h0; simp [h, h0]
      · rename_i h0
        split
        · rename_i h1; simp [h0]; exact h1
        · rename_i h1; simp [h, h0]; omega
    · simp [h]
    · simp [h]
  · simp [hi, h]

/-- The inner `for` loop, run by the thread on its own: it ends at the
re-load of the flag with a budget that is strictly smaller if the loop was
entered with `i < threshold`. -/
theorem spin_loop_exits (N : Nat) (a : Action) (ha : a.tid < N) (b : Nat) :
    ∀ (s : State), s.fault = false → (s.thr a.tid).pc = .spinLoop →
      (s.thr a.tid).threshold = b →
      ∃ n, (run N s (List.replicate n a)).fault = false ∧
        (run N s (List.replicate n a)).locked = s.locked ∧
        ((run N s (List.replicate n a)).thr a.tid).pc = .poll ∧
        ((run N s (List.replicate n a)).thr a.tid).threshold ≤ b ∧
        ((s.thr a.tid).i < b → ((run N s (List.replicate n a)).thr a.tid).threshold < b) ∧
        firstTsc a.tid (run N s (List.replicate n a)).trace = firstTsc a.tid s.trace := by
  induction b with
  | zero =>
    intro s hf hpc hb
    refine ⟨1, ?_⟩
    simp [Spin.run, Spin.step, hf, ha, Spin.threadStep, hpc, hb, firstTsc]
  | succ m ih =>
    intro s hf hpc hb
    by_cases hlt : (s.thr a.tid).i < m + 1
    · have e : step N s a = { s with
          thr := Function.update s.thr a.tid
            { s.thr a.tid with i := (s.thr a.tid).i + 1, threshold := m }
          trace := .pause a.tid :: s.trace } := by
        simp [Spin.step, hf, ha, Spin.threadStep, hpc, hb, hlt]
      obtain ⟨n, h1, h2, h3, h4, _, h6⟩ := ih (step N s a) (by rw [e]; exact hf)
        (by rw [e]; simp [hpc]) (by rw [e]; simp)
      refine ⟨n + 1, ?_⟩
      have er : run N s (List.replicate (n + 1) a) = run N (step N s a) (List.replicate n a) := by
        simp [Spin.run, List.replicate_succ]
      have el : (step N s a).locked = s.locked := by rw [e]
      rw [er]
      exact ⟨h1, by rw [h2, el], h3, by omega, fun _ => by omega, by rw [h6, e]; rfl⟩
    · refine ⟨1, ?_⟩
      simp [Spin.run, Spin.step, hf, ha, Spin.threadStep, hpc, hb, hlt, firstTsc]

/-- The waiting loop, run by the thread on its own while the flag stays set:
the budget runs out and the thread reaches the cycle-counter branch. -/
theorem spin_budget_exhausts (N : Nat) (a : Action) (ha : a.tid < N) (b : Nat) :
    ∀ (s : State), s.fault = false → s.locked = true → (s.thr a.tid).pc = .poll →
      (s.thr a.tid).threshold = b →
      ∃ n, (run N s (List.replicate n a)).fault = false ∧
        (run N s (List.replicate n a)).locked = true ∧
        ((run N s (List.replicate n a)).thr a.tid).pc = .tsc ∧
        firstTsc a.tid (run N s (List.replicate n a)).trace = firstTsc a.tid s.trace := by
  induction b using Nat.strong_induction_on with
  | _ b ih =>
    intro s hf hl hpc hb
    by_cases h0 : b = 0
    · refine ⟨1, ?_⟩
      subst h0
      simp [Spin.run, Spin.step, hf, ha, Spin.threadStep, hpc, hb, hl, firstTsc]
    · have e : step N s a = { s with
          thr := Function.update s.thr a.tid { s.thr a.tid with pc := .spinLoop, i := 0 }
          trace := .load a.tid true :: s.trace } := by
        have : (s.thr a.tid).threshold > 0 := by omega
        simp [Spin.step, hf, ha, Spin.threadStep, hpc, hl, this]
      have et : (step N s a).thr a.tid = { s.thr a.tid with pc := .spinLoop, i := 0 } := by
        rw [e]; simp
      obtain ⟨n1, h1, h2, h3, h4, h5, h6⟩ := spin_loop_exits N a ha b (step N s a) (by rw [e]; exact hf)
        (by rw [et]) (by rw [et]; exact hb)
      have hlt := h5 (by rw [et]; simp; omega)
      have hl2 : (run N (step N s a) (List.replicate n1 a)).locked = true := by
        rw [h2, e]; exact hl
      obtain ⟨n2, g1, g2, g3, g4⟩ := ih _ hlt (run N (step N s a) (List.replicate n1 a)) h1 hl2 h3 rfl
      refine ⟨1 + n1 + n2, ?_⟩
      have er : run N s (List.replicate (1 + n1 + n2) a) =
          run N (run N (step N s a) (List.replicate n1 a)) (List.replicate n2 a) := by
        rw [List.replicate_add, List.replicate_add, spin_run_append, spin_run_append]
        rfl
      rw [er]
      exact ⟨g1, g2, g3, by rw [g4, h6, e]; rfl⟩

/-- A pass of the budget loop, run by the thread on its own: as long as
`i + 2k ≤ threshold + 1` the next `k` steps are `k` relax hints, and nothing
else happens; the flag is not read. -/
theorem spin_pass_pauses (N : Nat) (a : Action) (ha : a.tid < N) (k : Nat) :
    ∀ (s : State), s.fault = false → (s.thr a.tid).pc = .spinLoop →
      (s.thr a.tid).i + 2 * k ≤ (s.thr a.tid).threshold + 1 →
      (run N s (List.replicate k a)).trace = List.replicate k (Event.pause a.tid) ++ s.trace ∧
      ((run N s (List.replicate k a)).thr a.tid).pc = .spinLoop ∧
      ((run N s (List.replicate k a)).thr a.tid).i = (s.thr a.tid).i + k ∧
      ((run N s (List.replicate k a)).thr a.tid).threshold = (s.thr a.tid).threshold - k ∧
      (run N s (List.replicate k a)).locked = s.locked ∧
      (run N s (List.replicate k a)).fault = false := by
  induction k with
  | zero =>
    intro s hf hpc _
    exact ⟨rfl, hpc, rfl, rfl, rfl, hf⟩
  | succ m ih =>
    intro s hf hpc hk
    have hlt : (s.thr a.tid).i < (s.thr a.tid).threshold := by omega
    have e : step N s a = { s with
        thr := Function.update s.thr a.tid
          { s.thr a.tid with
            i := (s.thr a.tid).i + 1, threshold := (s.thr a.tid).threshold - 1 }
        trace := .pause a.tid :: s.trace } := by
      simp [Spin.step, hf, ha, Spin.threadStep, hpc, hlt]
    have et : (step N s a).thr a.tid = { s.thr a.tid with
        i := (s.thr a.tid).i + 1, threshold := (s.thr a.tid).threshold - 1 } := by
      rw [e]; simp
    have etr : (step N s a).trace = .pause a.tid :: s.trace := by rw [e]
    have el : (step N s a).locked = s.locked := by rw [e]
    have ef : (step N s a).fault = false := by rw [e]; exact hf
    obtain ⟨h1, h2, h3, h4, h5, h6⟩ := ih (step N s a) ef (by rw [et]; exact hpc)
      (by rw [et]; simp only; omega)
    have er : run N s (List.replicate (m + 1) a) = run N (step N s a) (List.replicate m a) := by
      simp [Spin.run, List.replicate_succ]
    rw [er]
    refine ⟨?_, h2, ?_, ?_, by rw [h5, el], h6⟩
    · rw [h1, etr, List.replicate_succ']
      simp
    · rw [h3, et]; simp only; omega
    · rw [h4, et]; simp only; omega

/-- A thread outside `lock()` has no cycle-counter reading in the history of
its current call. -/
theorem spin_fresh_threadStep {s : State} {i : Nat}
    (h : (s.thr i).pc = .idle → firstTsc i s.trace = none) (a : Action) :
    ((threadStep s a).thr i).pc = .idle → firstTsc i (threadStep s a).trace = none := by
  by_cases hne : a.tid = i
  · subst hne
    cases hpc : (s.thr a.tid).pc <;> simp only [Spin.threadStep, hpc]
    · unfold doExchange; split <;> simp
    · unfold doExchange; split <;> simp
    · split
      · split <;> simp
      · simp
    · split <;> simp [hpc]
    · split
      · simp
      · split <;> simp [hpc]
    · simp
    · simp [firstTsc]
  · obtain ⟨h1, _, h3, _⟩ := spin_other_step (s := s) a i hne
    rw [h1, h3]
    exact h

theorem spin_fresh_run {N : Nat} (sched : List Action) {s : State}
    (h : ∀ i, (s.thr i).pc = .idle → firstTsc i s.trace = none) :
    ∀ i, ((run N s sched).thr i).pc = .idle → firstTsc i (run N s sched).trace = none := by
  induction sched generalizing s with
  | nil => exact h
  | cons a rest ih =>
    apply ih
    simp only [Spin.step]
    split
    · exact h
    · split
      · exact fun i => spin_fresh_threadStep (h i) a
      · exact h

/-- The timeout assertion can be raised: a thread that waits behind an
owner that never unlocks uses up its budget, fixes the deadline at its first
cycle-counter reading, and fails at a reading that has reached the deadline. -/
theorem spin_timeout_reachable :
    ∃ (sched : List Action) (a : Action), ReadingsBounded (sched ++ [a]) ∧
      (run 2 init sched).fault = false ∧ (run 2 init (sched ++ [a])).fault = true := by
  have hs0f : (run 2 init [⟨0, 0, 3⟩, ⟨0, 0, 3⟩, ⟨1, 0, 5⟩]).fault = false := by decide
  have hs0l : (run 2 init [⟨0, 0, 3⟩, ⟨0, 0, 3⟩, ⟨1, 0, 5⟩]).locked = true := by decide
  obtain ⟨n, h1, h2, h3, h4⟩ := spin_budget_exhausts 2 ⟨1, 0, 5⟩ (by decide) 2048
    (run 2 init [⟨0, 0, 3⟩, ⟨0, 0, 3⟩, ⟨1, 0, 5⟩]) hs0f hs0l (by decide) (by decide)
  have h5 : firstTsc 1 (run 2 init [⟨0, 0, 3⟩, ⟨0, 0, 3⟩, ⟨1, 0, 5⟩]).trace = none := by decide
  have er : run 2 (run 2 init [⟨0, 0, 3⟩, ⟨0, 0, 3⟩, ⟨1, 0, 5⟩]) (List.replicate n ⟨1, 0, 5⟩) =
      run 2 init ([⟨0, 0, 3⟩, ⟨0, 0, 3⟩, ⟨1, 0, 5⟩] ++ List.replicate n ⟨1, 0, 5⟩) := by
    rw [spin_run_append]
  rw [h5] at h4
  rw [er] at h1 h2 h3 h4
  have hrb : ReadingsBounded ([⟨0, 0, 3⟩, ⟨0, 0, 3⟩, ⟨1, 0, 5⟩] ++ List.replicate n ⟨1, 0, 5⟩) := by
    intro b hb
    simp only [List.mem_append, List.mem_cons, List.mem_replicate, List.mem_singleton,
      List.not_mem_nil, or_false] at hb
    rcases hb with (hb | hb | hb) | ⟨_, hb⟩ <;> subst hb <;> norm_num [deadlineCycles]
  have hD := spin_deadline_run (N := 2) _ hrb (s := init) spin_deadline_init 1
  have hB := (spin_budget_run (N := 2)
    ([⟨0, 0, 3⟩, ⟨0, 0, 3⟩, ⟨1, 0, 5⟩] ++ List.replicate n ⟨1, 0, 5⟩) (s := init)
    spin_budget_init spin_tsc_nil).1 1
  generalize hs : run 2 init
    ([⟨0, 0, 3⟩, ⟨0, 0, 3⟩, ⟨1, 0, 5⟩] ++ List.replicate n ⟨1, 0, 5⟩) = s at h1 h2 h3 h4 hD hB
  have h3' : (s.thr 1).pc = .tsc := h3
  have h4' : firstTsc 1 s.trace = none := h4
  have hto : (s.thr 1).timeout = 0 := hD.unread (by simp [waiting, h3']) h4'
  have hth : (s.thr 1).threshold = 0 := hB.intsc h3'
  have e1 : step 2 s ⟨1, 0, 5⟩ = { s with
      thr := Function.update s.thr 1 { s.thr 1 with pc := .poll, timeout := 2600000000 }
      trace := .yield 1 :: .rdtsc 1 0 :: s.trace } := by
    simp [Spin.step, h1, Spin.threadStep, h3', hto, wrap64]
  have e2 : run 2 s [⟨1, 0, 5⟩, ⟨1, 0, 5⟩] = { s with
      thr := Function.update s.thr 1 { s.thr 1 with pc := .tsc, timeout := 2600000000 }
      trace := .load 1 true :: .yield 1 :: .rdtsc 1 0 :: s.trace } := by
    have : run 2 s [⟨1, 0, 5⟩, ⟨1, 0, 5⟩] = step 2 (step 2 s ⟨1, 0, 5⟩) ⟨1, 0, 5⟩ := rfl
    rw [this, e1]
    simp [Spin.step, h1, Spin.threadStep, h2, hth]
  have e3 : (step 2 (run 2 s [⟨1, 0, 5⟩, ⟨1, 0, 5⟩]) ⟨1, 2600000000, 5⟩).fault = true := by
    rw [e2]
    simp [Spin.step, h1, Spin.threadStep]
  subst hs
  refine ⟨[⟨0, 0, 3⟩, ⟨0, 0, 3⟩, ⟨1, 0, 5⟩] ++ List.replicate n ⟨1, 0, 5⟩
    ++ [⟨1, 0, 5⟩, ⟨1, 0, 5⟩], ⟨1, 2600000000, 5⟩, ?_, ?_, ?_⟩
  · intro b hb
    simp only [List.mem_append, List.mem_cons, List.mem_replicate, List.mem_singleton,
      List.not_mem_nil, or_false] at hb
    rcases hb with (((hb | hb | hb) | ⟨_, hb⟩) | (hb | hb)) | hb <;> subst hb <;>
      norm_num [deadlineCycles]
  · rw [spin_run_append, e2]
    exact h1
  · rw [spin_run_append, spin_run_append]
    exact e3

end Spin

namespace Spin

theorem spin_firstTsc_pauses (i k : Nat) (tr : List Event) :
    firstTsc i (List.replicate k (Event.pause i) ++ tr) = firstTsc i tr := by
  induction k with
  | zero => rfl
  | succ m ih => simp [List.replicate_succ, firstTsc, ih]

/-- One pass of the wait loop with budget `t > 0`, run by the thread on its
own while the flag is set. -/
theorem spin_pass_exact (N : Nat) (a : Action) (ha : a.tid < N) (s : State) (t : Nat)
    (hf : s.fault = false) (hl : s.locked = true) (hpc : (s.thr a.tid).pc = .poll)
    (hth : (s.thr a.tid).threshold = t) (ht : 0 < t) :
    (run N s (List.replicate (1 + (t + 1) / 2 + 1) a)).fault = false ∧
    (run N s (List.replicate (1 + (t + 1) / 2 + 1) a)).locked = true ∧
    ((run N s (List.replicate (1 + (t + 1) / 2 + 1) a)).thr a.tid).pc = .poll ∧
    ((run N s (List.replicate (1 + (t + 1) / 2 + 1) a)).thr a.tid).threshold
      = t - (t + 1) / 2 ∧
    firstTsc a.tid (run N s (List.replicate (1 + (t + 1) / 2 + 1) a)).trace
      = firstTsc a.tid s.trace := by
  have e : step N s a = { s with
      thr := Function.update s.thr a.tid { s.thr a.tid with pc := .spinLoop, i := 0 }
      trace := .load a.tid true :: s.trace } := by
    have : (s.thr a.tid).threshold > 0 := by omega
    simp [Spin.step, hf, ha, Spin.threadStep, hpc, hl, this]
  have et : (step N s a).thr a.tid = { s.thr a.tid with pc := .spinLoop, i := 0 } := by
    rw [e]; simp
  obtain ⟨h1, h2, h3, h4, h5, h6⟩ := spin_pass_pauses N a ha ((t + 1) / 2) (step N s a)
    (by rw [e]; exact hf) (by rw [et]) (by rw [et]; simp only; omega)
  rw [et] at h3 h4
  simp only at h3 h4
  generalize hs2 : run N (step N s a) (List.replicate ((t + 1) / 2) a) = s2 at h1 h2 h3 h4 h5 h6
  have hnlt : ¬ ((s2.thr a.tid).i < (s2.thr a.tid).threshold) := by rw [h3, h4]; omega
  have e2 : step N s2 a = { s2 with
      thr := Function.update s2.thr a.tid { s2.thr a.tid with pc := .poll }
      trace := .yield a.tid :: s2.trace } := by
    simp [Spin.step, h6, ha, Spin.threadStep, h2, hnlt]
  have er : run N s (List.replicate (1 + (t + 1) / 2 + 1) a) = step N s2 a := by
    rw [List.replicate_add, List.replicate_add, spin_run_append, spin_run_append, ← hs2]
    rfl
  rw [er, e2]
  refine ⟨h6, ?_, by simp, by simp [h4, hth], ?_⟩
  · show s2.locked = true
    rw [h5, e]; exact hl
  · show firstTsc a.tid (.yield a.tid :: s2.trace) = firstTsc a.tid s.trace
    rw [h1, e]
    simp only [firstTsc]
    rw [spin_firstTsc_pauses]
    simp [firstTsc]

/-- The waiting loop, run by the thread on its own while the flag stays set:
after `budgetSteps` steps the thread is in the cycle-counter branch. -/
theorem spin_budget_count (N : Nat) (a : Action) (ha : a.tid < N) (f : Nat) :
    ∀ (b : Nat) (s : State), b < 2 ^ f → s.fault = false → s.locked = true →
      (s.thr a.tid).pc = .poll → (s.thr a.tid).threshold = b →
      (run N s (List.replicate (budgetSteps (f + 1) b) a)).fault = false ∧
      (run N s (List.replicate (budgetSteps (f + 1) b) a)).locked = true ∧
      ((run N s (List.replicate (budgetSteps (f + 1) b) a)).thr a.tid).pc = .tsc ∧
      firstTsc a.tid (run N s (List.replicate (budgetSteps (f + 1) b) a)).trace
        = firstTsc a.tid s.trace := by
  have hzero : ∀ (g : Nat) (s : State), s.fault = false → s.locked = true →
      (s.thr a.tid).pc = .poll → (s.thr a.tid).threshold = 0 →
      (run N s (List.replicate (budgetSteps (g + 1) 0) a)).fault = false ∧
      (run N s (List.replicate (budgetSteps (g + 1) 0) a)).locked = true ∧
      ((run N s (List.replicate (budgetSteps (g + 1) 0) a)).thr a.tid).pc = .tsc ∧
      firstTsc a.tid (run N s (List.replicate (budgetSteps (g + 1) 0) a)).trace
        = firstTsc a.tid s.trace := by
    intro g s hf hl hpc hth
    simp [budgetSteps, Spin.run, Spin.step, hf, ha, Spin.threadStep, hpc, hth, hl, firstTsc]
  induction f with
  | zero =>
    intro b s hb hf hl hpc hth
    have h0 : b = 0 := by omega
    subst h0
    exact hzero 0 s hf hl hpc hth
  | succ g ih =>
    intro b s hb hf hl hpc hth
    by_cases h0 : b = 0
    · subst h0
      exact hzero (g + 1) s hf hl hpc hth
    · obtain ⟨p1, p2, p3, p4, p5⟩ := spin_pass_exact N a ha s b hf hl hpc hth (by omega)
      have hb2 : b - (b + 1) / 2 < 2 ^ g := by
        rw [pow_succ] at hb
        omega
      obtain ⟨g1, g2, g3, g4⟩ := ih (b - (b + 1) / 2) _ hb2 p1 p2 p3 p4
      have eb : budgetSteps (g + 1 + 1) b =
          (1 + (b + 1) / 2 + 1) + budgetSteps (g + 1) (b - (b + 1) / 2) := by
        simp [budgetSteps, h0]
      rw [eb, List.replicate_add, spin_run_append]
      exact ⟨g1, g2, g3, by rw [g4, p5]⟩

theorem spin_waitSchedule_split (n : Nat) :
    waitSchedule (1 + n) = [⟨0, 0, 3⟩, ⟨0, 0, 3⟩, ⟨1, 0, 5⟩] ++ List.replicate n ⟨1, 0, 5⟩ := by
  simp [waitSchedule, List.replicate_add]

/-- A thread in the cycle-counter branch with no deadline fixed yet, while
the flag is set: the reading 0 fixes the deadline `2,600,000,000`, the next
load brings the thread back to the branch, and one more step raises the
timeout assertion exactly if its reading has reached the deadline. -/
theorem spin_deadline_steps (s : State) (h1 : s.fault = false) (h2 : s.locked = true)
    (h3 : (s.thr 1).pc = .tsc) (hto : (s.thr 1).timeout = 0)
    (hth : (s.thr 1).threshold = 0) :
    (run 2 s [⟨1, 0, 5⟩, ⟨1, 0, 5⟩]).fault = false ∧
    ((run 2 s [⟨1, 0, 5⟩, ⟨1, 0, 5⟩]).thr 1).pc = .tsc ∧
    ((run 2 s [⟨1, 0, 5⟩, ⟨1, 0, 5⟩]).thr 1).timeout = 2600000000 ∧
    ∀ r c, ((run 2 (run 2 s [⟨1, 0, 5⟩, ⟨1, 0, 5⟩]) [⟨1, r, c⟩]).fault = true ↔
      2600000000 ≤ r) := by
  have e1 : step 2 s ⟨1, 0, 5⟩ = { s with
      thr := Function.update s.thr 1 { s.thr 1 with pc := .poll, timeout := 2600000000 }
      trace := .yield 1 :: .rdtsc 1 0 :: s.trace } := by
    simp [Spin.step, h1, Spin.threadStep, h3, hto, wrap64]
  have e2 : run 2 s [⟨1, 0, 5⟩, ⟨1, 0, 5⟩] = { s with
      thr := Function.update s.thr 1 { s.thr 1 with pc := .tsc, timeout := 2600000000 }
      trace := .load 1 true :: .yield 1 :: .rdtsc 1 0 :: s.trace } := by
    have : run 2 s [⟨1, 0, 5⟩, ⟨1, 0, 5⟩] = step 2 (step 2 s ⟨1, 0, 5⟩) ⟨1, 0, 5⟩ := rfl
    rw [this, e1]
    simp [Spin.step, h1, Spin.threadStep, h2, hth]
  rw [e2]
  refine ⟨h1, by simp, by simp, ?_⟩
  intro r c
  simp only [Spin.run, List.foldl_cons, List.foldl_nil, Spin.step, h1, Spin.threadStep,
    Function.update_same]
  simp only [Bool.false_eq_true, if_false, if_true, Nat.lt_irrefl, Nat.one_lt_ofNat]
  by_cases hr : 2600000000 ≤ r <;> simp [hr]

/-- The run `timeoutSchedule` and the step before it: thread 1 is in the
cycle-counter branch, first with no reading taken, then with the deadline
`2,600,000,000` fixed from the reading 0; one more step raises the timeout
assertion exactly if its reading has reached the deadline. -/
theorem spin_timeoutSchedule_run :
    (run 2 init (waitSchedule 2074)).fault = false ∧
    ((run 2 init (waitSchedule 2074)).thr 1).pc = .tsc ∧
    firstTsc 1 (run 2 init (waitSchedule 2074)).trace = none ∧
    (run 2 init timeoutSchedule).fault = false ∧
    ((run 2 init timeoutSchedule).thr 1).pc = .tsc ∧
    ((run 2 init timeoutSchedule).thr 1).timeout = 2600000000 ∧
    ∀ r c, ((run 2 init (timeoutSchedule ++ [⟨1, r, c⟩])).fault = true ↔ 2600000000 ≤ r) := by
  have hs0f : (run 2 init [⟨0, 0, 3⟩, ⟨0, 0, 3⟩, ⟨1, 0, 5⟩]).fault = false := by decide
  have hs0l : (run 2 init [⟨0, 0, 3⟩, ⟨0, 0, 3⟩, ⟨1, 0, 5⟩]).locked = true := by decide
  have h5 : firstTsc 1 (run 2 init [⟨0, 0, 3⟩, ⟨0, 0, 3⟩, ⟨1, 0, 5⟩]).trace = none := by decide
  have hn : budgetSteps (12 + 1) 2048 = 2073 := by decide
  obtain ⟨h1, h2, h3, h4⟩ := spin_budget_count 2 ⟨1, 0, 5⟩ (by decide) 12 2048
    (run 2 init [⟨0, 0, 3⟩, ⟨0, 0, 3⟩, ⟨1, 0, 5⟩]) (by norm_num) hs0f hs0l (by decide) (by decide)
  have ht : (⟨1, 0, 5⟩ : Action).tid = 1 := rfl
  rw [ht] at h3 h4
  rw [hn, ← spin_run_append, ← spin_waitSchedule_split 2073] at h1 h2 h3 h4
  rw [h5] at h4
  have e74 : (1 + 2073 : Nat) = 2074 := rfl
  rw [e74] at h1 h2 h3 h4
  have hrb : ReadingsBounded (waitSchedule 2074) := by
    intro b hb
    simp only [waitSchedule, List.mem_append, List.mem_cons, List.mem_replicate,
      List.mem_singleton, List.not_mem_nil, or_false] at hb
    rcases hb with (hb | hb) | ⟨_, hb⟩ <;> subst hb <;> norm_num [deadlineCycles]
  have hD := spin_deadline_run (N := 2) _ hrb (s := init) spin_deadline_init 1
  have hB := (spin_budget_run (N := 2) (waitSchedule 2074) (s := init)
    spin_budget_init spin_tsc_nil).1 1
  have e2 : List.replicate 2 (⟨1, 0, 5⟩ : Action) = [⟨1, 0, 5⟩, ⟨1, 0, 5⟩] := rfl
  have ets : timeoutSchedule = waitSchedule 2074 ++ [⟨1, 0, 5⟩, ⟨1, 0, 5⟩] := by
    unfold timeoutSchedule waitSchedule
    rw [show (2076 : Nat) = 2074 + 2 from rfl, List.replicate_add, e2, List.append_assoc]
  have hw : waiting ((run 2 init (waitSchedule 2074)).thr 1) = true := by
    rw [waiting, h3]
  have hA := spin_deadline_steps (run 2 init (waitSchedule 2074)) h1 h2 h3
    (hD.unread hw h4) (hB.intsc h3)
  refine ⟨h1, h3, h4, ?_⟩
  rw [ets]
  simp only [spin_run_append]
  exact hA

/-- The step that raises the timeout assertion records the reading and the
assertion. -/
theorem spin_fault_trace (N : Nat) (sched : List Action) (a : Action)
    (hf : (run N init sched).fault = false)
    (hft : (run N init (sched ++ [a])).fault = true) :
    (run N init (sched ++ [a])).trace =
      [] ++ Event.timeoutError a.tid :: (Event.rdtsc a.tid a.tsc :: (run N init sched).trace) := by
  have e : run N init (sched ++ [a]) = step N (run N init sched) a := by
    rw [spin_run_append]; rfl
  rw [e] at hft
  obtain ⟨hi, hpc, h0, hle⟩ := (spin_fault_step N (run N init sched) a hf).1 hft
  rw [e]
  simp [Spin.step, hf, hi, Spin.threadStep, hpc, h0, hle]

end Spin

namespace Pool

theorem pool_wakes_refl (ws : List WorkerPC) : Wakes ws ws := fun _ => Or.inl rfl

theorem pool_wakes_length {ws ws2 : List WorkerPC} (h : Wakes ws ws2) :
    ws2.length = ws.length := by
  apply Nat.le_antisymm
  · by_contra hlt
    have hlt : ws.length < ws2.length := Nat.lt_of_not_le hlt
    rcases h ws.length with h1 | ⟨h1, _⟩
    · rw [List.getElem?_eq_getElem hlt, List.getElem?_eq_none (Nat.le_refl _)] at h1
      exact absurd h1 (by simp)
    · rw [List.getElem?_eq_none (Nat.le_refl _)] at h1
      exact absurd h1 (by simp)
  · by_contra hlt
    have hlt : ws2.length < ws.length := Nat.lt_of_not_le hlt
    rcases h ws2.length with h1 | ⟨_, h1⟩
    · rw [List.getElem?_eq_getElem hlt, List.getElem?_eq_none (Nat.le_refl _)] at h1
      exact absurd h1 (by simp)
    · rw [List.getElem?_eq_none (Nat.le_refl _)] at h1
      exact absurd h1 (by simp)

theorem pool_wakes_set (ws : List WorkerPC) (w : Nat) (h : ws[w]? = some .blocked) :
    Wakes ws (ws.set w .woken) := by
  intro v
  by_cases hv : w = v
  · subst hv
    right
    refine ⟨h, ?_⟩
    have hlt : w < ws.length := by
      by_contra hn
      rw [List.getElem?_eq_none (Nat.le_of_not_lt hn)] at h
      exact absurd h (by simp)
    simp [List.getElem?_set, hlt]
  · left
    simp [List.getElem?_set, hv]

theorem pool_wakes_first (ws : List WorkerPC) : Wakes ws (wakeFirst ws) := by
  induction ws with
  | nil => exact pool_wakes_refl _
  | cons x xs ih =>
    intro v
    cases x <;> simp only [wakeFirst] <;> cases v <;> simp
    all_goals exact ih _

theorem pool_wakes_notifyOne (ws : List WorkerPC) (pick : Nat) : Wakes ws (notifyOne ws pick) := by
  unfold notifyOne
  split
  · rename_i h; exact pool_wakes_set ws pick h
  · exact pool_wakes_first ws

theorem pool_wakes_notifyAll (ws : List WorkerPC) : Wakes ws (notifyAll ws) := by
  intro v
  simp only [notifyAll, List.getElem?_map]
  cases h : ws[v]? with
  | none => left; rfl
  | some pc =>
    by_cases hb : pc = .blocked
    · right; simp [hb]
    · left; simp [hb]

theorem pool_sameHeld_refl (ws : List WorkerPC) : SameHeld ws ws := fun _ => ⟨rfl, rfl⟩

theorem pool_sameHeld_wakes {ws ws2 : List WorkerPC} (h : Wakes ws ws2) : SameHeld ws ws2 := by
  intro v
  rcases h v with h1 | ⟨h1, h2⟩
  · simp [whold, wcall, h1]
  · simp [whold, wcall, h1, h2, workerHolds, callOf]

theorem pool_sameHeld_spawn (ws : List WorkerPC) : SameHeld ws (ws ++ [.lock]) := by
  intro v
  by_cases hv : v < ws.length
  · simp [whold, wcall, List.getElem?_append_left hv]
  · have hv : ws.length ≤ v := Nat.le_of_not_lt hv
    simp only [whold, wcall, List.getElem?_eq_none hv]
    rw [List.getElem?_append_right hv]
    cases v - ws.length <;> simp [workerHolds, callOf]

theorem pool_idle_pend (c : Config) (s : State) (a : Agent) (h : holds s a = false) :
    pendA c s a = [] ∧ callA s a = [] := by
  cases a with
  | main =>
    simp only [holds] at h
    refine ⟨?_, rfl⟩
    simp only [pendA]
    cases hpc : s.mainPc <;> simp [pendMain]
    rename_i k st
    cases st <;> simp [pendMain]
    simp [hpc, mainHolds] at h
  | producer p =>
    simp only [holds] at h
    refine ⟨?_, rfl⟩
    simp only [pendA]
    cases hpc : s.prod p <;> simp [pendOf]
    simp [hpc, prodHolds] at h
  | worker w =>
    simp only [holds, whold] at h
    refine ⟨rfl, ?_⟩
    simp only [callA, wcall]
    cases hpc : s.threads[w]? with
    | none => rfl
    | some pc =>
      cases pc <;> simp [callOf]
      simp [hpc, workerHolds] at h

/-- Frame rule for a step of agent `b`: the other agents keep their program
points, and `b` keeps, takes or gives up the mutex. -/
theorem pool_inv_frame {c : Config} {s s2 : State} (h : QueueInv c s) (b : Agent)
    (ho : ∀ a, a ≠ b →
      holds s2 a = holds s a ∧ pendA c s2 a = pendA c s a ∧ callA s2 a = callA s a)
    (hm : (s2.mutex = s.mutex ∧ holds s2 b = holds s b) ∨
      (s.mutex = none ∧ s2.mutex = some b ∧ holds s2 b = true) ∨
      (holds s b = true ∧ s2.mutex = none ∧ holds s2 b = false))
    (hsame : holds s b = false → holds s2 b = false →
      s2.pushed = s.pushed ∧ s2.acquired = s.acquired ∧ s2.executed = s.executed ∧
        s2.dequeued = s.dequeued)
    (hfifo : s2.dequeued ++ s2.function_queue = s2.pushed)
    (hord : s.pushed ++ pendA c s b = s.acquired → s2.pushed ++ pendA c s2 b = s2.acquired)
    (hran : s.executed ++ callA s b = s.dequeued → s2.executed ++ callA s2 b = s2.dequeued) :
    QueueInv c s2 := by
  obtain ⟨hM, _, hO, hR⟩ := h
  rcases hm with ⟨hm1, hm2⟩ | ⟨hm1, hm2, hm3⟩ | ⟨hm1, hm2, hm3⟩
  · -- keep
    have hM2 : MutexInv s2 := by
      intro a
      by_cases hab : a = b
      · subst hab; rw [hm2, hm1]; exact hM a
      · rw [(ho a hab).1, hm1]; exact hM a
    refine ⟨hM2, hfifo, ?_, ?_⟩
    · cases hb : holds s b with
      | true =>
        have hmb := (hM b).1 hb
        have hmb2 : s2.mutex = some b := by rw [hm1]; exact hmb
        simp only [pending, hmb] at hO
        simp only [pending, hmb2]
        exact hord hO
      | false =>
        have hb2 : holds s2 b = false := by rw [hm2]; exact hb
        obtain ⟨e1, e2, _, _⟩ := hsame hb hb2
        simp only [pending, hm1, e1, e2]
        simp only [pending] at hO
        cases hmx : s.mutex with
        | none => simp only [hmx] at hO ⊢; exact hO
        | some a =>
          simp only [hmx] at hO ⊢
          have hab : a ≠ b := by
            intro e; subst e
            have := (hM a).2 hmx
            rw [hb] at this; exact absurd this (by simp)
          rw [(ho a hab).2.1]; exact hO
    · cases hb : holds s b with
      | true =>
        have hmb := (hM b).1 hb
        have hmb2 : s2.mutex = some b := by rw [hm1]; exact hmb
        simp only [calling, hmb] at hR
        simp only [calling, hmb2]
        exact hran hR
      | false =>
        have hb2 : holds s2 b = false := by rw [hm2]; exact hb
        obtain ⟨_, _, e3, e4⟩ := hsame hb hb2
        simp only [calling, hm1, e3, e4]
        simp only [calling] at hR
        cases hmx : s.mutex with
        | none => simp only [hmx] at hR ⊢; exact hR
        | some a =>
          simp only [hmx] at hR ⊢
          have hab : a ≠ b := by
            intro e; subst e
            have := (hM a).2 hmx
            rw [hb] at this; exact absurd this (by simp)
          rw [(ho a hab).2.2]; exact hR
  · -- acquire
    have hnb : holds s b = false := by
      cases hb : holds s b with
      | false => rfl
      | true => have := (hM b).1 hb; rw [hm1] at this; exact absurd this (by simp)
    have hM2 : MutexInv s2 := by
      intro a
      by_cases hab : a = b
      · subst hab; rw [hm3, hm2]; simp
      · rw [(ho a hab).1, hm2]
        constructor
        · intro ha; have := (hM a).1 ha; rw [hm1] at this; exact absurd this (by simp)
        · intro e; exact absurd (Option.some.inj e).symm hab
    obtain ⟨p1, p2⟩ := pool_idle_pend c s b hnb
    refine ⟨hM2, hfifo, ?_, ?_⟩
    · simp only [pending, hm1] at hO
      simp only [pending, hm2]
      exact hord (by rw [p1]; exact hO)
    · simp only [calling, hm1] at hR
      simp only [calling, hm2]
      exact hran (by rw [p2]; exact hR)
  · -- release
    have hmb := (hM b).1 hm1
    have hM2 : MutexInv s2 := by
      intro a
      by_cases hab : a = b
      · subst hab; rw [hm3, hm2]; simp
      · rw [(ho a hab).1, hm2]
        constructor
        · intro ha; have := (hM a).1 ha; rw [hmb] at this
          exact absurd (Option.some.inj this).symm hab
        · intro e; exact absurd e (by simp)
    obtain ⟨p1, p2⟩ := pool_idle_pend c s2 b hm3
    refine ⟨hM2, hfifo, ?_, ?_⟩
    · simp only [pending, hmb] at hO
      simp only [pending, hm2]
      have := hord hO
      rw [p1] at this; exact this
    · simp only [calling, hmb] at hR
      simp only [calling, hm2]
      have := hran hR
      rw [p2] at this; exact this

end Pool

namespace Pool

theorem pool_get_lt {ws : List WorkerPC} {w : Nat} {pc : WorkerPC} (h : ws[w]? = some pc) :
    w < ws.length := by
  by_contra hn
  rw [List.getElem?_eq_none (Nat.le_of_not_lt hn)] at h
  exact absurd h (by simp)

/-- A step that only moves worker `w` leaves the other agents alone. -/
theorem pool_others_worker (c : Config) {s s2 : State} (w : Nat) (pc2 : WorkerPC)
    (ht : s2.threads = s.threads.set w pc2) (hmain : s2.mainPc = s.mainPc)
    (hprod : s2.prod = s.prod) :
    ∀ a, a ≠ Agent.worker w →
      holds s2 a = holds s a ∧ pendA c s2 a = pendA c s a ∧ callA s2 a = callA s a := by
  intro a ha
  cases a with
  | main => simp [holds, pendA, callA, hmain]
  | producer p => simp [holds, pendA, callA, hprod]
  | worker v =>
    have hv : w ≠ v := fun e => ha (by rw [e])
    simp [holds, pendA, callA, whold, wcall, ht, List.getElem?_set, hv]

/-- A step that only moves producer `p`, and may wake workers, leaves the
other agents alone. -/
theorem pool_others_prod (c : Config) {s s2 : State} (p : Nat) (x : ProdPC)
    (ht : SameHeld s.threads s2.threads) (hmain : s2.mainPc = s.mainPc)
    (hprod : s2.prod = Function.update s.prod p x) :
    ∀ a, a ≠ Agent.producer p →
      holds s2 a = holds s a ∧ pendA c s2 a = pendA c s a ∧ callA s2 a = callA s a := by
  intro a ha
  cases a with
  | main => simp [holds, pendA, callA, hmain]
  | producer q =>
    have hq : q ≠ p := fun e => ha (by rw [e])
    simp [holds, pendA, callA, hprod, Function.update_noteq hq]
  | worker v =>
    simp [holds, pendA, callA, (ht v).1, (ht v).2]

/-- A step that only moves the main thread, and may wake or create workers,
leaves the other agents alone. -/
theorem pool_others_main (c : Config) {s s2 : State}
    (ht : SameHeld s.threads s2.threads) (hprod : s2.prod = s.prod) :
    ∀ a, a ≠ Agent.main →
      holds s2 a = holds s a ∧ pendA c s2 a = pendA c s a ∧ callA s2 a = callA s a := by
  intro a ha
  cases a with
  | main => exact absurd rfl ha
  | producer q => simp [holds, pendA, callA, hprod]
  | worker v => simp [holds, pendA, callA, (ht v).1, (ht v).2]

theorem pool_whold_set {ws : List WorkerPC} {w : Nat} {pc : WorkerPC} (h : ws[w]? = some pc)
    (pc2 : WorkerPC) :
    whold (ws.set w pc2) w = workerHolds pc2 ∧ wcall (ws.set w pc2) w = callOf pc2 := by
  have := pool_get_lt h
  simp [whold, wcall, List.getElem?_set, this]

/-- A move of worker `w` from `pc` to `pc2`. -/
theorem pool_inv_worker {c : Config} {s s2 : State} (h : QueueInv c s) (w : Nat)
    (pc pc2 : WorkerPC) (hw : s.threads[w]? = some pc)
    (ht : s2.threads = s.threads.set w pc2) (hmain : s2.mainPc = s.mainPc)
    (hprod : s2.prod = s.prod)
    (hm : (s2.mutex = s.mutex ∧ workerHolds pc = true ∧ workerHolds pc2 = true) ∨
      (s.mutex = none ∧ s2.mutex = some (.worker w) ∧ workerHolds pc2 = true) ∨
      (workerHolds pc = true ∧ s2.mutex = none ∧ workerHolds pc2 = false))
    (hacq : s2.pushed = s.pushed ∧ s2.acquired = s.acquired)
    (hfifo : s.dequeued ++ s.function_queue = s.pushed →
      s2.dequeued ++ s2.function_queue = s2.pushed)
    (hran : s.executed ++ callOf pc = s.dequeued → s2.executed ++ callOf pc2 = s2.dequeued) :
    QueueInv c s2 := by
  have h1 : holds s (.worker w) = workerHolds pc := by simp [holds, whold, hw]
  have h1c : callA s (.worker w) = callOf pc := by simp [callA, wcall, hw]
  have h2 : holds s2 (.worker w) = workerHolds pc2 := by
    simp only [holds, ht]; exact (pool_whold_set hw pc2).1
  have h2c : callA s2 (.worker w) = callOf pc2 := by
    simp only [callA, ht]; exact (pool_whold_set hw pc2).2
  apply pool_inv_frame h (.worker w) (pool_others_worker c w pc2 ht hmain hprod)
  · rcases hm with ⟨a, b, d⟩ | ⟨a, b, d⟩ | ⟨a, b, d⟩
    · left; exact ⟨a, by rw [h1, h2, b, d]⟩
    · right; left; exact ⟨a, b, by rw [h2, d]⟩
    · right; right; exact ⟨by rw [h1, a], b, by rw [h2, d]⟩
  · intro e1 e2
    rcases hm with ⟨a, b, d⟩ | ⟨a, b, d⟩ | ⟨a, b, d⟩
    · rw [h1, b] at e1; exact absurd e1 (by simp)
    · rw [h2, d] at e2; exact absurd e2 (by simp)
    · rw [h1, a] at e1; exact absurd e1 (by simp)
  · exact hfifo h.fifo
  · intro e
    simp only [pendA] at e ⊢
    rw [hacq.1, hacq.2]; exact e
  · rw [h1c, h2c]; exact hran

/-- The pool invariant is preserved by the steps of a worker. -/
theorem pool_inv_workerStep {c : Config} {s : State} (h : QueueInv c s) (w : Nat)
    (pc : WorkerPC) (hw : s.threads[w]? = some pc) : QueueInv c (workerStep s w pc) := by
  cases pc <;> simp only [workerStep]
  · split
    · rename_i hmx
      exact pool_inv_worker h w _ .pred hw rfl rfl rfl (Or.inr (Or.inl ⟨hmx, rfl, rfl⟩))
        ⟨rfl, rfl⟩ id id
    · exact h
  · split
    · exact pool_inv_worker h w _ .check hw rfl rfl rfl (Or.inl ⟨rfl, rfl, rfl⟩)
        ⟨rfl, rfl⟩ id id
    · exact pool_inv_worker h w _ .wait hw rfl rfl rfl (Or.inl ⟨rfl, rfl, rfl⟩)
        ⟨rfl, rfl⟩ id id
  · exact pool_inv_worker h w _ .blocked hw rfl rfl rfl (Or.inr (Or.inr ⟨rfl, rfl, rfl⟩))
      ⟨rfl, rfl⟩ id id
  · exact h
  · split
    · rename_i hmx
      exact pool_inv_worker h w _ .pred hw rfl rfl rfl (Or.inr (Or.inl ⟨hmx, rfl, rfl⟩))
        ⟨rfl, rfl⟩ id id
    · exact h
  · split
    · exact pool_inv_worker h w _ .exitUnlock hw rfl rfl rfl (Or.inl ⟨rfl, rfl, rfl⟩)
        ⟨rfl, rfl⟩ id id
    · exact pool_inv_worker h w _ .take hw rfl rfl rfl (Or.inl ⟨rfl, rfl, rfl⟩)
        ⟨rfl, rfl⟩ id id
  · split
    · exact ⟨h.mutex, h.fifo, h.order, h.ran⟩
    · rename_i t q hq
      refine pool_inv_worker h w _ (.call t) hw rfl rfl rfl (Or.inl ⟨rfl, rfl, rfl⟩)
        ⟨rfl, rfl⟩ ?_ ?_
      · intro e; rw [hq] at e; simp only [List.append_assoc, List.singleton_append]; exact e
      · intro e; simp only [callOf, List.append_nil] at e ⊢; rw [e]
  · rename_i t
    refine pool_inv_worker h w _ .unlock hw rfl rfl rfl (Or.inl ⟨rfl, rfl, rfl⟩)
      ⟨rfl, rfl⟩ id ?_
    intro e; simp only [callOf, List.append_nil] at e ⊢; exact e
  · exact pool_inv_worker h w _ .lock hw rfl rfl rfl (Or.inr (Or.inr ⟨rfl, rfl, rfl⟩))
      ⟨rfl, rfl⟩ id id
  · exact pool_inv_worker h w _ .exited hw rfl rfl rfl (Or.inr (Or.inr ⟨rfl, rfl, rfl⟩))
      ⟨rfl, rfl⟩ id id
  · exact h

end Pool

namespace Pool

/-- A move of producer `p` from `x` to `x2`. -/
theorem pool_inv_prod {c : Config} {s s2 : State} (h : QueueInv c s) (p : Nat)
    (x x2 : ProdPC) (hp : s.prod p = x)
    (ht : SameHeld s.threads s2.threads) (hmain : s2.mainPc = s.mainPc)
    (hprod : s2.prod = Function.update s.prod p x2)
    (hm : (s2.mutex = s.mutex ∧ prodHolds x = true ∧ prodHolds x2 = true) ∨
      (s.mutex = none ∧ s2.mutex = some (.producer p) ∧ prodHolds x2 = true) ∨
      (prodHolds x = true ∧ s2.mutex = none ∧ prodHolds x2 = false))
    (hexe : s2.executed = s.executed ∧ s2.dequeued = s.dequeued)
    (hfifo : s.dequeued ++ s.function_queue = s.pushed →
      s2.dequeued ++ s2.function_queue = s2.pushed)
    (hord : s.pushed ++ pendOf x = s.acquired → s2.pushed ++ pendOf x2 = s2.acquired) :
    QueueInv c s2 := by
  have h1 : holds s (.producer p) = prodHolds x := by simp [holds, hp]
  have h1c : pendA c s (.producer p) = pendOf x := by simp [pendA, hp]
  have h2 : holds s2 (.producer p) = prodHolds x2 := by simp [holds, hprod]
  have h2c : pendA c s2 (.producer p) = pendOf x2 := by simp [pendA, hprod]
  apply pool_inv_frame h (.producer p) (pool_others_prod c p x2 ht hmain hprod)
  · rcases hm with ⟨a, b, d⟩ | ⟨a, b, d⟩ | ⟨a, b, d⟩
    · left; exact ⟨a, by rw [h1, h2, b, d]⟩
    · right; left; exact ⟨a, b, by rw [h2, d]⟩
    · right; right; exact ⟨by rw [h1, a], b, by rw [h2, d]⟩
  · intro e1 e2
    rcases hm with ⟨a, b, d⟩ | ⟨a, b, d⟩ | ⟨a, b, d⟩
    · rw [h1, b] at e1; exact absurd e1 (by simp)
    · rw [h2, d] at e2; exact absurd e2 (by simp)
    · rw [h1, a] at e1; exact absurd e1 (by simp)
  · exact hfifo h.fifo
  · rw [h1c, h2c]; exact hord
  · intro e
    simp only [callA] at e ⊢
    rw [hexe.1, hexe.2]; exact e

/-- The pool invariant is preserved by the steps of a producer. -/
theorem pool_inv_prodStep {c : Config} {s : State} (h : QueueInv c s) (p : Nat) (t : Task)
    (pick : Nat) : QueueInv c (prodStep s p t pick) := by
  cases hp : s.prod p <;> simp only [prodStep, hp]
  · split
    · rename_i hmx
      refine pool_inv_prod h p _ (.push t) hp (pool_sameHeld_refl _) rfl rfl
        (Or.inr (Or.inl ⟨hmx, rfl, rfl⟩)) ⟨rfl, rfl⟩ id ?_
      intro e; simp only [pendOf, List.append_nil] at e ⊢; rw [e]
    · exact h
  · rename_i u
    refine pool_inv_prod h p _ (.notify u) hp (pool_sameHeld_refl _) rfl rfl
      (Or.inl ⟨rfl, rfl, rfl⟩) ⟨rfl, rfl⟩ ?_ ?_
    · intro e; simp only; rw [← List.append_assoc, e]
    · intro e; simp only [pendOf, List.append_nil] at e ⊢; exact e
  · rename_i u
    exact pool_inv_prod h p _ (.release u) hp (pool_sameHeld_wakes (pool_wakes_notifyOne _ _))
      rfl rfl (Or.inl ⟨rfl, rfl, rfl⟩) ⟨rfl, rfl⟩ id id
  · rename_i u
    exact pool_inv_prod h p _ .idle hp (pool_sameHeld_refl _) rfl rfl
      (Or.inr (Or.inr ⟨rfl, rfl, rfl⟩)) ⟨rfl, rfl⟩ id id

/-- A move of the main thread from `x` to `x2`. -/
theorem pool_inv_main {c : Config} {s s2 : State} (h : QueueInv c s)
    (x x2 : MainPC) (hp : s.mainPc = x)
    (ht : SameHeld s.threads s2.threads) (hmain : s2.mainPc = x2)
    (hprod : s2.prod = s.prod)
    (hm : (s2.mutex = s.mutex ∧ mainHolds x = mainHolds x2) ∨
      (s.mutex = none ∧ s2.mutex = some .main ∧ mainHolds x2 = true) ∨
      (mainHolds x = true ∧ s2.mutex = none ∧ mainHolds x2 = false))
    (hexe : s2.executed = s.executed ∧ s2.dequeued = s.dequeued)
    (hsame : mainHolds x = false → mainHolds x2 = false →
      s2.pushed = s.pushed ∧ s2.acquired = s.acquired)
    (hfifo : s.dequeued ++ s.function_queue = s.pushed →
      s2.dequeued ++ s2.function_queue = s2.pushed)
    (hord : s.pushed ++ pendMain c x = s.acquired → s2.pushed ++ pendMain c x2 = s2.acquired) :
    QueueInv c s2 := by
  have h1 : holds s .main = mainHolds x := by simp [holds, hp]
  have h1c : pendA c s .main = pendMain c x := by simp [pendA, hp]
  have h2 : holds s2 .main = mainHolds x2 := by simp [holds, hmain]
  have h2c : pendA c s2 .main = pendMain c x2 := by simp [pendA, hmain]
  apply pool_inv_frame h .main (pool_others_main c ht hprod)
  · rcases hm with ⟨a, b⟩ | ⟨a, b, d⟩ | ⟨a, b, d⟩
    · left; exact ⟨a, by rw [h1, h2, b]⟩
    · right; left; exact ⟨a, b, by rw [h2, d]⟩
    · right; right; exact ⟨by rw [h1, a], b, by rw [h2, d]⟩
  · intro e1 e2
    rw [h1] at e1; rw [h2] at e2
    exact ⟨(hsame e1 e2).1, (hsame e1 e2).2, hexe.1, hexe.2⟩
  · exact hfifo h.fifo
  · rw [h1c, h2c]; exact hord
  · intro e
    simp only [callA] at e ⊢
    rw [hexe.1, hexe.2]; exact e

theorem pool_nextCall_idle (c : Config) (k : Nat) :
    mainHolds (nextCall c k) = false ∧ pendMain c (nextCall c k) = [] := by
  unfold nextCall
  split <;> exact ⟨rfl, rfl⟩

/-- The pool invariant is preserved by the steps of the main thread. -/
theorem pool_inv_mainStep {c : Config} {s : State} (h : QueueInv c s) (pick : Nat) :
    QueueInv c (mainStep c s pick) := by
  cases hp : s.mainPc with
  | initStart =>
    simp only [mainStep, hp]
    exact pool_inv_main h _ (.spawn 0) hp (pool_sameHeld_refl _) rfl rfl (Or.inl ⟨rfl, rfl⟩)
      ⟨rfl, rfl⟩ (fun _ _ => ⟨rfl, rfl⟩) id id
  | spawn i =>
    simp only [mainStep, hp]
    split
    · exact pool_inv_main h _ (.spawn (i + 1)) hp (pool_sameHeld_spawn _) rfl rfl
        (Or.inl ⟨rfl, rfl⟩) ⟨rfl, rfl⟩ (fun _ _ => ⟨rfl, rfl⟩) id id
    · exact pool_inv_main h _ .storeActive hp (pool_sameHeld_refl _) rfl rfl
        (Or.inl ⟨rfl, rfl⟩) ⟨rfl, rfl⟩ (fun _ _ => ⟨rfl, rfl⟩) id id
  | storeActive =>
    simp only [mainStep, hp]
    refine pool_inv_main h _ (nextCall c 0) hp (pool_sameHeld_refl _) rfl rfl
      (Or.inl ⟨rfl, ?_⟩) ⟨rfl, rfl⟩ (fun _ _ => ⟨rfl, rfl⟩) id ?_
    · rw [(pool_nextCall_idle c 0).1]; rfl
    · rw [(pool_nextCall_idle c 0).2]; exact id
  | proc k st =>
    cases st with
    | acquire =>
      simp only [mainStep, hp]
      split
      · rename_i hmx
        refine pool_inv_main h _ (.proc k .push) hp (pool_sameHeld_refl _) rfl rfl
          (Or.inr (Or.inl ⟨hmx, rfl, rfl⟩)) ⟨rfl, rfl⟩ (fun _ e => absurd e (by simp [mainHolds]))
          id ?_
        intro e; simp only [pendMain, List.append_nil] at e ⊢; rw [e]
      · exact h
    | push =>
      simp only [mainStep, hp]
      refine pool_inv_main h _ (.proc k .notify) hp (pool_sameHeld_refl _) rfl rfl
        (Or.inl ⟨rfl, rfl⟩) ⟨rfl, rfl⟩ (fun e _ => absurd e (by simp [mainHolds])) ?_ ?_
      · intro e; simp only; rw [← List.append_assoc, e]
      · intro e; simp only [pendMain, List.append_nil] at e ⊢; exact e
    | notify =>
      simp only [mainStep, hp]
      exact pool_inv_main h _ (.proc k .release) hp
        (pool_sameHeld_wakes (pool_wakes_notifyOne _ _)) rfl rfl
        (Or.inl ⟨rfl, rfl⟩) ⟨rfl, rfl⟩ (fun e _ => absurd e (by simp [mainHolds])) id id
    | release =>
      simp only [mainStep, hp]
      refine pool_inv_main h _ (nextCall c (k + 1)) hp (pool_sameHeld_refl _) rfl rfl
        (Or.inr (Or.inr ⟨rfl, rfl, (pool_nextCall_idle c _).1⟩)) ⟨rfl, rfl⟩
        (fun e _ => absurd e (by simp [mainHolds])) id ?_
      rw [(pool_nextCall_idle c _).2]; exact id
  | dStore =>
    simp only [mainStep, hp]
    exact pool_inv_main h _ .dNotify hp (pool_sameHeld_refl _) rfl rfl (Or.inl ⟨rfl, rfl⟩)
      ⟨rfl, rfl⟩ (fun _ _ => ⟨rfl, rfl⟩) id id
  | dNotify =>
    simp only [mainStep, hp]
    exact pool_inv_main h _ (.join 0) hp (pool_sameHeld_wakes (pool_wakes_notifyAll _)) rfl rfl
      (Or.inl ⟨rfl, rfl⟩) ⟨rfl, rfl⟩ (fun _ _ => ⟨rfl, rfl⟩) id id
  | join i =>
    simp only [mainStep, hp]
    split
    · split
      · exact pool_inv_main h _ (.join (i + 1)) hp (pool_sameHeld_refl _) rfl rfl
          (Or.inl ⟨rfl, rfl⟩) ⟨rfl, rfl⟩ (fun _ _ => ⟨rfl, rfl⟩) id id
      · exact h
    · exact pool_inv_main h _ .done hp (pool_sameHeld_refl _) rfl rfl
        (Or.inl ⟨rfl, rfl⟩) ⟨rfl, rfl⟩ (fun _ _ => ⟨rfl, rfl⟩) id id
  | done =>
    simp only [mainStep, hp]
    exact h

theorem pool_inv_init (c : Config) (a0 : Bool) : QueueInv c (init a0) := by
  refine ⟨?_, rfl, rfl, rfl⟩
  intro a
  cases a <;> simp [holds, init, mainHolds, prodHolds, whold]

theorem pool_inv_step {c : Config} {s : State} (h : QueueInv c s) (a : Action) :
    QueueInv c (step c s a) := by
  unfold step
  split
  · exact h
  · cases a with
    | main pick => exact pool_inv_mainStep h pick
    | producer p t pick =>
      simp only
      split
      · exact pool_inv_prodStep h p t pick
      · exact h
    | worker w =>
      simp only
      split
      · rename_i pc hw; exact pool_inv_workerStep h w pc hw
      · exact h
    | spurious w =>
      simp only
      split
      · rename_i hb
        have hs := pool_sameHeld_wakes (pool_wakes_set s.threads w hb)
        refine pool_inv_frame h .main (pool_others_main c hs rfl) (Or.inl ⟨rfl, rfl⟩)
          (fun _ _ => ⟨rfl, rfl, rfl, rfl⟩) h.fifo (fun e => e) (fun e => e)
      · exact h

theorem pool_inv_run {c : Config} (sched : List Action) {s : State} (h : QueueInv c s) :
    QueueInv c (run c s sched) := by
  induction sched generalizing s with
  | nil => exact h
  | cons a rest ih => exact ih (pool_inv_step h a)

theorem pool_run_append (c : Config) (s : State) (a b : List Action) :
    run c s (a ++ b) = run c (run c s a) b := by
  simp [Pool.run, List.foldl_append]

end Pool

namespace Pool

/-- The clamp of `init`, for a `u64` request and an `unsigned int` hardware
concurrency. -/
theorem pool_count_eq (r h : Nat) (hr : r < 2 ^ 64) (hh : h < 2 ^ 32) :
    init_number_of_threads r h = ((max 1 (min r h) : Nat) : Int) := by
  have e1 : toS64 h = (h : Int) := by simp only [toS64]; omega
  have e2 : toU64 (h : Int) = h := by simp only [toU64]; omega
  simp only [init_number_of_threads, e1, e2]
  split <;> split <;> simp only [toS64] <;> omega

theorem pool_spawn_congr {c : Config} {s s2 : State} (h : SpawnInv c s)
    (h1 : s2.mainPc = s.mainPc) (h2 : s2.number_of_threads = s.number_of_threads)
    (h3 : s2.threads.length = s.threads.length) : SpawnInv c s2 := by
  unfold SpawnInv at h ⊢
  rw [h1, h2, h3]
  exact h

theorem pool_workerStep_same (s : State) (w : Nat) (pc : WorkerPC) :
    (workerStep s w pc).mainPc = s.mainPc ∧
    (workerStep s w pc).number_of_threads = s.number_of_threads ∧
    (workerStep s w pc).threads.length = s.threads.length := by
  cases pc <;> simp only [workerStep] <;> (try split) <;> simp

theorem pool_prodStep_same (s : State) (p : Nat) (t : Task) (pick : Nat) :
    (prodStep s p t pick).mainPc = s.mainPc ∧
    (prodStep s p t pick).number_of_threads = s.number_of_threads ∧
    (prodStep s p t pick).threads.length = s.threads.length := by
  cases hp : s.prod p <;> simp only [prodStep, hp] <;> (try split) <;>
    simp [pool_wakes_length (pool_wakes_notifyOne _ _)]

theorem pool_spawn_past (c : Config) (s : State) (h : pastInit s.mainPc = true) :
    SpawnInv c s ↔ (s.number_of_threads = init_number_of_threads c.r c.h ∧
      (s.threads.length : Int) = s.number_of_threads) := by
  unfold SpawnInv
  cases hp : s.mainPc <;> simp only [hp, pastInit] at h ⊢ <;> exact absurd h (by simp)

theorem pool_nextCall_past (c : Config) (k : Nat) : pastInit (nextCall c k) = true := by
  unfold nextCall
  split <;> rfl

theorem pool_spawn_mainStep {c : Config} {s : State} (h0 : SpawnInv c s)
    (hn : 0 ≤ init_number_of_threads c.r c.h) (pick : Nat) : SpawnInv c (mainStep c s pick) := by
  have h := h0
  unfold SpawnInv at h
  cases hp : s.mainPc with
  | initStart =>
    simp only [hp] at h
    simp only [mainStep, hp]
    unfold SpawnInv
    simp only
    exact ⟨trivial, h, by simpa using hn⟩
  | spawn i =>
    simp only [hp] at h
    obtain ⟨h1, h2, h3⟩ := h
    simp only [mainStep, hp]
    split
    · rename_i hlt
      unfold SpawnInv
      simp only [List.length_append, List.length_singleton]
      refine ⟨h1, by omega, ?_⟩
      push_cast
      omega
    · rename_i hlt
      unfold SpawnInv
      simp only
      exact ⟨h1, by omega⟩
  | storeActive =>
    simp only [hp] at h
    simp only [mainStep, hp]
    exact (pool_spawn_past c _ (pool_nextCall_past c 0)).2 h
  | proc k st =>
    simp only [hp] at h
    cases st <;> simp only [mainStep, hp]
    · split
      · unfold SpawnInv; exact h
      · exact h0
    · unfold SpawnInv; exact h
    · unfold SpawnInv
      simp only [pool_wakes_length (pool_wakes_notifyOne _ _)]; exact h
    · exact (pool_spawn_past c _ (pool_nextCall_past c (k + 1))).2 h
  | dStore =>
    simp only [hp] at h
    simp only [mainStep, hp]
    unfold SpawnInv
    exact h
  | dNotify =>
    simp only [hp] at h
    simp only [mainStep, hp]
    unfold SpawnInv
    simp only [pool_wakes_length (pool_wakes_notifyAll _)]
    exact h
  | join i =>
    simp only [hp] at h
    simp only [mainStep, hp]
    split
    · split
      · unfold SpawnInv; exact h
      · exact h0
    · unfold SpawnInv; exact h
  | done =>
    simp only [hp] at h
    simp only [mainStep, hp]
    exact h0


theorem pool_spawn_step {c : Config} {s : State} (h : SpawnInv c s)
    (hn : 0 ≤ init_number_of_threads c.r c.h) (a : Action) : SpawnInv c (step c s a) := by
  unfold step
  split
  · exact h
  · cases a with
    | main pick => exact pool_spawn_mainStep h hn pick
    | producer p t pick =>
      simp only
      split
      · have := pool_prodStep_same s p t pick
        exact pool_spawn_congr h this.1 this.2.1 this.2.2
      · exact h
    | worker w =>
      simp only
      split
      · rename_i pc hw
        have := pool_workerStep_same s w pc
        exact pool_spawn_congr h this.1 this.2.1 this.2.2
      · exact h
    | spurious w =>
      simp only
      split
      · exact pool_spawn_congr h rfl rfl (by simp)
      · exact h

theorem pool_spawn_run {c : Config} (hn : 0 ≤ init_number_of_threads c.r c.h)
    (sched : List Action) {s : State} (h : SpawnInv c s) : SpawnInv c (run c s sched) := by
  induction sched generalizing s with
  | nil => exact h
  | cons a rest ih => exact ih (pool_spawn_step h hn a)

/-- The loop of `init` that creates the threads, run without interruption. -/
theorem pool_spawn_loop (c : Config) (k : Nat) :
    ∀ (s : State) (i : Nat), s.ub = false → s.mainPc = .spawn i →
      ((i + k : Nat) : Int) ≤ s.number_of_threads →
      (run c s (List.replicate k (.main 0))).mainPc = .spawn (i + k) ∧
      (run c s (List.replicate k (.main 0))).threads = s.threads ++ List.replicate k .lock ∧
      (run c s (List.replicate k (.main 0))).number_of_threads = s.number_of_threads ∧
      (run c s (List.replicate k (.main 0))).thread_pool_active = s.thread_pool_active ∧
      (run c s (List.replicate k (.main 0))).ub = false := by
  induction k with
  | zero =>
    intro s i hub hpc _
    exact ⟨hpc, by simp [Pool.run], rfl, rfl, hub⟩
  | succ m ih =>
    intro s i hub hpc hle
    have hlt : (i : Int) < s.number_of_threads := by push_cast at hle; omega
    have e : step c s (.main 0) =
        { s with threads := s.threads ++ [.lock], mainPc := .spawn (i + 1) } := by
      simp [step, hub, mainStep, hpc, hlt]
    have er : run c s (List.replicate (m + 1) (.main 0)) =
        run c (step c s (.main 0)) (List.replicate m (.main 0)) := by
      simp [Pool.run, List.replicate_succ]
    obtain ⟨h1, h2, h3, h4, h5⟩ := ih (step c s (.main 0)) (i + 1) (by rw [e]; exact hub)
      (by rw [e]) (by rw [e]; push_cast at hle ⊢; omega)
    rw [er]
    refine ⟨by rw [h1]; congr 1; omega, ?_, by rw [h3, e], by rw [h4, e], h5⟩
    rw [h2, e]
    simp [List.replicate_succ]

/-- The whole of `init`, run without interruption: it returns after
`number_of_threads + 3` steps with that many threads created and the flag
set. -/
theorem pool_init_returns (c : Config) (a0 : Bool) (n : Nat)
    (hn : init_number_of_threads c.r c.h = (n : Int)) :
    (run c (init a0) (List.replicate (n + 3) (.main 0))).mainPc = nextCall c 0 ∧
    (run c (init a0) (List.replicate (n + 3) (.main 0))).threads = List.replicate n .lock ∧
    (run c (init a0) (List.replicate (n + 3) (.main 0))).number_of_threads = (n : Int) ∧
    (run c (init a0) (List.replicate (n + 3) (.main 0))).thread_pool_active = true ∧
    (run c (init a0) (List.replicate (n + 3) (.main 0))).ub = false := by
  have e0 : step c (init a0) (.main 0) =
      { init a0 with number_of_threads := (n : Int), mainPc := .spawn 0 } := by
    simp [step, init, mainStep, hn]
  have er : run c (init a0) (List.replicate (n + 3) (.main 0)) =
      step c (step c (run c (step c (init a0) (.main 0)) (List.replicate n (.main 0)))
        (.main 0)) (.main 0) := by
    have : n + 3 = 1 + n + 1 + 1 := by omega
    rw [this, List.replicate_add, List.replicate_add, List.replicate_add, pool_run_append,
      pool_run_append, pool_run_append]
    rfl
  obtain ⟨h1, h2, h3, h4, h5⟩ := pool_spawn_loop c n (step c (init a0) (.main 0)) 0
    (by rw [e0]; rfl) (by rw [e0]) (by rw [e0]; simp)
  rw [e0] at h1 h2 h3 h4 h5
  simp only [Nat.zero_add] at h1
  rw [er, e0]
  generalize run c { init a0 with number_of_threads := (n : Int), mainPc := .spawn 0 }
    (List.replicate n (.main 0)) = s at h1 h2 h3 h4 h5
  have hnl : ¬ ((n : Int) < s.number_of_threads) := by rw [h3]; simp
  have e1 : step c s (.main 0) = { s with mainPc := .storeActive } := by
    simp [step, h5, mainStep, h1, hnl]
  rw [e1]
  simp [step, h5, mainStep, h2, h3, init]


end Pool

namespace Arr

theorem arr_getD_eq (l : List Int) (i : Nat) (h : i < l.length) : l[i]? = some (l.getD i 0) := by
  rw [List.getD_eq_getElem?_getD, List.getElem?_eq_getElem h]
  rfl

end Arr

namespace HT

/-- A table whose fields fit together: `n` entries, `table_size = n`. -/
theorem ht_next_index_eq (t : Hash_Table) (n index : Nat) (hsz : t.table_size = (n : Int))
    (hn1 : n < 2147483648) (hi : index < n) :
    next_index t index = if index + 1 = n then 0 else index + 1 := by
  have e1 : toU32 t.table_size = n := by rw [hsz]; simp only [toU32]; omega
  have e2 : wrap32 (index + 1) = index + 1 := by simp only [wrap32]; omega
  unfold next_index
  rw [e1, e2]
  by_cases h : index + 1 = n
  · rw [if_pos (by omega), if_pos h]
  · rw [if_neg (by omega), if_neg h]

theorem ht_next_index_lt (t : Hash_Table) (n index : Nat) (hsz : t.table_size = (n : Int))
    (hn1 : n < 2147483648) (hi : index < n) : next_index t index < n := by
  rw [ht_next_index_eq t n index hsz hn1 hi]
  split <;> omega

theorem ht_slot_lt (t : Hash_Table) (n hash : Nat) (hsz : t.table_size = (n : Int))
    (hn0 : 0 < n) (hn1 : n < 2147483648) : slot t hash < n := by
  have e1 : toU32 (t.table_size - 1) = n - 1 := by rw [hsz]; simp only [toU32]; omega
  have : slot t hash ≤ n - 1 := by
    unfold slot
    rw [e1]
    exact Nat.and_le_right
  omega

theorem ht_add_hash_ge (t : Hash_Table) (key : Nat) : 2 ≤ add_hash t key := by
  unfold add_hash VALID wrap32
  split <;> omega

theorem ht_find_hash_ge (t : Hash_Table) (key : Nat) : 2 ≤ find_hash t key := by
  unfold find_hash VALID wrap32
  split <;> omega

/-- Without a vacant entry the loop of `table_add` never ends. -/
theorem ht_add_probe_stuck (t : Hash_Table) (n : Nat) (hlen : t.entries.length = n)
    (hsz : t.table_size = (n : Int)) (hn1 : n < 2147483648)
    (hfull : ∀ e, e ∈ t.entries → e.hash ≠ 0) :
    ∀ fuel index, index < n → add_probe t fuel index = .error .fuel := by
  intro fuel
  induction fuel with
  | zero => intro index _; rfl
  | succ f ih =>
    intro index hi
    have hlt : index < t.entries.length := by omega
    have hne := hfull _ (List.getElem_mem hlt)
    simp only [add_probe, List.getElem?_eq_getElem hlt, VACANT, hne, if_false]
    exact ih _ (ht_next_index_lt t n index hsz hn1 hi)

/-- Without a vacant entry and without an entry of the wanted hash the probe of
`table_find_pointer` and `table_remove` never ends. -/
theorem ht_probe_stuck (t : Hash_Table) (n hash key : Nat) (hlen : t.entries.length = n)
    (hsz : t.table_size = (n : Int)) (hn1 : n < 2147483648)
    (hfull : ∀ e, e ∈ t.entries → e.hash ≠ 0 ∧ e.hash ≠ hash) :
    ∀ fuel index, index < n → probe t hash key fuel index = .error .fuel := by
  intro fuel
  induction fuel with
  | zero => intro index _; rfl
  | succ f ih =>
    intro index hi
    have hlt : index < t.entries.length := by omega
    have hne := hfull _ (List.getElem_mem hlt)
    simp only [probe, List.getElem?_eq_getElem hlt, hne.1, hne.2, if_false, false_and]
    exact ih _ (ht_next_index_lt t n index hsz hn1 hi)

end HT

namespace HT

end HT

namespace HT

theorem ht_get_entryAt (t : Hash_Table) (i : Nat) (h : i < t.entries.length) :
    t.entries[i]? = some (entryAt t i) := by
  unfold entryAt
  rw [List.getD_eq_getElem?_getD, List.getElem?_eq_getElem h]
  rfl

/-- One round of the probe loop at a slot inside the table. -/
theorem ht_probe_step (t : Hash_Table) (hash key f index : Nat) (h : index < t.entries.length) :
    probe t hash key (f + 1) index =
      if (entryAt t index).hash = 0 then .ok none
      else if (entryAt t index).hash = hash ∧
          t.comparator_function (entryAt t index).key key = true then .ok (some index)
      else probe t hash key f (next_index t index) := by
  rw [probe, ht_get_entryAt t index h]

/-- What the probe returns is an entry with the wanted hash and key. -/
theorem ht_probe_sound (t : Hash_Table) (n hash key : Nat) (hlen : t.entries.length = n)
    (hsz : t.table_size = (n : Int)) (hn1 : n < 2147483648) :
    ∀ f index j, index < n → probe t hash key f index = .ok (some j) →
      j < n ∧ (entryAt t j).hash = hash ∧ t.comparator_function (entryAt t j).key key = true := by
  intro f
  induction f with
  | zero => intro index j _ h; simp [probe] at h
  | succ f ih =>
    intro index j hi h
    rw [ht_probe_step t hash key f index (by omega)] at h
    split at h
    · simp at h
    · split at h
      · rename_i hm
        simp only [Except.ok.injEq, Option.some.injEq] at h
        subst h
        exact ⟨hi, hm.1, hm.2⟩
      · exact ih _ j (ht_next_index_lt t n index hsz hn1 hi) h

/-- With a vacant slot the probe ends, within as many rounds as the vacant slot
is away. -/
theorem ht_probe_terminates (t : Hash_Table) (n hash key v : Nat)
    (hlen : t.entries.length = n) (hsz : t.table_size = (n : Int)) (hn1 : n < 2147483648)
    (hv : v < n) (hvac : (entryAt t v).hash = 0) :
    ∀ d start, start < n → dist n v start = d → ∀ f, d < f →
      ∃ r, probe t hash key f start = .ok r := by
  intro d
  induction d with
  | zero =>
    intro start hs hd f hf
    have : start = v := by
      unfold dist at hd
      split at hd <;> omega
    subst this
    obtain ⟨f', rfl⟩ : ∃ f', f = f' + 1 := ⟨f - 1, by omega⟩
    rw [ht_probe_step t hash key f' start (by omega), if_pos hvac]
    exact ⟨_, rfl⟩
  | succ d ih =>
    intro start hs hd f hf
    obtain ⟨f', rfl⟩ : ∃ f', f = f' + 1 := ⟨f - 1, by omega⟩
    rw [ht_probe_step t hash key f' start (by omega)]
    split
    · exact ⟨_, rfl⟩
    · split
      · exact ⟨_, rfl⟩
      · have hnext := ht_next_index_eq t n start hsz hn1 hs
        have hlt := ht_next_index_lt t n start hsz hn1 hs
        apply ih _ hlt _ f' (by omega)
        rw [hnext]
        unfold dist at hd ⊢
        split at hd <;> split <;> split <;> omega

theorem ht_dist_lt (n v start : Nat) (hv : v < n) (hs : start < n) : dist n v start < n := by
  unfold dist
  split <;> omega

/-- More fuel does not change a result. -/
theorem ht_probe_mono (t : Hash_Table) (hash key : Nat) :
    ∀ f index r, probe t hash key f index = .ok r → probe t hash key (f + 1) index = .ok r := by
  intro f
  induction f with
  | zero => intro index r h; simp [probe] at h
  | succ f ih =>
    intro index r h
    rw [probe] at h ⊢
    cases he : t.entries[index]? with
    | none => simp [he] at h
    | some e =>
      simp only [he] at h ⊢
      by_cases h0 : e.hash = 0
      · rw [if_pos h0] at h ⊢; exact h
      · rw [if_neg h0] at h ⊢
        by_cases h1 : e.hash = hash ∧ t.comparator_function e.key key = true
        · rw [if_pos h1] at h ⊢; exact h
        · rw [if_neg h1] at h ⊢; exact ih _ _ h

theorem ht_probeSeq_shift (t : Hash_Table) (start : Nat) :
    ∀ i, probeSeq t start (i + 1) = probeSeq t (next_index t start) i := by
  intro i
  induction i with
  | zero => rfl
  | succ i ih => rw [probeSeq, ih]; rfl

/-- A probe along a path without vacant slots that leads to a matching entry
returns a matching entry on that path. -/
theorem ht_probe_finds (t : Hash_Table) (n hash key : Nat) (hlen : t.entries.length = n)
    (hsz : t.table_size = (n : Int)) (hn1 : n < 2147483648) :
    ∀ d start, start < n →
      (∀ i, i ≤ d → (entryAt t (probeSeq t start i)).hash ≠ 0) →
      ((entryAt t (probeSeq t start d)).hash = hash ∧
        t.comparator_function (entryAt t (probeSeq t start d)).key key = true) →
      ∀ f, d < f → ∃ j, probe t hash key f start = .ok (some j) := by
  intro d
  induction d with
  | zero =>
    intro start hs hnv hm f hf
    obtain ⟨f', rfl⟩ : ∃ f', f = f' + 1 := ⟨f - 1, by omega⟩
    have h0 : (entryAt t start).hash ≠ 0 := hnv 0 (Nat.le_refl _)
    have hm0 : (entryAt t start).hash = hash ∧
        t.comparator_function (entryAt t start).key key = true := hm
    rw [ht_probe_step t hash key f' start (by omega), if_neg h0, if_pos hm0]
    exact ⟨_, rfl⟩
  | succ d ih =>
    intro start hs hnv hm f hf
    obtain ⟨f', rfl⟩ : ∃ f', f = f' + 1 := ⟨f - 1, by omega⟩
    have h0 : (entryAt t start).hash ≠ 0 := hnv 0 (Nat.zero_le _)
    rw [ht_probe_step t hash key f' start (by omega), if_neg h0]
    split
    · exact ⟨_, rfl⟩
    · apply ih _ (ht_next_index_lt t n start hsz hn1 hs) _ _ f' (by omega)
      · intro i hi
        rw [← ht_probeSeq_shift]
        exact hnv (i + 1) (by omega)
      · rw [← ht_probeSeq_shift]
        exact hm

end HT

namespace HT

theorem ht_removed_entryAt (t : Hash_Table) (j i : Nat) (hj : j < t.entries.length) :
    entryAt (removed t j) i =
      if i = j then { entryAt t j with hash := DELETED } else entryAt t i := by
  unfold entryAt removed
  simp only [List.getD_eq_getElem?_getD]
  by_cases h : i = j
  · subst h
    rw [if_pos rfl, List.getElem?_modify_eq, List.getElem?_eq_getElem hj]
    rfl
  · rw [if_neg h, List.getElem?_modify_ne _ _ (fun e => h e.symm)]

theorem ht_removed_length (t : Hash_Table) (j : Nat) :
    (removed t j).entries.length = t.entries.length := by
  simp [removed]

/-- Removing an entry keeps the table well formed. -/
theorem ht_removed_vacant (t : Hash_Table) (j v : Nat) (hj : j < t.entries.length)
    (hjv : (entryAt t j).hash ≠ 0) (hv : (entryAt t v).hash = 0) :
    (entryAt (removed t j) v).hash = 0 := by
  rw [ht_removed_entryAt t j v hj]
  have : v ≠ j := fun e => hjv (e ▸ hv)
  rw [if_neg this]
  exact hv

/-- A probe for a hash and key that the removed entry did not match takes the
same course after the removal. -/
theorem ht_probe_removed (t : Hash_Table) (n hash key j : Nat)
    (hlen : t.entries.length = n) (hsz : t.table_size = (n : Int)) (hn1 : n < 2147483648)
    (hj : j < n) (hjv : (entryAt t j).hash ≠ 0) (hh : hash ≠ DELETED)
    (hnm : ¬ ((entryAt t j).hash = hash ∧
      t.comparator_function (entryAt t j).key key = true)) :
    ∀ f index, index < n →
      probe (removed t j) hash key f index = probe t hash key f index := by
  intro f
  induction f with
  | zero => intro index _; rfl
  | succ f ih =>
    intro index hi
    rw [ht_probe_step t hash key f index (by omega),
      ht_probe_step (removed t j) hash key f index (by rw [ht_removed_length]; omega),
      ht_removed_entryAt t j index (by omega)]
    have hnext : next_index (removed t j) index = next_index t index := rfl
    have hcmp : (removed t j).comparator_function = t.comparator_function := rfl
    rw [hnext, hcmp, ih _ (ht_next_index_lt t n index hsz hn1 hi)]
    by_cases h : index = j
    · subst h
      rw [if_pos rfl]
      simp only
      have h1 : ¬ (DELETED = 0) := by decide
      have h2 : ¬ (DELETED = hash ∧ t.comparator_function (entryAt t index).key key = true) :=
        fun e => hh e.1.symm
      rw [if_neg h1, if_neg h2, if_neg hjv, if_neg hnm]
    · rw [if_neg h]

theorem ht_probe_mono_add (t : Hash_Table) (hash key f index : Nat) (r : Option Nat)
    (h : probe t hash key f index = .ok r) : ∀ k, probe t hash key (f + k) index = .ok r := by
  intro k
  induction k with
  | zero => exact h
  | succ k ih => exact ht_probe_mono t hash key _ _ _ ih

/-- In a well-formed table every probe that starts inside the table returns,
given more rounds than the table has slots. -/
theorem ht_probe_returns (t : Hash_Table) (n hash key : Nat) (hw : WellFormed t n)
    (start : Nat) (hs : start < n) (f : Nat) (hf : n < f) :
    ∃ r, probe t hash key f start = .ok r := by
  obtain ⟨v, hv, hvac⟩ := hw.vacant
  exact ht_probe_terminates t n hash key v hw.length hw.size hw.bound hv hvac _ start hs rfl f
    (by have := ht_dist_lt n v start hv hs; omega)

set_option maxRecDepth 100000 in
/-- The table `smallTable` is what `table_init(4)` with the hash function
`keyItself`, `table_add(5, 50)` and `table_add(9, 90)` produce. -/
theorem ht_smallTable_reached :
    ∃ t0 t1, table_init 4 none (some keyItself) = .ok t0 ∧ table_add 10 t0 5 50 = .ok t1 ∧
      table_add 10 t1 9 90 = .ok smallTable :=
  ⟨_, _, rfl, rfl, rfl⟩

end HT

namespace Arr

/-- What `array_add` does to an array whose fields fit together. -/
theorem arr_add_ok (sz : Nat) (junk : Nat → Int) (a : Array) (v : Int)
    (h0 : 0 ≤ a.size) (h1 : a.size ≤ a.capacity) (hd : (a.data.length : Int) = a.capacity)
    (hc : 2 * a.size + 8 ≤ INT_MAX) (hg : a.capacity ≤ 2 * a.size + 8) :
    ∃ a2, array_add sz junk a v = .ok a2 ∧
      a2.data[a.size.toNat]? = some v ∧ a2.size = a.size + 1 ∧
      (∀ i : Nat, (i : Int) < a.size → a2.data[i]? = a.data[i]?) ∧
      a2.size ≤ a2.capacity ∧ (a2.data.length : Int) = a2.capacity ∧
      a2.capacity ≤ 2 * a2.size + 8 ∧ a2.front = a.front := by
  have hmax : INT_MAX = 2147483647 := rfl
  have hmin : INT_MIN = -2147483648 := rfl
  rw [hmax] at hc
  by_cases hfull : a.capacity = a.size
  · have hg2 : ARRAY_GROWTH_FORMULA a.capacity = .ok (2 * a.capacity + 8) := by
      unfold ARRAY_GROWTH_FORMULA
      rw [if_neg]
      rw [hmax, hmin]; omega
    have hal : array_mutate sz junk a 0 = .ok { a with
        data := (List.range (2 * a.capacity + 8).toNat).map fun i =>
          if i < a.size.toNat then a.data.getD i 0 else junk i
        capacity := 2 * a.capacity + 8 } := by
      unfold array_mutate
      rw [hg2]
      simp only
      rw [if_neg (by omega)]
      unfold array_allocate_and_copy
      rw [if_neg (by omega), if_neg (by omega), if_neg (by omega)]
    unfold array_add
    rw [if_pos hfull, hal]
    simp only [List.length_map, List.length_range]
    rw [if_neg (by omega), if_neg (by rw [hmax]; omega)]
    refine ⟨_, rfl, ?_, rfl, ?_, ?_, ?_, ?_, rfl⟩
    · simp only
      rw [List.getElem?_set_self]
      simp only [List.length_map, List.length_range]
      omega
    · intro i hi
      have hi2 : i ≠ a.size.toNat := by omega
      have hi3 : i < a.size.toNat := by omega
      have hi4 : i < a.data.length := by omega
      simp only
      rw [List.getElem?_set_ne (fun e => hi2 e.symm), List.getElem?_map,
        List.getElem?_range (by omega)]
      simp only [Option.map_some', hi3, if_true]
      exact (arr_getD_eq _ _ hi4).symm
    · simp only; omega
    · simp only [List.length_set, List.length_map, List.length_range]
      omega
    · simp only; omega
  · unfold array_add
    rw [if_neg hfull]
    simp only
    rw [if_neg (by omega), if_neg (by rw [hmax]; omega)]
    refine ⟨_, rfl, ?_, rfl, ?_, ?_, ?_, ?_, rfl⟩
    · simp only
      rw [List.getElem?_set_self]
      omega
    · intro i hi
      have hi2 : i ≠ a.size.toNat := by omega
      simp only
      rw [List.getElem?_set_ne (fun e => hi2 e.symm)]
    · simp only; omega
    · simp only [List.length_set]; exact hd
    · simp only; omega

theorem arr_queue_init (s0 : Nat) :
    ∃ q, queue_init ⟨emptyArray, s0⟩ = .ok q ∧ QueueState q [] 0 := by
  refine ⟨⟨⟨List.replicate 8 0, 0, 8, 0⟩, 0⟩, rfl, ?_⟩
  exact ⟨rfl, rfl, rfl, by decide, rfl, by decide, fun i hi => absurd hi (by simp)⟩

/-- Pushing one value. -/
theorem arr_queue_push (sz : Nat) (junk : Nat → Int) (q : Queue) (pre : List Int) (v : Int)
    (h : QueueState q pre 0) (hn : pre.length < 1073741820) :
    ∃ q1, queue_push sz junk q v = .ok q1 ∧ QueueState q1 (pre ++ [v]) 0 := by
  obtain ⟨hs, hcount, hf, hcap, hlen, hgrow, hel⟩ := h
  have hmax : INT_MAX = 2147483647 := rfl
  obtain ⟨a2, e, r1, r2, r3, r4, r5, r6, r7⟩ := arr_add_ok sz junk q.data v (by omega) hcap hlen
    (by rw [hmax]; omega) hgrow
  refine ⟨⟨a2, (q.size + 1) % 18446744073709551616⟩, ?_, ?_⟩
  · unfold queue_push array_push
    rw [e]
  · have hst : q.data.size.toNat = pre.length := by omega
    refine ⟨?_, ?_, ?_, r4, r5, r6, ?_⟩
    · simp only [r2, hs, List.length_append, List.length_singleton]; omega
    · simp only [List.length_append, List.length_singleton]; omega
    · simp only [r7, hf]
    · intro i hi
      simp only [List.length_append, List.length_singleton] at hi
      by_cases hlt : i < pre.length
      · rw [r3 i (by omega), hel i hlt, List.getElem?_append_left hlt]
      · have : i = pre.length := by omega
        subst this
        rw [← hst, r1, hst, List.getElem?_append_right (Nat.le_refl _)]
        simp

/-- Pushing a list of values. -/
theorem arr_pushAll (sz : Nat) (junk : Nat → Int) (vs : List Int) :
    ∀ (q : Queue) (pre : List Int), QueueState q pre 0 →
      pre.length + vs.length ≤ 1073741820 →
      ∃ q1, pushAll sz junk q vs = .ok q1 ∧ QueueState q1 (pre ++ vs) 0 := by
  induction vs with
  | nil =>
    intro q pre h _
    exact ⟨q, rfl, by rw [List.append_nil]; exact h⟩
  | cons v vs ih =>
    intro q pre h hn
    simp only [List.length_cons] at hn
    obtain ⟨q1, e1, h1⟩ := arr_queue_push sz junk q pre v h (by omega)
    obtain ⟨q2, e2, h2⟩ := ih q1 (pre ++ [v]) h1
      (by simp only [List.length_append, List.length_singleton]; omega)
    refine ⟨q2, ?_, ?_⟩
    · rw [pushAll, e1]; exact e2
    · rw [List.append_assoc] at h2; exact h2

/-- Popping `m` values: the peek reports the values in order, the pop returns
element 0 every time. -/
theorem arr_popPeekN (vs : List Int) (hn : vs.length ≤ 1073741820) (m : Nat) :
    ∀ (q : Queue) (k : Nat), QueueState q vs k → k + m ≤ vs.length →
      ∃ q2, popPeekN m q =
          .ok ((List.range m).map (fun i => (vs.getD (k + i) 0, vs.getD 0 0)), q2) ∧
        QueueState q2 vs (k + m) := by
  induction m with
  | zero =>
    intro q k h _
    exact ⟨q, rfl, h⟩
  | succ m ih =>
    intro q k h hk
    obtain ⟨hs, hcount, hf, hcap, hlen, hgrow, hel⟩ := h
    have hmax : INT_MAX = 2147483647 := rfl
    have hpos : 0 < q.data.size := by omega
    have hk0 : k < vs.length := by omega
    have h00 : 0 < vs.length := by omega
    have hpeek : queue_peek_front q = .ok (vs.getD k 0) := by
      unfold queue_peek_front array_peek_front
      rw [if_neg (by omega), if_neg (by omega), hf]
      simp only [Int.toNat_ofNat]
      rw [hel k hk0, List.getElem?_eq_getElem hk0]
      simp only
      rw [List.getD_eq_getElem?_getD, List.getElem?_eq_getElem hk0]
      rfl
    have hpop : queue_pop q = .ok (vs.getD 0 0,
        { data := { q.data with front := q.data.front + 1 },
          size := (q.size + 18446744073709551616 - 1) % 18446744073709551616 }) := by
      unfold queue_pop array_pop_front
      rw [if_pos (by omega), if_neg (by omega), hel 0 h00, List.getElem?_eq_getElem h00]
      simp only
      rw [if_neg (by rw [hmax]; omega)]
      simp only
      rw [List.getD_eq_getElem?_getD, List.getElem?_eq_getElem h00]
      rfl
    obtain ⟨q2, e2, h2⟩ := ih
      { data := { q.data with front := q.data.front + 1 },
        size := (q.size + 18446744073709551616 - 1) % 18446744073709551616 } (k + 1)
      ⟨hs, by simp only; omega, by simp only; omega, hcap, hlen, hgrow, hel⟩ (by omega)
    refine ⟨q2, ?_, by rw [Nat.add_assoc, Nat.add_comm 1 m] at h2; exact h2⟩
    rw [popPeekN, hpeek]
    simp only
    rw [hpop]
    simp only
    rw [e2]
    have hl : (List.range (m + 1)).map (fun i => (vs.getD (k + i) 0, vs.getD 0 0)) =
        (vs.getD k 0, vs.getD 0 0) ::
          (List.range m).map (fun i => (vs.getD (k + 1 + i) 0, vs.getD 0 0)) := by
      rw [List.range_succ_eq_map, List.map_cons, List.map_map]
      simp only [Nat.add_zero, List.cons.injEq, true_and]
      apply List.map_congr_left
      intro i _
      simp only [Function.comp, Nat.succ_eq_add_one]
      rw [Nat.add_assoc, Nat.add_comm 1 i]
    rw [hl]

end Arr

/-! ## The claims -/

namespace TL

/-- C1. Ticket lock, mutual exclusion: for `N ≥ 1` threads that each run `K ≥ 1` times
`Ticket_Acquire; read counter; write counter + 1; Ticket_Release` with `N * K < 2^31`, under
every schedule the increment of `grant` never overflows, at most one thread is between the
return of `Ticket_Acquire` and its write of `grant`, and when all threads have finished the
counter is exactly `N * K`. -/
theorem ticket_lock_counter (N K : Nat) (_hN : 1 ≤ N) (hK : 1 ≤ K) (hNK : N * K < 2 ^ 31)
    (sched : List Nat) :
    (run N (init K) sched).ub = false ∧
    (∀ i j, i < N → j < N → owner ((run N (init K) sched).thr i) = true →
      owner ((run N (init K) sched).thr j) = true → i = j) ∧
    ((∀ i, i < N → ((run N (init K) sched).thr i).pc = .idle ∧
        ((run N (init K) sched).thr i).left = 0) →
      (run N (init K) sched).counter = N * K) := by
  have hN2 : N < 2 ^ 31 := by
    have : N * 1 ≤ N * K := Nat.mul_le_mul_left N hK
    omega
  have hG := tl_good_reach hN2 K sched
  refine ⟨tl_no_ub_run hN2 hNK sched (Good.tl_good_init N K) rfl,
    fun i j hi hj hoi hoj => hG.inv.tl_inv_owner_unique hi hj hoi hoj, ?_⟩
  intro hdone
  have h1 : sumThr Thread.left (run N (init K) sched).thr N = N * 0 :=
    sumThr_const _ _ _ _ (fun i hi => (hdone i hi).2)
  have h2 : countThr wrote (run N (init K) sched).thr N = 0 :=
    countThr_eq_zero _ _ _ (fun i hi => by simp [wrote, (hdone i hi).1])
  have h3 := hG.hist.left_sum
  have h4 := hG.hist.cnt
  omega

/-- Two threads, one iteration each, interleaved: the counter ends at 2. -/
theorem ticket_lock_counter_witness :
    (run 2 (init 1) [0, 1, 0, 0, 1, 0, 0, 0, 1, 1, 1, 1, 1]).counter = 2 * 1 :=
  (ticket_lock_counter 2 1 (by decide) (by decide) (by decide)
    [0, 1, 0, 0, 1, 0, 0, 0, 1, 1, 1, 1, 1]).2.2 (by decide)

end TL

namespace TWA

/-- C2. Scalable ticket lock, mutual exclusion: in every state reachable from a fresh lock,
for any initial wait array and any writes of other locks to it, at most one thread is inside
the critical section (after the return of acquire, up to its store to `grant`). -/
theorem twa_mutual_exclusion (N L : Nat) (hN : N < 2 ^ 64) (w : Nat → Nat)
    (sched : List Action) (i j : Nat) (hi : i < N) (hj : j < N)
    (hci : ((run N L (init w) sched).thr i).pc = .cs ∨
      ((run N L (init w) sched).thr i).pc = .relStore)
    (hcj : ((run N L (init w) sched).thr j).pc = .cs ∨
      ((run N L (init w) sched).thr j).pc = .relStore) : i = j := by
  have hoi : owner ((run N L (init w) sched).thr i) = true := by
    rcases hci with h | h <;> simp [owner, h]
  have hoj : owner ((run N L (init w) sched).thr j) = true := by
    rcases hcj with h | h <;> simp [owner, h]
  exact (twa_good_reach hN w sched).inv.twa_inv_owner_unique hi hj hoi hoj

/-- Thread 0 is in the critical section while thread 1 waits. -/
theorem twa_mutual_exclusion_witness :
    ((run 2 0 (init (fun _ => 0)) [.run 0, .run 1, .run 0, .run 1]).thr 0).pc = .cs ∧
    (0 : Nat) = 0 :=
  ⟨by decide, twa_mutual_exclusion 2 0 (by norm_num) (fun _ => 0)
    [.run 0, .run 1, .run 0, .run 1] 0 0 (by decide) (by decide)
    (Or.inl (by decide)) (Or.inl (by decide))⟩

end TWA

namespace Spin

/-- C3. Spin lock, mutual exclusion: in every state reachable from an unlocked `Spin_Lock`,
two threads that have returned from `lock()` and not yet called `unlock()` are the same
thread, and the last two events of such a thread are its store to `core_id` preceded by an
exchange that returned `false`. -/
theorem spin_mutual_exclusion (N : Nat) (sched : List Action) (i j : Nat) (hi : i < N)
    (hj : j < N) (hci : ((run N init sched).thr i).pc = .held)
    (hcj : ((run N init sched).thr j).pc = .held) :
    i = j ∧
    ∃ c rest, eventsOf i (run N init sched).trace =
      Event.storeCore i c :: Event.xchg i false :: rest := by
  have h := Inv.spin_inv_run sched (Inv.spin_inv_init N) (N := N)
  exact ⟨h.uniq i j hi hj (by simp [owner, hci]) (by simp [owner, hcj]), h.back i hi hci⟩

/-- Thread 1 loses the first exchange, thread 0 unlocks, thread 1 wins the second one. -/
theorem spin_mutual_exclusion_witness :
    (1 : Nat) = 1 ∧
    ∃ c rest, eventsOf 1 (run 2 init
        [⟨0, 0, 3⟩, ⟨1, 0, 5⟩, ⟨0, 0, 3⟩, ⟨0, 0, 3⟩, ⟨1, 0, 5⟩, ⟨1, 0, 5⟩,
          ⟨1, 0, 5⟩]).trace =
      Event.storeCore 1 c :: Event.xchg 1 false :: rest :=
  spin_mutual_exclusion 2
    [⟨0, 0, 3⟩, ⟨1, 0, 5⟩, ⟨0, 0, 3⟩, ⟨0, 0, 3⟩, ⟨1, 0, 5⟩, ⟨1, 0, 5⟩, ⟨1, 0, 5⟩] 1 1 (by decide) (by decide) (by decide) (by decide)

end Spin

namespace TWA

/-- C4. Scalable ticket lock, first-in first-out admission: at every return of
`TWA_ticket_acquire` in a run from a fresh lock, the returning thread holds a ticket it drew
by an earlier fetch-add, that ticket is the number of earlier returns (as a `u64`), so the
tickets enter in the order 0, 1, 2, ..., and every earlier return has already been followed
by the store to `grant` of the same thread, in the same order. -/
theorem twa_fifo_admission (N L : Nat) (hN : N < 2 ^ 64) (w : Nat → Nat)
    (sched : List Action) (post pre : List Event) (i t : Nat)
    (h : (run N L (init w) sched).trace = post ++ Event.ret i t :: pre) :
    Event.fetchTicket i t ∈ pre ∧ t = wrap64 (entered pre).length ∧
      (entered pre).map Prod.fst = released pre :=
  (twa_good_reach hN w sched).fifo post pre i t h

/-- Thread 0 enters and releases, then thread 1 enters with ticket 1. -/
theorem twa_fifo_admission_witness :
    Event.fetchTicket 1 1 ∈ [Event.loadGrant 1 1, .fetchTicket 1 1, .storeGrant 0 1, .ret 0 0,
        .loadGrant 0 0, .fetchTicket 0 0] ∧
      1 = wrap64 (entered [Event.loadGrant 1 1, .fetchTicket 1 1, .storeGrant 0 1, .ret 0 0,
        .loadGrant 0 0, .fetchTicket 0 0]).length ∧
      (entered [Event.loadGrant 1 1, .fetchTicket 1 1, .storeGrant 0 1, .ret 0 0,
        .loadGrant 0 0, .fetchTicket 0 0]).map Prod.fst =
      released [Event.loadGrant 1 1, .fetchTicket 1 1, .storeGrant 0 1, .ret 0 0,
        .loadGrant 0 0, .fetchTicket 0 0] :=
  twa_fifo_admission 2 0 (by norm_num) (fun _ => 0)
    [.run 0, .run 0, .run 0, .run 0, .run 1, .run 1] [] _ 1 1 (by rfl)

end TWA

namespace TL

/-- C5, as stated, fails on the ticket lock, whose two counters are 32-bit `int`s: after
`2^31 - 1` rounds of thread 0 and one more fetch-add by each thread, thread 1 has been assigned
the ticket `-2^31`, which is not a number of completed releases; `2^31 - 1` releases have
completed and no overflow has happened so far; thread 0 holds the lock and is at the write of
`++grant`, and that write, the release number `2^31`, overflows `grant`. -/
theorem ticket_lock_release_overflows :
    (run 2 (init (2 ^ 31)) (roundsSchedule (2 ^ 31 - 1) ++ [0, 1, 0, 0, 0, 0])).ub = false ∧
    ((run 2 (init (2 ^ 31)) (roundsSchedule (2 ^ 31 - 1) ++ [0, 1, 0, 0, 0, 0])).thr 1).pc
      = .spin ∧
    ((run 2 (init (2 ^ 31)) (roundsSchedule (2 ^ 31 - 1) ++ [0, 1, 0, 0, 0, 0])).thr 1).tx
      = -2147483648 ∧
    (released (run 2 (init (2 ^ 31))
      (roundsSchedule (2 ^ 31 - 1) ++ [0, 1, 0, 0, 0, 0])).trace).length = 2147483647 ∧
    ((run 2 (init (2 ^ 31)) (roundsSchedule (2 ^ 31 - 1) ++ [0, 1, 0, 0, 0, 0])).thr 0).pc
      = .relStore ∧
    (run 2 (init (2 ^ 31)) (roundsSchedule (2 ^ 31 - 1) ++ [0, 1, 0, 0, 0, 0, 0])).ub
      = true := by
  have h := tl_rounds_reach (N := 2) (K := 2 ^ 31) (by decide) (2 ^ 31 - 1) (by norm_num)
    (le_refl _)
  have r := tl_rounds_then_overflow (N := 2) h (by decide) (by norm_num) rfl
  have hG := tl_good_reach (N := 2) (by norm_num) (2 ^ 31)
    (roundsSchedule (2 ^ 31 - 1) ++ [0, 1, 0, 0, 0, 0])
  have hg := hG.hist.gr_eq
  rw [tl_run_append, tl_run_append]
  rw [tl_run_append] at hg
  refine ⟨r.1, r.2.2.2.1, r.2.2.2.2.1, ?_, r.2.2.1, r.2.2.2.2.2⟩
  have := r.2.1
  omega

/-- C5, amended. Ticket lock, admission by position, while fewer than `2^31` tickets have been
drawn: in every such state reachable from a fresh lock no overflow of `++grant` has happened; a
thread that has just returned from `Ticket_Acquire` with ticket `k` sees `grant = k`, exactly
`k` writes of `grant` by `Ticket_Release` have happened, and the counter written by the earlier
owners has the value `k`; a spinning thread that holds ticket 0 finds `grant = 0` and returns
at its next step; and the tickets drawn are 0, 1, ... in the order of the fetch-adds. -/
theorem ticket_lock_admission (N K : Nat) (hN : N < 2 ^ 31) (sched : List Nat) (i : Nat)
    (hi : i < N) (hT : (fetched (run N (init K) sched).trace).length < 2 ^ 31) :
    (run N (init K) sched).ub = false ∧
    (((run N (init K) sched).thr i).pc = .csRead →
      (run N (init K) sched).grant = ((run N (init K) sched).thr i).tx ∧
      ((released (run N (init K) sched).trace).length : Int)
        = ((run N (init K) sched).thr i).tx ∧
      ((run N (init K) sched).counter : Int) = ((run N (init K) sched).thr i).tx) ∧
    (((run N (init K) sched).thr i).pc = .spin → ((run N (init K) sched).thr i).tx = 0 →
      (run N (init K) sched).grant = 0 ∧
      ((threadStep (run N (init K) sched) i).thr i).pc = .csRead) ∧
    (∀ n : Nat, n < (fetched (run N (init K) sched).trace).length →
      (fetched (run N (init K) sched).trace).reverse[n]? = some (n : Int)) := by
  have hG := tl_good_reach hN K sched
  have hU : (run N (init K) sched).ub = false := by
    cases hu : (run N (init K) sched).ub with
    | false => rfl
    | true =>
      have := tl_ub_fetched_run hN sched (Good.tl_good_init N K) (by simp [TL.init]) hu
      omega
  refine ⟨hU, ?_, ?_, ?_⟩
  · intro hpc
    have ho : owner ((run N (init K) sched).thr i) = true := by simp [owner, hpc]
    have h1 := hG.inv.own i hi ho
    have h2 := hG.hist.gr_eq
    have h3 : countThr wrote (run N (init K) sched).thr N = 0 := by
      apply countThr_eq_zero
      intro j hj
      by_contra hc
      have hw : wrote ((run N (init K) sched).thr j) = true := by simpa using hc
      have := hG.inv.tl_inv_owner_unique hj hi (tl_wrote_owner hw) ho
      subst this
      simp [wrote, hpc] at hw
    have h4 := hG.hist.cnt
    refine ⟨h1.symm, by rw [← h2, h1], ?_⟩
    rw [h1, h2, h4, h3]; simp
  · intro hpc htx
    have hh : holder ((run N (init K) sched).thr i) = true := by simp [holder, hpc]
    have h1 := hG.inv.off_lt i hi hh
    have h2 := hG.inv.gr_lo
    have h3 := hG.inv.gr_hi
    have h4 := countThr_le holder (run N (init K) sched).thr N
    simp only [INT_MAX] at h3
    have h5 : (run N (init K) sched).grant = 0 := by rw [htx] at h1; omega
    exact ⟨h5, by simp [TL.threadStep, hpc, htx, h5]⟩
  · intro n hn
    have e : wrapS32 (n : Int) = n := by simp only [wrapS32]; omega
    rw [tl_fetched_nth N K sched n hn, e]

/-- Thread 0 completes a round, then thread 1 draws ticket 1 and enters: no overflow has
happened, one release has happened and the counter is 1. -/
theorem ticket_lock_admission_witness :
    (run 2 (init 1) [0, 0, 0, 0, 0, 0, 1, 1]).ub = false ∧
    (run 2 (init 1) [0, 0, 0, 0, 0, 0, 1, 1]).grant = 1 ∧
    ((released (run 2 (init 1) [0, 0, 0, 0, 0, 0, 1, 1]).trace).length : Int) = 1 ∧
    ((run 2 (init 1) [0, 0, 0, 0, 0, 0, 1, 1]).counter : Int) = 1 :=
  ⟨(ticket_lock_admission 2 1 (by norm_num) [0, 0, 0, 0, 0, 0, 1, 1] 1 (by decide)
      (by decide)).1,
    (ticket_lock_admission 2 1 (by norm_num) [0, 0, 0, 0, 0, 0, 1, 1] 1 (by decide)
      (by decide)).2.1 (by decide)⟩

end TL

/-- C6, as stated, fails on the ticket lock: after `2^31 - 1` rounds of one thread and one
more fetch-add, the 32-bit ticket counter has wrapped to `-2^31` while `grant` is `2^31 - 1`,
so `grant ≤ ticket` does not hold, and no overflow of `grant` has happened. -/
theorem ticket_lock_grant_exceeds_ticket :
    (TL.run 2 (TL.init (2 ^ 31)) (TL.roundsSchedule (2 ^ 31 - 1) ++ [0])).ub = false ∧
    ¬ ((TL.run 2 (TL.init (2 ^ 31)) (TL.roundsSchedule (2 ^ 31 - 1) ++ [0])).grant ≤
      (TL.run 2 (TL.init (2 ^ 31)) (TL.roundsSchedule (2 ^ 31 - 1) ++ [0])).ticket) := by
  have h := TL.tl_rounds_reach (N := 2) (K := 2 ^ 31) (by decide) (2 ^ 31 - 1) (by norm_num)
    (le_refl _)
  have r := TL.tl_rounds_then_fetch (N := 2) h (by decide) (by norm_num)
  rw [TL.tl_run_append]
  refine ⟨r.2.2.1, ?_⟩
  rw [r.1, r.2.1]
  norm_num [TL.wrapS32]

/-- C6, amended. Counter invariant of both ticket locks while the ticket counter has not
wrapped (fewer than `2^64` tickets drawn from the scalable lock, fewer than `2^31` from the
ticket lock): `grant ≤ ticket`; the tickets of the threads that hold a ticket other than
`grant` are exactly the values `t` with `grant < t < ticket`; and when `grant < ticket`
exactly one thread holds the ticket equal to `grant`. -/
theorem ticket_counters_before_wrap (N L : Nat) (hN : N < 2 ^ 64) (w : Nat → Nat)
    (sched : List TWA.Action)
    (hT : (TWA.fetched (TWA.run N L (TWA.init w) sched).trace).length < 2 ^ 64)
    (M K : Nat) (hM : M < 2 ^ 31) (sched2 : List Nat)
    (hT2 : (TL.fetched (TL.run M (TL.init K) sched2).trace).length < 2 ^ 31) :
    ((TWA.run N L (TWA.init w) sched).grant ≤ (TWA.run N L (TWA.init w) sched).ticket ∧
      (∀ t, ((TWA.run N L (TWA.init w) sched).grant < t ∧
          t < (TWA.run N L (TWA.init w) sched).ticket) ↔
        ∃ i, i < N ∧ TWA.holder ((TWA.run N L (TWA.init w) sched).thr i) = true ∧
          ((TWA.run N L (TWA.init w) sched).thr i).tx = t ∧
          t ≠ (TWA.run N L (TWA.init w) sched).grant) ∧
      ((TWA.run N L (TWA.init w) sched).grant < (TWA.run N L (TWA.init w) sched).ticket →
        ∃ i, i < N ∧ TWA.holder ((TWA.run N L (TWA.init w) sched).thr i) = true ∧
          ((TWA.run N L (TWA.init w) sched).thr i).tx
            = (TWA.run N L (TWA.init w) sched).grant ∧
          ∀ j, j < N → TWA.holder ((TWA.run N L (TWA.init w) sched).thr j) = true →
            ((TWA.run N L (TWA.init w) sched).thr j).tx
              = (TWA.run N L (TWA.init w) sched).grant → j = i)) ∧
    ((TL.run M (TL.init K) sched2).grant ≤ (TL.run M (TL.init K) sched2).ticket ∧
      (∀ t, ((TL.run M (TL.init K) sched2).grant < t ∧
          t < (TL.run M (TL.init K) sched2).ticket) ↔
        ∃ i, i < M ∧ TL.holder ((TL.run M (TL.init K) sched2).thr i) = true ∧
          ((TL.run M (TL.init K) sched2).thr i).tx = t ∧
          t ≠ (TL.run M (TL.init K) sched2).grant) ∧
      ((TL.run M (TL.init K) sched2).grant < (TL.run M (TL.init K) sched2).ticket →
        ∃ i, i < M ∧ TL.holder ((TL.run M (TL.init K) sched2).thr i) = true ∧
          ((TL.run M (TL.init K) sched2).thr i).tx = (TL.run M (TL.init K) sched2).grant ∧
          ∀ j, j < M → TL.holder ((TL.run M (TL.init K) sched2).thr j) = true →
            ((TL.run M (TL.init K) sched2).thr j).tx
              = (TL.run M (TL.init K) sched2).grant → j = i)) :=
  ⟨(TWA.twa_good_reach hN w sched).twa_good_counters hT, (TL.tl_good_reach hM K sched2).tl_good_counters hT2⟩

/-- Two threads have drawn tickets 0 and 1 from each lock and nobody has released. -/
theorem ticket_counters_before_wrap_witness :
    (TWA.run 2 0 (TWA.init (fun _ => 0)) [.run 0, .run 1]).grant ≤
      (TWA.run 2 0 (TWA.init (fun _ => 0)) [.run 0, .run 1]).ticket ∧
    (TL.run 2 (TL.init 1) [0, 1]).grant ≤ (TL.run 2 (TL.init 1) [0, 1]).ticket :=
  ⟨(ticket_counters_before_wrap 2 0 (by norm_num) (fun _ => 0) [.run 0, .run 1] (by decide)
      2 1 (by norm_num) [0, 1] (by decide)).1.1,
    (ticket_counters_before_wrap 2 0 (by norm_num) (fun _ => 0) [.run 0, .run 1] (by decide)
      2 1 (by norm_num) [0, 1] (by decide)).2.1⟩

/-- C7, as stated, fails on the ticket lock, whose ticket counter is a 32-bit `int`: the
attempt number `2^31 + 1` (thread 1, after thread 0 has drawn `2^31` tickets) is assigned the
ticket `-2^31`, not `2^31`. -/
theorem ticket_lock_ticket_wraps :
    (TL.fetched (TL.run 2 (TL.init (2 ^ 31))
      (TL.roundsSchedule (2 ^ 31 - 1) ++ [0, 1])).trace).reverse[2 ^ 31]?
      = some (-2147483648) := by
  have h := TL.tl_rounds_reach (N := 2) (K := 2 ^ 31) (by decide) (2 ^ 31 - 1) (by norm_num)
    (le_refl _)
  have r := (TL.tl_rounds_then_fetch (N := 2) h (by decide) (by norm_num)).2.2.2
  rw [← TL.tl_run_append] at r
  have hn : 2 ^ 31 < (TL.fetched (TL.run 2 (TL.init (2 ^ 31))
      (TL.roundsSchedule (2 ^ 31 - 1) ++ [0, 1])).trace).length := by
    rw [r]; norm_num
  rw [TL.tl_fetched_nth 2 (2 ^ 31) _ (2 ^ 31) hn]
  norm_num [TL.wrapS32]

/-- C7, amended. Ticket numbering: in the scalable lock the attempt number `n + 1` on a fresh
lock is assigned the `u64` value of `n`, which is `n` for `n < 2^64`; in the ticket lock it is
assigned the 32-bit `int` value of `n`, which is `n` only for `n < 2^31`. -/
theorem ticket_numbering (N L : Nat) (w : Nat → Nat) (sched : List TWA.Action) (n : Nat)
    (hn : n < (TWA.fetched (TWA.run N L (TWA.init w) sched).trace).length)
    (M K : Nat) (sched2 : List Nat) (m : Nat)
    (hm : m < (TL.fetched (TL.run M (TL.init K) sched2).trace).length) :
    (TWA.fetched (TWA.run N L (TWA.init w) sched).trace).reverse[n]? = some (n % 2 ^ 64) ∧
    (n < 2 ^ 64 →
      (TWA.fetched (TWA.run N L (TWA.init w) sched).trace).reverse[n]? = some n) ∧
    (TL.fetched (TL.run M (TL.init K) sched2).trace).reverse[m]?
      = some (((m : Int) + 2 ^ 31) % 2 ^ 32 - 2 ^ 31) ∧
    (m < 2 ^ 31 →
      (TL.fetched (TL.run M (TL.init K) sched2).trace).reverse[m]? = some (m : Int)) := by
  have h1 := TWA.twa_fetched_nth N L w sched n hn
  have h2 := TL.tl_fetched_nth M K sched2 m hm
  refine ⟨h1, ?_, h2, ?_⟩
  · intro hb
    rw [h1, TWA.wrap64, Nat.mod_eq_of_lt hb]
  · intro hb
    have e : TL.wrapS32 (m : Int) = m := by simp only [TL.wrapS32]; omega
    rw [h2, e]

/-- The second attempt on each lock is assigned ticket 1. -/
theorem ticket_numbering_witness :
    (TWA.fetched (TWA.run 2 0 (TWA.init (fun _ => 0)) [.run 0, .run 1]).trace).reverse[1]?
      = some 1 ∧
    (TL.fetched (TL.run 2 (TL.init 1) [0, 1]).trace).reverse[1]? = some (1 : Int) :=
  ⟨(ticket_numbering 2 0 (fun _ => 0) [.run 0, .run 1] 1 (by decide)
      2 1 [0, 1] 1 (by decide)).2.1 (by norm_num),
    (ticket_numbering 2 0 (fun _ => 0) [.run 0, .run 1] 1 (by decide)
      2 1 [0, 1] 1 (by decide)).2.2.2 (by norm_num)⟩

namespace TWA

/-- C8 fails on the code. After `strandingSchedule` on a fresh lock with three threads, thread
2 holds ticket 2, `grant` is 2, the thread spins in the long-term loop on the slot
`Hash(L, 2)`, which still holds its snapshot, and no thread is in the critical section or
inside `TWA_ticket_release`; both releases read `k = 2` in line 78 and notified the slot of
ticket 3.  Whatever steps the three threads take afterwards, the state stays like this: the
waiter never returns. -/
theorem twa_stranded_waiter :
    Stranded 3 (run 3 0 (init (fun _ => 0)) strandingSchedule) 2 ∧
    ((run 3 0 (init (fun _ => 0)) strandingSchedule).thr 2).tx = 2 ∧
    (run 3 0 (init (fun _ => 0)) strandingSchedule).grant = 2 ∧
    ((run 3 0 (init (fun _ => 0)) strandingSchedule).thr 2).slot = Hash 0 2 ∧
    ∀ ids : List Nat,
      Stranded 3 (run 3 0 (init (fun _ => 0)) (strandingSchedule ++ ids.map Action.run)) 2 := by
  have h1 : Stranded 3 (run 3 0 (init (fun _ => 0)) strandingSchedule) 2 :=
    ⟨by decide, by decide, by decide, by decide⟩
  refine ⟨h1, by decide, by decide, by decide, ?_⟩
  intro ids
  rw [twa_run_append]
  exact Stranded.twa_stranded_run (by norm_num) (by norm_num) ids h1
    (twa_good_reach (by norm_num) _ strandingSchedule).inv

/-- C10. Long-term / short-term transition. In every state, a thread at its first load of
`grant` whose distance `tx - grant` is above `long_term_threshold` steps into the long-term loop
(to the snapshot of the slot `Hash(L, tx)`), and one whose distance is exactly 1 steps to the
short-term loop, in both cases recording only the load of `grant`; a thread inside the
long-term loop stays inside it or moves to the short-term loop, and it moves there exactly at a
re-check that loads a value of `grant` with distance at most the threshold; steps of other
threads and writes of other locks do not move the thread.  In every state reachable from a
fresh lock, a thread inside the long-term loop has so far loaded only values of `grant` with
distance above the threshold; and a thread that has reached the short-term loop (or returned)
has itself loaded a value of `grant` with distance at most the threshold, and has read no
wait-array slot if its first load gave distance 1. -/
theorem twa_long_short_transition (N L : Nat) (w : Nat → Nat) (sched : List Action) (i : Nat)
    (s : State) :
    ((s.thr i).pc = .firstLoad → long_term_threshold < sub64 (s.thr i).tx s.grant →
      ((threadStep L s i).thr i).pc = .ltSnapshot ∧
      ((threadStep L s i).thr i).slot = Hash L (s.thr i).tx ∧
      ((threadStep L s i).thr i).tx = (s.thr i).tx ∧
      (threadStep L s i).trace = Event.loadGrant i s.grant :: s.trace) ∧
    ((s.thr i).pc = .firstLoad → sub64 (s.thr i).tx s.grant = 1 →
      ((threadStep L s i).thr i).pc = .shortTerm ∧
      ((threadStep L s i).thr i).tx = (s.thr i).tx ∧
      (threadStep L s i).trace = Event.loadGrant i s.grant :: s.trace) ∧
    (inLongTerm (s.thr i) = true →
      (((threadStep L s i).thr i).pc = .shortTerm ↔
        (s.thr i).pc = .ltRecheck ∧ sub64 (s.thr i).tx s.grant ≤ long_term_threshold) ∧
      (inLongTerm ((threadStep L s i).thr i) = true ∨
        ((threadStep L s i).thr i).pc = .shortTerm) ∧
      ((threadStep L s i).thr i).tx = (s.thr i).tx) ∧
    (∀ a, a ≠ Action.run i → (step N L s a).thr i = s.thr i) ∧
    (inLongTerm ((run N L (init w) sched).thr i) = true →
      ∀ g, g ∈ loads i (run N L (init w) sched).trace →
        long_term_threshold < sub64 ((run N L (init w) sched).thr i).tx g) ∧
    (pastLongTerm ((run N L (init w) sched).thr i) = true →
      (∃ g, g ∈ loads i (run N L (init w) sched).trace ∧
        sub64 ((run N L (init w) sched).thr i).tx g ≤ long_term_threshold) ∧
      ∀ g0, (loads i (run N L (init w) sched).trace).getLast? = some g0 →
        sub64 ((run N L (init w) sched).thr i).tx g0 = 1 →
        slotReads i (run N L (init w) sched).trace = 0) := by
  have hp := twa_pathOK_reach N L w sched i
  generalize run N L (init w) sched = r at hp ⊢
  refine ⟨?_, ?_, ?_, ?_, ?_, ?_⟩
  · intro hpc hd
    have h0 : sub64 (s.thr i).tx s.grant ≠ 0 := by simp only [long_term_threshold] at hd; omega
    simp [TWA.threadStep, hpc, h0, hd]
  · intro hpc hd
    simp [TWA.threadStep, hpc, hd, long_term_threshold]
  · intro hl
    cases hpc : (s.thr i).pc <;> simp only [hpc, inLongTerm] at hl <;>
      first
      | simp at hl
      | skip
    · simp [TWA.threadStep, hpc, inLongTerm]
    · by_cases hd : sub64 (s.thr i).tx s.grant ≤ long_term_threshold
      · simp [TWA.threadStep, hpc, hd, inLongTerm]
      · simp [TWA.threadStep, hpc, hd, inLongTerm]
    · by_cases hd : s.wait_array (s.thr i).slot = (s.thr i).u
      · simp [TWA.threadStep, hpc, hd, inLongTerm]
      · simp [TWA.threadStep, hpc, hd, inLongTerm]
  · intro a ha
    cases a with
    | run j =>
      have hji : j ≠ i := fun e => ha (by rw [e])
      simp only [TWA.step]
      split
      · have hu : ∀ v, Function.update s.thr j v i = s.thr i := fun v =>
          Function.update_noteq (Ne.symm hji) v s.thr
        cases hpc : (s.thr j).pc <;> simp only [TWA.threadStep, hpc] <;>
          first
          | exact hu _
          | (split_ifs <;> first | rfl | exact hu _)
      · rfl
    | env a v =>
      simp only [TWA.step]
      split <;> rfl
  · intro hl g hg
    unfold PathOK at hp
    cases hpc : (r.thr i).pc <;> simp only [hpc, inLongTerm] at hp hl <;>
      first
      | exact hp.2 g hg
      | simp at hl
  · intro hl
    unfold PathOK at hp
    cases hpc : (r.thr i).pc <;> simp only [hpc, pastLongTerm] at hp hl <;>
      first
      | exact ⟨hp.1, fun g0 h1 h2 => hp.2 g0 h1 (by simp only [long_term_threshold]; omega)⟩
      | simp at hl

/-- Three threads on a fresh lock. Thread 2 draws ticket 2 while `grant` is 0 and its first
load takes it into the long-term loop; thread 1, with ticket 1, goes from its first load to the
short-term loop; after `grant` has reached 1 and the slot of thread 2 has been written, the
re-check of thread 2 takes it to the short-term loop, and it has then loaded a value of `grant`
at distance at most 1. -/
theorem twa_long_short_transition_witness :
    ((threadStep 0 (run 3 0 (init (fun _ => 0))
        [.run 0, .run 0, .run 1, .run 1, .run 2]) 2).thr 2).pc = .ltSnapshot ∧
    ((threadStep 0 (run 3 0 (init (fun _ => 0)) [.run 0, .run 0, .run 1]) 1).thr 1).pc
      = .shortTerm ∧
    ((threadStep 0 (run 3 0 (init (fun _ => 0))
        [.run 0, .run 0, .run 1, .run 1, .run 2, .run 2, .run 2, .run 2, .run 2,
          .run 0, .run 0, .env 254 7, .run 2, .run 2]) 2).thr 2).pc = .shortTerm ∧
    ∃ g, g ∈ loads 2 (run 3 0 (init (fun _ => 0))
        [.run 0, .run 0, .run 1, .run 1, .run 2, .run 2, .run 2, .run 2, .run 2,
          .run 0, .run 0, .env 254 7, .run 2, .run 2, .run 2]).trace ∧
      sub64 ((run 3 0 (init (fun _ => 0))
        [.run 0, .run 0, .run 1, .run 1, .run 2, .run 2, .run 2, .run 2, .run 2,
          .run 0, .run 0, .env 254 7, .run 2, .run 2, .run 2]).thr 2).tx g
        ≤ long_term_threshold :=
  ⟨((twa_long_short_transition 3 0 (fun _ => 0) [] 2 (run 3 0 (init (fun _ => 0))
      [.run 0, .run 0, .run 1, .run 1, .run 2])).1 (by decide) (by decide)).1,
    ((twa_long_short_transition 3 0 (fun _ => 0) [] 1 (run 3 0 (init (fun _ => 0))
      [.run 0, .run 0, .run 1])).2.1 (by decide) (by decide)).1,
    ((twa_long_short_transition 3 0 (fun _ => 0) [] 2 (run 3 0 (init (fun _ => 0))
      [.run 0, .run 0, .run 1, .run 1, .run 2, .run 2, .run 2, .run 2, .run 2,
        .run 0, .run 0, .env 254 7, .run 2, .run 2])).2.2.1 (by decide)).1.2
      ⟨by decide, by decide⟩,
    ((twa_long_short_transition 3 0 (fun _ => 0)
      [.run 0, .run 0, .run 1, .run 1, .run 2, .run 2, .run 2, .run 2, .run 2,
        .run 0, .run 0, .env 254 7, .run 2, .run 2, .run 2] 2
      (init (fun _ => 0))).2.2.2.2.2 (by decide)).1⟩

end TWA

namespace TWA

/-- C11. Effect of a release on the scalable ticket lock: for every lock state and wait array,
the four steps of `TWA_ticket_release` taken without interference by a thread in the critical
section add one to `grant` (modulo `2^64`), add one (modulo `2^64`) to the slot
`wait_array[Hash(L, new_grant + long_term_threshold)]`, and leave `ticket` and every other
slot unchanged; and when the new `grant` is `tx - 1` for a ticket `tx`, that slot is
`Hash(L, tx)`. -/
theorem twa_release_effect (N L : Nat) (s : State) (i : Nat) (hi : i < N)
    (hpc : (s.thr i).pc = .cs) :
    (run N L s [.run i, .run i, .run i, .run i]).grant = wrap64 (s.grant + 1) ∧
    (run N L s [.run i, .run i, .run i, .run i]).ticket = s.ticket ∧
    ((run N L s [.run i, .run i, .run i, .run i]).thr i).pc = .idle ∧
    (run N L s [.run i, .run i, .run i, .run i]).wait_array
        (Hash L (wrap64 (wrap64 (s.grant + 1) + long_term_threshold)))
      = wrap64 (s.wait_array (Hash L (wrap64 (wrap64 (s.grant + 1) + long_term_threshold))) + 1) ∧
    (s.wait_array (Hash L (wrap64 (wrap64 (s.grant + 1) + long_term_threshold))) + 1 < 2 ^ 64 →
      (run N L s [.run i, .run i, .run i, .run i]).wait_array
          (Hash L (wrap64 (wrap64 (s.grant + 1) + long_term_threshold)))
        = s.wait_array (Hash L (wrap64 (wrap64 (s.grant + 1) + long_term_threshold))) + 1) ∧
    (∀ a, a ≠ Hash L (wrap64 (wrap64 (s.grant + 1) + long_term_threshold)) →
      (run N L s [.run i, .run i, .run i, .run i]).wait_array a = s.wait_array a) ∧
    (∀ tx, tx < 2 ^ 64 → wrap64 (s.grant + 1) = sub64 tx long_term_threshold →
      Hash L (wrap64 (wrap64 (s.grant + 1) + long_term_threshold)) = Hash L tx) := by
  have e : run N L s [.run i, .run i, .run i, .run i] =
      { s with
        grant := wrap64 (s.grant + 1)
        wait_array := Function.update s.wait_array
          (Hash L (wrap64 (wrap64 (s.grant + 1) + long_term_threshold)))
          (wrap64 (s.wait_array (Hash L (wrap64 (wrap64 (s.grant + 1) + long_term_threshold)))
            + 1))
        thr := Function.update s.thr i
          { s.thr i with pc := .idle, g := s.grant, k := wrap64 (s.grant + 1) }
        trace := .addSlot i (Hash L (wrap64 (wrap64 (s.grant + 1) + long_term_threshold))) ::
          .storeGrant i (wrap64 (s.grant + 1)) :: s.trace } := by
    simp [TWA.run, TWA.step, hi, TWA.threadStep, hpc]
  rw [e]
  refine ⟨rfl, rfl, by simp, by simp, ?_, fun a ha => by simp [ha], ?_⟩
  · intro hlt
    simp only [Function.update_same, wrap64]
    exact Nat.mod_eq_of_lt hlt
  · intro tx htx hg
    have : wrap64 (wrap64 (s.grant + 1) + long_term_threshold) = tx := by
      rw [hg]; simp only [wrap64, sub64, long_term_threshold]; omega
    rw [this]

/-- The first owner of a fresh lock releases it: `grant` becomes 1. -/
theorem twa_release_effect_witness :
    (run 1 0 (run 1 0 (init (fun _ => 0)) [.run 0, .run 0])
      [.run 0, .run 0, .run 0, .run 0]).grant = wrap64 (0 + 1) :=
  (twa_release_effect 1 0 (run 1 0 (init (fun _ => 0)) [.run 0, .run 0]) 0 (by decide)
    (by decide)).1

/-- C12. The wait-array index is always in range: `array_size` is 4096, `Hash(L, tx)` is
`((tx * 127 mod 2^64) XOR L) AND 4095` and is below `array_size` for every lock address and
ticket, so the assertion `at < array_size` cannot fail; and in every run from a fresh lock a
thread in the long-term loop holds `Hash(L, tx)` in `at`, and every read and increment of the
wait array recorded in the history has an index below `array_size`. -/
theorem twa_hash_in_range (N L : Nat) (w : Nat → Nat) (sched : List Action) :
    array_size = 4096 ∧
    (∀ a tx, Hash a tx = ((tx * 127 % 2 ^ 64) ^^^ a) &&& 4095) ∧
    (∀ a tx, Hash a tx < array_size) ∧
    (∀ i, inLongTerm ((run N L (init w) sched).thr i) = true →
      ((run N L (init w) sched).thr i).slot = Hash L ((run N L (init w) sched).thr i).tx ∧
      ((run N L (init w) sched).thr i).slot < array_size) ∧
    (∀ i a v, Event.readSlot i a v ∈ (run N L (init w) sched).trace → a < array_size) ∧
    (∀ i a, Event.addSlot i a ∈ (run N L (init w) sched).trace → a < array_size) := by
  have h := twa_slots_run (N := N) (L := L) sched (s := init w)
    (fun i hi => by simp [TWA.init, inLongTerm] at hi)
    (fun e he => by simp [TWA.init] at he)
  refine ⟨twa_array_size_eq, fun a tx => rfl, twa_hash_lt, ?_, ?_, ?_⟩
  · intro i hi
    have := h.1 i hi
    exact ⟨this, by rw [this]; exact twa_hash_lt _ _⟩
  · intro i a v he
    exact h.2 _ he
  · intro i a he
    exact h.2 _ he

end TWA

namespace Spin

/-- C13. Uncontended fast path: for every `Spin_Lock` with `locked = false`, the two steps of a
caller of `lock()` are one exchange, which returns `false`, and the store of the caller's core
identifier; no relax hint, yield or cycle-counter read happens, `locked` is `true` afterwards,
`core_id` is the caller's core identifier and `lock_name` is unchanged. -/
theorem spin_fast_path (N : Nat) (s : State) (a1 a2 : Action) (h12 : a2.tid = a1.tid)
    (hi : a1.tid < N) (hf : s.fault = false) (hl : s.locked = false)
    (hpc : (s.thr a1.tid).pc = .idle) :
    (run N s [a1, a2]).locked = true ∧
    (run N s [a1, a2]).core_id = a2.core ∧
    (run N s [a1, a2]).lock_name = s.lock_name ∧
    ((run N s [a1, a2]).thr a1.tid).pc = .held ∧
    (run N s [a1, a2]).trace =
      Event.storeCore a1.tid a2.core :: Event.xchg a1.tid false :: s.trace ∧
    (run N s [a1, a2]).fault = false := by
  obtain ⟨t2, r2, c2⟩ := a2
  simp only at h12
  subst h12
  have e1 : step N s a1 = { s with
      locked := true
      thr := Function.update s.thr a1.tid
        { s.thr a1.tid with pc := .recordCore, timeout := 0, threshold := 2 <<< 10 }
      trace := .xchg a1.tid false :: s.trace } := by
    simp [Spin.step, hf, hi, Spin.threadStep, hpc, doExchange, hl]
  have e2 : run N s [a1, ⟨a1.tid, r2, c2⟩] = step N (step N s a1) ⟨a1.tid, r2, c2⟩ := rfl
  rw [e2, e1]
  simp [Spin.step, hf, hi, Spin.threadStep]

/-- A caller on core 7 takes a fresh lock. -/
theorem spin_fast_path_witness :
    (run 1 init [⟨0, 0, 7⟩, ⟨0, 0, 7⟩]).locked = true ∧
    (run 1 init [⟨0, 0, 7⟩, ⟨0, 0, 7⟩]).core_id = 7 :=
  ⟨(spin_fast_path 1 init ⟨0, 0, 7⟩ ⟨0, 0, 7⟩ rfl (by decide) rfl rfl rfl).1,
    (spin_fast_path 1 init ⟨0, 0, 7⟩ ⟨0, 0, 7⟩ rfl (by decide) rfl rfl rfl).2.1⟩

/-- C14. Spin budget length: in every run from an unlocked `Spin_Lock`, whether or not it ends
in the timeout assertion, a waiting thread's budget is 2048 minus the relax hints it has issued
in this call, so it is 0 exactly when 2048 hints have been issued; a thread in the
cycle-counter branch has budget 0 and has issued 2048 hints; every cycle-counter read and every
timeout assertion of a thread comes after exactly 2048 relax hints of that call; and a thread
that calls `lock()` while the flag is set and runs on while it stays set reaches the
cycle-counter branch, with budget 0, 2048 hints issued and no reading taken before. -/
theorem spin_budget_length (N : Nat) (sched : List Action) (a : Action) :
    (∀ i, waiting ((run N init sched).thr i) = true →
      pausesSince i (run N init sched).trace + ((run N init sched).thr i).threshold = 2048) ∧
    (∀ i, ((run N init sched).thr i).pc = .tsc → ((run N init sched).thr i).threshold = 0 ∧
      pausesSince i (run N init sched).trace = 2048) ∧
    (∀ post pre i, (∃ r, (run N init sched).trace = post ++ Event.rdtsc i r :: pre) ∨
        (run N init sched).trace = post ++ Event.timeoutError i :: pre →
      pausesSince i pre = 2048) ∧
    (a.tid < N → (run N init sched).fault = false → (run N init sched).locked = true →
      ((run N init sched).thr a.tid).pc = .idle →
      ∃ n, ((run N init (sched ++ List.replicate n a)).thr a.tid).pc = .tsc ∧
        ((run N init (sched ++ List.replicate n a)).thr a.tid).threshold = 0 ∧
        pausesSince a.tid (run N init (sched ++ List.replicate n a)).trace = 2048 ∧
        firstTsc a.tid (run N init (sched ++ List.replicate n a)).trace = none) := by
  have hB := spin_budget_run (N := N) sched (s := init) spin_budget_init spin_tsc_nil
  refine ⟨fun i hw => (hB.1 i).sum hw, ?_, hB.2, ?_⟩
  · intro i hpc
    have h0 := (hB.1 i).intsc hpc
    have hs := (hB.1 i).sum (by simp [waiting, hpc])
    exact ⟨h0, by omega⟩
  intro hi hf hl hpc
  have e : step N (run N init sched) a = { run N init sched with
      locked := true
      thr := Function.update (run N init sched).thr a.tid
        { (run N init sched).thr a.tid with pc := .poll, timeout := 0, threshold := 2 <<< 10 }
      trace := .xchg a.tid true :: (run N init sched).trace } := by
    simp [Spin.step, hf, hi, Spin.threadStep, hpc, doExchange, hl]
  obtain ⟨n, h1, _, h3, h4⟩ := spin_budget_exhausts N a hi (2 <<< 10)
    (step N (run N init sched) a) (by rw [e]; exact hf) (by rw [e]) (by rw [e]; simp)
    (by rw [e]; simp)
  refine ⟨1 + n, ?_⟩
  have er : run N init (sched ++ List.replicate (1 + n) a) =
      run N (step N (run N init sched) a) (List.replicate n a) := by
    rw [List.replicate_add, spin_run_append, spin_run_append]
    rfl
  have hB2 := spin_budget_run (N := N) (sched ++ List.replicate (1 + n) a) (s := init)
    spin_budget_init spin_tsc_nil
  have hfr := spin_fresh_run (N := N) sched (s := init) (fun _ _ => rfl) a.tid hpc
  rw [← er] at h3 h1 h4
  have h0 := (hB2.1 a.tid).intsc h3
  have hs := (hB2.1 a.tid).sum (by simp [waiting, h3])
  refine ⟨h3, h0, by omega, ?_⟩
  rw [h4, e]
  exact hfr

/-- Thread 1 calls `lock()` while thread 0 holds the lock and never unlocks: it reaches the
cycle-counter branch with no reading taken; after 2074 steps it is there, with budget 0 and
2048 hints issued; and in the run in which it later hits the timeout assertion, 2048 hints
come before the assertion. -/
theorem spin_budget_length_witness :
    (∃ n, ((run 2 init ([⟨0, 0, 3⟩, ⟨0, 0, 3⟩] ++ List.replicate n ⟨1, 0, 5⟩)).thr 1).pc = .tsc ∧
      ((run 2 init ([⟨0, 0, 3⟩, ⟨0, 0, 3⟩] ++ List.replicate n ⟨1, 0, 5⟩)).thr 1).threshold = 0 ∧
      pausesSince 1 (run 2 init ([⟨0, 0, 3⟩, ⟨0, 0, 3⟩] ++ List.replicate n ⟨1, 0, 5⟩)).trace
        = 2048 ∧
      firstTsc 1 (run 2 init ([⟨0, 0, 3⟩, ⟨0, 0, 3⟩] ++ List.replicate n ⟨1, 0, 5⟩)).trace
        = none) ∧
    (((run 2 init (waitSchedule 2074)).thr 1).threshold = 0 ∧
      pausesSince 1 (run 2 init (waitSchedule 2074)).trace = 2048) ∧
    pausesSince 1 (Event.rdtsc 1 2600000000 :: (run 2 init timeoutSchedule).trace) = 2048 := by
  refine ⟨(spin_budget_length 2 [⟨0, 0, 3⟩, ⟨0, 0, 3⟩] ⟨1, 0, 5⟩).2.2.2 (by decide) rfl rfl rfl,
    ?_, ?_⟩
  · have h := spin_budget_length 2 (waitSchedule 2074) ⟨1, 0, 5⟩
    exact h.2.1 1 spin_timeoutSchedule_run.2.1
  · have hft := (spin_timeoutSchedule_run.2.2.2.2.2.2 2600000000 5).2 (le_refl _)
    have htr := spin_fault_trace 2 timeoutSchedule ⟨1, 2600000000, 5⟩
      spin_timeoutSchedule_run.2.2.2.1 hft
    have ht : (⟨1, 2600000000, 5⟩ : Action).tid = 1 := rfl
    have hc : (⟨1, 2600000000, 5⟩ : Action).tsc = 2600000000 := rfl
    rw [ht, hc] at htr
    have h := spin_budget_length 2 (timeoutSchedule ++ [⟨1, 2600000000, 5⟩]) ⟨1, 0, 5⟩
    exact h.2.2.1 [] _ 1 (Or.inr htr)

end Spin

namespace Spin

/-- C15, counterexample. The waiter does not re-read the flag between relax hints: in the run
`lateSchedule` thread 1 reads the flag once, issues a relax hint, thread 0 unlocks, and thread 1
issues two more relax hints back to back without a load, and is still in the hint loop while
the flag is clear. -/
theorem spin_hints_without_load :
    (run 2 init lateSchedule).trace =
      [.pause 1, .pause 1, .unlock 0, .pause 1, .load 1 true, .xchg 1 true,
        .storeCore 0 3, .xchg 0 false] ∧
    (run 2 init lateSchedule).locked = false ∧
    ((run 2 init lateSchedule).thr 1).pc = .spinLoop ∧
    ((run 2 init lateSchedule).thr 1).threshold = 2045 ∧
    ¬ HintsSeparated (run 2 init lateSchedule).trace := by
  refine ⟨by decide, by decide, by decide, by decide, ?_⟩
  intro h
  exact h 1 [] [.pause 1, .load 1 true, .xchg 1 true] (by decide)

/-- C15, amended. The flag is read once per pass of the wait loop, not once per relax hint: a
waiter that reads the flag as set with budget `t > 0` enters the hint loop; from there,
whatever the flag has become, its next `(t + 1) / 2` steps are relax hints and nothing else,
its next step is the yield, and it is back at the load of the flag with budget
`t - (t + 1) / 2`; a load that finds the flag clear leaves the wait loop for the exchange. -/
theorem spin_flag_read_once_per_pass (N : Nat) (a : Action) (ha : a.tid < N) (t : Nat)
    (ht : 0 < t) :
    (∀ s : State, s.fault = false → s.locked = true → (s.thr a.tid).pc = .poll →
      (s.thr a.tid).threshold = t →
      (step N s a).trace = .load a.tid true :: s.trace ∧
      ((step N s a).thr a.tid).pc = .spinLoop ∧ ((step N s a).thr a.tid).i = 0 ∧
      ((step N s a).thr a.tid).threshold = t) ∧
    (∀ s : State, s.fault = false → (s.thr a.tid).pc = .spinLoop → (s.thr a.tid).i = 0 →
      (s.thr a.tid).threshold = t →
      (run N s (List.replicate ((t + 1) / 2) a)).trace =
        List.replicate ((t + 1) / 2) (Event.pause a.tid) ++ s.trace ∧
      (run N s (List.replicate ((t + 1) / 2) a ++ [a])).trace =
        .yield a.tid :: (List.replicate ((t + 1) / 2) (Event.pause a.tid) ++ s.trace) ∧
      ((run N s (List.replicate ((t + 1) / 2) a ++ [a])).thr a.tid).pc = .poll ∧
      ((run N s (List.replicate ((t + 1) / 2) a ++ [a])).thr a.tid).threshold
        = t - (t + 1) / 2) ∧
    (∀ s : State, s.fault = false → s.locked = false → (s.thr a.tid).pc = .poll →
      (step N s a).trace = .load a.tid false :: s.trace ∧
      ((step N s a).thr a.tid).pc = .exchange) := by
  refine ⟨?_, ?_, ?_⟩
  · intro s hf hl hpc hth
    simp [Spin.step, hf, ha, Spin.threadStep, hpc, hl, hth, ht]
  · intro s hf hpc hi hth
    obtain ⟨h1, h2, h3, h4, _, h6⟩ := spin_pass_pauses N a ha ((t + 1) / 2) s hf hpc
      (by rw [hi, hth]; omega)
    have hn : ¬ ((run N s (List.replicate ((t + 1) / 2) a)).thr a.tid).i <
        ((run N s (List.replicate ((t + 1) / 2) a)).thr a.tid).threshold := by
      rw [h3, h4, hi, hth]; omega
    have e : run N s (List.replicate ((t + 1) / 2) a ++ [a]) =
        step N (run N s (List.replicate ((t + 1) / 2) a)) a := by
      rw [spin_run_append]; rfl
    have e2 : step N (run N s (List.replicate ((t + 1) / 2) a)) a =
        { run N s (List.replicate ((t + 1) / 2) a) with
          thr := Function.update (run N s (List.replicate ((t + 1) / 2) a)).thr a.tid
            { (run N s (List.replicate ((t + 1) / 2) a)).thr a.tid with pc := .poll }
          trace := .yield a.tid :: (run N s (List.replicate ((t + 1) / 2) a)).trace } := by
      simp [Spin.step, h6, ha, Spin.threadStep, h2, hn]
    refine ⟨h1, ?_, ?_, ?_⟩
    · rw [e, e2]; simp only; rw [h1]
    · rw [e, e2]; simp
    · rw [e, e2]; simp only [Function.update_same]; rw [h4, hth]
  · intro s hf hl hpc
    simp [Spin.step, hf, ha, Spin.threadStep, hpc, hl]

/-- The first pass of thread 1 behind thread 0: 1024 relax hints, then the yield. -/
theorem spin_flag_read_once_per_pass_witness :
    (run 2 (run 2 init [⟨0, 0, 3⟩, ⟨0, 0, 3⟩, ⟨1, 0, 5⟩, ⟨1, 0, 5⟩])
        (List.replicate ((2048 + 1) / 2) ⟨1, 0, 5⟩ ++ [⟨1, 0, 5⟩])).trace =
      .yield 1 :: (List.replicate ((2048 + 1) / 2) (Event.pause 1) ++
        (run 2 init [⟨0, 0, 3⟩, ⟨0, 0, 3⟩, ⟨1, 0, 5⟩, ⟨1, 0, 5⟩]).trace) :=
  ((spin_flag_read_once_per_pass 2 ⟨1, 0, 5⟩ (by decide) 2048 (by decide)).2.1
    (run 2 init [⟨0, 0, 3⟩, ⟨0, 0, 3⟩, ⟨1, 0, 5⟩, ⟨1, 0, 5⟩]) (by decide) (by decide)
    (by decide) (by decide)).2.1

end Spin

namespace Spin

/-- C16. Deadlock-detection deadline: in a run from an unlocked `Spin_Lock` whose cycle-counter
readings are all below `2^64 - 2,600,000,000`, a step raises the assertion "Lock timeout error"
if and only if the thread is in the cycle-counter branch, so its last event is a load that
found the flag set, its budget is 0 after 2048 relax hints, a deadline `r0 + 2,600,000,000`
was fixed from the first reading `r0` of this call, and the current reading is at least that
deadline; the step then records the reading and the assertion, and afterwards nothing moves
any more: the thread never becomes the owner. -/
theorem spin_timeout_deadline (N : Nat) (sched : List Action) (a : Action)
    (hr : ReadingsBounded (sched ++ [a])) (hf : (run N init sched).fault = false) :
    ((run N init (sched ++ [a])).fault = true ↔
      a.tid < N ∧ ((run N init sched).thr a.tid).pc = .tsc ∧
      (∃ rest, eventsOf a.tid (run N init sched).trace = Event.load a.tid true :: rest) ∧
      ((run N init sched).thr a.tid).threshold = 0 ∧
      pausesSince a.tid (run N init sched).trace = 2048 ∧
      ∃ r0, firstTsc a.tid (run N init sched).trace = some r0 ∧
        ((run N init sched).thr a.tid).timeout = r0 + 2600000000 ∧
        a.tsc ≥ r0 + 2600000000) ∧
    ((run N init (sched ++ [a])).fault = true →
      (run N init (sched ++ [a])).trace =
        .timeoutError a.tid :: .rdtsc a.tid a.tsc :: (run N init sched).trace ∧
      owner ((run N init (sched ++ [a])).thr a.tid) = false ∧
      ∀ more, run N init (sched ++ [a] ++ more) = run N init (sched ++ [a])) := by
  have e : run N init (sched ++ [a]) = step N (run N init sched) a := by
    rw [spin_run_append]; rfl
  have hrs : ReadingsBounded sched := fun b hb => hr b (List.mem_append_left _ hb)
  have hB := (spin_budget_run (N := N) sched (s := init) spin_budget_init spin_tsc_nil).1 a.tid
  have hD := spin_deadline_run (N := N) sched hrs (s := init) spin_deadline_init a.tid
  have hfs := spin_fault_step N (run N init sched) a hf
  constructor
  · rw [e, hfs]
    constructor
    · rintro ⟨hi, hpc, h0, hle⟩
      have hw : waiting ((run N init sched).thr a.tid) = true := by simp [waiting, hpc]
      have h3 := hB.intsc hpc
      have h4 := hB.sum hw
      refine ⟨hi, hpc, hD.intsc hpc hf, h3, by omega, ?_⟩
      cases hc : firstTsc a.tid (run N init sched).trace with
      | none => exact absurd (hD.unread hw hc) h0
      | some r0 =>
        have := hD.read hw r0 hc
        simp only [deadlineCycles] at this
        exact ⟨r0, rfl, this, by omega⟩
    · rintro ⟨hi, hpc, _, _, _, r0, _, h2, h3⟩
      exact ⟨hi, hpc, by omega, by omega⟩
  · intro hft
    rw [e] at hft
    obtain ⟨hi, hpc, h0, hle⟩ := hfs.1 hft
    have e2 : step N (run N init sched) a = { run N init sched with
        fault := true
        trace := .timeoutError a.tid :: .rdtsc a.tid a.tsc :: (run N init sched).trace } := by
      simp [Spin.step, hf, hi, Spin.threadStep, hpc, h0, hle]
    refine ⟨by rw [e, e2], by rw [e, e2]; simp [owner, hpc], ?_⟩
    intro more
    rw [spin_run_append N init (sched ++ [a]) more]
    exact spin_fault_frozen N more (by rw [e]; exact hft)

/-- Thread 1 has used up its budget behind thread 0 and has fixed its deadline at
`0 + 2,600,000,000`. A step with the reading 2,600,000,000 raises the assertion: the thread was
in the cycle-counter branch after a load that found the flag set, with budget 0 after 2048
hints and the deadline fixed from its first reading; the history ends with the reading and the
assertion, the thread is not the owner and nothing moves afterwards. A step with the reading
2,599,999,999 does not raise it. -/
theorem spin_timeout_deadline_witness :
    (run 2 init timeoutSchedule).fault = false ∧
    (run 2 init (timeoutSchedule ++ [⟨1, 2600000000, 5⟩])).fault = true ∧
    (1 < 2 ∧ ((run 2 init timeoutSchedule).thr 1).pc = .tsc ∧
      (∃ rest, eventsOf 1 (run 2 init timeoutSchedule).trace = Event.load 1 true :: rest) ∧
      ((run 2 init timeoutSchedule).thr 1).threshold = 0 ∧
      pausesSince 1 (run 2 init timeoutSchedule).trace = 2048 ∧
      ∃ r0, firstTsc 1 (run 2 init timeoutSchedule).trace = some r0 ∧
        ((run 2 init timeoutSchedule).thr 1).timeout = r0 + 2600000000 ∧
        2600000000 ≥ r0 + 2600000000) ∧
    ((run 2 init (timeoutSchedule ++ [⟨1, 2600000000, 5⟩])).trace =
        .timeoutError 1 :: .rdtsc 1 2600000000 :: (run 2 init timeoutSchedule).trace ∧
      owner ((run 2 init (timeoutSchedule ++ [⟨1, 2600000000, 5⟩])).thr 1) = false ∧
      ∀ more, run 2 init (timeoutSchedule ++ [⟨1, 2600000000, 5⟩] ++ more) =
        run 2 init (timeoutSchedule ++ [⟨1, 2600000000, 5⟩])) ∧
    ¬ ((run 2 init (timeoutSchedule ++ [⟨1, 2599999999, 5⟩])).fault = true) := by
  have hf : (run 2 init timeoutSchedule).fault = false := spin_timeoutSchedule_run.2.2.2.1
  have hft : (run 2 init (timeoutSchedule ++ [⟨1, 2600000000, 5⟩])).fault = true :=
    (spin_timeoutSchedule_run.2.2.2.2.2.2 2600000000 5).2 (le_refl _)
  have hr : ∀ x, x + deadlineCycles < 2 ^ 64 →
      ReadingsBounded (timeoutSchedule ++ [⟨1, x, 5⟩]) := by
    intro x h b hb
    simp only [timeoutSchedule, waitSchedule, List.mem_append, List.mem_cons,
      List.mem_replicate, List.mem_singleton, List.not_mem_nil, or_false] at hb
    rcases hb with ((hb | hb) | ⟨_, hb⟩) | hb
    · subst hb; norm_num [deadlineCycles]
    · subst hb; norm_num [deadlineCycles]
    · subst hb; norm_num [deadlineCycles]
    · subst hb; exact h
  have h1 := spin_timeout_deadline 2 timeoutSchedule ⟨1, 2600000000, 5⟩
    (hr 2600000000 (by norm_num [deadlineCycles])) hf
  have h2 := spin_timeout_deadline 2 timeoutSchedule ⟨1, 2599999999, 5⟩
    (hr 2599999999 (by norm_num [deadlineCycles])) hf
  have ht : (⟨1, 2600000000, 5⟩ : Action).tid = 1 := rfl
  have hc : (⟨1, 2600000000, 5⟩ : Action).tsc = 2600000000 := rfl
  rw [ht, hc] at h1
  refine ⟨hf, hft, h1.1.1 hft, h1.2 hft, ?_⟩
  intro h
  obtain ⟨r0, _, _, h5⟩ := (h2.1.1 h).2.2.2.2.2
  have hc2 : (⟨1, 2599999999, 5⟩ : Action).tsc = 2599999999 := rfl
  rw [hc2] at h5
  omega

/-- C17. Release performs no validation: for every `Spin_Lock` state and every caller,
`unlock()` sets `locked` to `false` and leaves `core_id` and `lock_name` unchanged, and it is
what the step of a thread that returned from `lock()` does; a thread that calls `lock()` right
afterwards takes the fast path: one exchange that returns `false`, then the store of its core
identifier. -/
theorem spin_unlock_effect (N : Nat) (s : State) (i : Nat) (b1 b2 : Action)
    (hf : s.fault = false) (hb : b1.tid < N) (h12 : b2.tid = b1.tid)
    (hpc : ((unlock s i).thr b1.tid).pc = .idle) :
    (unlock s i).locked = false ∧
    (unlock s i).core_id = s.core_id ∧
    (unlock s i).lock_name = s.lock_name ∧
    (unlock s i).trace = .unlock i :: s.trace ∧
    (∀ a : Action, a.tid = i → i < N → (s.thr i).pc = .held → step N s a = unlock s i) ∧
    (run N (unlock s i) [b1, b2]).locked = true ∧
    (run N (unlock s i) [b1, b2]).core_id = b2.core ∧
    (run N (unlock s i) [b1, b2]).lock_name = s.lock_name ∧
    ((run N (unlock s i) [b1, b2]).thr b1.tid).pc = .held ∧
    (run N (unlock s i) [b1, b2]).trace =
      .storeCore b1.tid b2.core :: .xchg b1.tid false :: .unlock i :: s.trace := by
  refine ⟨rfl, rfl, rfl, rfl, ?_, ?_⟩
  · intro a ha hi hh
    subst ha
    simp [Spin.step, hf, hi, Spin.threadStep, hh, unlock]
  · obtain ⟨t2, r2, c2⟩ := b2
    simp only at h12
    subst h12
    have e1 : step N (unlock s i) b1 = { unlock s i with
        locked := true
        thr := Function.update (unlock s i).thr b1.tid
          { (unlock s i).thr b1.tid with pc := .recordCore, timeout := 0, threshold := 2 <<< 10 }
        trace := .xchg b1.tid false :: (unlock s i).trace } := by
      have hl : (unlock s i).locked = false := rfl
      have hf2 : (unlock s i).fault = false := hf
      simp [Spin.step, hf2, hb, Spin.threadStep, hpc, doExchange, hl]
    have e2 : run N (unlock s i) [b1, ⟨b1.tid, r2, c2⟩] =
        step N (step N (unlock s i) b1) ⟨b1.tid, r2, c2⟩ := rfl
    have hf2 : (unlock s i).fault = false := hf
    rw [e2, e1]
    simp [Spin.step, hf2, hb, Spin.threadStep]
    simp [unlock]

/-- Thread 1, which never locked, unlocks the lock held by thread 0 and takes it itself. -/
theorem spin_unlock_effect_witness :
    (run 2 (unlock (run 2 init [⟨0, 0, 3⟩, ⟨0, 0, 3⟩]) 1) [⟨1, 0, 5⟩, ⟨1, 0, 5⟩]).locked = true ∧
    (run 2 (unlock (run 2 init [⟨0, 0, 3⟩, ⟨0, 0, 3⟩]) 1) [⟨1, 0, 5⟩, ⟨1, 0, 5⟩]).core_id = 5 :=
  ⟨(spin_unlock_effect 2 (run 2 init [⟨0, 0, 3⟩, ⟨0, 0, 3⟩]) 1 ⟨1, 0, 5⟩ ⟨1, 0, 5⟩ rfl
      (by decide) rfl rfl).2.2.2.2.2.1,
    (spin_unlock_effect 2 (run 2 init [⟨0, 0, 3⟩, ⟨0, 0, 3⟩]) 1 ⟨1, 0, 5⟩ ⟨1, 0, 5⟩ rfl
      (by decide) rfl rfl).2.2.2.2.2.2.1⟩

/-- C18. Holder query is a core check: for every `Spin_Lock` state and caller, `holding()`
returns `true` if and only if `locked` is `true` and `core_id` equals the caller's core
identifier; so in a run from an unlocked lock, once a thread has recorded core `c` at the
end of `lock()`, `holding()` is `true` for a caller on core `c` and `false` for a caller on
any other core, the owner included; and after `unlock()` it is `false` for every caller. -/
theorem spin_holding_core_check (N : Nat) (sched : List Action) (a : Action) (hi : a.tid < N)
    (hf : (run N init sched).fault = false)
    (hpc : ((run N init sched).thr a.tid).pc = .recordCore) :
    (∀ (s : State) (c : Int), holding s c = true ↔ s.locked = true ∧ s.core_id = c) ∧
    ((run N init (sched ++ [a])).thr a.tid).pc = .held ∧
    holding (run N init (sched ++ [a])) a.core = true ∧
    (∀ c, c ≠ a.core → holding (run N init (sched ++ [a])) c = false) ∧
    (∀ (s : State) (i : Nat) (c : Int), holding (unlock s i) c = false) := by
  have e : run N init (sched ++ [a]) = step N (run N init sched) a := by
    rw [spin_run_append]; rfl
  have hI := Inv.spin_inv_run sched (Inv.spin_inv_init N) (N := N)
  have hl : (run N init sched).locked = true := by
    cases hc : (run N init sched).locked with
    | true => rfl
    | false =>
      have := hI.free hc a.tid hi
      simp [owner, hpc] at this
  have e2 : step N (run N init sched) a = { run N init sched with
      core_id := a.core
      thr := Function.update (run N init sched).thr a.tid
        { (run N init sched).thr a.tid with pc := .held }
      trace := .storeCore a.tid a.core :: (run N init sched).trace } := by
    simp [Spin.step, hf, hi, Spin.threadStep, hpc]
  refine ⟨?_, ?_, ?_, ?_, ?_⟩
  · intro s c
    simp [holding]
  · rw [e, e2]; simp
  · rw [e, e2]; simp [holding, hl]
  · intro c hc
    rw [e, e2]
    simp [holding, hl]
    exact fun h => hc h.symm
  · intro s i c
    simp [holding, unlock]

/-- Thread 0 locks on core 3: `holding()` is true on core 3 and false on core 4. -/
theorem spin_holding_core_check_witness :
    holding (run 1 init ([⟨0, 0, 3⟩] ++ [⟨0, 0, 3⟩])) 3 = true ∧
    holding (run 1 init ([⟨0, 0, 3⟩] ++ [⟨0, 0, 3⟩])) 4 = false :=
  ⟨(spin_holding_core_check 1 [⟨0, 0, 3⟩] ⟨0, 0, 3⟩ (by decide) rfl rfl).2.2.1,
    (spin_holding_core_check 1 [⟨0, 0, 3⟩] ⟨0, 0, 3⟩ (by decide) rfl rfl).2.2.2.1 4 (by decide)⟩

end Spin

namespace Pool

/-- C19. Worker count clamp: for every requested count `r < 2^64` and every value `h < 2^32`
returned by `hardware_concurrency()`, `init` stores `max(1, min(r, h))` in `number_of_threads`,
which is at least 1 and at most `h` when `h ≥ 1`; in every interleaving, while `init` is in its
loop at index `i` exactly `i` threads exist, and once the loop is left exactly
`max(1, min(r, h))` threads exist; and `init` run on its own returns after that many threads
are created, with the flag set. -/
theorem pool_worker_count_clamp (c : Config) (a0 : Bool) (hr : c.r < 2 ^ 64)
    (hh : c.h < 2 ^ 32) :
    init_number_of_threads c.r c.h = ((max 1 (min c.r c.h) : Nat) : Int) ∧
    1 ≤ init_number_of_threads c.r c.h ∧
    (1 ≤ c.h → init_number_of_threads c.r c.h ≤ (c.h : Int)) ∧
    (∀ sched i, (run c (init a0) sched).mainPc = .spawn i →
      (run c (init a0) sched).threads.length = i ∧ i ≤ max 1 (min c.r c.h)) ∧
    (∀ sched, pastInit (run c (init a0) sched).mainPc = true →
      (run c (init a0) sched).number_of_threads = ((max 1 (min c.r c.h) : Nat) : Int) ∧
      (run c (init a0) sched).threads.length = max 1 (min c.r c.h)) ∧
    (run c (init a0) (List.replicate (max 1 (min c.r c.h) + 3) (.main 0))).mainPc
      = nextCall c 0 ∧
    (run c (init a0) (List.replicate (max 1 (min c.r c.h) + 3) (.main 0))).threads
      = List.replicate (max 1 (min c.r c.h)) .lock ∧
    (run c (init a0) (List.replicate (max 1 (min c.r c.h) + 3) (.main 0))).thread_pool_active
      = true := by
  have e := pool_count_eq c.r c.h hr hh
  have hn : 0 ≤ init_number_of_threads c.r c.h := by rw [e]; omega
  have hI : ∀ sched, SpawnInv c (run c (init a0) sched) := fun sched =>
    pool_spawn_run hn sched (s := init a0) (by simp [SpawnInv, init])
  have hret := pool_init_returns c a0 (max 1 (min c.r c.h)) e
  refine ⟨e, by rw [e]; omega, fun h1 => by rw [e]; omega, ?_, ?_, hret.1, hret.2.1,
    hret.2.2.2.1⟩
  · intro sched i hpc
    have h := hI sched
    unfold SpawnInv at h
    simp only [hpc] at h
    obtain ⟨h1, h2, h3⟩ := h
    rw [h1, e] at h3
    exact ⟨h2, by omega⟩
  · intro sched hp
    obtain ⟨h1, h2⟩ := (pool_spawn_past c _ hp).1 (hI sched)
    rw [h1, e] at h2
    exact ⟨by rw [h1, e], by omega⟩

/-- Eight threads requested on a machine that reports four. -/
theorem pool_worker_count_clamp_witness :
    init_number_of_threads 8 4 = ((max 1 (min 8 4) : Nat) : Int) ∧
    (run ⟨8, 4, [], 0⟩ (init false) (List.replicate (max 1 (min 8 4) + 3) (.main 0))).threads
      = List.replicate (max 1 (min 8 4)) .lock :=
  ⟨(pool_worker_count_clamp ⟨8, 4, [], 0⟩ false (by norm_num) (by norm_num)).1,
    (pool_worker_count_clamp ⟨8, 4, [], 0⟩ false (by norm_num) (by norm_num)).2.2.2.2.2.2.1⟩

/-- Queue discipline of the model, in which a run stops at a `front()` on an empty queue: in
every state reached from a pool before `init` by any interleaving of the main thread (`init`,
its calls of `process`, `deinit`), the producers, the workers and spurious wake-ups, the tasks
popped so far followed by the queue contents are the tasks pushed so far; the tasks pushed so
far followed by the task of the call of `process` that holds the mutex and has not pushed yet
(at most one) are the tasks in the order in which their calls acquired the mutex; so the `k`-th
task popped is the `k`-th task pushed, and the number of pops plus the queue length is the
number of pushes. -/
theorem pool_queue_discipline (c : Config) (a0 : Bool) (sched : List Action) :
    (run c (init a0) sched).dequeued ++ (run c (init a0) sched).function_queue
      = (run c (init a0) sched).pushed ∧
    (run c (init a0) sched).pushed ++ pending c (run c (init a0) sched)
      = (run c (init a0) sched).acquired ∧
    (pending c (run c (init a0) sched)).length ≤ 1 ∧
    (run c (init a0) sched).dequeued <+: (run c (init a0) sched).pushed ∧
    (run c (init a0) sched).pushed <+: (run c (init a0) sched).acquired ∧
    (∀ (k : Nat) (t : Task), (run c (init a0) sched).dequeued[k]? = some t →
      (run c (init a0) sched).pushed[k]? = some t ∧
      (run c (init a0) sched).acquired[k]? = some t) ∧
    (run c (init a0) sched).dequeued.length + (run c (init a0) sched).function_queue.length
      = (run c (init a0) sched).pushed.length := by
  have h := pool_inv_run sched (pool_inv_init c a0)
  generalize run c (init a0) sched = s at h
  obtain ⟨_, h1, h2, _⟩ := h
  have hp : (pending c s).length ≤ 1 := by
    unfold pending
    cases s.mutex with
    | none => simp
    | some a =>
      cases a with
      | main =>
        simp only [pendA]
        cases s.mainPc <;> simp [pendMain]
        rename_i k st
        cases st <;> simp [pendMain]
      | producer p =>
        simp only [pendA]
        cases s.prod p <;> simp [pendOf]
      | worker w => simp [pendA]
  refine ⟨h1, h2, hp, ⟨_, h1⟩, ⟨_, h2⟩, ?_, ?_⟩
  · intro k t hk
    have hlt : k < s.dequeued.length := by
      by_contra hn
      rw [List.getElem?_eq_none (Nat.le_of_not_lt hn)] at hk
      exact absurd hk (by simp)
    have e1 : s.pushed[k]? = some t := by
      rw [← h1, List.getElem?_append_left hlt]; exact hk
    have hlt2 : k < s.pushed.length := by
      rw [← h1, List.length_append]; omega
    refine ⟨e1, ?_⟩
    rw [← h2, List.getElem?_append_left hlt2]; exact e1
  · rw [← h1, List.length_append]

set_option maxRecDepth 100000 in
/-- C20 fails on the code. With one worker and the flag `false` before `init` stores `true`, in
the run `emptyFrontSchedule` the worker is created, takes the mutex and passes the predicate of
`condition.wait` because the flag is `false`; `init` then stores `true`; the exit test of the
worker in line 33 now fails, so after seven steps the worker holds the mutex and is at
`function_queue.front()` although the queue is empty and no task has been submitted; its next
step, `front()` and `pop()` on the empty queue, is undefined: it takes from the queue a task
that nobody submitted. -/
theorem pool_front_on_empty_queue :
    (run ⟨1, 4, [10], 0⟩ (init false) (emptyFrontSchedule.take 4)).threads = [.check] ∧
    (run ⟨1, 4, [10], 0⟩ (init false) (emptyFrontSchedule.take 4)).thread_pool_active
      = false ∧
    (run ⟨1, 4, [10], 0⟩ (init false) (emptyFrontSchedule.take 7)).threads = [.take] ∧
    (run ⟨1, 4, [10], 0⟩ (init false) (emptyFrontSchedule.take 7)).mutex
      = some (.worker 0) ∧
    (run ⟨1, 4, [10], 0⟩ (init false) (emptyFrontSchedule.take 7)).thread_pool_active
      = true ∧
    (run ⟨1, 4, [10], 0⟩ (init false) (emptyFrontSchedule.take 7)).function_queue = [] ∧
    (run ⟨1, 4, [10], 0⟩ (init false) (emptyFrontSchedule.take 7)).acquired = [] ∧
    (run ⟨1, 4, [10], 0⟩ (init false) (emptyFrontSchedule.take 7)).pushed = [] ∧
    (run ⟨1, 4, [10], 0⟩ (init false) (emptyFrontSchedule.take 7)).ub = false ∧
    (run ⟨1, 4, [10], 0⟩ (init false) emptyFrontSchedule).ub = true :=
  ⟨rfl, rfl, rfl, rfl, rfl, rfl, rfl, rfl, rfl, rfl⟩

end Pool

namespace Pool

set_option maxRecDepth 100000 in
/-- C21. Drain on shutdown fails: with one worker and the flag `false` before `init` stores
`true`, in the run `earlyExitSchedule` the worker is created, finds the flag `false` and the
queue empty, and returns before `init` stores the flag; `process(10)` then returns with task 10
queued, after which `deinit` is called, joins the finished worker and returns with task 10
still in the queue and never executed. -/
theorem pool_drain_fails :
    (run ⟨1, 4, [10], 0⟩ (init false) (earlyExitSchedule.take 12)).mainPc = .dStore ∧
    (run ⟨1, 4, [10], 0⟩ (init false) (earlyExitSchedule.take 12)).pushed = [10] ∧
    (run ⟨1, 4, [10], 0⟩ (init false) earlyExitSchedule).mainPc = .done ∧
    (run ⟨1, 4, [10], 0⟩ (init false) earlyExitSchedule).threads = [.exited] ∧
    (run ⟨1, 4, [10], 0⟩ (init false) earlyExitSchedule).function_queue = [10] ∧
    (run ⟨1, 4, [10], 0⟩ (init false) earlyExitSchedule).executed = [] ∧
    (run ⟨1, 4, [10], 0⟩ (init false) earlyExitSchedule).ub = false :=
  ⟨rfl, rfl, rfl, rfl, rfl, rfl, rfl⟩

/-- C22. Tasks run inside the gate: in every reachable state a worker that is at the call of a
task body holds the mutex, so a call of `process` by the main thread or by a producer and the
lock acquisition of any other worker make no progress until the body has returned. -/
theorem pool_task_holds_gate (c : Config) (a0 : Bool) (sched : List Action) (w : Nat) (t : Task)
    (h : (run c (init a0) sched).threads[w]? = some (.call t)) :
    (run c (init a0) sched).mutex = some (.worker w) ∧
    (∀ k pick, (run c (init a0) sched).mainPc = .proc k .acquire →
      step c (run c (init a0) sched) (.main pick) = run c (init a0) sched) ∧
    (∀ p u pick, (run c (init a0) sched).prod p = .idle →
      step c (run c (init a0) sched) (.producer p u pick) = run c (init a0) sched) ∧
    (∀ v, (run c (init a0) sched).threads[v]? = some .lock →
      step c (run c (init a0) sched) (.worker v) = run c (init a0) sched) := by
  have hI := pool_inv_run sched (pool_inv_init c a0)
  generalize run c (init a0) sched = s at h hI
  have hm : s.mutex = some (.worker w) :=
    (hI.mutex (.worker w)).1 (by simp [holds, whold, h, workerHolds])
  refine ⟨hm, ?_, ?_, ?_⟩
  · intro k pick hpc
    unfold step
    split
    · rfl
    · simp [mainStep, hpc, hm]
  · intro p u pick hp
    unfold step
    split
    · rfl
    · simp only
      split
      · simp [prodStep, hp, hm]
      · rfl
  · intro v hv
    unfold step
    split
    · rfl
    · simp [hv, workerStep, hm]

set_option maxRecDepth 100000 in
/-- The worker is about to run task 10 and holds the mutex while the main thread waits to
submit task 11. -/
theorem pool_task_holds_gate_witness :
    (run ⟨1, 4, [10, 11], 0⟩ (init false) busySchedule).mutex = some (.worker 0) ∧
    (run ⟨1, 4, [10, 11], 0⟩ (init false) busySchedule).mainPc = .proc 1 .acquire :=
  ⟨(pool_task_holds_gate ⟨1, 4, [10, 11], 0⟩ false busySchedule 0 10 rfl).1, rfl⟩

end Pool

namespace TWA

/-- C23. Wait-array collisions within one lock: for every lock address and all tickets `t1`,
`t2`, `Hash(L, t1) = Hash(L, t2)` if and only if `t1` and `t2` are congruent modulo 4096; so
the slots of any 4096 consecutive tickets (modulo `2^64`) of one lock are pairwise distinct. -/
theorem twa_hash_collisions (L : Nat) :
    (∀ t1 t2, Hash L t1 = Hash L t2 ↔ t1 % 4096 = t2 % 4096) ∧
    (∀ t, ((List.range 4096).map (fun i => Hash L (wrap64 (t + i)))).Nodup) := by
  refine ⟨twa_hash_eq_iff L, fun t => ?_⟩
  refine List.Nodup.map_on ?_ (List.nodup_range 4096)
  intro x hx y hy h
  rw [List.mem_range] at hx hy
  rw [twa_hash_eq_iff] at h
  simp only [wrap64] at h
  omega

end TWA

namespace Arr

/-- C29. Array append: for every array with `0 ≤ size ≤ capacity` whose allocation has
`capacity` elements, and `2*capacity + 8` within `s32`, `array_add` returns, sets the element
at the old size to `v`, increases `size` by one, leaves all earlier elements unchanged, keeps
`capacity` when `size < capacity` and otherwise sets it to `2*capacity + 8`, and preserves
`size ≤ capacity`. -/
theorem array_add_effect (sz : Nat) (junk : Nat → Int) (a : Array) (v : Int)
    (h0 : 0 ≤ a.size) (h1 : a.size ≤ a.capacity) (hd : (a.data.length : Int) = a.capacity)
    (hc : 2 * a.capacity + 8 ≤ INT_MAX) :
    ∃ a2, array_add sz junk a v = .ok a2 ∧
      a2.data[a.size.toNat]? = some v ∧ a2.size = a.size + 1 ∧
      (∀ i : Nat, (i : Int) < a.size → a2.data[i]? = a.data[i]?) ∧
      (a.size < a.capacity → a2.capacity = a.capacity) ∧
      (a.size = a.capacity → a2.capacity = 2 * a.capacity + 8) ∧
      a2.size ≤ a2.capacity ∧ (a2.data.length : Int) = a2.capacity ∧ a2.front = a.front := by
  have hmax : INT_MAX = 2147483647 := rfl
  have hmin : INT_MIN = -2147483648 := rfl
  by_cases hfull : a.capacity = a.size
  · -- the array grows
    have hg : ARRAY_GROWTH_FORMULA a.capacity = .ok (2 * a.capacity + 8) := by
      unfold ARRAY_GROWTH_FORMULA
      rw [if_neg]
      rw [hmax, hmin]; rw [hmax] at hc; omega
    have hal : array_mutate sz junk a 0 = .ok { a with
        data := (List.range (2 * a.capacity + 8).toNat).map fun i =>
          if i < a.size.toNat then a.data.getD i 0 else junk i
        capacity := 2 * a.capacity + 8 } := by
      unfold array_mutate
      rw [hg]
      simp only
      rw [if_neg (by omega)]
      unfold array_allocate_and_copy
      rw [if_neg (by omega), if_neg (by omega), if_neg (by omega)]
    unfold array_add
    rw [if_pos hfull, hal]
    simp only [List.length_map, List.length_range]
    rw [if_neg (by omega), if_neg (by rw [hmax]; rw [hmax] at hc; omega)]
    refine ⟨_, rfl, ?_, rfl, ?_, fun h => absurd hfull.symm (by omega), fun _ => rfl, ?_, ?_, rfl⟩
    · simp only
      rw [List.getElem?_set_self]
      simp only [List.length_map, List.length_range]
      omega
    · intro i hi
      have hi2 : i ≠ a.size.toNat := by omega
      have hi3 : i < a.size.toNat := by omega
      have hi4 : i < a.data.length := by omega
      simp only
      rw [List.getElem?_set_ne (fun e => hi2 e.symm), List.getElem?_map,
        List.getElem?_range (by omega)]
      simp only [Option.map_some', hi3, if_true]
      exact (arr_getD_eq _ _ hi4).symm
    · simp only; omega
    · simp only [List.length_set, List.length_map, List.length_range]
      omega
  · unfold array_add
    rw [if_neg hfull]
    simp only
    rw [if_neg (by omega), if_neg (by rw [hmax]; rw [hmax] at hc; omega)]
    refine ⟨_, rfl, ?_, rfl, ?_, fun _ => rfl, fun h => absurd h.symm hfull, ?_, ?_, rfl⟩
    · simp only
      rw [List.getElem?_set_self]
      omega
    · intro i hi
      have hi2 : i ≠ a.size.toNat := by omega
      simp only
      rw [List.getElem?_set_ne (fun e => hi2 e.symm)]
    · simp only; omega
    · simp only [List.length_set]; exact hd


/-- An append to a full array of two elements. -/
theorem array_add_effect_witness :
    ∃ a2, array_add 4 (fun _ => 7) ⟨[5, 6], 2, 2, 0⟩ 9 = .ok a2 ∧
      a2.data[(2 : Int).toNat]? = some 9 ∧ a2.size = 2 + 1 ∧
      (∀ i : Nat, (i : Int) < 2 → a2.data[i]? = [5, 6][i]?) ∧
      ((2 : Int) < 2 → a2.capacity = 2) ∧
      ((2 : Int) = 2 → a2.capacity = 2 * 2 + 8) ∧
      a2.size ≤ a2.capacity ∧ (a2.data.length : Int) = a2.capacity ∧ a2.front = 0 :=
  array_add_effect 4 (fun _ => 7) ⟨[5, 6], 2, 2, 0⟩ 9 (by decide) (by decide) (by decide)
    (by decide)

/-- C30. Array resize, for elements of `sz` bytes, an array with `0 ≤ size ≤ capacity` and
`0 ≤ n ≤ capacity`: when `n ≤ size` or `n = capacity`, `array_resize(n)` sets `size` to `n`,
leaves the elements below `n` and from the old size on unchanged and (for `n < capacity`)
zeroes the elements in `[n, old size)`; but when `size < n < capacity` the byte count
`(old_size - new_size) * sizeof(T)` wraps to `2^64 - (n - size) * sz` and the `memset` that
starts at element `n` runs past the end of the allocation. -/
theorem array_resize_effect (sz : Nat) (junk : Nat → Int) (a : Array) (n : Int)
    (hsz : 0 < sz) (hsz2 : sz < 2 ^ 32)
    (h0 : 0 ≤ a.size) (h1 : a.size ≤ a.capacity) (hd : (a.data.length : Int) = a.capacity)
    (hcap : a.capacity ≤ INT_MAX) (hn0 : 0 ≤ n) (hn1 : n ≤ a.capacity) :
    (n ≤ a.size ∨ n = a.capacity →
      ∃ a2, array_resize sz junk a n = .ok a2 ∧ a2.size = n ∧ a2.capacity = a.capacity ∧
        a2.data.length = a.data.length ∧
        (∀ i : Nat, (i : Int) < n → a2.data[i]? = a.data[i]?) ∧
        (∀ i : Nat, a.size ≤ (i : Int) → a2.data[i]? = a.data[i]?) ∧
        (n < a.capacity → ∀ i : Nat, n ≤ (i : Int) → (i : Int) < a.size →
          a2.data[i]? = some 0)) ∧
    (a.size < n → n < a.capacity →
      array_resize sz junk a n = .error .ub ∧
      (toSizeT (a.size - n) * sz) % 18446744073709551616
        = 18446744073709551616 - (n - a.size).toNat * sz ∧
      a.data.length * sz < n.toNat * sz +
        (toSizeT (a.size - n) * sz) % 18446744073709551616) := by
  have hmax : INT_MAX = 2147483647 := rfl
  have hmin : INT_MIN = -2147483648 := rfl
  rw [hmax] at hcap
  constructor
  · intro hcase
    by_cases he : n = a.capacity
    · refine ⟨{ a with size := n }, ?_, rfl, rfl, rfl, fun _ _ => rfl, fun _ _ => rfl, ?_⟩
      · unfold array_resize array_allocate_and_copy
        rw [if_pos he]
      · intro h; omega
    · have hlt : n < a.capacity := by omega
      have hns : n ≤ a.size := by omega
      obtain ⟨d, hdd⟩ : ∃ d : Nat, a.size - n = (d : Int) := ⟨(a.size - n).toNat, by omega⟩
      have hd2 : d < 2 ^ 31 := by omega
      have hmul : d * sz < 2 ^ 32 * 2 ^ 32 := Nat.mul_lt_mul'' (by omega) hsz2
      have hb : (toSizeT (a.size - n) * sz) % 18446744073709551616 = d * sz := by
        have e1 : toSizeT (a.size - n) = d := by
          simp only [toSizeT, hdd]; omega
        rw [e1]
        exact Nat.mod_eq_of_lt (by omega)
      obtain ⟨m, hm⟩ : ∃ m : Nat, n = (m : Int) := ⟨n.toNat, by omega⟩
      have hmt : n.toNat = m := by omega
      have hin : ¬ (a.data.length * sz < m * sz + d * sz) := by
        have : m + d ≤ a.data.length := by omega
        have := Nat.mul_le_mul_right sz this
        rw [Nat.add_mul] at this
        omega
      have hres : array_resize sz junk a n = .ok { a with
          data := (List.range a.data.length).map fun i =>
            if i < m then a.data.getD i 0
            else if (i - m + 1) * sz ≤ d * sz then 0
            else if (i - m) * sz < d * sz then junk i
            else a.data.getD i 0
          size := n } := by
        unfold array_resize array_allocate_and_copy
        rw [if_neg he, if_pos hlt]
        simp only
        rw [if_neg (by rw [hmax, hmin]; omega), hb]
        unfold memset
        rw [if_neg (by omega), hmt, if_neg hin]
      refine ⟨_, hres, rfl, rfl, by simp, ?_, ?_, ?_⟩
      · intro i hi
        have hi1 : i < m := by omega
        have hi2 : i < a.data.length := by omega
        simp only
        rw [List.getElem?_map, List.getElem?_range hi2]
        simp only [Option.map_some', hi1, if_true]
        exact (arr_getD_eq _ _ hi2).symm
      · intro i hi
        simp only
        by_cases hi2 : i < a.data.length
        · rw [List.getElem?_map, List.getElem?_range hi2]
          have h3 : ¬ i < m := by omega
          have h4 : ¬ (i - m + 1) * sz ≤ d * sz := by
            intro hle
            have := Nat.le_of_mul_le_mul_right hle hsz
            omega
          have h5 : ¬ (i - m) * sz < d * sz := by
            intro hle
            have := Nat.lt_of_mul_lt_mul_right hle
            omega
          simp only [Option.map_some', h3, h4, h5, if_false]
          exact (arr_getD_eq _ _ hi2).symm
        · have hi3 : a.data.length ≤ i := Nat.le_of_not_lt hi2
          rw [List.getElem?_eq_none hi3, List.getElem?_eq_none (by simpa using hi3)]
      · intro _ i hi1 hi2
        have hi3 : i < a.data.length := by omega
        simp only
        rw [List.getElem?_map, List.getElem?_range hi3]
        have h3 : ¬ i < m := by omega
        have h4 : (i - m + 1) * sz ≤ d * sz := Nat.mul_le_mul_right sz (by omega)
        simp only [Option.map_some', h3, h4, if_false, if_true]
  · intro hgt hlt
    obtain ⟨d, hdd⟩ : ∃ d : Nat, n - a.size = (d : Int) := ⟨(n - a.size).toNat, by omega⟩
    have hd0 : 0 < d := by omega
    have hd2 : d < 2 ^ 31 := by omega
    have hmul : d * sz < 2 ^ 32 * 2 ^ 32 := Nat.mul_lt_mul'' (by omega) hsz2
    have hpos : 0 < d * sz := Nat.mul_pos hd0 hsz
    have e1 : toSizeT (a.size - n) = 18446744073709551616 - d := by
      simp only [toSizeT]; omega
    have hb : (toSizeT (a.size - n) * sz) % 18446744073709551616
        = 18446744073709551616 - d * sz := by
      rw [e1, Nat.sub_mul]
      have hle : d * sz ≤ 18446744073709551616 * sz := Nat.mul_le_mul_right sz (by omega)
      obtain ⟨q, hq⟩ : ∃ q, sz = q + 1 := ⟨sz - 1, by omega⟩
      have : 18446744073709551616 * sz - d * sz
          = (18446744073709551616 - d * sz) + 18446744073709551616 * q := by
        have h64 : 18446744073709551616 * sz
            = 18446744073709551616 * q + 18446744073709551616 := by omega
        omega
      rw [this, Nat.add_mul_mod_self_left]
      exact Nat.mod_eq_of_lt (by omega)
    have hdt : (n - a.size).toNat = d := by omega
    obtain ⟨m, hm⟩ : ∃ m : Nat, n = (m : Int) := ⟨n.toNat, by omega⟩
    have hmt : n.toNat = m := by omega
    have hlen : a.data.length < 2 ^ 31 := by omega
    have hls : a.data.length * sz < 2 ^ 32 * 2 ^ 32 := Nat.mul_lt_mul'' (by omega) hsz2
    have hover : a.data.length * sz < n.toNat * sz + (18446744073709551616 - d * sz) := by
      have : d * sz ≤ m * sz := Nat.mul_le_mul_right sz (by omega)
      rw [hmt]
      omega
    refine ⟨?_, by rw [hb, hdt], by rw [hb]; exact hover⟩
    unfold array_resize array_allocate_and_copy
    rw [if_neg (by omega), if_pos hlt]
    simp only
    rw [if_neg (by rw [hmax, hmin]; omega), hb]
    unfold memset
    rw [if_neg (by omega), if_pos hover]


/-- An array of size 2 and capacity 8 resized to 5. -/
theorem array_resize_effect_witness :
    array_resize 4 (fun _ => 0) ⟨[1, 2, 0, 0, 0, 0, 0, 0], 2, 8, 0⟩ 5 = .error .ub ∧
    (toSizeT (2 - 5) * 4) % 18446744073709551616
      = 18446744073709551616 - ((5 : Int) - 2).toNat * 4 :=
  ⟨((array_resize_effect 4 (fun _ => 0) ⟨[1, 2, 0, 0, 0, 0, 0, 0], 2, 8, 0⟩ 5 (by decide)
      (by decide) (by decide) (by decide) (by decide) (by decide) (by decide) (by decide)).2
      (by decide) (by decide)).1,
    ((array_resize_effect 4 (fun _ => 0) ⟨[1, 2, 0, 0, 0, 0, 0, 0], 2, 8, 0⟩ 5 (by decide)
      (by decide) (by decide) (by decide) (by decide) (by decide) (by decide) (by decide)).2
      (by decide) (by decide)).2.1⟩

end Arr

namespace HT

set_option maxRecDepth 100000 in
/-- C24. The round trip fails for a key whose raw hash is 2: in a table initialised by
`table_init` with the hash function `keyItself`, `table_add(2, 9)` stores the entry with hash 2
in slot 2 (`hash < VALID` leaves 2 unchanged), but `table_find_pointer(2)` adds `VALID` to the
raw hash (`hash <= VALID`), looks for hash 4 from slot 4, which is vacant, and returns `NULL`;
`table_find(2)` returns `false`. For the key 3 in the same table the round trip works. -/
theorem ht_find_misses_raw_hash_two :
    ∃ t t2 t3, table_init 0 none (some keyItself) = .ok t ∧
      table_add 10 t 2 9 = .ok t2 ∧
      t2.items = 1 ∧ t2.entries[2]? = some ⟨2, 2, 9⟩ ∧
      add_hash t 2 = 2 ∧ find_hash t2 2 = 4 ∧
      table_find_pointer 10 t2 2 = .ok none ∧
      table_find 10 t2 2 = .ok false ∧
      table_add 10 t2 3 8 = .ok t3 ∧
      table_find_value 10 t3 3 = .ok (some 8) ∧
      table_find 10 t3 2 = .ok false :=
  ⟨_, _, _, rfl, rfl, rfl, rfl, rfl, rfl, rfl, rfl, rfl, rfl, rfl⟩

set_option maxRecDepth 100000 in
/-- C27. Growth loses the caller's functions: a table initialised with the comparator
`sameParity` and the hash function `constFive` holds key 1 with value 10, and
`table_find_pointer(3)` finds that entry; after `table_expand` the table has 64 slots and one
item, but its hash function is `murmur_32` and its comparator is `==`, and
`table_find_pointer(3)` returns `NULL`. -/
theorem ht_expand_resets_functions :
    ∃ t t1 t2, table_init 0 (some sameParity) (some constFive) = .ok t ∧
      table_add 10 t 1 10 = .ok t1 ∧
      table_find_value 10 t1 3 = .ok (some 10) ∧
      table_expand 10 t1 = .ok t2 ∧
      t2.table_size = 64 ∧ t2.items = 1 ∧
      t2.hash_function = default_hash_function ∧
      t2.comparator_function = default_comparator_function ∧
      t1.hash_function 1 = 5 ∧ t2.hash_function 1 = 2291848047 ∧
      t1.comparator_function 1 3 = true ∧ t2.comparator_function 1 3 = false ∧
      table_find_value 100 t2 3 = .ok none ∧
      table_find 100 t2 3 = .ok false :=
  ⟨_, _, _, rfl, rfl, rfl, rfl, rfl, rfl, rfl, rfl, rfl, rfl, rfl, rfl, rfl, rfl⟩



set_option maxRecDepth 100000 in
/-- C25. The vacant slots run out: in a table of 32 slots fresh from `table_init` (hash function
`keyItself`), after `table_add(5, 0); table_remove(5)` 32 times every slot is `DELETED`, none
is `VACANT`, and `items` is 0; from then on the probe loops of `table_add`,
`table_find_pointer` and `table_remove` never end, for any key. -/
theorem ht_vacant_slots_run_out :
    ∃ t0 t, table_init 0 none (some keyItself) = .ok t0 ∧
      runOps 40 t0 churn = .ok t ∧
      t.table_size = 32 ∧ t.items = 0 ∧ t.entries.length = 32 ∧
      (∀ e, e ∈ t.entries → e.hash = DELETED) ∧
      (∀ fuel key value, table_add fuel t key value = .error .fuel) ∧
      (∀ fuel key, table_find_pointer fuel t key = .error .fuel) ∧
      (∀ fuel key, table_remove fuel t key = .error .fuel) := by
  have hk : (match table_init 0 none (some keyItself) with
      | .error _ => false
      | .ok t0 =>
        match runOps 40 t0 churn with
        | .error _ => false
        | .ok t =>
          decide (t.table_size = 32) && decide (t.items = 0) &&
            decide (t.resize_threshold = 22) && decide (t.entries.length = 32) &&
            t.entries.all (fun e => e.hash == 1)) = true := by decide!
  have h : ∃ t0 t, table_init 0 none (some keyItself) = .ok t0 ∧
      runOps 40 t0 churn = .ok t ∧
      t.table_size = 32 ∧ t.items = 0 ∧ t.resize_threshold = 22 ∧ t.entries.length = 32 ∧
      t.entries.all (fun e => e.hash == 1) = true := by
    split at hk
    · exact absurd hk (by simp)
    · rename_i t0 h0
      split at hk
      · exact absurd hk (by simp)
      · rename_i t h1
        simp only [Bool.and_eq_true, decide_eq_true_eq] at hk
        exact ⟨t0, t, h0, h1, hk.1.1.1.1, hk.1.1.1.2, hk.1.1.2, hk.1.2, hk.2⟩
  obtain ⟨t0, t, h0, h1, h2, h3, h4, h5, h6⟩ := h
  have hall : ∀ e, e ∈ t.entries → e.hash = 1 := by
    intro e he
    have := List.all_eq_true.mp h6 e he
    simpa using this
  have hsz : t.table_size = ((32 : Nat) : Int) := by rw [h2]; rfl
  refine ⟨t0, t, h0, h1, h2, h3, h5, hall, ?_, ?_, ?_⟩
  · intro fuel key value
    cases fuel with
    | zero => rfl
    | succ f =>
      have hp := ht_add_probe_stuck t 32 h5 hsz (by norm_num)
        (fun e he => by rw [hall e he]; decide) f (slot t (add_hash t key))
        (ht_slot_lt t 32 _ hsz (by norm_num) (by norm_num))
      have e1 : ¬ (t.resize_threshold ≤ t.items) := by rw [h4, h3]; decide
      have e2 : ¬ (t.table_size < t.items) := by rw [h2, h3]; decide
      rw [table_add, if_neg e1]
      simp only
      rw [if_neg e2, hp]
  · intro fuel key
    have hg := ht_find_hash_ge t key
    have hp := ht_probe_stuck t 32 (find_hash t key) key h5 hsz (by norm_num)
      (fun e he => by rw [hall e he]; exact ⟨by decide, by omega⟩) fuel
      (slot t (find_hash t key)) (ht_slot_lt t 32 _ hsz (by norm_num) (by norm_num))
    unfold table_find_pointer
    rw [if_neg (by rw [h2]; decide), hp]
  · intro fuel key
    have hg := ht_add_hash_ge t key
    have hp := ht_probe_stuck t 32 (add_hash t key) key h5 hsz (by norm_num)
      (fun e he => by rw [hall e he]; exact ⟨by decide, by omega⟩) fuel
      (slot t (add_hash t key)) (ht_slot_lt t 32 _ hsz (by norm_num) (by norm_num))
    unfold table_remove
    rw [hp]

end HT

namespace HT

end HT

namespace HT

/-- Removal from a hash table whose fields fit together and that has a vacant slot: if the key
is stored exactly once, in slot `j`, then `table_remove` returns `true`, marks slot `j`
`DELETED`, decreases `items` by one, `table_find` of the key is `false` afterwards, and every
key that the removed entry did not match is found, or not found, in the same slot with the
same value as before; if the key is not stored, `table_remove` returns `false` and leaves the
table unchanged. -/
theorem ht_remove_effect (t : Hash_Table) (n key : Nat) (hw : WellFormed t n) :
    (∀ j, StoredOnce t key j → ∀ f, n < f →
      table_remove f t key = .ok (true, removed t j) ∧
      (removed t j).items = t.items - 1 ∧
      (entryAt (removed t j) j).hash = DELETED ∧
      table_find f (removed t j) key = .ok false ∧
      ∀ k2, ¬ ((entryAt t j).hash = find_hash t k2 ∧
          t.comparator_function (entryAt t j).key k2 = true) →
        ∀ f2, table_find_pointer f2 (removed t j) k2 = table_find_pointer f2 t k2 ∧
          table_find_value f2 (removed t j) k2 = table_find_value f2 t k2) ∧
    (NotStored t key → ∀ f, n < f → table_remove f t key = .ok (false, t)) := by
  have hlen := hw.length
  have hsz := hw.size
  have hb := hw.bound
  have hstart : ∀ h, slot t h < n := fun h => ht_slot_lt t n h hsz hw.pos hb
  constructor
  · rintro j ⟨⟨hjl, hjh, hjc, d, hd, hpath⟩, huniq⟩ f hf
    have hjn : j < n := by omega
    have hge := ht_add_hash_ge t key
    have hjv : (entryAt t j).hash ≠ 0 := by rw [hjh]; omega
    -- the probe of table_remove finds slot j
    have hfound : probe t (add_hash t key) key f (slot t (add_hash t key)) = .ok (some j) := by
      obtain ⟨r, hr⟩ := ht_probe_returns t n (add_hash t key) key hw _ (hstart _) f hf
      obtain ⟨j2, hj2⟩ := ht_probe_finds t n (add_hash t key) key hlen hsz hb d _ (hstart _)
        hpath (by rw [hd]; exact ⟨hjh, hjc⟩) (d + 1) (by omega)
      have e1 := ht_probe_mono_add t _ _ _ _ _ hr (d + 1)
      have e2 := ht_probe_mono_add t _ _ _ _ _ hj2 f
      rw [Nat.add_comm] at e2
      rw [e1] at e2
      have hrj : r = some j2 := by simpa using e2
      obtain ⟨s1, s2, s3⟩ := ht_probe_sound t n _ _ hlen hsz hb _ _ _ (hstart _) hj2
      have : j2 = j := huniq j2 (by omega) (by rw [s2]; exact hge) s3
      rw [hr, hrj, this]
    refine ⟨?_, rfl, ?_, ?_, ?_⟩
    · unfold table_remove
      rw [hfound]
      simp only
      rw [if_neg (by have := hw.items; omega)]
      rfl
    · rw [ht_removed_entryAt t j j hjl, if_pos rfl]
    · -- the key is not found afterwards
      obtain ⟨v, hv, hvac⟩ := hw.vacant
      have hvac2 := ht_removed_vacant t j v hjl hjv hvac
      have hlen2 : (removed t j).entries.length = n := by rw [ht_removed_length]; exact hlen
      have hsz2 : (removed t j).table_size = (n : Int) := hsz
      have hs2 : slot (removed t j) (find_hash (removed t j) key) < n :=
        ht_slot_lt _ n _ hsz2 hw.pos hb
      obtain ⟨r, hr⟩ := ht_probe_terminates (removed t j) n (find_hash (removed t j) key) key v
        hlen2 hsz2 hb hv hvac2 _ _ hs2 rfl f
        (by have := ht_dist_lt n v _ hv hs2; omega)
      have hnone : r = none := by
        cases r with
        | none => rfl
        | some j2 =>
          exfalso
          obtain ⟨s1, s2, s3⟩ := ht_probe_sound (removed t j) n _ _ hlen2 hsz2 hb _ _ _ hs2 hr
          have hfg := ht_find_hash_ge (removed t j) key
          rw [ht_removed_entryAt t j j2 hjl] at s2 s3
          by_cases e : j2 = j
          · rw [if_pos e] at s2
            simp only [DELETED] at s2
            omega
          · rw [if_neg e] at s2 s3
            exact e (huniq j2 (by omega) (by rw [s2]; exact hfg) s3)
      have hne : ¬ ((removed t j).table_size = 0) := by
        rw [hsz2]; have := hw.pos; omega
      unfold table_find table_find_pointer
      rw [if_neg hne, hr, hnone]
    · -- the other keys
      intro k2 hnm f2
      have hfg := ht_find_hash_ge t k2
      have hp := ht_probe_removed t n (find_hash t k2) k2 j hlen hsz hb hjn hjv
        (by simp only [DELETED]; omega) hnm f2 (slot t (find_hash t k2)) (hstart _)
      have hptr : table_find_pointer f2 (removed t j) k2 = table_find_pointer f2 t k2 := by
        unfold table_find_pointer
        have e1 : (removed t j).table_size = t.table_size := rfl
        have e2 : find_hash (removed t j) k2 = find_hash t k2 := rfl
        have e3 : slot (removed t j) (find_hash t k2) = slot t (find_hash t k2) := rfl
        rw [e1, e2, e3, hp]
      refine ⟨hptr, ?_⟩
      unfold table_find_value
      rw [hptr]
      cases hres : table_find_pointer f2 t k2 with
      | error e => rfl
      | ok r =>
        cases r with
        | none => rfl
        | some i =>
          simp only
          have : (removed t j).entries.getD i ⟨0, 0, 0⟩ = entryAt (removed t j) i := rfl
          rw [this, ht_removed_entryAt t j i hjl]
          by_cases e : i = j
          · rw [if_pos e, e]; rfl
          · rw [if_neg e]; rfl
  · intro hns f hf
    obtain ⟨r, hr⟩ := ht_probe_returns t n (add_hash t key) key hw _ (hstart _) f hf
    have hnone : r = none := by
      cases r with
      | none => rfl
      | some j2 =>
        exfalso
        obtain ⟨s1, s2, s3⟩ := ht_probe_sound t n _ _ hlen hsz hb _ _ _ (hstart _) hr
        exact hns j2 (by omega) ⟨s2, s3⟩
    unfold table_remove
    rw [hr, hnone]

set_option maxRecDepth 100000 in
/-- Keys 5 and 9 share the home slot 1 of a table of four slots; 5 is removed and 9, behind
it on the probe path, is still found with its value. -/
theorem ht_remove_effect_witness :
    table_remove 5 smallTable 5 = .ok (true, removed smallTable 1) ∧
    table_find 5 (removed smallTable 1) 5 = .ok false ∧
    table_find_value 5 (removed smallTable 1) 9 = table_find_value 5 smallTable 9 ∧
    table_find_value 5 smallTable 9 = .ok (some 90) :=
  ⟨((ht_remove_effect smallTable 4 5
      ⟨rfl, rfl, by decide, by decide, ⟨0, by decide, rfl⟩, by decide⟩).1 1
      ⟨⟨by decide, rfl, rfl, 0, rfl, by decide⟩, by decide⟩ 5 (by decide)).1,
    ((ht_remove_effect smallTable 4 5
      ⟨rfl, rfl, by decide, by decide, ⟨0, by decide, rfl⟩, by decide⟩).1 1
      ⟨⟨by decide, rfl, rfl, 0, rfl, by decide⟩, by decide⟩ 5 (by decide)).2.2.2.1,
    (((ht_remove_effect smallTable 4 5
      ⟨rfl, rfl, by decide, by decide, ⟨0, by decide, rfl⟩, by decide⟩).1 1
      ⟨⟨by decide, rfl, rfl, 0, rfl, by decide⟩, by decide⟩ 5 (by decide)).2.2.2.2 9
      (by decide) 5).2,
    rfl⟩

/-- C28 fails on the code. In a table of 32 slots fresh from `table_init` (hash function
`keyItself`), after `table_add(5, 0); table_remove(5)` 31 times and `table_add(5, 50)`, no slot
is `VACANT`: 31 slots are `DELETED` and slot 4 holds key 5, which is stored exactly once, while
key 6 is not stored; `table_size`, the number of slots and `items` fit together. There
`table_remove(5)` returns `true` and marks slot 4 `DELETED`, after which `table_find(5)` never
returns; and for key 6 neither `table_remove` nor `table_find` ever returns. -/
theorem ht_remove_without_vacant_slot :
    ∃ t0 t, table_init 0 none (some keyItself) = .ok t0 ∧
      runOps 40 t0 churnThenAdd = .ok t ∧
      t.table_size = 32 ∧ t.items = 1 ∧ t.entries.length = 32 ∧
      (∀ e, e ∈ t.entries → e.hash ≠ VACANT) ∧
      StoredOnce t 5 4 ∧ NotStored t 6 ∧
      table_remove 40 t 5 = .ok (true, removed t 4) ∧
      (∀ fuel, table_find fuel (removed t 4) 5 = .error .fuel) ∧
      (∀ fuel, table_remove fuel t 6 = .error .fuel) ∧
      (∀ fuel, table_find fuel t 6 = .error .fuel) := by
  have hk : (match table_init 0 none (some keyItself) with
      | .error _ => false
      | .ok t0 =>
        match runOps 40 t0 churnThenAdd with
        | .error _ => false
        | .ok t =>
          decide (t.table_size = 32) && (decide (t.items = 1) &&
            (decide (t.entries.length = 32) &&
            (t.entries.all (fun e => e.hash == 1 || e.hash == 5) &&
            ((removed t 4).entries.all (fun e => e.hash == 1) &&
            (decide (add_hash t 5 = 5) && (decide (find_hash (removed t 4) 5 = 5) &&
            (decide (add_hash t 6 = 6) && (decide (find_hash t 6 = 6) &&
            ((match probe t (add_hash t 5) 5 40 (slot t (add_hash t 5)) with
              | .ok (some j) => j == 4
              | _ => false) &&
            (decide ((entryAt t 4).hash = 5) &&
            (t.comparator_function (entryAt t 4).key 5 &&
            (decide (probeSeq t (slot t (add_hash t 5)) 31 = 4) &&
            ((List.range 32).all (fun i =>
              (entryAt t (probeSeq t (slot t (add_hash t 5)) i)).hash != 0) &&
            ((List.range 32).all (fun i =>
              decide ((entryAt t i).hash < VALID) || i == 4) &&
            (List.range 32).all (fun i => (entryAt t i).hash != 6)))))))))))))))) = true := by
    decide!
  split at hk
  · exact absurd hk (by simp)
  rename_i t0 h0
  split at hk
  · exact absurd hk (by simp)
  rename_i t h1
  simp only [Bool.and_eq_true, decide_eq_true_eq] at hk
  obtain ⟨h2, h3, h4, h5, h6, h7, h8, h9, h10, h11, h12, h13, h14, h15, h16, h17⟩ := hk
  have hsz : t.table_size = ((32 : Nat) : Int) := by rw [h2]; rfl
  have hall : ∀ e, e ∈ t.entries → e.hash = 1 ∨ e.hash = 5 := by
    intro e he
    have := List.all_eq_true.mp h5 e he
    simpa using this
  have hall2 : ∀ e, e ∈ (removed t 4).entries → e.hash = 1 := by
    intro e he
    have := List.all_eq_true.mp h6 e he
    simpa using this
  have hr : ∀ (p : Nat → Bool), (List.range 32).all p = true → ∀ i, i < 32 → p i = true :=
    fun p hp i hi => List.all_eq_true.mp hp i (List.mem_range.mpr hi)
  have hfound : probe t (add_hash t 5) 5 40 (slot t (add_hash t 5)) = .ok (some 4) := by
    split at h11
    · rename_i j hj
      have : j = 4 := by simpa using h11
      rw [hj, this]
    · exact absurd h11 (by simp)
  refine ⟨t0, t, h0, h1, h2, h3, h4, ?_, ?_, ?_, ?_, ?_, ?_, ?_⟩
  · intro e he
    rcases hall e he with h | h <;> rw [h] <;> decide
  · refine ⟨⟨by omega, by rw [h12, h7], h13, 31, h14, ?_⟩, ?_⟩
    · intro i hi
      have := hr _ h15 i (by omega)
      simpa [VACANT] using this
    · intro i hi hv _
      rw [h4] at hi
      have := hr _ h16 i hi
      simp only [Bool.or_eq_true, decide_eq_true_eq, beq_iff_eq] at this
      rcases this with h | h
      · omega
      · exact h
  · intro i hi
    rw [h4] at hi
    have := hr _ h17 i hi
    rw [h9]
    intro hc
    simp [hc.1] at this
  · unfold table_remove
    rw [hfound]
    simp only
    rw [if_neg (by rw [h3]; decide)]
    rfl
  · intro fuel
    have hp := ht_probe_stuck (removed t 4) 32 (find_hash (removed t 4) 5) 5
      (by rw [ht_removed_length]; exact h4) hsz (by norm_num)
      (fun e he => by rw [hall2 e he, h8]; exact ⟨by decide, by decide⟩) fuel
      (slot (removed t 4) (find_hash (removed t 4) 5))
      (ht_slot_lt (removed t 4) 32 _ hsz (by norm_num) (by norm_num))
    unfold table_find table_find_pointer
    rw [if_neg (by show ¬ (t.table_size = 0); rw [h2]; decide), hp]
  · intro fuel
    have hp := ht_probe_stuck t 32 (add_hash t 6) 6 h4 hsz (by norm_num)
      (fun e he => by
        rw [h9]
        rcases hall e he with h | h <;> rw [h] <;> exact ⟨by decide, by decide⟩) fuel
      (slot t (add_hash t 6)) (ht_slot_lt t 32 _ hsz (by norm_num) (by norm_num))
    unfold table_remove
    rw [hp]
  · intro fuel
    have hp := ht_probe_stuck t 32 (find_hash t 6) 6 h4 hsz (by norm_num)
      (fun e he => by
        rw [h10]
        rcases hall e he with h | h <;> rw [h] <;> exact ⟨by decide, by decide⟩) fuel
      (slot t (find_hash t 6)) (ht_slot_lt t 32 _ hsz (by norm_num) (by norm_num))
    unfold table_find table_find_pointer
    rw [if_neg (by rw [h2]; decide), hp]


end HT

namespace Arr

/-- C31. The queue is not first-in first-out: for every list `vs` of `n ≤ 1,073,741,820` values
pushed with `queue_push` onto a queue fresh from `queue_init` and every `m ≤ n`, `m` times
`queue_peek_front` followed by `queue_pop` return normally and `queue_size` is `n - m`
afterwards; the `k`-th `queue_peek_front` reports the `k`-th value pushed, but every
`queue_pop` returns the first value pushed. -/
theorem queue_pop_returns_first (sz : Nat) (junk : Nat → Int) (s0 : Nat) (vs : List Int)
    (m : Nat) (hn : vs.length ≤ 1073741820) (hm : m ≤ vs.length) :
    ∃ q0 q1 q2, queue_init ⟨emptyArray, s0⟩ = .ok q0 ∧ queue_size q0 = 0 ∧
      pushAll sz junk q0 vs = .ok q1 ∧ queue_size q1 = vs.length ∧
      popPeekN m q1 =
        .ok ((List.range m).map (fun k => (vs.getD k 0, vs.getD 0 0)), q2) ∧
      queue_size q2 = vs.length - m := by
  obtain ⟨q0, e0, h0⟩ := arr_queue_init s0
  obtain ⟨q1, e1, h1⟩ := arr_pushAll sz junk vs q0 [] h0 (by simpa using hn)
  rw [List.nil_append] at h1
  obtain ⟨q2, e2, h2⟩ := arr_popPeekN vs hn m q1 0 h1 (by omega)
  simp only [Nat.zero_add] at e2 h2
  refine ⟨q0, q1, q2, e0, ?_, e1, ?_, e2, ?_⟩
  · have := h0.count
    simpa [queue_size] using this
  · have := h1.count
    simpa [queue_size] using this
  · have := h2.count
    unfold queue_size
    omega

/-- The values 1 and 2 are pushed: the second pop returns 1 again, right after
`queue_peek_front` reported 2. -/
theorem queue_pop_returns_first_witness :
    ∃ q0 q1 q2, queue_init ⟨emptyArray, 0⟩ = .ok q0 ∧ queue_size q0 = 0 ∧
      pushAll 4 (fun _ => 0) q0 [1, 2] = .ok q1 ∧ queue_size q1 = 2 ∧
      popPeekN 2 q1 = .ok ([(1, 1), (2, 1)], q2) ∧
      queue_size q2 = 2 - 2 :=
  queue_pop_returns_first 4 (fun _ => 0) 0 [1, 2] 2 (by decide) (by decide)

end Arr

